import Mathlib

/-!
# nansae-corelib: a verification development

Shallow embedding of the Korean text primitives of `nansae/core`
(character codec, string encapsulation, Robin-Hood hash table, radix trie,
segmentation lattice) together with theorems about them.

Conventions of the embedding:

* machine integers are natural numbers, reduced `% 2 ^ w` where the source
  arithmetic can wrap;
* a C++ exception is an `Except.error` carrying the kind of the exception;
  a read outside a static table or through a null pointer is
  `Err.undefinedBehaviour`;
* loops that the source does not visibly bound carry a fuel argument and
  return `none` when the fuel runs out.
-/

namespace NSL

/-! ## Errors -/

/-- The ways in which a call can fail to return a value. -/
inductive Err where
  /-- Models `std::invalid_argument`. -/
  | invalidArgument
  /-- Models `Character::OperationNotSupportedOnCharacterType`. -/
  | operationNotSupported
  /-- Models `CannotConvertContainsNonHangulSyllableSymbolsException`. -/
  | cannotConvert
  /-- An access the C++ standard leaves undefined (table index out of range, null buffer). -/
  | undefinedBehaviour
  /-- The iteration bound the model gives a loop was reached before the loop ended. -/
  | outOfFuel
  deriving DecidableEq, Repr

deriving instance DecidableEq for Except

/-! ## Character codec (`character.h`, `character.cc`) -/

/-- The enum `Character::HangulJamo`; the order matches Hangul compatibility jamo. -/
inductive HangulJamo where
  | Giyeok | SsangGiyeok | GiyeokSiot | Nieun | NieunJieut | NieunHieut | Digeut
  | SsangDigeut | Rieul | RieulGiyeok | RieulMieum | RieulBieup | RieulSiot
  | RieulTieut | RieulPieup | RieulHieut | Mieum | Bieup | SsangBieup | BieupSiot
  | Siot | SsangSiot | Ieung | Jieut | SsangJieut | Chieut | Kieuk | Tieut | Pieup
  | Hieut
  | A | Ae | Ya | Yae | Eo | E | Yeo | Ye | O | OA | OAe | OI | Yo | U | UEo | UE
  | UI | Yu | Eu | EuI | I
  | None | Any
  deriving DecidableEq, Repr

/-- The enumerators of `HangulJamo` in declaration order. -/
def HangulJamo.all : List HangulJamo :=
  [.Giyeok, .SsangGiyeok, .GiyeokSiot, .Nieun, .NieunJieut, .NieunHieut, .Digeut,
   .SsangDigeut, .Rieul, .RieulGiyeok, .RieulMieum, .RieulBieup, .RieulSiot,
   .RieulTieut, .RieulPieup, .RieulHieut, .Mieum, .Bieup, .SsangBieup, .BieupSiot,
   .Siot, .SsangSiot, .Ieung, .Jieut, .SsangJieut, .Chieut, .Kieuk, .Tieut, .Pieup,
   .Hieut,
   .A, .Ae, .Ya, .Yae, .Eo, .E, .Yeo, .Ye, .O, .OA, .OAe, .OI, .Yo, .U, .UEo, .UE,
   .UI, .Yu, .Eu, .EuI, .I,
   .None, .Any]

/-- The integer value of an enumerator: `static_cast<int>(jamo)`. -/
def HangulJamo.toNat (jamo : HangulJamo) : Nat := HangulJamo.all.indexOf jamo

/-- The enumerator with a given integer value: `static_cast<HangulJamo>(n)`.
Values without an enumerator do not occur as long as table reads stay in range. -/
def HangulJamo.ofNat? (n : Nat) : Option HangulJamo := HangulJamo.all[n]?

/-- The enum `Character::Type`. -/
inductive CharacterType where
  | Character
  | HangulSyllable
  | HangulJamo
  | EncapsulatedNonHangulSyllable
  deriving DecidableEq, Repr

/-- The macro `CI` (`UINT8_MAX`), marking "not a member of that position". -/
def CI : Nat := 255

/-- The constant `EncapsulatedNonHangulCode` (`UINT32_MAX - 1`). -/
def EncapsulatedNonHangulCode : Nat := 2 ^ 32 - 2

/-- Conversion array `_compToChoseong`. -/
def _compToChoseong : List Nat :=
  [0,  1,  CI, 2,  CI, CI, 3,  4,  5,  CI, CI, CI, CI, CI, CI, CI, 6,  7,
   8,  CI, 9,  10, 11, 12, 13, 14, 15, 16, 17, 18, CI, CI, CI, CI, CI, CI,
   CI, CI, CI, CI, CI, CI, CI, CI, CI, CI, CI, CI, CI, CI, CI, CI, CI]

/-- Conversion array `_choseongToComp`. -/
def _choseongToComp : List Nat :=
  [0, 1, 3, 6, 7, 8, 16, 17, 18, 20, 21, 22, 23, 24, 25, 26, 27, 28, 29]

/-- Conversion array `_compToJungseong`. -/
def _compToJungseong : List Nat :=
  [CI, CI, CI, CI, CI, CI, CI, CI, CI, CI, CI, CI, CI, CI, CI, CI, CI, CI,
   CI, CI, CI, CI, CI, CI, CI, CI, CI, CI, CI, CI, 0,  1,  2,  3,  4,  5,
   6,  7,  8,  9,  10, 11, 12, 13, 14, 15, 16, 17, 18, 19, 20, CI, CI]

/-- Conversion array `_jungseongToComp`. -/
def _jungseongToComp : List Nat :=
  [30, 31, 32, 33, 34, 35, 36, 37, 38, 39, 40,
   41, 42, 43, 44, 45, 46, 47, 48, 49, 50]

/-- Conversion array `_compToJongseong`. -/
def _compToJongseong : List Nat :=
  [1,  2,  3,  4,  5,  6,  7,  CI, 8,  9,  10, 11, 12, 13, 14, 15, 16, 17,
   CI, 18, 19, 20, 21, 22, CI, 23, 24, 25, 26, 27, CI, CI, CI, CI, CI, CI,
   CI, CI, CI, CI, CI, CI, CI, CI, CI, CI, CI, CI, CI, CI, CI, 0,  CI]

/-- Conversion array `_jongseongToComp`. -/
def _jongseongToComp : List Nat :=
  [51, 0,  1,  2,  3,  4,  5,  6,  8,  9,  10, 11, 12, 13,
   14, 15, 16, 17, 19, 20, 21, 22, 23, 25, 26, 27, 28, 29]

/-- A read `table[i]` of a static `uint8_t` array; outside the array the read is undefined. -/
def tableRead (table : List Nat) (i : Nat) : Except Err Nat :=
  match table[i]? with
  | some v => .ok v
  | none => .error .undefinedBehaviour

/-- The cast `static_cast<HangulJamo>(v)` of a table entry. -/
def castToHangulJamo (v : Nat) : Except Err HangulJamo :=
  match HangulJamo.ofNat? v with
  | some j => .ok j
  | none => .error .undefinedBehaviour

/-- Source: `_hangulJamoToChoseong`. -/
def _hangulJamoToChoseong (jamo : HangulJamo) : Except Err Nat :=
  tableRead _compToChoseong jamo.toNat

/-- Source: `_hangulJamoToJungseong`. -/
def _hangulJamoToJungseong (jamo : HangulJamo) : Except Err Nat :=
  tableRead _compToJungseong jamo.toNat

/-- Source: `_hangulJamoToJongseong`. -/
def _hangulJamoToJongseong (jamo : HangulJamo) : Except Err Nat :=
  tableRead _compToJongseong jamo.toNat

/-- Source: `_choseongToHangulJamo`. -/
def _choseongToHangulJamo (choseong : Nat) : Except Err HangulJamo :=
  tableRead _choseongToComp choseong >>= castToHangulJamo

/-- Source: `_jungseongToHangulJamo`. -/
def _jungseongToHangulJamo (jungseong : Nat) : Except Err HangulJamo :=
  tableRead _jungseongToComp jungseong >>= castToHangulJamo

/-- Source: `_jongseongToHangulJamo`. -/
def _jongseongToHangulJamo (jongseong : Nat) : Except Err HangulJamo :=
  tableRead _jongseongToComp jongseong >>= castToHangulJamo

/-- Source: `_hangulJamoToCompatibility`, a cast to `uint8_t`. -/
def _hangulJamoToCompatibility (jamo : HangulJamo) : Nat := jamo.toNat % 256

/-- Source: `isPositionalUnicodeJamoCodepoint`. -/
def isPositionalUnicodeJamoCodepoint (codepoint : Nat) : Bool :=
  (0x1100 ≤ codepoint && codepoint ≤ 0x1112) ||
  (0x1161 ≤ codepoint && codepoint ≤ 0x1175) ||
  (0x11a8 ≤ codepoint && codepoint ≤ 0x11c2)

/-- Source: `HangulJamoFromPositionalUnicode`. -/
def HangulJamoFromPositionalUnicode (codepoint : Nat) : Except Err HangulJamo :=
  if 0x1100 ≤ codepoint ∧ codepoint ≤ 0x1112 then
    _choseongToHangulJamo ((codepoint - 0x1100) % 256)
  else if 0x1161 ≤ codepoint ∧ codepoint ≤ 0x1175 then
    _jungseongToHangulJamo ((codepoint - 0x1161) % 256)
  else if 0x11a8 ≤ codepoint ∧ codepoint ≤ 0x11c2 then
    _jongseongToHangulJamo ((codepoint - 0x11a8 + 1) % 256)
  else
    .error .invalidArgument

/-- A `Character`: the 32-bit word `*_data` it owns. -/
structure Character where
  /-- The stored codepoint. -/
  codepoint : Nat
  deriving DecidableEq, Repr

/-- The codepoint `_initializeType` asks `setUnicodeCodepoint` to store. -/
def initialCodepoint (type : CharacterType) : Nat :=
  match type with
  | .HangulSyllable => 0xac00
  | .HangulJamo => 0x3131
  | .EncapsulatedNonHangulSyllable => EncapsulatedNonHangulCode
  | .Character => 0x0

/-- Source: `setUnicodeCodepoint`, with the mutual recursion through
`_initializeType` and `setHangulJamo` bounded by `fuel` (two levels suffice,
see `setUnicodeCodepoint`). Without fuel the call has not returned. -/
def setUnicodeCodepointFuel : Nat → Character → Nat → Except Err Character
  | 0, _, _ => .error .undefinedBehaviour
  | fuel + 1, c, unicodeCodepoint =>
    if isPositionalUnicodeJamoCodepoint unicodeCodepoint then do
      -- _initializeType(Type::HangulJamo)
      let c1 ← setUnicodeCodepointFuel fuel c (initialCodepoint .HangulJamo)
      -- setHangulJamo(HangulJamoFromPositionalUnicode(unicodeCodepoint))
      let jamo ← HangulJamoFromPositionalUnicode unicodeCodepoint
      setUnicodeCodepointFuel fuel c1 (_hangulJamoToCompatibility jamo + 0x3131)
    else
      .ok { c with codepoint := unicodeCodepoint }

/-- Source: `Character::setUnicodeCodepoint`. The nested calls store `0x3131`
and a compatibility codepoint, neither positional, so the recursion is two deep. -/
def Character.setUnicodeCodepoint (c : Character) (unicodeCodepoint : Nat) :
    Except Err Character :=
  setUnicodeCodepointFuel 2 c unicodeCodepoint

/-- Source: `Character::unicodeCodepoint`. -/
def Character.unicodeCodepoint (c : Character) : Nat := c.codepoint

/-- Source: `CharacterImpl::CharacterImpl(uint32_t codepoint)`. -/
def Character.ofCodepoint (codepoint : Nat) : Except Err Character :=
  Character.setUnicodeCodepoint ⟨0⟩ codepoint

/-- Source: `CharacterImpl::type`. -/
def Character.type (c : Character) : CharacterType :=
  let cp := c.unicodeCodepoint
  if 0xac00 ≤ cp ∧ cp ≤ 0xd7af then .HangulSyllable
  else if 0x3131 ≤ cp ∧ cp ≤ 0x3163 then .HangulJamo
  else if cp = EncapsulatedNonHangulCode then .EncapsulatedNonHangulSyllable
  else .Character

/-- Source: `CharacterImpl::CharacterImpl(HangulJamo, HangulJamo, HangulJamo)`. -/
def Character.ofJamos (choseong jungseong jongseong : HangulJamo) : Except Err Character := do
  let newChoseong ← _hangulJamoToChoseong choseong
  if newChoseong = CI then throw Err.invalidArgument
  let newJungseong ← _hangulJamoToJungseong jungseong
  if newJungseong = CI then throw Err.invalidArgument
  let newJongseong ← _hangulJamoToJongseong jongseong
  if newJongseong = CI then throw Err.invalidArgument
  Character.setUnicodeCodepoint ⟨0⟩
    ((0xac00 + newChoseong * 0x24c + newJungseong * 0x1c + newJongseong) % 2 ^ 32)

/-- Source: `Character::operator==` (`isEqualTo`). -/
def Character.isEqualTo (c other : Character) : Bool := c.codepoint == other.codepoint

/-- Source: `CharacterImpl::choseong`. -/
def Character.choseongImpl (c : Character) : Except Err HangulJamo :=
  let cp := c.unicodeCodepoint
  let choseong := ((cp + 2 ^ 32 - 0xac00) % 2 ^ 32 / 0x24c) % 256
  _choseongToHangulJamo choseong

/-- Source: `CharacterImpl::jungseong`. -/
def Character.jungseongImpl (c : Character) : Except Err HangulJamo :=
  let cp := c.unicodeCodepoint
  let jungseong := ((cp + 2 ^ 32 - 0xac00) % 2 ^ 32 % 0x24c / 0x1c) % 256
  _jungseongToHangulJamo jungseong

/-- Source: `CharacterImpl::jongseong`. -/
def Character.jongseongImpl (c : Character) : Except Err HangulJamo :=
  let cp := c.unicodeCodepoint
  let jongseong := ((cp + 2 ^ 32 - 0xac00) % 2 ^ 32 % 0x24c % 0x1c) % 256
  _jongseongToHangulJamo jongseong

/-- Source: `Character::choseong`, the `CHECK_TYPE` guard followed by the implementation. -/
def Character.choseong (c : Character) : Except Err HangulJamo :=
  if c.type ≠ .HangulSyllable then .error .operationNotSupported else c.choseongImpl

/-- Source: `Character::jungseong`. -/
def Character.jungseong (c : Character) : Except Err HangulJamo :=
  if c.type ≠ .HangulSyllable then .error .operationNotSupported else c.jungseongImpl

/-- Source: `Character::jongseong`. -/
def Character.jongseong (c : Character) : Except Err HangulJamo :=
  if c.type ≠ .HangulSyllable then .error .operationNotSupported else c.jongseongImpl

/-- The expression `Character(c.choseong(), c.jungseong(), c.jongseong())`. -/
def Character.recompose (c : Character) : Except Err Character := do
  let l ← c.choseong
  let v ← c.jungseong
  let t ← c.jongseong
  Character.ofJamos l v t

/-! ## String (`string.h`, `string.cc`) -/

/-- A `String`: the codepoint sequence `_str` (a `std::u32string`). -/
structure String where
  /-- The internal string representation, roughly UTF-32. -/
  _str : List Nat
  deriving DecidableEq, Repr

/-- The sidecar `EncapsulatedNonHangul`: the removed runs `_nonHangulStrings`, in order. -/
structure EncapsulatedNonHangul where
  /-- The runs of non-Hangul codepoints. -/
  _nonHangulStrings : List (List Nat)
  deriving DecidableEq, Repr

/-- The test `*i >= 0xac00 && *i <= 0xd7af` used by the string operations. -/
def isSyllableCodepoint (c : Nat) : Bool := 0xac00 ≤ c && c ≤ 0xd7af

/-- Source: `std::u32string::replace(first, last, ...)` on index positions: the
elements `[first, last)` are replaced by `by_`. -/
def replaceRange (s : List Nat) (first last : Nat) (by_ : List Nat) : List Nat :=
  s.take first ++ by_ ++ s.drop last

/-- The loop variables of `encapsulateNonHangul`. Iterators are positions in `_str`. -/
structure EncapState where
  /-- The string being rewritten in place. -/
  str : List Nat
  /-- The iterator `i`. -/
  i : Nat
  /-- The run collected so far. -/
  buffer : List Nat
  /-- The iterator `startPos`. -/
  startPos : Nat
  /-- The runs pushed to the sidecar so far. -/
  enh : List (List Nat)
  deriving DecidableEq, Repr

/-- The `for` loop of `encapsulateNonHangul`; each unit of fuel is one iteration.
Returns `none` if the loop is still running when the fuel is used up. -/
def encapsulateLoop : Nat → EncapState → Option EncapState
  | 0, _ => none
  | fuel + 1, st =>
    if st.i = st.str.length then some st
    else
      let c := st.str.getD st.i 0
      let st1 : EncapState :=
        if !isSyllableCodepoint c then
          { st with
            startPos := if st.buffer.length = 0 then st.i else st.startPos
            buffer := st.buffer ++ [c] }
        else if st.buffer.length > 0 then
          { st with
            enh := st.enh ++ [st.buffer]
            str := replaceRange st.str st.startPos (st.startPos + st.buffer.length)
              [EncapsulatedNonHangulCode]
            i := st.i - st.buffer.length
            buffer := [] }
        else st
      encapsulateLoop fuel { st1 with i := st1.i + 1 }

/-- Source: `String::encapsulateNonHangul`, returning the rewritten string and the
sidecar. An iteration either advances `i` or empties the buffer, so
`2 * length + 1` iterations are enough. -/
def String.encapsulateNonHangul (s : String) : Option (String × EncapsulatedNonHangul) :=
  match encapsulateLoop (2 * s._str.length + 1) ⟨s._str, 0, [], 0, []⟩ with
  | none => none
  | some st =>
    if st.buffer.length > 0 then
      some (⟨replaceRange st.str st.startPos st.str.length [EncapsulatedNonHangulCode]⟩,
            ⟨st.enh ++ [st.buffer]⟩)
    else
      some (⟨st.str⟩, ⟨st.enh⟩)

/-- The `for` loop of `restoreNonHangul` over positions `i` of `_str`, with `runs`
the part of the sidecar from `nonHangulStringsIter` on. Dereferencing the end
iterator of the sidecar, or stepping past the end of the string, is undefined.
Returns `none` if the loop is still running when the fuel is used up. -/
def restoreLoop : Nat → List Nat → Nat → List (List Nat) → Option (Except Err (List Nat))
  | 0, _, _, _ => none
  | fuel + 1, str, i, runs =>
    if i = str.length then some (.ok str)
    else if str.length < i then some (.error .undefinedBehaviour)
    else if str.getD i 0 = EncapsulatedNonHangulCode then
      match runs with
      | [] => some (.error .undefinedBehaviour)
      | r :: rest =>
        let str1 := replaceRange str i (i + 1) r
        if rest = [] then some (.ok str1)
        else restoreLoop fuel str1 (i + 1) rest
    else restoreLoop fuel str (i + 1) runs

/-- Source: `String::restoreNonHangul`. Every iteration advances `i`, and the
string grows by at most the total length of the sidecar runs. -/
def String.restoreNonHangul (s : String) (encapsulatedNonHangul : EncapsulatedNonHangul) :
    Option (Except Err String) :=
  let total := (encapsulatedNonHangul._nonHangulStrings.map List.length).sum
  match restoreLoop (s._str.length + total + 1) s._str 0
      encapsulatedNonHangul._nonHangulStrings with
  | none => none
  | some (.ok str) => some (.ok ⟨str⟩)
  | some (.error e) => some (.error e)

/-- The sequence `sidecar = s.encapsulateNonHangul(); s.restoreNonHangul(sidecar)`. -/
def String.encapsulateThenRestore (s : String) : Option (Except Err String) :=
  match s.encapsulateNonHangul with
  | none => none
  | some (s1, sidecar) => s1.restoreNonHangul sidecar

/-- Source: `String::isPureHangul`. -/
def String.isPureHangul (s : String) : Bool :=
  s._str.all fun c => isSyllableCodepoint c || c == EncapsulatedNonHangulCode

/-- The constant `HangulString::NonHangulCode`. -/
def NonHangulCode : Nat := 29

/-- The bytes `toHangulString` appends for one codepoint, or the exception it throws. -/
def hangulBytes (c : Nat) : Except Err (List Nat) :=
  if !isSyllableCodepoint c && c != EncapsulatedNonHangulCode then
    .error .cannotConvert
  else if c = EncapsulatedNonHangulCode then .ok [NonHangulCode]
  else
    let choseong := ((c - 0xac00) / 0x24c) % 256
    let jungseong := (((c - 0xac00) % 0x24c) / 0x1c) % 256
    let jongseong := (((c - 0xac00) % 0x24c) % 0x1c) % 256
    .ok [(choseong + 1) % 256, (jungseong + 1) % 256, (jongseong + 1) % 256]

/-- Source: `String::toHangulString`, the byte string `theString` of the result. -/
def String.toHangulString (s : String) : Except Err (List Nat) :=
  s._str.foldlM (fun hstr c => do
    let bs ← hangulBytes c
    pure (hstr ++ bs)) []

/-- The loop of `StringImpl(const HangulString &)`: `jamos` holds the
`jamoCounter` jamo read so far for the current syllable. -/
def ofHangulLoop : List Nat → List Nat → List Nat → List Nat
  | [], _, acc => acc
  | c :: cs, jamos, acc =>
    if c = NonHangulCode then ofHangulLoop cs jamos (acc ++ [EncapsulatedNonHangulCode])
    else
      let jamos1 := jamos ++ [(c + 255) % 256]
      if jamos1.length = 3 then
        ofHangulLoop cs []
          (acc ++ [(0xac00 + jamos1.getD 0 0 * 0x24c + jamos1.getD 1 0 * 0x1c + jamos1.getD 2 0)
            % 2 ^ 32])
      else ofHangulLoop cs jamos1 acc

/-- Source: `String::String(const HangulString &)`. -/
def String.ofHangulString (hstr : List Nat) : String := ⟨ofHangulLoop hstr [] []⟩

/-- Source: `String::substring(start, end)` with inclusive indices. -/
def String.substring (s : String) (start end_ : Nat) : String :=
  ⟨(s._str.drop start).take (end_ - start + 1)⟩

/-- Source: `String::length`. -/
def String.length (s : String) : Nat := s._str.length

/-! ## Hash table (`hash_table.h`, `hash_table.cc`), instance `HashTable<uint32_t>`

The stored values (`double` in the source) are only copied and compared with
nothing, so the table is modelled over an arbitrary value type `V` whose `0`
stands for the literal `0` returned by a failed `retrieve`. -/

/-- Source: the overload `hash(uint32_t)`, the 32-bit finalizer of MurmurHash3. -/
def hash32 (h : Nat) : Nat :=
  let h := h ^^^ (h >>> 16)
  let h := (h * 0x85ebca6b) % 2 ^ 32
  let h := h ^^^ (h >>> 13)
  let h := (h * 0xc2b2ae35) % 2 ^ 32
  h ^^^ (h >>> 16)

/-- Source: `struct Bucket`. -/
structure Bucket (V : Type) where
  /-- The key. -/
  id : Nat
  /-- The stored value. -/
  value : V
  /-- Whether the slot is occupied. -/
  used : Bool
  deriving DecidableEq, Repr

/-- Source: `class HashTable<uint32_t>`. -/
structure HashTable (V : Type) where
  /-- The capacity `_bucketsNo`. -/
  _bucketsNo : Nat
  /-- The bucket array `_buckets`. -/
  _buckets : List (Bucket V)
  /-- The counter `_usedUpBuckets`. -/
  _usedUpBuckets : Nat
  deriving DecidableEq, Repr

/-- A bucket as `calloc` leaves it. -/
def Bucket.zero {V : Type} [Zero V] : Bucket V := ⟨0, 0, false⟩

/-- Source: `HashTable(T bucketsNo)`. -/
def HashTable.new {V : Type} [Zero V] (bucketsNo : Nat) : HashTable V :=
  ⟨bucketsNo, List.replicate bucketsNo Bucket.zero, 0⟩

/-- The number of binary digits of `n`, counting at most `fuel` of them. -/
def bitLengthAux : Nat → Nat → Nat
  | 0, _ => 0
  | fuel + 1, n => if n = 0 then 0 else bitLengthAux fuel (n / 2) + 1

/-- Rounding of a positive integer to 24 significant bits, ties to even: the
significand rounding of IEEE binary32. -/
def roundSignificand (n : Nat) : Nat :=
  let bits := bitLengthAux n n
  if bits ≤ 24 then n
  else
    let shift := bits - 24
    let q := n / 2 ^ shift
    let r := n % 2 ^ shift
    let half := 2 ^ (shift - 1)
    if r > half ∨ (r = half ∧ q % 2 = 1) then (q + 1) * 2 ^ shift else q * 2 ^ shift

/-- Source: the growth test `_usedUpBuckets > .8f * _bucketsNo`, evaluated in
binary32 as the source does: `.8f` is `13421773 / 2 ^ 24`, both integers are
converted to binary32, the product is rounded once, and the comparison is exact.
All quantities are kept as numerators over `2 ^ 24`. -/
def needsGrowth (usedUpBuckets bucketsNo : Nat) : Bool :=
  roundSignificand (13421773 * roundSignificand bucketsNo) <
    roundSignificand usedUpBuckets * 2 ^ 24

/-- The probe loop of `insert`. Each unit of fuel is one iteration. The result is
the table and the returned `int`, or `none` while the fuel does not suffice. -/
def insertLoop {V : Type} [Zero V] :
    Nat → HashTable V → Nat → V → Nat → Nat → Bool → Option (HashTable V × Int)
  | 0, _, _, _, _, _, _ => none
  | fuel + 1, ht, id, value, desiredPosition, position, reachedStart =>
    if reachedStart && position == (ht._bucketsNo + 2 ^ 32 - 1) % 2 ^ 32 then
      some (ht, -1)
    else
      let b := ht._buckets.getD position Bucket.zero
      if !b.used then
        some ({ ht with
                _buckets := ht._buckets.set position ⟨id, value, true⟩
                _usedUpBuckets := (ht._usedUpBuckets + 1) % 2 ^ 32 }, 0)
      else if b.id = id then
        some ({ ht with _buckets := ht._buckets.set position { b with value := value } }, 1)
      else
        let dist := (position + 2 ^ 32 - desiredPosition) % 2 ^ 32
        let currentBucketDist := (position + 2 ^ 32 - hash32 b.id % ht._bucketsNo) % 2 ^ 32
        let reachedStart1 := reachedStart || position == 0
        let position1 := (position + 1) % 2 ^ 32 % ht._bucketsNo
        if currentBucketDist < dist then
          insertLoop fuel
            { ht with _buckets := ht._buckets.set position { b with id := id, value := value } }
            b.id b.value (hash32 b.id % ht._bucketsNo) position1 reachedStart1
        else
          insertLoop fuel ht id value desiredPosition position1 reachedStart1

/-- Source: `rehash(bucketsNo)`, given the function `ins` that `this->insert` denotes. -/
def rehashWith {V : Type} [Zero V]
    (ins : HashTable V → Nat → V → Option (HashTable V × Int))
    (ht : HashTable V) (bucketsNo : Nat) : Option (HashTable V) :=
  let originalBuckets := ht._buckets
  let originalBucketsNo := ht._bucketsNo
  let fresh : HashTable V :=
    ⟨bucketsNo, List.replicate (bucketsNo * 2 % 2 ^ 32) Bucket.zero, 0⟩
  (List.range originalBucketsNo).foldlM (fun acc i =>
    let b := originalBuckets.getD i Bucket.zero
    if b.used then (ins acc b.id b.value).map Prod.fst else some acc) fresh

/-- Source: `insert(id, value)`. The first argument bounds the nesting of
`insert → rehash → insert`; the probe loop visits at most `2 * _bucketsNo` slots
before its exit test holds. A capacity of `0` makes `hashValue % _bucketsNo`
undefined, which the model does not represent. -/
def insertN {V : Type} [Zero V] :
    Nat → HashTable V → Nat → V → Option (HashTable V × Int)
  | 0, _, _, _ => none
  | depth + 1, ht, id, value =>
    let grown :=
      if needsGrowth ht._usedUpBuckets ht._bucketsNo then
        rehashWith (insertN depth) ht (2 * ht._bucketsNo % 2 ^ 32)
      else some ht
    match grown with
    | none => none
    | some ht1 =>
      let desiredPosition := hash32 id % ht1._bucketsNo
      insertLoop (2 * ht1._bucketsNo + 1) ht1 id value desiredPosition desiredPosition false

/-- Source: `HashTable::insert`. A rehash doubles the capacity, so the inserts it
performs do not rehash again: two levels of nesting are enough. -/
def HashTable.insert {V : Type} [Zero V] (ht : HashTable V) (id : Nat) (value : V) :
    Option (HashTable V × Int) :=
  insertN 2 ht id value

/-- What a lookup loop has done after a number of iterations. -/
inductive Probe (V : Type) where
  /-- The loop returned because the id is absent (`return 0` / `return false`). -/
  | absent
  /-- The loop returned at the bucket holding the id. -/
  | found (value : V)
  deriving DecidableEq, Repr

/-- The common loop of `retrieve` and `exists`, started at slot `i`. Each unit of
fuel is one iteration; `none` means that the loop has not returned yet. -/
def lookupLoop {V : Type} [Zero V] :
    Nat → HashTable V → Nat → Nat → Nat → Option (Probe V)
  | 0, _, _, _, _ => none
  | fuel + 1, ht, id, startingLocation, i =>
    if ¬ i < ht._bucketsNo then some .absent
    else
      let dist := (i + 2 ^ 32 - startingLocation) % 2 ^ 32
      let b := ht._buckets.getD i Bucket.zero
      if !b.used then some .absent
      else if dist > (i + 2 ^ 32 - hash32 b.id % ht._bucketsNo) % 2 ^ 32 then some .absent
      else if b.id = id then some (.found b.value)
      else lookupLoop fuel ht id startingLocation ((i + 1) % 2 ^ 32 % ht._bucketsNo)

/-- Source: `retrieve(id)`, run for `fuel` iterations of its loop. -/
def HashTable.retrieve {V : Type} [Zero V] (fuel : Nat) (ht : HashTable V) (id : Nat) :
    Option V :=
  match lookupLoop fuel ht id (hash32 id % ht._bucketsNo) (hash32 id % ht._bucketsNo) with
  | none => none
  | some .absent => some 0
  | some (.found v) => some v

/-- Source: `exists(id)`, run for `fuel` iterations of its loop. -/
def HashTable.exists {V : Type} [Zero V] (fuel : Nat) (ht : HashTable V) (id : Nat) :
    Option Bool :=
  match lookupLoop fuel ht id (hash32 id % ht._bucketsNo) (hash32 id % ht._bucketsNo) with
  | none => none
  | some .absent => some false
  | some (.found _) => some true

/-- The table after a sequence of `insert` calls on `ht`, with the values they returned. -/
def HashTable.insertAll {V : Type} [Zero V] :
    HashTable V → List (Nat × V) → Option (HashTable V × List Int)
  | ht, [] => some (ht, [])
  | ht, (id, value) :: rest =>
    match ht.insert id value with
    | none => none
    | some (ht1, r) =>
      match HashTable.insertAll ht1 rest with
      | none => none
      | some (ht2, rs) => some (ht2, r :: rs)

/-- A reachable state: the table of capacity 2 after `insert(0, 10)`; the second call `insert(2, 20)`
leaves it unchanged. -/
def tableTwoAfterInserts : HashTable Int :=
  ⟨2, [⟨0, 10, true⟩, ⟨0, 0, false⟩], 1⟩


/-! ## Radix trie (`trie.h`, `trie.cc`) -/

/-- The macro `NIME_TRIE_WORD_NOT_FOUND` (`UINT32_MAX`). -/
def NIME_TRIE_WORD_NOT_FOUND : Nat := 2 ^ 32 - 1

/-- Source: `struct TrieNode`, a node of the trie in editing mode: the edge label
`value`, the `children`, and the `id` (meaningful for a leaf). -/
inductive TrieNode where
  | mk (value : List Nat) (children : List TrieNode) (id : Nat)
  deriving Repr

/-- The field `value`. -/
def TrieNode.value : TrieNode → List Nat
  | .mk v _ _ => v

/-- The field `children`. -/
def TrieNode.children : TrieNode → List TrieNode
  | .mk _ cs _ => cs

/-- The field `id`. -/
def TrieNode.id : TrieNode → Nat
  | .mk _ _ i => i

/-- Source: `compareHStr(uint8_t*, uint8_t*)` on two zero-terminated byte strings:
the number of leading positions at which both are non-zero and equal. The end of
a list stands for the terminating zero. -/
def compareHStr : List Nat → List Nat → Nat
  | a :: as, b :: bs => if a ≠ 0 ∧ b ≠ 0 ∧ a = b then compareHStr as bs + 1 else 0
  | _, _ => 0

/-- The "non-exact match" branch of `addWord`: the node `n` keeps the common part
of its label and gets two children, the new branch and the former node. -/
def splitNode (value : List Nat) (children : List TrieNode) (nid : Nat)
    (rest : List Nat) (charactersInCommon : Nat) (id : Nat) : TrieNode :=
  let existingNodes := TrieNode.mk (value.drop charactersInCommon) children nid
  let newBranch := TrieNode.mk (rest.drop charactersInCommon) [] id
  TrieNode.mk (rest.take charactersInCommon) [newBranch, existingNodes] nid

/-- The loop of `addWord` that looks for a child with an empty label; the last such
child becomes the current node and, if `replace` is set, receives the id. The
result is `none` when no child has an empty label. -/
def setZeroNode (id : Nat) (replace : Bool) : List TrieNode → Option (List TrieNode × Nat)
  | [] => none
  | n :: ns =>
    match setZeroNode id replace ns with
    | some (ns1, r) => some (n :: ns1, r)
    | none =>
      if n.value = [] then
        if replace then some (TrieNode.mk n.value n.children id :: ns, id)
        else some (n :: ns, n.id)
      else none

/-- The part of `addWord` after its `while` loop, when the key is used up at the
node `currentNode` (not the root). -/
def finishAtNode (value : List Nat) (children : List TrieNode) (nid : Nat)
    (id : Nat) (replace : Bool) : TrieNode × Nat :=
  if children.length > 0 then
    match setZeroNode id replace children with
    | some (cs, r) => (TrieNode.mk value cs nid, r)
    | none => (TrieNode.mk value (children ++ [TrieNode.mk [] [] id]) nid, id)
  else if replace then (TrieNode.mk value children id, id)
  else (TrieNode.mk value children nid, nid)

mutual
/-- The `while` loop of `addWord` from the moment `currentNode` is the given node
and `rest` is `hstr.substr(strOffset)`: the updated node and the returned id. -/
def addAtNode : TrieNode → List Nat → Nat → Bool → TrieNode × Nat
  | .mk value children nid, rest, id, replace =>
    if rest = [] then finishAtNode value children nid id replace
    else
      match scanChildren children rest id replace with
      | some (cs, r) => (TrieNode.mk value cs nid, r)
      | none =>
        -- no node to descend to: keep the original id in a zero node if the
        -- current node is final, then add the new node
        let cs := if children.length = 0 then [TrieNode.mk [] [] nid] else children
        (TrieNode.mk value (cs ++ [TrieNode.mk rest [] id]) nid, id)
/-- The `for` loop of `addWord` over the children of the current node; `none` when
it ends without descending or returning. -/
def scanChildren : List TrieNode → List Nat → Nat → Bool → Option (List TrieNode × Nat)
  | [], _, _, _ => none
  | .mk value children nid :: ns, rest, id, replace =>
    let charactersInCommon := compareHStr rest value
    if charactersInCommon = value.length ∧ value ≠ [] then
      let r := addAtNode (.mk value children nid) (rest.drop charactersInCommon) id replace
      some (r.1 :: ns, r.2)
    else if charactersInCommon > 0 then
      some (splitNode value children nid rest charactersInCommon id :: ns, id)
    else
      match scanChildren ns rest id replace with
      | some (ns1, r) => some (.mk value children nid :: ns1, r)
      | none => none
end

/-- The body of `addWord` on the children of the root and the key `hstr`. -/
def addWordRoot (rootChildren : List TrieNode) (hstr : List Nat) (id : Nat) (replace : Bool) :
    List TrieNode × Nat :=
  if hstr = [] then (rootChildren, id)
  else
    match scanChildren rootChildren hstr id replace with
    | some r => r
    | none => (rootChildren ++ [TrieNode.mk hstr [] id], id)

/-- Source: `struct Trie::TrieImpl`. A null `_serializedNodeArray` is `none`. -/
structure TrieImpl where
  /-- Whether the trie is in editing mode. -/
  _editingMode : Bool
  /-- The children of the root. -/
  _rootChildren : List TrieNode
  /-- The serialized node array when frozen. -/
  _serializedNodeArray : Option (List Nat)
  /-- The size of the serialized node array. -/
  _serializedNodeArraySize : Nat
  deriving Repr

/-- Source: `TrieImpl() = default`. -/
def TrieImpl.new : TrieImpl := ⟨true, [], none, 0⟩

/-- Source: `Trie::addWord(str, id, replace)`: the trie afterwards and the returned id. -/
def TrieImpl.addWord (t : TrieImpl) (str : String) (id : Nat) (replace : Bool := true) :
    Except Err (TrieImpl × Nat) :=
  if !t._editingMode then .ok (t, 0)
  else do
    let hstr ← str.toHangulString
    let r := addWordRoot t._rootChildren hstr id replace
    pure ({ t with _rootChildren := r.1 }, r.2)

/-- A sequence of `addWord(key, id)` calls (with the default `replace = true`). -/
def TrieImpl.addWords : TrieImpl → List (String × Nat) → Except Err TrieImpl
  | t, [] => .ok t
  | t, (key, id) :: rest => do
    let r ← t.addWord key id
    TrieImpl.addWords r.1 rest

/-! ### The serialized node array -/

/-- The byte `*((uint8_t *)(buf + p))`; outside the buffer the model reads 0. -/
def readU8 (buf : List Nat) (p : Nat) : Nat := buf.getD p 0

/-- The word `*((uint32_t *)(buf + p))` on a little-endian host. -/
def readU32 (buf : List Nat) (p : Nat) : Nat :=
  readU8 buf p + 256 * readU8 buf (p + 1) + 256 ^ 2 * readU8 buf (p + 2) +
    256 ^ 3 * readU8 buf (p + 3)

/-- A store of one byte. -/
def writeU8 (buf : List Nat) (p : Nat) (v : Nat) : List Nat := buf.set p (v % 256)

/-- A store of a 32-bit word on a little-endian host. -/
def writeU32 (buf : List Nat) (p : Nat) (v : Nat) : List Nat :=
  writeU8 (writeU8 (writeU8 (writeU8 buf p v) (p + 1) (v / 256)) (p + 2) (v / 256 ^ 2))
    (p + 3) (v / 256 ^ 3)

/-- Consecutive stores of the bytes `bs` from position `p` on. -/
def writeBytes (buf : List Nat) (p : Nat) : List Nat → List Nat
  | [] => buf
  | b :: bs => writeBytes (writeU8 buf p b) (p + 1) bs

/-- The bytes of `s.c_str()`: the string up to its first zero byte. -/
def cStr (s : List Nat) : List Nat := s.takeWhile (· ≠ 0)

/-- Source: `std::strcpy(buf + p, s.c_str())`. -/
def strcpy (buf : List Nat) (p : Nat) (s : List Nat) : List Nat :=
  writeBytes buf p (cStr s ++ [0])

/-- Source: `std::strlen(buf + p)`. -/
def strlen (buf : List Nat) (p : Nat) : Nat := (cStr (buf.drop p)).length

/-- Source: `getChildrenNo`. -/
def getChildrenNo (buf : List Nat) (na : Nat) : Nat := readU8 buf na

/-- Source: `getChildrenOffset(na, start)` with `start` the array itself (position 0). -/
def getChildrenOffset (buf : List Nat) (na : Nat) : Nat :=
  if na = 0 then 1 else readU32 buf (na + 1)

/-- Source: `getId`. -/
def getId (buf : List Nat) (na : Nat) : Nat := readU32 buf (na + 1)

/-- Source: `getValuePtr`. -/
def getValuePtr (na : Nat) : Nat := na + 1 + 4

/-- Source: `getLenght`, whose result is a `uint8_t`. -/
def getLenght (buf : List Nat) (na : Nat) : Nat :=
  (1 + 4 + strlen buf (getValuePtr na) + 1) % 256

mutual
/-- The body of the loop of `getBranchLength` for one node. -/
def getBranchLengthNode : TrieNode → Nat → Nat
  | .mk value children _, length =>
    getBranchLength children ((length + (1 + 4 + value.length + 1)) % 2 ^ 32)
/-- Source: `getBranchLength(children, length)` in 32-bit arithmetic. -/
def getBranchLength : List TrieNode → Nat → Nat
  | [], length => length
  | t :: ts, length => getBranchLength ts (getBranchLengthNode t length)
end

/-- The first loop of `writeChildren`: the nodes of one level are written one after
the other from `na + currentLevelSize` on. Returns the buffer and `currentLevelSize`. -/
def writeNodes (buf : List Nat) (na : Nat) : Nat → List TrieNode → List Nat × Nat
  | currentLevelSize, [] => (buf, currentLevelSize)
  | currentLevelSize, t :: ts =>
    let buf1 := writeU8 buf (na + currentLevelSize) t.children.length
    let buf2 :=
      if t.children.length = 0 then
        strcpy (writeU32 buf1 (na + currentLevelSize + 1) t.id) (na + currentLevelSize + 1 + 4)
          t.value
      else
        strcpy buf1 (na + currentLevelSize + 1 + 4) t.value
    writeNodes buf2 na ((currentLevelSize + (1 + 4 + t.value.length + 1)) % 2 ^ 32) ts

mutual
/-- The `if (t.children.size() > 0)` statement in the second loop of
`writeChildren`, for the node at `na + offset`: the offset of its children is
stored and the children are written (the recursive call of `writeChildren`,
unfolded into its two loops). Returns the buffer and `currentLevelSize`. -/
def writeSubtree : List Nat → Nat → Nat → Nat → TrieNode → List Nat × Nat
  | buf, na, currentLevelSize, offset, .mk _ children _ =>
    if children.length > 0 then
      let buf1 := writeU32 buf (na + offset + 1) ((currentLevelSize + 2 ^ 32 - offset) % 2 ^ 32)
      let w := writeNodes buf1 (na + currentLevelSize) 0 children
      let s := writeSubtrees w.1 (na + currentLevelSize) w.2 0 children
      (s.1, (currentLevelSize + s.2) % 2 ^ 32)
    else (buf, currentLevelSize)
/-- The second loop of `writeChildren`. Returns the buffer and `currentLevelSize`. -/
def writeSubtrees : List Nat → Nat → Nat → Nat → List TrieNode → List Nat × Nat
  | buf, _, currentLevelSize, _, [] => (buf, currentLevelSize)
  | buf, na, currentLevelSize, offset, t :: ts =>
    let r := writeSubtree buf na currentLevelSize offset t
    writeSubtrees r.1 na r.2 ((offset + getLenght r.1 (na + offset)) % 2 ^ 32) ts
end

/-- Source: `writeChildren(na, children)`: the buffer afterwards and the returned size. -/
def writeChildren (buf : List Nat) (na : Nat) (children : List TrieNode) : List Nat × Nat :=
  let w := writeNodes buf na 0 children
  writeSubtrees w.1 na w.2 0 children

/-- Source: `Trie::freeze`. The bytes `malloc` returns are modelled as zeros. -/
def TrieImpl.freeze (t : TrieImpl) : TrieImpl :=
  if t._rootChildren.length = 0 then { t with _editingMode := false }
  else
    let size := getBranchLength t._rootChildren 0
    let buf := List.replicate (1 + size) 0
    let buf1 := writeU8 buf 0 t._rootChildren.length
    { t with
      _editingMode := false
      _serializedNodeArray := some (writeChildren buf1 1 t._rootChildren).1
      _serializedNodeArraySize := (1 + size) % 2 ^ 32 }

/-! ### Queries on the frozen trie -/

/-- The `for` loop of `findWord` over the `childrenNo` children stored from
`childrenBase` on, looking for a child whose whole non-empty label starts the
remaining key `rest`. Returns that child's position and the label length. -/
def findDescend (buf : List Nat) (childrenBase : Nat) (rest : List Nat) :
    Nat → Nat → Option (Nat × Nat)
  | 0, _ => none
  | childrenNo + 1, read =>
    let childPointer := childrenBase + read
    let value := getValuePtr childPointer
    let charactersInCommon := compareHStr rest (buf.drop value)
    if charactersInCommon = strlen buf value ∧ readU8 buf value ≠ 0 then
      some (childPointer, charactersInCommon)
    else
      findDescend buf childrenBase rest childrenNo ((read + getLenght buf childPointer) % 2 ^ 32)

/-- The last loop of `findWord`: the id of the first child with an empty label. -/
def findZeroNode (buf : List Nat) (childrenBase : Nat) : Nat → Nat → Nat
  | 0, _ => NIME_TRIE_WORD_NOT_FOUND
  | childrenNo + 1, read =>
    let childPointer := childrenBase + read
    if readU8 buf (getValuePtr childPointer) = 0 then getId buf childPointer
    else findZeroNode buf childrenBase childrenNo ((read + getLenght buf childPointer) % 2 ^ 32)

/-- The `while` loop of `findWord` and the code after it, from the node at
`currentNodePtr` with `rest` the key from `strOffset` on. Every iteration
consumes at least one byte of the key, so `fuel` never needs to exceed the
length of `rest`. -/
def findWordLoop (buf : List Nat) : Nat → Nat → List Nat → Except Err Nat
  | _, currentNodePtr, [] =>
    let childrenNo := getChildrenNo buf currentNodePtr
    if childrenNo = 0 then .ok (getId buf currentNodePtr)
    else
      .ok (findZeroNode buf (currentNodePtr + getChildrenOffset buf currentNodePtr) childrenNo 0)
  | 0, _, _ :: _ => .error .outOfFuel
  | fuel + 1, currentNodePtr, c :: cs =>
    let childrenNo := getChildrenNo buf currentNodePtr
    match findDescend buf (currentNodePtr + getChildrenOffset buf currentNodePtr) (c :: cs)
        childrenNo 0 with
    | none => .ok NIME_TRIE_WORD_NOT_FOUND
    | some (childPointer, charactersInCommon) =>
      findWordLoop buf fuel childPointer ((c :: cs).drop charactersInCommon)

/-- Source: `Trie::findWord`. Reading through a null `_serializedNodeArray` is undefined. -/
def TrieImpl.findWord (t : TrieImpl) (str : String) : Except Err Nat :=
  if t._editingMode then .ok NIME_TRIE_WORD_NOT_FOUND
  else do
    let hstr ← str.toHangulString
    match t._serializedNodeArray with
    | none => .error .undefinedBehaviour
    | some buf => findWordLoop buf hstr.length 0 hstr

/-- Source: `struct Trie::WordIdPair`. -/
structure WordIdPair where
  /-- The word. -/
  str : String
  /-- Its id. -/
  id : Nat
  deriving DecidableEq, Repr

/-- The variables the child loop of `findWordPrefixes` updates. -/
structure PrefixScan where
  /-- The list `prefixes`. -/
  prefixes : List WordIdPair
  /-- The pair `descendToNodePtr`, `newStrOffset` when `foundNodeToDescendTo` is set. -/
  descendTo : Option (Nat × Nat)
  /-- The flag `foundZeroNode`. -/
  foundZeroNode : Bool
  deriving Repr

/-- The `for` loop in the `while` loop of `findWordPrefixes`: every child is looked
at; a child whose whole non-empty label starts the remaining key is remembered,
and every child with an empty label adds `hstr.substr(0, strOffset)` with its id. -/
def scanPrefixes (buf : List Nat) (childrenBase : Nat) (hstr : List Nat) (strOffset : Nat) :
    Nat → Nat → PrefixScan → PrefixScan
  | 0, _, st => st
  | childrenNo + 1, read, st =>
    let childPointer := childrenBase + read
    let value := getValuePtr childPointer
    let charactersInCommon := compareHStr (hstr.drop strOffset) (buf.drop value)
    let st1 : PrefixScan :=
      if charactersInCommon = strlen buf value ∧ readU8 buf value ≠ 0 then
        { st with descendTo := some (childPointer, strOffset + charactersInCommon) }
      else if readU8 buf value = 0 then
        { st with
          prefixes := st.prefixes ++
            [⟨String.ofHangulString (hstr.take strOffset), getId buf childPointer⟩]
          foundZeroNode := true }
      else st
    scanPrefixes buf childrenBase hstr strOffset childrenNo
      ((read + getLenght buf childPointer) % 2 ^ 32) st1

/-- The loop after the label `finalize` of `findWordPrefixes`. -/
def finalizeZeroNodes (buf : List Nat) (childrenBase : Nat) (hstr : List Nat) (strOffset : Nat) :
    Nat → Nat → List WordIdPair → List WordIdPair
  | 0, _, prefixes => prefixes
  | childrenNo + 1, read, prefixes =>
    let childPointer := childrenBase + read
    let prefixes1 :=
      if readU8 buf (getValuePtr childPointer) = 0 then
        prefixes ++ [⟨String.ofHangulString (hstr.take strOffset), getId buf childPointer⟩]
      else prefixes
    finalizeZeroNodes buf childrenBase hstr strOffset childrenNo
      ((read + getLenght buf childPointer) % 2 ^ 32) prefixes1

/-- The code of `findWordPrefixes` from the label `finalize` on. -/
def finalizePrefixes (buf : List Nat) (currentNodePtr : Nat) (hstr : List Nat) (strOffset : Nat)
    (prefixes : List WordIdPair) : List WordIdPair :=
  let childrenNo := getChildrenNo buf currentNodePtr
  if childrenNo = 0 then
    prefixes ++ [⟨String.ofHangulString (hstr.take strOffset), getId buf currentNodePtr⟩]
  else
    finalizeZeroNodes buf (currentNodePtr + getChildrenOffset buf currentNodePtr) hstr strOffset
      childrenNo 0 prefixes

/-- The `while` loop of `findWordPrefixes` and the code after it. Every iteration
that continues advances `strOffset`, so `fuel` never needs to exceed the length
of `hstr`. -/
def findWordPrefixesLoop (buf : List Nat) (hstr : List Nat) :
    Nat → Nat → Nat → List WordIdPair → Except Err (List WordIdPair)
  | fuel, currentNodePtr, strOffset, prefixes =>
    if ¬ strOffset < hstr.length then
      .ok (finalizePrefixes buf currentNodePtr hstr strOffset prefixes)
    else
      match fuel with
      | 0 => .error .outOfFuel
      | fuel + 1 =>
        let st := scanPrefixes buf (currentNodePtr + getChildrenOffset buf currentNodePtr) hstr
          strOffset (getChildrenNo buf currentNodePtr) 0 ⟨prefixes, none, false⟩
        match st.descendTo with
        | none =>
          if st.foundZeroNode then .ok st.prefixes
          else .ok (finalizePrefixes buf currentNodePtr hstr strOffset st.prefixes)
        | some (descendToNodePtr, newStrOffset) =>
          findWordPrefixesLoop buf hstr fuel descendToNodePtr newStrOffset st.prefixes

/-- Source: `Trie::findWordPrefixes`. -/
def TrieImpl.findWordPrefixes (t : TrieImpl) (str : String) : Except Err (List WordIdPair) :=
  if t._editingMode then .ok []
  else do
    let hstr ← str.toHangulString
    match t._serializedNodeArray with
    | none => .error .undefinedBehaviour
    | some buf => findWordPrefixesLoop buf hstr hstr.length 0 0 []

/-! ## Segmentations (`segmentations.h`) -/

/-- Source: `class Segmentations`: the sentence length and the bit matrix `_words`. -/
structure Segmentations where
  /-- The number of characters of the sentence. -/
  _sentenceLength : Nat
  /-- The bits, row by row. -/
  _words : List Bool
  deriving DecidableEq, Repr

/-- A value an `int` can hold. -/
def fitsInt (x : Int) : Bool := decide (-(2 ^ 31) ≤ x ∧ x < 2 ^ 31)

/-- Source: `Segmentations(int sentenceLength)`. The number of bits is computed
as an `int`; its overflow is undefined. -/
def Segmentations.new (sentenceLength : Nat) : Except Err Segmentations :=
  if fitsInt ((sentenceLength : Int) * sentenceLength) then
    .ok ⟨sentenceLength, List.replicate (sentenceLength * sentenceLength) false⟩
  else .error .undefinedBehaviour

/-- Source: `bitForWord(startPos, endPos)`. The position is computed as an `int`
(overflow is undefined) and returned as a 64-bit `size_t`. -/
def Segmentations.bitForWord (s : Segmentations) (startPos endPos : Int) : Except Err Nat :=
  if startPos > endPos then .error .invalidArgument
  else if startPos > s._sentenceLength then .error .invalidArgument
  else if fitsInt (startPos * s._sentenceLength) &&
      fitsInt (startPos * s._sentenceLength + endPos) then
    .ok ((startPos * s._sentenceLength + endPos) % 2 ^ 64).toNat
  else .error .undefinedBehaviour

/-- Source: `word(startPos, endPos)`; a bit outside the bitset is undefined. -/
def Segmentations.word (s : Segmentations) (startPos endPos : Int) : Except Err Bool := do
  let bit ← s.bitForWord startPos endPos
  match s._words[bit]? with
  | some b => pure b
  | none => throw Err.undefinedBehaviour

/-- Source: `addWord(startPos, endPos)`. -/
def Segmentations.addWord (s : Segmentations) (startPos endPos : Int) :
    Except Err Segmentations := do
  let bit ← s.bitForWord startPos endPos
  if bit < s._words.length then pure { s with _words := s._words.set bit true }
  else throw Err.undefinedBehaviour

/-- Source: `CharacterImpl::setChoseong`, as a state transformer: the character
afterwards and the outcome of the call. The exception is thrown before
anything is stored. -/
def Character.setChoseongImpl (c : Character) (choseong : HangulJamo) :
    Character × Except Err Unit :=
  let cp := c.unicodeCodepoint
  match _hangulJamoToChoseong choseong with
  | .error e => (c, .error e)
  | .ok newChoseong =>
    if newChoseong = CI then (c, .error .invalidArgument)
    else
      let oldChoseong := ((cp + 2 ^ 32 - 0xac00) % 2 ^ 32 / 0x24c) % 256
      let cp1 := (cp + 2 ^ 32 - oldChoseong * 0x24c) % 2 ^ 32
      let cp2 := (cp1 + newChoseong * 0x24c) % 2 ^ 32
      match c.setUnicodeCodepoint cp2 with
      | .ok c1 => (c1, .ok ())
      | .error e => (c, .error e)

/-- Source: `CharacterImpl::setJungseong`, as a state transformer. -/
def Character.setJungseongImpl (c : Character) (jungseong : HangulJamo) :
    Character × Except Err Unit :=
  let cp := c.unicodeCodepoint
  match _hangulJamoToJungseong jungseong with
  | .error e => (c, .error e)
  | .ok newJungseong =>
    if newJungseong = CI then (c, .error .invalidArgument)
    else
      let oldJungseong := ((cp + 2 ^ 32 - 0xac00) % 2 ^ 32 % 0x24c / 0x1c) % 256
      let cp1 := (cp + 2 ^ 32 - oldJungseong * 0x1c) % 2 ^ 32
      let cp2 := (cp1 + newJungseong * 0x1c) % 2 ^ 32
      match c.setUnicodeCodepoint cp2 with
      | .ok c1 => (c1, .ok ())
      | .error e => (c, .error e)

/-- Source: `CharacterImpl::setJongseong`, as a state transformer. -/
def Character.setJongseongImpl (c : Character) (jongseong : HangulJamo) :
    Character × Except Err Unit :=
  let cp := c.unicodeCodepoint
  match _hangulJamoToJongseong jongseong with
  | .error e => (c, .error e)
  | .ok newJongseong =>
    if newJongseong = CI then (c, .error .invalidArgument)
    else
      let oldJongseong := ((cp + 2 ^ 32 - 0xac00) % 2 ^ 32 % 0x24c % 0x1c) % 256
      let cp1 := (cp + 2 ^ 32 - oldJongseong) % 2 ^ 32
      let cp2 := (cp1 + newJongseong) % 2 ^ 32
      match c.setUnicodeCodepoint cp2 with
      | .ok c1 => (c1, .ok ())
      | .error e => (c, .error e)

/-- Source: `Character::setChoseong`, the `CHECK_TYPE` guard followed by the implementation. -/
def Character.setChoseong (c : Character) (choseong : HangulJamo) : Character × Except Err Unit :=
  if c.type ≠ .HangulSyllable then (c, .error .operationNotSupported)
  else c.setChoseongImpl choseong

/-- Source: `Character::setJungseong`. -/
def Character.setJungseong (c : Character) (jungseong : HangulJamo) :
    Character × Except Err Unit :=
  if c.type ≠ .HangulSyllable then (c, .error .operationNotSupported)
  else c.setJungseongImpl jungseong

/-- Source: `Character::setJongseong`. -/
def Character.setJongseong (c : Character) (jongseong : HangulJamo) :
    Character × Except Err Unit :=
  if c.type ≠ .HangulSyllable then (c, .error .operationNotSupported)
  else c.setJongseongImpl jongseong

/-! ## Binary stream I/O (`stream_binary_io.h`) and the stream methods of the containers

A stream is the list of its unread bytes; writing appends at the end and
reading takes from the front, as with the `std::stringstream` of the tests. -/

/-- The object representation of an unsigned integer in `n` bytes. The byte
order is that of the machine, taken to be least significant byte first; the
same order is used for reading. -/
def toBytes : Nat → Nat → List Nat
  | 0, _ => []
  | n + 1, x => x % 256 :: toBytes n (x / 256)

/-- The unsigned integer with the given object representation. -/
def ofBytes : List Nat → Nat
  | [] => 0
  | b :: bs => b + 256 * ofBytes bs

/-- Source: `StreamBinaryWrite<T>(os, value)` for an unsigned type of `size` bytes. -/
def StreamBinaryWrite (size : Nat) (os : List Nat) (value : Nat) : List Nat :=
  os ++ toBytes size value

/-- Source: `StreamBinaryRead<T>(is)` for an unsigned type of `size` bytes: the
value and the rest of the stream. When the stream ends early the value returned
is not initialised, which is reported as undefined. -/
def StreamBinaryRead (size : Nat) (is_ : List Nat) : Except Err (Nat × List Nat) :=
  if is_.length < size then .error .undefinedBehaviour
  else .ok (ofBytes (is_.take size), is_.drop size)

/-- Source: `StreamBinaryWrite<bool>`: the `char` the value converts to. -/
def StreamBinaryWriteBool (os : List Nat) (value : Bool) : List Nat :=
  StreamBinaryWrite 1 os (if value then 1 else 0)

/-- Source: `StreamBinaryRead<bool>`: a `char` converted to `bool`. -/
def StreamBinaryReadBool (is_ : List Nat) : Except Err (Bool × List Nat) :=
  match StreamBinaryRead 1 is_ with
  | .error e => .error e
  | .ok (c, is1) => .ok (c != 0, is1)

/-- The loop of `HashTable::writeToStream` from slot `i` on, for `count` slots.
The `double` of a slot is written as its 8-byte pattern; the value type of the
table is the natural number of that pattern. -/
def writeBuckets (buckets : List (Bucket Nat)) : Nat → Nat → List Nat → List Nat
  | 0, _, os => os
  | count + 1, i, os =>
    let b := buckets.getD i Bucket.zero
    let os1 := StreamBinaryWrite 4 os b.id
    let os2 := StreamBinaryWrite 8 os1 b.value
    let os3 := StreamBinaryWriteBool os2 b.used
    writeBuckets buckets count (i + 1) os3

/-- Source: `HashTable<uint32_t>::writeToStream`. -/
def HashTable.writeToStream (ht : HashTable Nat) (os : List Nat) : List Nat :=
  writeBuckets ht._buckets ht._bucketsNo 0 (StreamBinaryWrite 4 os ht._bucketsNo)

/-- The loop of `HashTable::loadFromStream`: the slots of the new array, which
are assigned in order, and the rest of the stream. -/
def loadBuckets : Nat → List Nat → Except Err (List (Bucket Nat) × List Nat)
  | 0, is_ => .ok ([], is_)
  | count + 1, is_ =>
    match StreamBinaryRead 4 is_ with
    | .error e => .error e
    | .ok (id, is1) =>
      match StreamBinaryRead 8 is1 with
      | .error e => .error e
      | .ok (value, is2) =>
        match StreamBinaryReadBool is2 with
        | .error e => .error e
        | .ok (used, is3) =>
          match loadBuckets count is3 with
          | .error e => .error e
          | .ok (rest, is4) => .ok (⟨id, value, used⟩ :: rest, is4)

/-- Source: `HashTable<uint32_t>::loadFromStream`: the table afterwards and the
rest of the stream. The counter `_usedUpBuckets` is not assigned. -/
def HashTable.loadFromStream (ht : HashTable Nat) (is_ : List Nat) :
    Except Err (HashTable Nat × List Nat) :=
  match StreamBinaryRead 4 is_ with
  | .error e => .error e
  | .ok (bucketsNo, is1) =>
    match loadBuckets bucketsNo is1 with
    | .error e => .error e
    | .ok (buckets, is2) => .ok (⟨bucketsNo, buckets, ht._usedUpBuckets⟩, is2)

/-- Source: `Trie::TrieImpl::writeToStream`: the stream afterwards. Writing
`_serializedNodeArraySize` bytes from a null or shorter array is undefined. -/
def TrieImpl.writeToStream (t : TrieImpl) (s : List Nat) : Except Err (List Nat) :=
  if t._editingMode then .ok s
  else
    let s1 := StreamBinaryWrite 4 s t._serializedNodeArraySize
    match t._serializedNodeArray with
    | none => if t._serializedNodeArraySize = 0 then .ok s1 else .error .undefinedBehaviour
    | some buf =>
      if buf.length < t._serializedNodeArraySize then .error .undefinedBehaviour
      else .ok (s1 ++ buf.take t._serializedNodeArraySize)

/-- Source: `Trie::TrieImpl::loadFromStream`: the trie afterwards and the rest
of the stream. When the stream ends early part of the new array is not
initialised, which is reported as undefined. -/
def TrieImpl.loadFromStream (t : TrieImpl) (s : List Nat) : Except Err (TrieImpl × List Nat) :=
  if t._editingMode then .ok (t, s)
  else
    match StreamBinaryRead 4 s with
    | .error e => .error e
    | .ok (size, s1) =>
      if s1.length < size then .error .undefinedBehaviour
      else
        .ok ({ t with
               _serializedNodeArraySize := size
               _serializedNodeArray := some (s1.take size) }, s1.drop size)

/-- Source: the constructor `HashTable(std::istream& is) { this->loadFromStream(is); }`.
The default member initialiser sets `_usedUpBuckets = 0`; the other two fields
are assigned by `loadFromStream`. -/
def HashTable.ofStream (is_ : List Nat) : Except Err (HashTable Nat × List Nat) :=
  (HashTable.mk 0 [] 0).loadFromStream is_

/-! ## Sequences of `addWord` calls -/

/-- A sequence of `addWord(key, id, replace)` calls, each with its own `replace`. -/
def TrieImpl.addWordsWith : TrieImpl → List (String × Nat × Bool) → Except Err TrieImpl
  | t, [] => .ok t
  | t, (key, id, replace) :: rest =>
    match t.addWord key id replace with
    | .error e => .error e
    | .ok r => TrieImpl.addWordsWith r.1 rest

/-! ## Iteration over a frozen trie (`Trie::IteratorImpl`) -/

/-- Source: `getChildrenOffset(na)` with the default `start` (a null pointer,
which the position of a node never equals). -/
def getChildrenOffsetOfNode (buf : List Nat) (na : Nat) : Nat := readU32 buf (na + 1)

/-- Source: `getValue(na)`: the zero-terminated label of the node at `na`. -/
def getValue (buf : List Nat) (na : Nat) : List Nat := cStr (buf.drop (getValuePtr na))

/-- A parent of an iterator: the fields `_snaPointer`, `_childrenLeft` and
`_prefix` of the `IteratorImpl` a `_parent` pointer points to. -/
structure IteratorFrame where
  /-- The position of the node in the serialized node array. -/
  _snaPointer : Nat
  /-- The number of siblings to the right of the node. -/
  _childrenLeft : Nat
  /-- The field `_prefix`: the labels from the root to the parent of the node. -/
  _prefixBytes : List Nat
  deriving DecidableEq, Repr

/-- Source: `struct Trie::IteratorImpl`. The chain of `_parent` pointers is the
list of the parents, the nearest first; the null pointer is the empty list.
Pointers into the serialized node array are positions in it. -/
structure IteratorImpl where
  /-- The position of the node in the serialized node array. -/
  _snaPointer : Nat
  /-- The number of siblings to the right of the node. -/
  _childrenLeft : Nat
  /-- The chain of `_parent` pointers. -/
  _parent : List IteratorFrame
  /-- The field `_prefix`: the labels from the root to the parent of the node. -/
  _prefixBytes : List Nat
  deriving DecidableEq, Repr

/-- Source: `Trie::TrieImpl::end`. -/
def iteratorEnd (size : Nat) : IteratorImpl := ⟨size, 0, [], []⟩

/-- Source: `Trie::IteratorImpl::value`. -/
def IteratorImpl.value (buf : List Nat) (it : IteratorImpl) : WordIdPair :=
  ⟨String.ofHangulString (it._prefixBytes ++ getValue buf it._snaPointer),
    getId buf it._snaPointer⟩

/-- The code of `next` at the label `ascend`, entered with the chain of parents
and the iterator as it stands: the iterator afterwards, and whether the null
parent was reached (the statement `return _trie->end()`). -/
def ascendLoop (buf : List Nat) : List IteratorFrame → IteratorImpl → IteratorImpl × Bool
  | [], it => (it, true)
  | f :: fs, _ =>
    if f._childrenLeft > 0 then
      (⟨f._snaPointer + getLenght buf f._snaPointer, (f._childrenLeft + 255) % 256, fs,
        f._prefixBytes⟩, false)
    else ascendLoop buf fs ⟨f._snaPointer, f._childrenLeft, fs, f._prefixBytes⟩

/-- The statements of `next` before its last `if`: the iterator afterwards, and
whether `_trie->end()` was returned. -/
def nextMove (buf : List Nat) (it : IteratorImpl) : IteratorImpl × Bool :=
  if it._childrenLeft = 0 ∧ getChildrenNo buf it._snaPointer = 0 then
    ascendLoop buf it._parent it
  else
    let childrenNo := getChildrenNo buf it._snaPointer
    if childrenNo > 0 then
      (⟨it._snaPointer + getChildrenOffsetOfNode buf it._snaPointer, (childrenNo + 255) % 256,
        ⟨it._snaPointer, it._childrenLeft, it._prefixBytes⟩ :: it._parent,
        it._prefixBytes ++ getValue buf it._snaPointer⟩, false)
    else
      (⟨it._snaPointer + getLenght buf it._snaPointer, (it._childrenLeft + 255) % 256,
        it._parent, it._prefixBytes⟩, false)

/-- Source: `Trie::IteratorImpl::next`, with the recursion `return next()`
bounded by `fuel`: the iterator `*this` afterwards and the iterator returned.
Returns `none` if the recursion is still running when the fuel is used up. -/
def nextFuel (buf : List Nat) (size : Nat) : Nat → IteratorImpl → Option (IteratorImpl × IteratorImpl)
  | 0, _ => none
  | fuel + 1, it =>
    let moved := nextMove buf it
    if moved.2 then some (moved.1, iteratorEnd size)
    else if getChildrenNo buf moved.1._snaPointer > 0 then nextFuel buf size fuel moved.1
    else some (moved.1, moved.1)

/-- Source: `Trie::IteratorImpl::next`. Every recursive call follows a descent
to a child, which stands behind its parent in the array, so `size + 1` calls
are enough. -/
def IteratorImpl.next (buf : List Nat) (size : Nat) (it : IteratorImpl) :
    Option (IteratorImpl × IteratorImpl) :=
  nextFuel buf size (size + 1) it

/-- Source: `Trie::TrieImpl::begin`. Reading through a null
`_serializedNodeArray` is undefined. -/
def TrieImpl.begin (t : TrieImpl) : Except Err IteratorImpl :=
  match t._serializedNodeArray with
  | none => .error .undefinedBehaviour
  | some buf =>
    let it : IteratorImpl := ⟨1, (getChildrenNo buf 0 + 255) % 256, [], []⟩
    if getChildrenNo buf it._snaPointer > 0 then
      match it.next buf t._serializedNodeArraySize with
      | some r => .ok r.1
      | none => .error .outOfFuel
    else .ok it

/-- Source: `Trie::TrieImpl::end`. -/
def TrieImpl.end_ (t : TrieImpl) : IteratorImpl := iteratorEnd t._serializedNodeArraySize

/-- Source: `Trie::IteratorImpl::notEqualTo`: only the positions are compared. -/
def IteratorImpl.notEqualTo (it other : IteratorImpl) : Bool :=
  it._snaPointer != other._snaPointer

/-- The loop `for (WordIdPair wip : t)`: while the iterator differs from
`end()`, its value is taken and `operator++` replaces it by what `next()`
returns. Returns `none` if the loop is still running when the fuel is used up. -/
def iterateLoop (buf : List Nat) (size : Nat) : Nat → IteratorImpl → Option (List WordIdPair)
  | 0, _ => none
  | fuel + 1, it =>
    if it.notEqualTo (iteratorEnd size) then
      match it.next buf size with
      | none => none
      | some r =>
        match iterateLoop buf size fuel r.2 with
        | none => none
        | some rest => some (it.value buf :: rest)
    else some []

/-- The words `for (WordIdPair wip : t)` visits, in order. Every word visited
is a node of the array, so `size + 1` iterations are enough. -/
def TrieImpl.iterate (t : TrieImpl) : Except Err (List WordIdPair) :=
  match t._serializedNodeArray with
  | none => .error .undefinedBehaviour
  | some buf =>
    match t.begin with
    | .error e => .error e
    | .ok it =>
      match iterateLoop buf t._serializedNodeArraySize (t._serializedNodeArraySize + 1) it with
      | none => .error .outOfFuel
      | some r => .ok r

/-! ## Back to editing mode (`readNodeAndChildren`, `makeEditable`) -/

/-- The loop of `readNodeAndChildren` over the `childrenNo` children stored from
`base` on, with `rd` the function the recursive call denotes. -/
def readChildrenWith (rd : Nat → Except Err TrieNode) (buf : List Nat) (base : Nat) :
    Nat → Nat → Except Err (List TrieNode)
  | 0, _ => .ok []
  | childrenNo + 1, childrenRead =>
    match rd (base + childrenRead) with
    | .error e => .error e
    | .ok n =>
      match readChildrenWith rd buf base childrenNo
          ((childrenRead + getLenght buf (base + childrenRead)) % 2 ^ 32) with
      | .error e => .error e
      | .ok ns => .ok (n :: ns)

/-- Source: `readNodeAndChildren(na)`. The field `id` of a node with children
is not assigned; `uninit` stands for the value it then holds. The first
argument bounds the depth of the recursion. -/
def readNodeAndChildren (uninit : Nat) (buf : List Nat) : Nat → Nat → Except Err TrieNode
  | 0, _ => .error .outOfFuel
  | fuel + 1, na =>
    let value := getValue buf na
    let childrenOffset := getChildrenOffsetOfNode buf na
    let childrenNo := getChildrenNo buf na
    let id := if childrenNo > 0 then uninit else getId buf na
    match readChildrenWith (readNodeAndChildren uninit buf fuel) buf (na + childrenOffset)
        childrenNo 0 with
    | .error e => .error e
    | .ok children => .ok (.mk value children id)

/-- The loop of `makeEditable` over the children of the root, with `naPtr` the
position of the next one. -/
def makeEditableLoop (uninit : Nat) (buf : List Nat) (fuel : Nat) :
    Nat → Nat → Except Err (List TrieNode)
  | 0, _ => .ok []
  | rootChildrenNo + 1, naPtr =>
    match readNodeAndChildren uninit buf fuel naPtr with
    | .error e => .error e
    | .ok n =>
      match makeEditableLoop uninit buf fuel rootChildrenNo (naPtr + getLenght buf naPtr) with
      | .error e => .error e
      | .ok ns => .ok (n :: ns)

/-- Source: `Trie::makeEditable`, with `fuel` the bound on the depth of
`readNodeAndChildren`. -/
def TrieImpl.makeEditable (uninit : Nat) (fuel : Nat) (t : TrieImpl) : Except Err TrieImpl :=
  match t._serializedNodeArray with
  | none => .ok { t with _rootChildren := [], _editingMode := true }
  | some buf =>
    match makeEditableLoop uninit buf fuel (getChildrenNo buf 0) 1 with
    | .error e => .error e
    | .ok rootChildren =>
      .ok { t with _rootChildren := rootChildren, _editingMode := true,
                   _serializedNodeArray := none }

/-! ## Further `Character` operations (`character.cc`) -/

/-- Source: `CharacterImpl::hangulJamo`; the argument of
`_compatibilityToHangulJamo` is a `uint8_t`. -/
def Character.hangulJamoImpl (c : Character) : Except Err HangulJamo :=
  castToHangulJamo ((c.unicodeCodepoint + 2 ^ 32 - 0x3131) % 2 ^ 32 % 256)

/-- Source: `Character::hangulJamo`, the `CHECK_TYPE` guard followed by the implementation. -/
def Character.hangulJamo (c : Character) : Except Err HangulJamo :=
  if c.type ≠ .HangulJamo then .error .operationNotSupported else c.hangulJamoImpl

/-- Source: `CharacterImpl::setHangulJamo`, as a state transformer. -/
def Character.setHangulJamoImpl (c : Character) (hangulJamo : HangulJamo) :
    Character × Except Err Unit :=
  let cp := (_hangulJamoToCompatibility hangulJamo + 0x3131) % 2 ^ 32
  match c.setUnicodeCodepoint cp with
  | .ok c1 => (c1, .ok ())
  | .error e => (c, .error e)

/-- Source: `Character::setHangulJamo`. -/
def Character.setHangulJamo (c : Character) (jamo : HangulJamo) : Character × Except Err Unit :=
  if c.type ≠ .HangulJamo then (c, .error .operationNotSupported)
  else c.setHangulJamoImpl jamo

/-- The constant `HangulSyllableCode::Symbol` (`UINT16_MAX`). -/
def HangulSyllableCodeSymbol : Nat := 2 ^ 16 - 1

/-- Source: `CharacterImpl::hangulSyllableCode`; the code is a `uint16_t`. -/
def Character.hangulSyllableCodeImpl (c : Character) : Nat :=
  if c.type = .EncapsulatedNonHangulSyllable then HangulSyllableCodeSymbol
  else (c.unicodeCodepoint + 2 ^ 32 - 0xac00) % 2 ^ 32 % 2 ^ 16

/-- Source: `Character::hangulSyllableCode`, the `CHECK_TYPE` guard followed by
the implementation. -/
def Character.hangulSyllableCode (c : Character) : Except Err Nat :=
  if c.type ≠ .HangulSyllable ∧ c.type ≠ .EncapsulatedNonHangulSyllable then
    .error .operationNotSupported
  else .ok c.hangulSyllableCodeImpl

/-- Source: `CharacterImpl::setToHangulSyllableCode`, as a state transformer;
`code` is the `uint16_t` field `theCode`. -/
def Character.setToHangulSyllableCodeImpl (c : Character) (code : Nat) :
    Character × Except Err Unit :=
  let cp := if code = HangulSyllableCodeSymbol then
      initialCodepoint .EncapsulatedNonHangulSyllable
    else (code + 0xac00) % 2 ^ 32
  match c.setUnicodeCodepoint cp with
  | .ok c1 => (c1, .ok ())
  | .error e => (c, .error e)

/-- Source: `Character::setToHangulSyllableCode`. -/
def Character.setToHangulSyllableCode (c : Character) (code : Nat) :
    Character × Except Err Unit :=
  if c.type ≠ .HangulSyllable ∧ c.type ≠ .EncapsulatedNonHangulSyllable then
    (c, .error .operationNotSupported)
  else c.setToHangulSyllableCodeImpl code

/-- A call of one of the mutating methods of `Character`. -/
inductive CharacterCall where
  /-- The call `setUnicodeCodepoint(unicodeCodepoint)`. -/
  | setUnicodeCodepoint (unicodeCodepoint : Nat)
  /-- The call `setChoseong(jamo)`. -/
  | setChoseong (jamo : HangulJamo)
  /-- The call `setJungseong(jamo)`. -/
  | setJungseong (jamo : HangulJamo)
  /-- The call `setJongseong(jamo)`. -/
  | setJongseong (jamo : HangulJamo)
  /-- The call `setHangulJamo(jamo)`. -/
  | setHangulJamo (jamo : HangulJamo)
  /-- The call `setToHangulSyllableCode(code)`. -/
  | setToHangulSyllableCode (code : Nat)
  deriving DecidableEq, Repr

/-- The character after a call of a mutating method, and the outcome of the call. -/
def Character.call (c : Character) : CharacterCall → Character × Except Err Unit
  | .setUnicodeCodepoint p =>
    match c.setUnicodeCodepoint p with
    | .ok c1 => (c1, .ok ())
    | .error e => (c, .error e)
  | .setChoseong j => c.setChoseong j
  | .setJungseong j => c.setJungseong j
  | .setJongseong j => c.setJongseong j
  | .setHangulJamo j => c.setHangulJamo j
  | .setToHangulSyllableCode code => c.setToHangulSyllableCode code

/-! ## Further `String` operations (`string.cc`) -/

/-- The loop of `_normalize` over the characters of `_str`: a positional
codepoint is stored again through a `CharacterRef` to its own position. -/
def normalizeLoop : List Nat → Except Err (List Nat)
  | [] => .ok []
  | ch :: rest => do
    let ch1 ←
      if isPositionalUnicodeJamoCodepoint ch then do
        let c ← (Character.mk ch).setUnicodeCodepoint ch
        pure c.unicodeCodepoint
      else pure ch
    let rest1 ← normalizeLoop rest
    pure (ch1 :: rest1)

/-- Source: `StringImpl::_normalize`. -/
def String._normalize (s : String) : Except Err String := do
  let str ← normalizeLoop s._str
  pure ⟨str⟩

/-- Source: `String::String()`. -/
def String.empty : String := ⟨[]⟩

/-- Source: `StringImpl(const Character &)` and `StringImpl(const CharacterRef &)`. -/
def String.ofCharacter (c : Character) : Except Err String :=
  String._normalize ⟨[c.unicodeCodepoint]⟩

/-- Source: `StringImpl(const std::string &)`, on the codepoint sequence
`converter.from_bytes(str)` decoded from the UTF-8 bytes. -/
def String.ofCodepoints (decoded : List Nat) : Except Err String :=
  String._normalize ⟨decoded⟩

/-- Source: `StringImpl::append(const StringImpl &)`. -/
def String.append (s str : String) : String := ⟨s._str ++ str._str⟩

/-- Source: `StringImpl::append(const Character &)` and
`StringImpl::append(const CharacterRef &)`. -/
def String.appendCharacter (s : String) (c : Character) : Except Err String :=
  String._normalize ⟨s._str ++ [c.unicodeCodepoint]⟩

/-- Source: `StringImpl::prepend(const StringImpl &)`. -/
def String.prepend (s str : String) : String := ⟨str._str ++ s._str⟩

/-- Source: `StringImpl::prepend(const Character &)` and
`StringImpl::prepend(const CharacterRef &)`. -/
def String.prependCharacter (s : String) (c : Character) : Except Err String :=
  String._normalize ⟨c.unicodeCodepoint :: s._str⟩

/-- Source: `StringImpl::clear`. -/
def String.clear (_s : String) : String := ⟨[]⟩

/-- The statement `s.characterAt(i)->call`: the string afterwards and the
outcome of the call. The reference aliases the `i`-th element of `_str`; an
index outside the string fails the assertions of `characterAt`. -/
def String.mutateAt (s : String) (i : Nat) (call : CharacterCall) :
    Except Err (String × Except Err Unit) :=
  if i < s._str.length then
    let r := (Character.mk (s._str.getD i 0)).call call
    .ok (⟨s._str.set i r.1.unicodeCodepoint⟩, r.2)
  else .error .undefinedBehaviour

/-- The conversion of a difference of iterators to the `int` stored in the result. -/
def castToInt (x : Int) : Int := (x + 2 ^ 31) % 2 ^ 32 - 2 ^ 31

/-- The condition of the loop of `findMatchesEndingWithJamo` on the character
`c`, with the short-circuit evaluation of `&&` and `||`. -/
def matchesEndingWithJamo (c : Character) (jamo : HangulJamo) : Except Err Bool :=
  if c.type = .HangulSyllable then do
    let v ← c.jungseong
    if v = jamo then pure true
    else do
      let t ← c.jongseong
      pure (decide (t = jamo))
  else if c.type = .HangulJamo then do
    let j ← c.hangulJamo
    pure (decide (j = jamo))
  else pure false

/-- The loop of `findMatchesEndingWithJamo` over the characters from
`startingIndex` on; `k` is the distance `iter - (_str.begin() + startingIndex)`. -/
def findMatchesLoop (jamo : HangulJamo) : List Nat → Nat → List Int → Except Err (List Int)
  | [], _, result => .ok result
  | ch :: rest, k, result => do
    let b ← matchesEndingWithJamo ⟨ch⟩ jamo
    findMatchesLoop jamo rest (k + 1) (if b then result ++ [castToInt k] else result)

/-- Source: `StringImpl::findMatchesEndingWithJamo`. A starting index beyond
the end makes the loop run outside the string. -/
def String.findMatchesEndingWithJamo (s : String) (startingIndex : Nat) (jamo : HangulJamo) :
    Except Err (List Int) :=
  if startingIndex ≤ s._str.length then
    findMatchesLoop jamo (s._str.drop startingIndex) 0 []
  else .error .undefinedBehaviour

/-- A `String` made through the public operations. -/
inductive StringTerm where
  /-- The string `String()`. -/
  | empty
  /-- The string `String(c)` of a `Character` or a `CharacterRef`. -/
  | ofCharacter (c : Character)
  /-- The string `String(str)` of a UTF-8 string that decodes to `decoded`. -/
  | ofCodepoints (decoded : List Nat)
  /-- The string `String(hstr)` of a `HangulString`. -/
  | ofHangulString (hstr : List Nat)
  /-- The call `append(str)` with a string. -/
  | append (s str : StringTerm)
  /-- The call `append(c)` with a character. -/
  | appendCharacter (s : StringTerm) (c : Character)
  /-- The call `prepend(str)` with a string. -/
  | prepend (s str : StringTerm)
  /-- The call `prepend(c)` with a character. -/
  | prependCharacter (s : StringTerm) (c : Character)
  /-- The call `substring(start, end)`. -/
  | substring (s : StringTerm) (start end_ : Nat)
  /-- The call `clear()`. -/
  | clear (s : StringTerm)
  /-- The call `encapsulateNonHangul()`. -/
  | encapsulateNonHangul (s : StringTerm)
  /-- The call `restoreNonHangul(sidecar)` with the sidecar that
  `encapsulateNonHangul()` returned on the string `origin`. -/
  | restoreNonHangul (s origin : StringTerm)
  /-- The call `restoreNonHangul(EncapsulatedNonHangul())`. -/
  | restoreNonHangulEmpty (s : StringTerm)
  /-- The statement `characterAt(i)->call`. -/
  | mutateAt (s : StringTerm) (i : Nat) (call : CharacterCall)
  deriving Repr

/-- The outcome of `restoreNonHangul` as one result; a loop that has not
returned counts as undefined. -/
def restoreOutcome (r : Option (Except Err String)) : Except Err String :=
  match r with
  | some (.ok s) => .ok s
  | some (.error e) => .error e
  | none => .error .undefinedBehaviour

/-- The string a `StringTerm` makes, if every operation of it returns. -/
def StringTerm.eval : StringTerm → Except Err String
  | .empty => .ok String.empty
  | .ofCharacter c => String.ofCharacter c
  | .ofCodepoints decoded => String.ofCodepoints decoded
  | .ofHangulString hstr => .ok (String.ofHangulString hstr)
  | .append s str => do
    let a ← s.eval
    let b ← str.eval
    pure (a.append b)
  | .appendCharacter s c => do
    let a ← s.eval
    a.appendCharacter c
  | .prepend s str => do
    let a ← s.eval
    let b ← str.eval
    pure (a.prepend b)
  | .prependCharacter s c => do
    let a ← s.eval
    a.prependCharacter c
  | .substring s start end_ => do
    let a ← s.eval
    pure (a.substring start end_)
  | .clear s => do
    let a ← s.eval
    pure a.clear
  | .encapsulateNonHangul s => do
    let a ← s.eval
    match a.encapsulateNonHangul with
    | some r => pure r.1
    | none => throw Err.undefinedBehaviour
  | .restoreNonHangul s origin => do
    let a ← s.eval
    let o ← origin.eval
    match o.encapsulateNonHangul with
    | some r => restoreOutcome (a.restoreNonHangul r.2)
    | none => throw Err.undefinedBehaviour
  | .restoreNonHangulEmpty s => do
    let a ← s.eval
    restoreOutcome (a.restoreNonHangul ⟨[]⟩)
  | .mutateAt s i call => do
    let a ← s.eval
    let r ← a.mutateAt i call
    pure r.1

/-! ## Further `Segmentations` operations (`segmentations.h`) -/

/-- Source: `removeWord(startPos, endPos)`. -/
def Segmentations.removeWord (s : Segmentations) (startPos endPos : Int) :
    Except Err Segmentations := do
  let bit ← s.bitForWord startPos endPos
  if bit < s._words.length then pure { s with _words := s._words.set bit false }
  else throw Err.undefinedBehaviour

/-- The loop `for (int i = startPos; i < _sentenceLength; ++i)` of
`wordsStartingAt`, with the number of iterations left. -/
def wordsStartingAtLoop (s : Segmentations) (startPos : Int) :
    Nat → Int → List Int → Except Err (List Int)
  | 0, _, words => .ok words
  | n + 1, i, words => do
    let b ← s.word startPos i
    wordsStartingAtLoop s startPos n (i + 1) (if b then words ++ [i] else words)

/-- Source: `wordsStartingAt(startPos)`. -/
def Segmentations.wordsStartingAt (s : Segmentations) (startPos : Int) :
    Except Err (List Int) :=
  wordsStartingAtLoop s startPos ((s._sentenceLength : Int) - startPos).toNat startPos []

/-- The loop `for (int i = endPos; i >= 0; --i)` of `wordsEndingAt`, with the
number of iterations left. -/
def wordsEndingAtLoop (s : Segmentations) (endPos : Int) :
    Nat → Int → List Int → Except Err (List Int)
  | 0, _, words => .ok words
  | n + 1, i, words => do
    let b ← s.word i endPos
    wordsEndingAtLoop s endPos n (i - 1) (if b then words ++ [i] else words)

/-- Source: `wordsEndingAt(endPos)`. -/
def Segmentations.wordsEndingAt (s : Segmentations) (endPos : Int) :
    Except Err (List Int) :=
  wordsEndingAtLoop s endPos (endPos + 1).toNat endPos []

/-- A call of one of the mutating methods of `Segmentations`. -/
inductive SegmentationsCall where
  /-- The call `addWord(startPos, endPos)`. -/
  | addWord (startPos endPos : Int)
  /-- The call `removeWord(startPos, endPos)`. -/
  | removeWord (startPos endPos : Int)
  deriving DecidableEq, Repr

/-- The object after a call of a mutating method. -/
def Segmentations.call (s : Segmentations) : SegmentationsCall → Except Err Segmentations
  | .addWord startPos endPos => s.addWord startPos endPos
  | .removeWord startPos endPos => s.removeWord startPos endPos

/-- The object after a sequence of calls that all return. -/
def Segmentations.calls : Segmentations → List SegmentationsCall → Except Err Segmentations
  | s, [] => .ok s
  | s, op :: ops => do
    let s1 ← s.call op
    Segmentations.calls s1 ops

/-! ## Auxiliary definitions for the trie proofs

The queries of the frozen trie are first restated on the editing tree
(`findNode`, `findChildren`, `findRoot`); the invariants of the tree and the
layout of the serialized node array relate the two. -/

/-- The id of the first child with an empty label, as the last loop of `findWord`
computes it; `d` is returned when there is none (`findWord` returns
`NIME_TRIE_WORD_NOT_FOUND` then). -/
def zeroNodeId (d : Nat) : List TrieNode → Nat
  | [] => d
  | n :: ns => if n.value = [] then n.id else zeroNodeId d ns

mutual
/-- What `findWord` returns once it stands at a node with `rest` left of the key,
with `d` for the constant `NIME_TRIE_WORD_NOT_FOUND`. -/
def findNode (d : Nat) : TrieNode → List Nat → Nat
  | .mk _ children id, rest =>
    if rest = [] then (if children.length = 0 then id else zeroNodeId d children)
    else findChildren d children rest
/-- What `findWord` returns when it scans a list of siblings with `rest` left of
the key, with `d` for the constant `NIME_TRIE_WORD_NOT_FOUND`. -/
def findChildren (d : Nat) : List TrieNode → List Nat → Nat
  | [], _ => d
  | .mk value children id :: ns, rest =>
    if compareHStr rest value = value.length ∧ value ≠ [] then
      findNode d (.mk value children id) (rest.drop value.length)
    else findChildren d ns rest
end

/-- What `findWord` returns for the key `hstr` on a trie with the given root
children, with `d` for the constant `NIME_TRIE_WORD_NOT_FOUND`. -/
def findRoot (d : Nat) (rootChildren : List TrieNode) (hstr : List Nat) : Nat :=
  if hstr = [] then zeroNodeId d rootChildren else findChildren d rootChildren hstr

/-- A string over the `HangulString` alphabet: every byte lies in `1..29`. -/
def JamoBytes (v : List Nat) : Prop := ∀ b ∈ v, b ≠ 0 ∧ b ≤ 29

mutual
/-- Invariant of a node: the label is over the alphabet `1..29`, a node with an empty label is
a leaf, and the children are well formed. -/
def NodeOK : TrieNode → Prop
  | .mk value children _ => JamoBytes value ∧ (value = [] → children = []) ∧ ChildrenOK children
/-- Invariant of a list of siblings: the first bytes of the labels are pairwise
different, where an empty label counts as first byte 0 (so at most one label is
empty), and every sibling is well formed. -/
def ChildrenOK : List TrieNode → Prop
  | [] => True
  | n :: ns => NodeOK n ∧ (∀ m ∈ ns, m.value.headD 0 ≠ n.value.headD 0) ∧ ChildrenOK ns
end

/-- Invariant of the children of the root: well-formed siblings with non-empty labels. -/
def RootOK (rootChildren : List TrieNode) : Prop :=
  ChildrenOK rootChildren ∧ ∀ n ∈ rootChildren, n.value ≠ []

/-- The first bytes of the labels of a list of siblings (0 for an empty label). -/
def heads (cs : List TrieNode) : List Nat := cs.map fun n => n.value.headD 0

/-- The label `v` is non-empty and the key `q` starts with all of it: the test
under which `findWord` and `addWord` descend into a child. -/
def Matches (q v : List Nat) : Prop := compareHStr q v = v.length ∧ v ≠ []

/-- The children of the root after a sequence of `addWord` calls with the given
byte keys (and `replace` set). -/
def addAll : List TrieNode → List (List Nat × Nat) → List TrieNode
  | root, [] => root
  | root, (k, id) :: rest => addAll (addWordRoot root k id true).1 rest

/-- The id paired with the last occurrence of the key `q` in a list of
insertions, `d` when there is none. -/
def lastId : List (List Nat × Nat) → List Nat → Nat → Nat
  | [], _, d => d
  | (k, id) :: rest, q, d => lastId rest q (if q = k then id else d)

/-- The `HangulString` of a codepoint sequence, by recursion on the sequence. -/
def hangulBytesAll : List Nat → Except Err (List Nat)
  | [] => .ok []
  | c :: cs =>
    match hangulBytes c with
    | .error e => .error e
    | .ok bs =>
      match hangulBytesAll cs with
      | .error e => .error e
      | .ok r => .ok (bs ++ r)

/-! ## Auxiliary definitions: the layout of the serialized node array -/

/-- The zero-terminated string `v` stands in the buffer at position `q`. -/
def labelAt (buf : List Nat) : Nat → List Nat → Prop
  | q, [] => readU8 buf q = 0
  | q, b :: bs => readU8 buf q = b ∧ labelAt buf (q + 1) bs

/-- The number of bytes the nodes of one level take. -/
def levelSize : List TrieNode → Nat
  | [] => 0
  | n :: ns => 1 + 4 + n.value.length + 1 + levelSize ns

/-- The number of bytes all descendants of the nodes of one level take. -/
def subSize : List TrieNode → Nat
  | [] => 0
  | .mk _ children _ :: ts => levelSize children + subSize children + subSize ts

mutual
/-- A node fits the serialized format: its label is over the alphabet `1..29`
and, with the 6 bytes of header and terminator, shorter than 256 bytes (the
range of `getLenght`), it has fewer than 256 children, its id is a 32-bit
number, and its children fit. -/
def NodeFits : TrieNode → Prop
  | .mk value children id =>
    JamoBytes value ∧ value.length + 6 < 256 ∧ children.length < 256 ∧ id < 2 ^ 32 ∧
      ChildrenFit children
/-- All nodes of a list of siblings fit the serialized format. -/
def ChildrenFit : List TrieNode → Prop
  | [] => True
  | n :: ns => NodeFits n ∧ ChildrenFit ns
end

/-- The headers of the siblings `ts` stand in the buffer from position `p` on:
for each node its number of children, its id if it is a leaf, and its label. -/
def Hdr (buf : List Nat) : Nat → List TrieNode → Prop
  | _, [] => True
  | p, n :: ts =>
    readU8 buf p = n.children.length ∧ labelAt buf (p + 5) n.value ∧
      (n.children.length = 0 → readU32 buf (p + 1) = n.id) ∧
      Hdr buf (p + (1 + 4 + n.value.length + 1)) ts

/-- The siblings `ts` and all their descendants stand in the buffer the way
`writeChildren` lays them out: the nodes of the level start at `q`, the node at
hand at `q + offset`, and the children of the next node with children start at
`q + cls`. -/
def Lay (buf : List Nat) : Nat → Nat → Nat → List TrieNode → Prop
  | _, _, _, [] => True
  | q, offset, cls, .mk value children id :: ts =>
    readU8 buf (q + offset) = children.length ∧ labelAt buf (q + offset + 5) value ∧
      value.length + 6 < 256 ∧ offset + (1 + 4 + value.length + 1) ≤ cls ∧ cls < 2 ^ 32 ∧
      (children.length = 0 → readU32 buf (q + offset + 1) = id) ∧
      (children.length ≠ 0 →
        readU32 buf (q + offset + 1) = cls - offset ∧
        Lay buf (q + cls) 0 (levelSize children) children) ∧
      Lay buf q (offset + (1 + 4 + value.length + 1))
        (cls + (levelSize children + subSize children)) ts

/-! ## Auxiliary definitions: byte keys of strings -/

/-- The byte key `addWord` and `findWord` use for a string (empty when the
conversion throws). -/
def encodeKey (s : String) : List Nat :=
  match s.toHangulString with
  | .ok h => h
  | .error _ => []

/-- The insertions `addWords` performs, on byte keys. -/
def encodeWords (ws : List (String × Nat)) : List (List Nat × Nat) :=
  ws.map fun p => (encodeKey p.1, p.2)

/-- The number of bytes `freeze` needs for the serialized node array, computed
without wrap-around. -/
def TrieImpl.serializedSize (t : TrieImpl) : Nat :=
  1 + (levelSize t._rootChildren + subSize t._rootChildren)

/-! ## Auxiliary definitions: `findWordPrefixes` read on the editing tree -/

/-- The hits of the children with an empty label: each is reported with the
offset `off` reached in the key. -/
def zeroHits (off : Nat) : List TrieNode → List (Nat × Nat)
  | [] => []
  | n :: ns => if n.value = [] then (off, n.id) :: zeroHits off ns else zeroHits off ns

/-- Some child has an empty label. -/
def hasZero : List TrieNode → Bool
  | [] => false
  | n :: ns => if n.value = [] then true else hasZero ns

mutual
/-- The hits (key offset, id) `findWordPrefixes` reports from a node on, reached
with `off` bytes of the key consumed and `rest` left. -/
def prefixesNode : TrieNode → Nat → List Nat → List (Nat × Nat)
  | .mk _ children id, off, rest =>
    if children.length = 0 then [(off, id)]
    else zeroHits off children ++ prefixesChildren children off rest
/-- The hits `findWordPrefixes` reports below the child it descends into. -/
def prefixesChildren : List TrieNode → Nat → List Nat → List (Nat × Nat)
  | [], _, _ => []
  | .mk value children id :: ns, off, rest =>
    if compareHStr rest value = value.length ∧ value ≠ [] then
      prefixesNode (.mk value children id) (off + value.length) (rest.drop value.length)
    else prefixesChildren ns off rest
end

/-- The hits `findWordPrefixes` reports for the key `hstr` on a trie with the
given root children. -/
def prefixesRoot (rootChildren : List TrieNode) (hstr : List Nat) : List (Nat × Nat) :=
  zeroHits 0 rootChildren ++ prefixesChildren rootChildren 0 hstr

/-- The `WordIdPair`s made from hits: the word of a hit is the key up to its offset. -/
def hitPairs (hstr : List Nat) (hits : List (Nat × Nat)) : List WordIdPair :=
  hits.map fun p => ⟨String.ofHangulString (hstr.take p.1), p.2⟩

/-- The id of the first child with an empty label, if there is one. -/
def lookupZero : List TrieNode → Option Nat
  | [] => none
  | n :: ns => if n.value = [] then some n.id else lookupZero ns

mutual
/-- The id stored for the key `rest` below a node, if there is one. -/
def lookupNode : TrieNode → List Nat → Option Nat
  | .mk _ children id, rest =>
    if rest = [] then (if children.length = 0 then some id else lookupZero children)
    else lookupChildren children rest
/-- The id stored for the key `rest` below a list of siblings, if there is one. -/
def lookupChildren : List TrieNode → List Nat → Option Nat
  | [], _ => none
  | .mk value children id :: ns, rest =>
    if compareHStr rest value = value.length ∧ value ≠ [] then
      lookupNode (.mk value children id) (rest.drop value.length)
    else lookupChildren ns rest
end

/-- The id stored for the key `hstr` in a trie with the given root children. -/
def lookupRoot (rootChildren : List TrieNode) (hstr : List Nat) : Option Nat :=
  if hstr = [] then lookupZero rootChildren else lookupChildren rootChildren hstr

/-- What the child loop of `findWordPrefixes` achieves on the siblings `cs`,
scanned from a state without a child to descend to: either no sibling matches
and only the hits of empty labels are added, or the loop continues from the
matching sibling and finally returns the hits below it as well. -/
def ScanSpec (cs : List TrieNode) : Prop :=
  ∀ (buf : List Nat) (q offset cls : Nat) (hstr : List Nat) (off fuel : Nat) (st : PrefixScan),
    ChildrenOK cs → Lay buf q offset cls cs → 1 ≤ q → hstr.length ≤ off + fuel + 1 →
    st.descendTo = none →
    ((scanPrefixes buf q hstr off cs.length offset st).descendTo = none ∧
      (∀ n ∈ cs, ¬ Matches (hstr.drop off) n.value) ∧
      (scanPrefixes buf q hstr off cs.length offset st).prefixes =
        st.prefixes ++ hitPairs hstr (zeroHits off cs) ∧
      (scanPrefixes buf q hstr off cs.length offset st).foundZeroNode =
        (st.foundZeroNode || hasZero cs)) ∨
    (∃ p o, (scanPrefixes buf q hstr off cs.length offset st).descendTo = some (p, o) ∧
      findWordPrefixesLoop buf hstr fuel p o
          (scanPrefixes buf q hstr off cs.length offset st).prefixes =
        .ok (st.prefixes ++ hitPairs hstr (zeroHits off cs) ++
          hitPairs hstr (prefixesChildren cs off (hstr.drop off))))

/-! ## Auxiliary definitions: the specification of the `HangulString` conversion -/

/-- The bytes of a codepoint as the specification words them: the single byte 29
for the sentinel, and lead index + 1, vowel index + 1, trail index + 1 for a
syllable. -/
def specHangulBytes (c : Nat) : List Nat :=
  if c = EncapsulatedNonHangulCode then [29]
  else [(c - 0xAC00) / 588 + 1, (c - 0xAC00) % 588 / 28 + 1, (c - 0xAC00) % 588 % 28 + 1]

/-! ## Auxiliary definitions: the specification of encapsulation -/

/-- The string with the `k`-th sentinel replaced by the `k`-th run, for as many
sentinels as there are runs; the text of a run is not looked at again. -/
def restored : List Nat → List (List Nat) → List Nat
  | [], _ => []
  | c :: cs, [] => c :: cs
  | c :: cs, r :: rs =>
    if c = EncapsulatedNonHangulCode then r ++ restored cs rs else c :: restored cs (r :: rs)

/-- The encapsulated form of a string that follows an open run `buffer` of
codepoints that are not syllables: the run is closed by the next syllable or by
the end of the string and becomes one sentinel. The result is the rewritten
string and the list of runs. -/
def encapsulated : List Nat → List Nat → List Nat × List (List Nat)
  | [], buffer => if buffer = [] then ([], []) else ([EncapsulatedNonHangulCode], [buffer])
  | c :: cs, buffer =>
    if isSyllableCodepoint c then
      if buffer = [] then (c :: (encapsulated cs []).1, (encapsulated cs []).2)
      else (EncapsulatedNonHangulCode :: c :: (encapsulated cs []).1,
            buffer :: (encapsulated cs []).2)
    else encapsulated cs (buffer ++ [c])

/-- The string and the sidecar `encapsulateNonHangul` returns, from the state
in which its loop ends. -/
def encapsulateResult (st : EncapState) : List Nat × List (List Nat) :=
  if st.buffer.length > 0 then
    (replaceRange st.str st.startPos st.str.length [EncapsulatedNonHangulCode],
      st.enh ++ [st.buffer])
  else (st.str, st.enh)

/-! ## Auxiliary definitions: the id stored for a string key -/

/-- The id the editing tree holds for the key `k`, if the key is present. -/
def TrieImpl.storedId (t : TrieImpl) (k : String) : Option Nat :=
  lookupRoot t._rootChildren (encodeKey k)

/-! ## Auxiliary definitions: the words of a tree and the states of an iterator -/

mutual
/-- The words below a node reached with the labels `pre`: a leaf gives the
concatenation of the labels on its path and its id. -/
def leavesNode : TrieNode → List Nat → List (List Nat × Nat)
  | .mk value children id, pre =>
    if children.length = 0 then [(pre ++ value, id)]
    else leavesChildren children (pre ++ value)
/-- The words below a list of siblings reached with the labels `pre`, from left
to right. -/
def leavesChildren : List TrieNode → List Nat → List (List Nat × Nat)
  | [], _ => []
  | n :: ns, pre => leavesNode n pre ++ leavesChildren ns pre
end

/-- The `WordIdPair`s made from words given as byte strings. -/
def leafPairs (leaves : List (List Nat × Nat)) : List WordIdPair :=
  leaves.map fun p => ⟨String.ofHangulString p.1, p.2⟩

/-- The chain of parents of an iterator stands for nodes laid out in the
buffer, and `outs` are the words to the right of these nodes, from the nearest
parent outwards. -/
def FramesOK (buf : List Nat) (size : Nat) : List IteratorFrame → List (List Nat × Nat) → Prop
  | [], outs => outs = []
  | f :: fs, outs =>
    ∃ q offset cls n rs outs1,
      f._snaPointer = q + offset ∧ Lay buf q offset cls (n :: rs) ∧ ChildrenOK (n :: rs) ∧
      q + cls + subSize (n :: rs) ≤ size ∧ f._childrenLeft = rs.length ∧
      FramesOK buf size fs outs1 ∧ outs = leavesChildren rs f._prefixBytes ++ outs1

/-- The iterator stands at a node laid out in the buffer, and `out` are the
words from this node on: those below it, those to its right, and those to the
right of its parents. -/
def IterAt (buf : List Nat) (size : Nat) (it : IteratorImpl) (out : List (List Nat × Nat)) :
    Prop :=
  ∃ q offset cls cur rs outs,
    it._snaPointer = q + offset ∧ Lay buf q offset cls (cur :: rs) ∧ ChildrenOK (cur :: rs) ∧
    q + cls + subSize (cur :: rs) ≤ size ∧ it._childrenLeft = rs.length ∧
    FramesOK buf size it._parent outs ∧
    out = leavesChildren (cur :: rs) it._prefixBytes ++ outs

/-! ## The class template `HashTable<T>` for both key types (`hash_table.h`, `hash_table.cc`)

The source ends with `template class HashTable<uint32_t>;` and
`template class HashTable<uint64_t>;`. The key type `T` enters the code through
`sizeof(T)`, the wrap-around of the arithmetic in `T`, the overload of `hash`
chosen for an argument of type `T`, and the conversion between `int` and `T`
in the lookup loops. The definitions below are those of the instance
`HashTable<uint32_t>` above with the key type as a parameter. -/

/-- Source: the overload `hash(uint64_t)`, the 64-bit finalizer of MurmurHash3. -/
def hash64 (h : Nat) : Nat :=
  let h := h ^^^ (h >>> 33)
  let h := (h * 0xff51afd7ed558ccd) % 2 ^ 64
  let h := h ^^^ (h >>> 33)
  let h := (h * 0xc4ceb9fe1a85ec53) % 2 ^ 64
  h ^^^ (h >>> 33)

/-- The key types the template `HashTable<T>` is instantiated with. -/
inductive KeyType where
  /-- The instance `HashTable<uint32_t>`. -/
  | uint32_t
  /-- The instance `HashTable<uint64_t>`. -/
  | uint64_t
  deriving DecidableEq, Repr

/-- The value of `sizeof(T)`. -/
def KeyType.size : KeyType → Nat
  | .uint32_t => 4
  | .uint64_t => 8

/-- The number of values of `T`: arithmetic in `T` is modulo this number. -/
def KeyType.modulus (K : KeyType) : Nat := 2 ^ (8 * K.size)

/-- The overload of `hash` chosen for an argument of type `T`. -/
def KeyType.hash : KeyType → Nat → Nat
  | .uint32_t => hash32
  | .uint64_t => hash64

/-- The `int` a value of `T` is converted to in `int dist = i - startingLocation`:
the low 32 bits, read in two's complement. -/
def toInt (x : Nat) : Int :=
  if x % 2 ^ 32 < 2 ^ 31 then Int.ofNat (x % 2 ^ 32) else Int.ofNat (x % 2 ^ 32) - 2 ^ 32

/-- The value of `T` an `int` is converted to in the comparison
`dist > i - (hash(...) % _bucketsNo)`, whose right side has type `T`. -/
def KeyType.ofInt (K : KeyType) (z : Int) : Nat :=
  (z % Int.ofNat K.modulus).toNat

/-- The probe loop of `insert` in `HashTable<T>`. Each unit of fuel is one
iteration. The result is the table and the returned `int`, or `none` while the
fuel does not suffice. -/
def Template.insertLoop {V : Type} [Zero V] (K : KeyType) :
    Nat → HashTable V → Nat → V → Nat → Nat → Bool → Option (HashTable V × Int)
  | 0, _, _, _, _, _, _ => none
  | fuel + 1, ht, id, value, desiredPosition, position, reachedStart =>
    if reachedStart && position == (ht._bucketsNo + K.modulus - 1) % K.modulus then
      some (ht, -1)
    else
      let b := ht._buckets.getD position Bucket.zero
      if !b.used then
        some ({ ht with
                _buckets := ht._buckets.set position ⟨id, value, true⟩
                _usedUpBuckets := (ht._usedUpBuckets + 1) % K.modulus }, 0)
      else if b.id = id then
        some ({ ht with _buckets := ht._buckets.set position { b with value := value } }, 1)
      else
        let dist := (position + K.modulus - desiredPosition) % K.modulus
        let currentBucketDist :=
          (position + K.modulus - K.hash b.id % ht._bucketsNo) % K.modulus
        let reachedStart1 := reachedStart || position == 0
        let position1 := (position + 1) % K.modulus % ht._bucketsNo
        if currentBucketDist < dist then
          Template.insertLoop K fuel
            { ht with _buckets := ht._buckets.set position { b with id := id, value := value } }
            b.id b.value (K.hash b.id % ht._bucketsNo) position1 reachedStart1
        else
          Template.insertLoop K fuel ht id value desiredPosition position1 reachedStart1

/-- Source: `rehash(bucketsNo)` in `HashTable<T>`, given the function `ins` that
`this->insert` denotes. -/
def Template.rehashWith {V : Type} [Zero V] (K : KeyType)
    (ins : HashTable V → Nat → V → Option (HashTable V × Int))
    (ht : HashTable V) (bucketsNo : Nat) : Option (HashTable V) :=
  let originalBuckets := ht._buckets
  let originalBucketsNo := ht._bucketsNo
  let fresh : HashTable V :=
    ⟨bucketsNo, List.replicate (bucketsNo * 2 % K.modulus) Bucket.zero, 0⟩
  (List.range originalBucketsNo).foldlM (fun acc i =>
    let b := originalBuckets.getD i Bucket.zero
    if b.used then (ins acc b.id b.value).map Prod.fst else some acc) fresh

/-- Source: `insert(id, value)` in `HashTable<T>`. The first argument bounds the
nesting of `insert → rehash → insert`: a call whose nesting stays within the
bound returns what the code returns, for every such bound. The probe loop
visits at most `2 * _bucketsNo` slots before its exit test holds. A capacity of
`0` makes `hashValue % _bucketsNo` undefined, which the model does not
represent. -/
def Template.insertN {V : Type} [Zero V] (K : KeyType) :
    Nat → HashTable V → Nat → V → Option (HashTable V × Int)
  | 0, _, _, _ => none
  | depth + 1, ht, id, value =>
    let grown :=
      if needsGrowth ht._usedUpBuckets ht._bucketsNo then
        Template.rehashWith K (Template.insertN K depth) ht (2 * ht._bucketsNo % K.modulus)
      else some ht
    match grown with
    | none => none
    | some ht1 =>
      let desiredPosition := K.hash id % ht1._bucketsNo
      Template.insertLoop K (2 * ht1._bucketsNo + 1) ht1 id value desiredPosition
        desiredPosition false

/-- The table after a sequence of `insert` calls on `ht` in `HashTable<T>`, each
with the nesting bound `depth`, with the values they returned. -/
def Template.insertAll {V : Type} [Zero V] (K : KeyType) (depth : Nat) :
    HashTable V → List (Nat × V) → Option (HashTable V × List Int)
  | ht, [] => some (ht, [])
  | ht, (id, value) :: rest =>
    match Template.insertN K depth ht id value with
    | none => none
    | some (ht1, r) =>
      match Template.insertAll K depth ht1 rest with
      | none => none
      | some (ht2, rs) => some (ht2, r :: rs)

/-- The common loop of `retrieve` and `exists` in `HashTable<T>`, started at
slot `i`. Each unit of fuel is one iteration; `none` means that the loop has
not returned yet. The difference `i - startingLocation` is stored in an `int`
and converted back to `T` for the comparison. -/
def Template.lookupLoop {V : Type} [Zero V] (K : KeyType) :
    Nat → HashTable V → Nat → Nat → Nat → Option (Probe V)
  | 0, _, _, _, _ => none
  | fuel + 1, ht, id, startingLocation, i =>
    if ¬ i < ht._bucketsNo then some .absent
    else
      let dist := toInt ((i + K.modulus - startingLocation) % K.modulus)
      let b := ht._buckets.getD i Bucket.zero
      if !b.used then some .absent
      else if K.ofInt dist > (i + K.modulus - K.hash b.id % ht._bucketsNo) % K.modulus then
        some .absent
      else if b.id = id then some (.found b.value)
      else
        Template.lookupLoop K fuel ht id startingLocation
          ((i + 1) % K.modulus % ht._bucketsNo)

/-- Source: `retrieve(id)` in `HashTable<T>`, run for `fuel` iterations of its loop. -/
def Template.retrieve {V : Type} [Zero V] (K : KeyType) (fuel : Nat) (ht : HashTable V)
    (id : Nat) : Option V :=
  match Template.lookupLoop K fuel ht id (K.hash id % ht._bucketsNo)
      (K.hash id % ht._bucketsNo) with
  | none => none
  | some .absent => some 0
  | some (.found v) => some v

/-- Source: `exists(id)` in `HashTable<T>`, run for `fuel` iterations of its loop. -/
def Template.exists {V : Type} [Zero V] (K : KeyType) (fuel : Nat) (ht : HashTable V)
    (id : Nat) : Option Bool :=
  match Template.lookupLoop K fuel ht id (K.hash id % ht._bucketsNo)
      (K.hash id % ht._bucketsNo) with
  | none => none
  | some .absent => some false
  | some (.found _) => some true

/-- The loop of `HashTable<T>::writeToStream` from slot `i` on, for `count`
slots: the id in `sizeof(T)` bytes, the `double` as its 8-byte pattern, the
flag as one `char`. -/
def Template.writeBuckets (K : KeyType) (buckets : List (Bucket Nat)) :
    Nat → Nat → List Nat → List Nat
  | 0, _, os => os
  | count + 1, i, os =>
    let b := buckets.getD i Bucket.zero
    let os1 := StreamBinaryWrite K.size os b.id
    let os2 := StreamBinaryWrite 8 os1 b.value
    let os3 := StreamBinaryWriteBool os2 b.used
    Template.writeBuckets K buckets count (i + 1) os3

/-- Source: `HashTable<T>::writeToStream`. -/
def Template.writeToStream (K : KeyType) (ht : HashTable Nat) (os : List Nat) : List Nat :=
  Template.writeBuckets K ht._buckets ht._bucketsNo 0 (StreamBinaryWrite K.size os ht._bucketsNo)

/-- The loop of `HashTable<T>::loadFromStream`: the slots of the new array,
which are assigned in order, and the rest of the stream. -/
def Template.loadBuckets (K : KeyType) : Nat → List Nat →
    Except Err (List (Bucket Nat) × List Nat)
  | 0, is_ => .ok ([], is_)
  | count + 1, is_ =>
    match StreamBinaryRead K.size is_ with
    | .error e => .error e
    | .ok (id, is1) =>
      match StreamBinaryRead 8 is1 with
      | .error e => .error e
      | .ok (value, is2) =>
        match StreamBinaryReadBool is2 with
        | .error e => .error e
        | .ok (used, is3) =>
          match Template.loadBuckets K count is3 with
          | .error e => .error e
          | .ok (rest, is4) => .ok (⟨id, value, used⟩ :: rest, is4)

/-- Source: `HashTable<T>::loadFromStream`: the table afterwards and the rest of
the stream. The counter `_usedUpBuckets` is not assigned. -/
def Template.loadFromStream (K : KeyType) (ht : HashTable Nat) (is_ : List Nat) :
    Except Err (HashTable Nat × List Nat) :=
  match StreamBinaryRead K.size is_ with
  | .error e => .error e
  | .ok (bucketsNo, is1) =>
    match Template.loadBuckets K bucketsNo is1 with
    | .error e => .error e
    | .ok (buckets, is2) => .ok (⟨bucketsNo, buckets, ht._usedUpBuckets⟩, is2)

/-- Source: the constructor `HashTable(std::istream& is)` of `HashTable<T>`. The
default member initialiser sets `_usedUpBuckets = 0`; the other two fields are
assigned by `loadFromStream`. -/
def Template.ofStream (K : KeyType) (is_ : List Nat) : Except Err (HashTable Nat × List Nat) :=
  Template.loadFromStream K (HashTable.mk 0 [] 0) is_

/-! ## Auxiliary definitions: occupancy and probe order of the hash table -/

/-- The slots of the table: the first `_bucketsNo` entries of the bucket array. -/
def HashTable.slots {V : Type} (ht : HashTable V) : List (Bucket V) :=
  ht._buckets.take ht._bucketsNo

/-- The number of slots whose `used` flag is set. -/
def HashTable.usedSlots {V : Type} (ht : HashTable V) : Nat :=
  (ht.slots.filter fun b => b.used).length

/-- The table of capacity 2 after `insert(1, 10)` and `insert(3, 20)`: both ids
have home slot 1, the second one went on to slot 0. -/
def tableTwoFull : HashTable Int :=
  ⟨2, [⟨3, 20, true⟩, ⟨1, 10, true⟩], 2⟩

/-- Whether slot `i` is used. -/
def HashTable.usedAt {V : Type} [Zero V] (ht : HashTable V) (i : Nat) : Bool :=
  (ht._buckets.getD i Bucket.zero).used

/-- The home of the id in slot `i`: `hash(id) % _bucketsNo`. -/
def HashTable.homeAt {V : Type} [Zero V] (K : KeyType) (ht : HashTable V) (i : Nat) : Nat :=
  K.hash (ht._buckets.getD i Bucket.zero).id % ht._bucketsNo

/-- The probe distance of the id in slot `i`: `(slot - home) mod C`. -/
def HashTable.distAt {V : Type} [Zero V] (K : KeyType) (ht : HashTable V) (i : Nat) : Nat :=
  (i + ht._bucketsNo - ht.homeAt K i) % ht._bucketsNo

/-- Every slot from the home of a stored id to its slot (cyclically) is used. -/
def HashTable.PathsUsed {V : Type} [Zero V] (K : KeyType) (ht : HashTable V) : Prop :=
  ∀ i, i < ht._bucketsNo → ht.usedAt i = true →
    ∀ j, j ≤ ht.distAt K i → ht.usedAt ((ht.homeAt K i + j) % ht._bucketsNo) = true

/-- For cyclically adjacent used slots `i` and `i + 1` the probe distance in
slot `i + 1` is at most one more than that in slot `i`. -/
def HashTable.NeighboursOrdered {V : Type} [Zero V] (K : KeyType) (ht : HashTable V) : Prop :=
  ∀ i, i < ht._bucketsNo → ht.usedAt i = true →
    ht.usedAt ((i + 1) % ht._bucketsNo) = true →
    ht.distAt K ((i + 1) % ht._bucketsNo) ≤ ht.distAt K i + 1

/-- A lookup walking forward from the home of a stored id meets, before the
slot of the id, only used slots whose occupant has a probe distance that is
not smaller than its own. -/
def HashTable.LookupOrdered {V : Type} [Zero V] (K : KeyType) (ht : HashTable V) : Prop :=
  ∀ i, i < ht._bucketsNo → ht.usedAt i = true →
    ∀ j, j ≤ ht.distAt K i →
      ht.usedAt ((ht.homeAt K i + j) % ht._bucketsNo) = true ∧
      j ≤ ht.distAt K ((ht.homeAt K i + j) % ht._bucketsNo)

instance {V : Type} [Zero V] (K : KeyType) (ht : HashTable V) : Decidable (ht.PathsUsed K) := by
  unfold HashTable.PathsUsed
  infer_instance

instance {V : Type} [Zero V] (K : KeyType) (ht : HashTable V) :
    Decidable (ht.NeighboursOrdered K) := by
  unfold HashTable.NeighboursOrdered
  infer_instance

instance {V : Type} [Zero V] (K : KeyType) (ht : HashTable V) :
    Decidable (ht.LookupOrdered K) := by
  unfold HashTable.LookupOrdered
  infer_instance

/-- The table has a capacity of at least 1 and in the range of the key type, a
bucket array that holds all slots, and a counter that is the number of used
slots. -/
def HashTable.WellShaped {V : Type} [Zero V] (K : KeyType) (ht : HashTable V) : Prop :=
  1 ≤ ht._bucketsNo ∧ ht._bucketsNo < K.modulus ∧ ht._bucketsNo ≤ ht._buckets.length ∧
    ht._usedUpBuckets = ht.usedSlots

/-- The state of the probe loop of `insert` that carries an id with home
`desiredPosition` and has made `k` steps: the slots it has passed are used,
each by an id whose probe distance is not smaller than the probe's was there. -/
def HashTable.Carried {V : Type} [Zero V] (K : KeyType) (ht : HashTable V)
    (desiredPosition k : Nat) : Prop :=
  ∀ j, j < k →
    ht.usedAt ((desiredPosition + j) % ht._bucketsNo) = true ∧
    j ≤ ht.distAt K ((desiredPosition + j) % ht._bucketsNo)

/-! ## Auxiliary definitions: sibling groups, shapes and positions of the nodes -/

mutual
/-- The lists of siblings below a node: its children and the lists below them. -/
def groupsBelowNode : TrieNode → List (List TrieNode)
  | .mk _ children _ => children :: groupsBelow children
/-- The lists of siblings below the nodes of a list. -/
def groupsBelow : List TrieNode → List (List TrieNode)
  | [] => []
  | n :: ns => groupsBelowNode n ++ groupsBelow ns
end

/-- The lists of siblings of a trie: the children of the root and the children
of every node. -/
def siblingGroups (rootChildren : List TrieNode) : List (List TrieNode) :=
  rootChildren :: groupsBelow rootChildren

mutual
/-- The node with the id of every node that has children replaced by `u`. -/
def withInnerId (u : Nat) : TrieNode → TrieNode
  | .mk value children id =>
    .mk value (withInnerIds u children) (if children.length > 0 then u else id)
/-- The nodes with the id of every node that has children replaced by `u`. -/
def withInnerIds (u : Nat) : List TrieNode → List TrieNode
  | [] => []
  | n :: ns => withInnerId u n :: withInnerIds u ns
end

/-- A node as the serialized node array holds it: its depth (1 for a child of
the root), the position of its parent (0 for the root), its own position and
its label. -/
structure Placed where
  /-- The depth of the node. -/
  depth : Nat
  /-- The position of the parent. -/
  parent : Nat
  /-- The position of the node. -/
  pos : Nat
  /-- The label of the node. -/
  label : List Nat
  deriving DecidableEq, Repr

mutual
/-- The nodes of the subtree of a node that `writeChildren` puts at `q + offset`
while the children of the next node with children go to `q + cls`. -/
def placedNode : Nat → Nat → Nat → Nat → Nat → TrieNode → List Placed
  | depth, parent, q, offset, cls, .mk value children _ =>
    ⟨depth, parent, q + offset, value⟩ ::
      placedLevel (depth + 1) (q + offset) (q + cls) 0 (levelSize children) children
/-- The nodes of the subtrees of the siblings `ts`, the first of which
`writeChildren` puts at `q + offset`, with the arguments of `Lay`. -/
def placedLevel : Nat → Nat → Nat → Nat → Nat → List TrieNode → List Placed
  | _, _, _, _, _, [] => []
  | depth, parent, q, offset, cls, t :: ts =>
    placedNode depth parent q offset cls t ++
      placedLevel depth parent q (offset + (1 + 4 + t.value.length + 1))
        (cls + (levelSize t.children + subSize t.children)) ts
end

/-- The nodes of a frozen trie with the given children of the root, which
`freeze` writes from position 1 on. -/
def placed (rootChildren : List TrieNode) : List Placed :=
  placedLevel 1 0 1 0 (levelSize rootChildren) rootChildren

/-- The terminators of the labels of the siblings `ts` stored from position `p`
on: for each node there is a zero byte behind its 5 bytes of header and before
the start of the next node. -/
def Terms (buf : List Nat) : Nat → List TrieNode → Prop
  | _, [] => True
  | p, n :: ts =>
    (∃ z, p + 5 ≤ z ∧ z < p + (1 + 4 + n.value.length + 1) ∧ readU8 buf z = 0) ∧
      Terms buf (p + (1 + 4 + n.value.length + 1)) ts

/-! ## Theorems: character codec -/

/-- Every jamo is either rejected as a lead or maps to a lead index that maps back to it. -/
theorem choseong_table (L : HangulJamo) :
    ∃ x, _hangulJamoToChoseong L = .ok x ∧
      (x = CI ∨ (x ≤ 18 ∧ _choseongToHangulJamo x = .ok L)) := by
  cases L <;> exact ⟨_, rfl, by decide⟩

/-- Every jamo is either rejected as a vowel or maps to a vowel index that maps back to it. -/
theorem jungseong_table (V : HangulJamo) :
    ∃ x, _hangulJamoToJungseong V = .ok x ∧
      (x = CI ∨ (x ≤ 20 ∧ _jungseongToHangulJamo x = .ok V)) := by
  cases V <;> exact ⟨_, rfl, by decide⟩

/-- Every jamo is either rejected as a trail or maps to a trail index that maps back to it. -/
theorem jongseong_table (T : HangulJamo) :
    ∃ x, _hangulJamoToJongseong T = .ok x ∧
      (x = CI ∨ (x ≤ 27 ∧ _jongseongToHangulJamo x = .ok T)) := by
  cases T <;> exact ⟨_, rfl, by decide⟩

/-- A codepoint outside the positional blocks is stored unchanged. -/
theorem setUnicodeCodepoint_plain (c : Character) (cp : Nat)
    (h : isPositionalUnicodeJamoCodepoint cp = false) :
    c.setUnicodeCodepoint cp = .ok ⟨cp⟩ := by
  simp [Character.setUnicodeCodepoint, setUnicodeCodepointFuel, h]

/-- Codepoints from `0xAC00` on are not positional jamo. -/
theorem syllable_not_positional (cp : Nat) (h : 0xac00 ≤ cp) :
    isPositionalUnicodeJamoCodepoint cp = false := by
  simp only [isPositionalUnicodeJamoCodepoint, Bool.or_eq_false_iff, Bool.and_eq_false_iff,
    decide_eq_false_iff_not]
  omega

/-- The three-jamo constructor on jamo that are members of their positions: the
codepoint it stores, the type, and the jamo read back. -/
theorem ofJamos_of_valid (L V T : HangulJamo) (l v t : Nat)
    (hl : _hangulJamoToChoseong L = .ok l) (hlv : l ≠ CI)
    (hv : _hangulJamoToJungseong V = .ok v) (hvv : v ≠ CI)
    (ht : _hangulJamoToJongseong T = .ok t) (htv : t ≠ CI) :
    l ≤ 18 ∧ v ≤ 20 ∧ t ≤ 27 ∧
    ∃ c, Character.ofJamos L V T = .ok c ∧
      c.unicodeCodepoint = 0xAC00 + 588 * l + 28 * v + t ∧
      c.type = .HangulSyllable ∧
      c.choseong = .ok L ∧ c.jungseong = .ok V ∧ c.jongseong = .ok T := by
  obtain ⟨l', hl', hL⟩ := choseong_table L
  obtain ⟨v', hv', hV⟩ := jungseong_table V
  obtain ⟨t', ht', hT⟩ := jongseong_table T
  rw [hl] at hl'; rw [hv] at hv'; rw [ht] at ht'
  cases hl'; cases hv'; cases ht'
  obtain ⟨hl18, hLr⟩ := hL.resolve_left hlv
  obtain ⟨hv20, hVr⟩ := hV.resolve_left hvv
  obtain ⟨ht27, hTr⟩ := hT.resolve_left htv
  refine ⟨hl18, hv20, ht27, ⟨0xAC00 + 588 * l + 28 * v + t⟩, ?_, rfl, ?_, ?_, ?_, ?_⟩
  · have hcp : (0xac00 + l * 0x24c + v * 0x1c + t) % 2 ^ 32 = 0xAC00 + 588 * l + 28 * v + t := by
      omega
    simp only [Character.ofJamos, hl, hv, ht, bind, Except.bind, hlv, hvv, htv, if_false,
      pure, Except.pure, hcp]
    exact setUnicodeCodepoint_plain _ _ (syllable_not_positional _ (by omega))
  · simp only [Character.type, Character.unicodeCodepoint]
    rw [if_pos (by omega)]
  · have ty : (Character.mk (0xAC00 + 588 * l + 28 * v + t)).type = .HangulSyllable := by
      simp only [Character.type, Character.unicodeCodepoint]
      rw [if_pos (by omega)]
    simp only [Character.choseong, ty, ne_eq, not_true_eq_false, if_false,
      Character.choseongImpl, Character.unicodeCodepoint]
    have h1 : (0xAC00 + 588 * l + 28 * v + t + 2 ^ 32 - 0xac00) % 2 ^ 32
        = 588 * l + 28 * v + t := by omega
    have : ((0xAC00 + 588 * l + 28 * v + t + 2 ^ 32 - 0xac00) % 2 ^ 32 / 0x24c) % 256 = l := by
      rw [h1]; omega
    rw [this]; exact hLr
  · have ty : (Character.mk (0xAC00 + 588 * l + 28 * v + t)).type = .HangulSyllable := by
      simp only [Character.type, Character.unicodeCodepoint]
      rw [if_pos (by omega)]
    simp only [Character.jungseong, ty, ne_eq, not_true_eq_false, if_false,
      Character.jungseongImpl, Character.unicodeCodepoint]
    have h1 : (0xAC00 + 588 * l + 28 * v + t + 2 ^ 32 - 0xac00) % 2 ^ 32
        = 588 * l + 28 * v + t := by omega
    have : ((0xAC00 + 588 * l + 28 * v + t + 2 ^ 32 - 0xac00) % 2 ^ 32 % 0x24c / 0x1c) % 256
        = v := by
      rw [h1]; omega
    rw [this]; exact hVr
  · have ty : (Character.mk (0xAC00 + 588 * l + 28 * v + t)).type = .HangulSyllable := by
      simp only [Character.type, Character.unicodeCodepoint]
      rw [if_pos (by omega)]
    simp only [Character.jongseong, ty, ne_eq, not_true_eq_false, if_false,
      Character.jongseongImpl, Character.unicodeCodepoint]
    have h1 : (0xAC00 + 588 * l + 28 * v + t + 2 ^ 32 - 0xac00) % 2 ^ 32
        = 588 * l + 28 * v + t := by omega
    have : ((0xAC00 + 588 * l + 28 * v + t + 2 ^ 32 - 0xac00) % 2 ^ 32 % 0x24c % 0x1c) % 256
        = t := by
      rw [h1]; omega
    rw [this]; exact hTr


/-- C10: for a lead `L`, vowel `V` and trail `T` that are members of their
positions, with positional indices `l`, `v`, `t` (the table entries, different
from `CI`), the indices lie in `0..18`, `0..20`, `0..27`, the constructor
`Character(L, V, T)` returns a character with codepoint
`0xAC00 + 588 * l + 28 * v + t` and type `HangulSyllable`, and its `choseong()`,
`jungseong()`, `jongseong()` return `L`, `V`, `T`. -/
theorem ofJamos_spec (L V T : HangulJamo) (l v t : Nat)
    (hl : _hangulJamoToChoseong L = .ok l) (hlv : l ≠ CI)
    (hv : _hangulJamoToJungseong V = .ok v) (hvv : v ≠ CI)
    (ht : _hangulJamoToJongseong T = .ok t) (htv : t ≠ CI) :
    l ≤ 18 ∧ v ≤ 20 ∧ t ≤ 27 ∧
    ∃ c, Character.ofJamos L V T = .ok c ∧
      c.unicodeCodepoint = 0xAC00 + 588 * l + 28 * v + t ∧
      c.type = .HangulSyllable ∧
      c.choseong = .ok L ∧ c.jungseong = .ok V ∧ c.jongseong = .ok T :=
  ofJamos_of_valid L V T l v t hl hlv hv hvv ht htv

/-- Witness for `ofJamos_spec`: `Character(Hieut, A, Nieun)` is U+D55C (54620). -/
theorem ofJamos_spec_witness :
    _hangulJamoToChoseong .Hieut = .ok 18 ∧ _hangulJamoToJungseong .A = .ok 0 ∧
    _hangulJamoToJongseong .Nieun = .ok 4 ∧
    (18 ≤ 18 ∧ 0 ≤ 20 ∧ 4 ≤ 27 ∧
      ∃ c, Character.ofJamos .Hieut .A .Nieun = .ok c ∧
        c.unicodeCodepoint = 0xAC00 + 588 * 18 + 28 * 0 + 4 ∧
        c.type = .HangulSyllable ∧
        c.choseong = .ok .Hieut ∧ c.jungseong = .ok .A ∧ c.jongseong = .ok .Nieun) :=
  ⟨by decide, by decide, by decide,
    ofJamos_spec .Hieut .A .Nieun 18 0 4 (by decide) (by decide) (by decide) (by decide)
      (by decide) (by decide)⟩

/-- Decomposing and recomposing gives back the codepoint for every syllable in
`[0xAC00, 0xD7A3]`, the range covered by the conversion tables. -/
theorem recompose_of_assigned_syllable (cp : Nat) (h1 : 0xAC00 ≤ cp) (h2 : cp ≤ 0xD7A3) :
    (Character.mk cp).recompose = .ok ⟨cp⟩ := by
  obtain ⟨l, v, t, hl, hv, ht, rfl⟩ :
      ∃ l v t, l ≤ 18 ∧ v ≤ 20 ∧ t ≤ 27 ∧ cp = 0xAC00 + 588 * l + 28 * v + t :=
    ⟨(cp - 0xAC00) / 588, (cp - 0xAC00) % 588 / 28, (cp - 0xAC00) % 588 % 28,
      by omega, by omega, by omega, by omega⟩
  have hL : ∃ L, _choseongToHangulJamo l = .ok L ∧ _hangulJamoToChoseong L = .ok l := by
    interval_cases l <;> exact ⟨_, rfl, rfl⟩
  have hV : ∃ V, _jungseongToHangulJamo v = .ok V ∧ _hangulJamoToJungseong V = .ok v := by
    interval_cases v <;> exact ⟨_, rfl, rfl⟩
  have hT : ∃ T, _jongseongToHangulJamo t = .ok T ∧ _hangulJamoToJongseong T = .ok t := by
    interval_cases t <;> exact ⟨_, rfl, rfl⟩
  obtain ⟨L, hL1, hL2⟩ := hL
  obtain ⟨V, hV1, hV2⟩ := hV
  obtain ⟨T, hT1, hT2⟩ := hT
  have hCI : l ≠ CI ∧ v ≠ CI ∧ t ≠ CI := by
    simp only [CI]; omega
  obtain ⟨_, _, _, c, hc, hcp, hty, hcL, hcV, hcT⟩ :=
    ofJamos_of_valid L V T l v t hL2 hCI.1 hV2 hCI.2.1 hT2 hCI.2.2
  have hcc : c = ⟨0xAC00 + 588 * l + 28 * v + t⟩ := by
    cases c; simp only [Character.unicodeCodepoint] at hcp; simp [hcp]
  subst hcc
  simp only [Character.recompose, hcL, hcV, hcT, bind, Except.bind, hc]

/-- C9: the character with codepoint `0xD7A4` has type `HangulSyllable`, yet its
`choseong()` indexes `_choseongToComp` at 19, past the end of the 19-entry
table, so `Character(c.choseong(), c.jungseong(), c.jongseong())` does not yield
a character equal to `c`. -/
theorem recompose_fails_at_D7A4 :
    Character.ofCodepoint 0xD7A4 = .ok ⟨0xD7A4⟩ ∧
    (Character.mk 0xD7A4).type = .HangulSyllable ∧
    (Character.mk 0xD7A4).choseong = .error .undefinedBehaviour ∧
    (Character.mk 0xD7A4).recompose = .error .undefinedBehaviour := by
  decide

/-! ## Theorems: string encapsulation -/

/-- C8: on the string `a`, `ENCAP`, `한`, `x` the sequence
`encapsulateNonHangul` / `restoreNonHangul` does not give back the string:
the sidecar holds the runs `[a, ENCAP]` and `[x]`, and after the first run is
put back the loop takes the sentinel inside it for the place of the second
run, yielding `a`, `x`, `한`, `ENCAP`. -/
theorem encapsulate_restore_not_identity :
    (String.mk [0x61, EncapsulatedNonHangulCode, 0xD55C, 0x78]).encapsulateNonHangul =
      some (⟨[EncapsulatedNonHangulCode, 0xD55C, EncapsulatedNonHangulCode]⟩,
            ⟨[[0x61, EncapsulatedNonHangulCode], [0x78]]⟩) ∧
    (String.mk [0x61, EncapsulatedNonHangulCode, 0xD55C, 0x78]).encapsulateThenRestore =
      some (.ok ⟨[0x61, 0x78, 0xD55C, EncapsulatedNonHangulCode]⟩) ∧
    (String.mk [0x61, EncapsulatedNonHangulCode, 0xD55C, 0x78]).encapsulateThenRestore ≠
      some (.ok ⟨[0x61, EncapsulatedNonHangulCode, 0xD55C, 0x78]⟩) := by
  decide

/-! ## Theorems: hash table -/

/-- C5: on a fresh table of capacity 2, after `insert(0, 10)` and `insert(2, 20)`
(both ids hash to slot 0) the id 2 is not stored: the probe loop leaves before
looking at slot 1, and `retrieve(2)` returns 0 instead of 20. -/
theorem retrieve_after_insert_lost :
    (HashTable.new 2 : HashTable Int).insertAll [(0, 10), (2, 20)] =
      some (tableTwoAfterInserts, [0, -1]) ∧
    ∀ fuel, tableTwoAfterInserts.retrieve (fuel + 2) 2 = some 0 := by
  refine ⟨by decide, fun fuel => ?_⟩
  have h : hash32 2 % 2 = 0 := by decide
  simp only [HashTable.retrieve, tableTwoAfterInserts, h, lookupLoop]
  simp

/-- C6: on a fresh table of capacity 2 holding only id 0, `insert(2, 20)`
returns -1 although id 2 is absent and slot 1 is free; the used count stays 1. -/
theorem insert_returns_minus_one :
    (HashTable.new 2 : HashTable Int).insert 0 10 = some (tableTwoAfterInserts, 0) ∧
    tableTwoAfterInserts.insert 2 20 = some (tableTwoAfterInserts, -1) ∧
    tableTwoAfterInserts._usedUpBuckets = 1 := by
  decide

/-- C7: on a table of capacity 1 that holds id 0, `exists(1)` and `retrieve(1)`
never return: the loop condition `i < _bucketsNo` always holds and the single
slot is occupied by another id at the same probe distance. -/
theorem exists_never_returns :
    (HashTable.new 1 : HashTable Int).insert 0 10 = some (⟨1, [⟨0, 10, true⟩], 1⟩, 0) ∧
    ∀ fuel, (HashTable.mk 1 [⟨0, (10 : Int), true⟩] 1).exists fuel 1 = none ∧
      (HashTable.mk 1 [⟨0, (10 : Int), true⟩] 1).retrieve fuel 1 = none := by
  refine ⟨by decide, fun fuel => ?_⟩
  have h1 : hash32 1 % 1 = 0 := by decide
  have key : ∀ n, lookupLoop n (HashTable.mk 1 [⟨0, (10 : Int), true⟩] 1) 1 0 0 = none := by
    intro n
    induction n with
    | zero => rfl
    | succ n ih =>
      have hh : hash32 0 % 1 = 0 := by decide
      simp only [lookupLoop, hh]
      simpa using ih
  simp only [HashTable.exists, HashTable.retrieve, h1, key, and_self]

/-! ## Theorems: insertion into the editing trie -/

/-- Comparing with an empty key gives 0. -/
theorem compareHStr_nil_left (b : List Nat) : compareHStr [] b = 0 := by
  cases b <;> rfl

/-- Comparing with an empty label gives 0. -/
theorem compareHStr_nil_right (a : List Nat) : compareHStr a [] = 0 := by
  cases a <;> rfl

/-- One step of `compareHStr`. -/
theorem compareHStr_cons (a b : Nat) (as bs : List Nat) :
    compareHStr (a :: as) (b :: bs) =
      if a ≠ 0 ∧ b ≠ 0 ∧ a = b then compareHStr as bs + 1 else 0 := rfl

/-- The common part is no longer than the label. -/
theorem compareHStr_le_right (a b : List Nat) : compareHStr a b ≤ b.length := by
  induction a generalizing b with
  | nil => simp [compareHStr_nil_left]
  | cons x xs ih =>
    cases b with
    | nil => simp [compareHStr_nil_right]
    | cons y ys =>
      rw [compareHStr_cons]
      split
      · simpa using ih ys
      · simp

/-- The common part is no longer than the key. -/
theorem compareHStr_le_left (a b : List Nat) : compareHStr a b ≤ a.length := by
  induction a generalizing b with
  | nil => simp [compareHStr_nil_left]
  | cons x xs ih =>
    cases b with
    | nil => simp [compareHStr_nil_right]
    | cons y ys =>
      rw [compareHStr_cons]
      split
      · simpa using ih ys
      · simp

/-- Key and label agree on the common part. -/
theorem compareHStr_take (a b : List Nat) :
    a.take (compareHStr a b) = b.take (compareHStr a b) := by
  induction a generalizing b with
  | nil => simp [compareHStr_nil_left]
  | cons x xs ih =>
    cases b with
    | nil => simp [compareHStr_nil_right]
    | cons y ys =>
      rw [compareHStr_cons]
      split
      · rename_i h
        simp [List.take_succ_cons, h.2.2, ih ys]
      · simp

/-- On jamo-byte strings the whole label is common exactly when it starts the key. -/
theorem compareHStr_eq_length_iff (a b : List Nat) (hb : JamoBytes b) (ha : JamoBytes a) :
    compareHStr a b = b.length ↔ b <+: a := by
  induction a generalizing b with
  | nil =>
    cases b with
    | nil => simp [compareHStr_nil_left]
    | cons y ys => simp [compareHStr_nil_left]
  | cons x xs ih =>
    cases b with
    | nil => simp [compareHStr_nil_right]
    | cons y ys =>
      have hy : y ≠ 0 := (hb y (by simp)).1
      have hx : x ≠ 0 := (ha x (by simp)).1
      have hys : JamoBytes ys := fun b hb' => hb b (by simp [hb'])
      have hxs : JamoBytes xs := fun b hb' => ha b (by simp [hb'])
      rw [compareHStr_cons, List.cons_prefix_cons]
      by_cases hxy : x = y
      · subst hxy
        simp [hx, ih ys hys hxs]
      · simp [hxy]
        intro h; exact absurd h.symm hxy

/-- On jamo-byte strings something is common exactly when the first bytes agree. -/
theorem compareHStr_pos_iff (a b : List Nat) (hb : JamoBytes b) (ha : JamoBytes a) :
    0 < compareHStr a b ↔ a ≠ [] ∧ b ≠ [] ∧ a.headD 0 = b.headD 0 := by
  cases a with
  | nil => simp [compareHStr_nil_left]
  | cons x xs =>
    cases b with
    | nil => simp [compareHStr_nil_right]
    | cons y ys =>
      have hy : y ≠ 0 := (hb y (by simp)).1
      have hx : x ≠ 0 := (ha x (by simp)).1
      rw [compareHStr_cons]
      by_cases hxy : x = y
      · subst hxy; simp [hx]
      · simp [hxy]

/-- Simultaneous induction over a node and over a list of sibling nodes. -/
theorem trie_induction {P : TrieNode → Prop} {Q : List TrieNode → Prop}
    (hmk : ∀ v cs id, Q cs → P (.mk v cs id))
    (hnil : Q [])
    (hcons : ∀ n ns, P n → Q ns → Q (n :: ns)) :
    (∀ n, P n) ∧ (∀ l, Q l) :=
  ⟨fun n => @TrieNode.rec P Q hmk hnil hcons n,
   fun l => @TrieNode.rec_1 P Q hmk hnil hcons l⟩

/-- A matching label has the first byte of the key. -/
theorem head_eq_of_match (q v : List Nat) (h : compareHStr q v = v.length) (hv : v ≠ []) :
    q.headD 0 = v.headD 0 := by
  cases v with
  | nil => exact absurd rfl hv
  | cons y ys =>
    cases q with
    | nil => simp [compareHStr_nil_left] at h
    | cons x xs =>
      rw [compareHStr_cons] at h
      split at h
      · rename_i hh; simp [hh.2.2]
      · simp at h

/-- Unfolding of `findNode`. -/
theorem findNode_mk {d : Nat} (v : List Nat) (cs : List TrieNode) (id : Nat) (rest : List Nat) :
    findNode d (.mk v cs id) rest =
      if rest = [] then (if cs.length = 0 then id else zeroNodeId d cs)
      else findChildren d cs rest := by
  rw [findNode]

/-- Unfolding of `findChildren` on an empty list. -/
theorem findChildren_nil {d : Nat} (rest : List Nat) :
    findChildren d [] rest = d := by
  rw [findChildren]

/-- Unfolding of `findChildren` on a non-empty list. -/
theorem findChildren_cons {d : Nat} (v : List Nat) (cs : List TrieNode) (id : Nat)
    (ns : List TrieNode)
    (rest : List Nat) :
    findChildren d (.mk v cs id :: ns) rest =
      if compareHStr rest v = v.length ∧ v ≠ [] then
        findNode d (.mk v cs id) (rest.drop v.length)
      else findChildren d ns rest := by
  rw [findChildren]

/-- Unfolding of `addAtNode`. -/
theorem addAtNode_mk (value : List Nat) (children : List TrieNode) (nid : Nat)
    (rest : List Nat) (id : Nat) (replace : Bool) :
    addAtNode (.mk value children nid) rest id replace =
      if rest = [] then finishAtNode value children nid id replace
      else
        match scanChildren children rest id replace with
        | some (cs, r) => (TrieNode.mk value cs nid, r)
        | none =>
          (TrieNode.mk value
            ((if children.length = 0 then [TrieNode.mk [] [] nid] else children) ++
              [TrieNode.mk rest [] id]) nid, id) := by
  rw [addAtNode] <;> rfl

/-- Unfolding of `scanChildren` on an empty list. -/
theorem scanChildren_nil (rest : List Nat) (id : Nat) (replace : Bool) :
    scanChildren [] rest id replace = none := by
  rw [scanChildren]

/-- Unfolding of `scanChildren` on a non-empty list. -/
theorem scanChildren_cons (value : List Nat) (children : List TrieNode) (nid : Nat)
    (ns : List TrieNode) (rest : List Nat) (id : Nat) (replace : Bool) :
    scanChildren (.mk value children nid :: ns) rest id replace =
      if compareHStr rest value = value.length ∧ value ≠ [] then
        some ((addAtNode (.mk value children nid) (rest.drop (compareHStr rest value)) id
          replace).1 :: ns,
          (addAtNode (.mk value children nid) (rest.drop (compareHStr rest value)) id
            replace).2)
      else if compareHStr rest value > 0 then
        some (splitNode value children nid rest (compareHStr rest value) id :: ns, id)
      else
        match scanChildren ns rest id replace with
        | some (ns1, r) => some (.mk value children nid :: ns1, r)
        | none => none := by
  rw [scanChildren] <;> rfl

/-- Unfolding of `NodeOK`. -/
theorem nodeOK_mk (v : List Nat) (cs : List TrieNode) (id : Nat) :
    NodeOK (.mk v cs id) ↔ JamoBytes v ∧ (v = [] → cs = []) ∧ ChildrenOK cs := by
  rw [NodeOK]

/-- Unfolding of `ChildrenOK` on a non-empty list. -/
theorem childrenOK_cons (n : TrieNode) (ns : List TrieNode) :
    ChildrenOK (n :: ns) ↔
      NodeOK n ∧ (∀ m ∈ ns, m.value.headD 0 ≠ n.value.headD 0) ∧ ChildrenOK ns := by
  rw [ChildrenOK]

/-- Unfolding of `ChildrenOK` on the empty list. -/
theorem childrenOK_nil : ChildrenOK [] := by
  rw [ChildrenOK]; trivial

/-! ### Basic facts on labels, heads and sibling lists -/

/-- A node is the constructor applied to its fields. -/
theorem TrieNode.eta (n : TrieNode) : n = .mk n.value n.children n.id := by
  cases n; rfl

/-- The label of a constructed node. -/
@[simp] theorem TrieNode.value_mk (v : List Nat) (cs : List TrieNode) (id : Nat) :
    (TrieNode.mk v cs id).value = v := rfl

/-- The children of a constructed node. -/
@[simp] theorem TrieNode.children_mk (v : List Nat) (cs : List TrieNode) (id : Nat) :
    (TrieNode.mk v cs id).children = cs := rfl

/-- The id of a constructed node. -/
@[simp] theorem TrieNode.id_mk (v : List Nat) (cs : List TrieNode) (id : Nat) :
    (TrieNode.mk v cs id).id = id := rfl

/-- Dropping bytes keeps a string jamo-byte. -/
theorem JamoBytes.drop {v : List Nat} (h : JamoBytes v) (n : Nat) : JamoBytes (v.drop n) :=
  fun b hb => h b (List.mem_of_mem_drop hb)

/-- Taking bytes keeps a string jamo-byte. -/
theorem JamoBytes.take {v : List Nat} (h : JamoBytes v) (n : Nat) : JamoBytes (v.take n) :=
  fun b hb => h b (List.mem_of_mem_take hb)

/-- The empty string is jamo-byte. -/
theorem jamoBytes_nil : JamoBytes [] := fun _ hb => by simp at hb

/-- A jamo-byte string is empty exactly when its first byte reads 0. -/
theorem JamoBytes.headD_eq_zero_iff {v : List Nat} (h : JamoBytes v) : v.headD 0 = 0 ↔ v = [] := by
  cases v with
  | nil => simp
  | cons x xs => simpa using (h x (by simp)).1

/-- A jamo-byte string compared with itself is common in full. -/
theorem compareHStr_self (k : List Nat) (h : JamoBytes k) : compareHStr k k = k.length :=
  (compareHStr_eq_length_iff k k h h).2 (List.prefix_refl k)

/-- After the common part nothing more is common. -/
theorem compareHStr_drop (a b : List Nat) :
    compareHStr (a.drop (compareHStr a b)) (b.drop (compareHStr a b)) = 0 := by
  induction a generalizing b with
  | nil => simp [compareHStr_nil_left]
  | cons x xs ih =>
    cases b with
    | nil => simp [compareHStr_nil_right]
    | cons y ys =>
      rw [compareHStr_cons]
      split
      · simpa using ih ys
      · rename_i h
        simp only [List.drop_zero]
        rw [compareHStr_cons, if_neg h]

/-- On jamo-byte strings `Matches` says that the non-empty label starts the key. -/
theorem matches_iff (q v : List Nat) (hq : JamoBytes q) (hv : JamoBytes v) :
    Matches q v ↔ v <+: q ∧ v ≠ [] := by
  unfold Matches
  rw [compareHStr_eq_length_iff q v hv hq]

/-- A matched label has the first byte of the key. -/
theorem Matches.head_eq {q v : List Nat} (h : Matches q v) : q.headD 0 = v.headD 0 :=
  head_eq_of_match q v h.1 h.2

/-- Membership of a head in `heads`. -/
theorem mem_heads {cs : List TrieNode} {b : Nat} :
    b ∈ heads cs ↔ ∃ n ∈ cs, n.value.headD 0 = b := by
  simp [heads]

/-- The sibling invariant on a non-empty list, with the distinctness stated on `heads`. -/
theorem childrenOK_cons_heads (n : TrieNode) (ns : List TrieNode) :
    ChildrenOK (n :: ns) ↔ NodeOK n ∧ n.value.headD 0 ∉ heads ns ∧ ChildrenOK ns := by
  rw [childrenOK_cons, mem_heads]
  constructor
  · rintro ⟨h1, h2, h3⟩
    exact ⟨h1, fun ⟨m, hm, hme⟩ => h2 m hm hme, h3⟩
  · rintro ⟨h1, h2, h3⟩
    exact ⟨h1, fun m hm hme => h2 ⟨m, hm, hme⟩, h3⟩

/-- Every sibling of a well-formed list is well formed. -/
theorem ChildrenOK.nodeOK {cs : List TrieNode} (h : ChildrenOK cs) : ∀ n ∈ cs, NodeOK n := by
  induction cs with
  | nil => intro n hn; simp at hn
  | cons c cs ih =>
    rw [childrenOK_cons] at h
    intro n hn
    rcases List.mem_cons.1 hn with rfl | hn
    · exact h.1
    · exact ih h.2.2 n hn

/-- The label of a well-formed node is jamo-byte. -/
theorem NodeOK.jamoBytes {n : TrieNode} (h : NodeOK n) : JamoBytes n.value := by
  cases n with
  | mk v cs id => rw [nodeOK_mk] at h; exact h.1

/-- The sibling invariant for a list extended at the end. -/
theorem childrenOK_append_singleton (cs : List TrieNode) (n : TrieNode) :
    ChildrenOK (cs ++ [n]) ↔ ChildrenOK cs ∧ NodeOK n ∧ n.value.headD 0 ∉ heads cs := by
  induction cs with
  | nil =>
    simp [childrenOK_cons_heads, childrenOK_nil, heads]
  | cons c cs ih =>
    rw [List.cons_append, childrenOK_cons_heads, childrenOK_cons_heads, ih]
    simp only [heads, List.map_append, List.map_cons, List.map_nil, List.mem_append,
      List.mem_singleton, List.mem_cons, not_or, List.not_mem_nil, not_false_eq_true,
      and_true]
    constructor
    · rintro ⟨h1, ⟨h2, h3⟩, h4, h5, h6⟩
      exact ⟨⟨h1, h2, h4⟩, h5, fun h => h3 h.symm, h6⟩
    · rintro ⟨⟨h1, h2, h4⟩, h5, h3, h6⟩
      exact ⟨h1, ⟨h2, fun h => h3 h.symm⟩, h4, h5, h6⟩

/-! ### The tree-level query on sibling lists -/

/-- A child that does not match is skipped. -/
theorem findChildren_cons_of_not_matches {d : Nat} (n : TrieNode) (ns : List TrieNode)
    (q : List Nat)
    (h : ¬ Matches q n.value) : findChildren d (n :: ns) q = findChildren d ns q := by
  cases n with
  | mk v cs id =>
    rw [findChildren_cons]
    exact if_neg h

/-- A child that matches is descended into. -/
theorem findChildren_cons_of_matches {d : Nat} (n : TrieNode) (ns : List TrieNode) (q : List Nat)
    (h : Matches q n.value) :
    findChildren d (n :: ns) q = findNode d n (q.drop n.value.length) := by
  cases n with
  | mk v cs id =>
    rw [findChildren_cons]
    exact if_pos h

/-- Without a matching child the query fails. -/
theorem findChildren_of_no_match {d : Nat} (cs : List TrieNode) (q : List Nat)
    (h : ∀ n ∈ cs, ¬ Matches q n.value) : findChildren d cs q = d := by
  induction cs with
  | nil => exact findChildren_nil q
  | cons c cs ih =>
    rw [findChildren_cons_of_not_matches c cs q (h c (by simp))]
    exact ih fun n hn => h n (by simp [hn])

/-- Siblings appended behind a matching child do not matter. -/
theorem findChildren_append_of_match {d : Nat} (cs l : List TrieNode) (q : List Nat)
    (h : ∃ n ∈ cs, Matches q n.value) : findChildren d (cs ++ l) q = findChildren d cs q := by
  induction cs with
  | nil => simp at h
  | cons c cs ih =>
    by_cases hc : Matches q c.value
    · rw [List.cons_append, findChildren_cons_of_matches c _ q hc,
        findChildren_cons_of_matches c _ q hc]
    · rw [List.cons_append, findChildren_cons_of_not_matches c _ q hc,
        findChildren_cons_of_not_matches c _ q hc]
      obtain ⟨n, hn, hm⟩ := h
      rcases List.mem_cons.1 hn with rfl | hn
      · exact absurd hm hc
      · exact ih ⟨n, hn, hm⟩

/-- Siblings without a match in front are skipped. -/
theorem findChildren_append_of_no_match {d : Nat} (cs l : List TrieNode) (q : List Nat)
    (h : ∀ n ∈ cs, ¬ Matches q n.value) : findChildren d (cs ++ l) q = findChildren d l q := by
  induction cs with
  | nil => rfl
  | cons c cs ih =>
    rw [List.cons_append, findChildren_cons_of_not_matches c _ q (h c (by simp))]
    exact ih fun n hn => h n (by simp [hn])

/-- A key whose first byte is no head of the siblings matches none of them. -/
theorem no_match_of_head_not_mem (cs : List TrieNode) (q : List Nat)
    (h : q.headD 0 ∉ heads cs) : ∀ n ∈ cs, ¬ Matches q n.value := by
  intro n hn hm
  exact h (mem_heads.2 ⟨n, hn, hm.head_eq.symm⟩)

/-- The query does not depend on the label of the node it stands at. -/
theorem findNode_label {d : Nat} (v w : List Nat) (cs : List TrieNode) (id : Nat) (q : List Nat) :
    findNode d (.mk v cs id) q = findNode d (.mk w cs id) q := by
  rw [findNode_mk, findNode_mk]

/-! ### The empty-label child -/

/-- Unfolding of `zeroNodeId`. -/
theorem zeroNodeId_cons {d : Nat} (n : TrieNode) (ns : List TrieNode) :
    zeroNodeId d (n :: ns) = if n.value = [] then n.id else zeroNodeId d ns := rfl

/-- A sibling with a non-empty label appended at the end is not the empty-label child. -/
theorem zeroNodeId_append_nonempty {d : Nat} (cs : List TrieNode) (n : TrieNode)
    (h : n.value ≠ []) :
    zeroNodeId d (cs ++ [n]) = zeroNodeId d cs := by
  induction cs with
  | nil => simp [zeroNodeId_cons, h, zeroNodeId]
  | cons c cs ih => simp only [List.cons_append, zeroNodeId_cons, ih]

/-- An empty-label sibling appended behind siblings with non-empty labels is found. -/
theorem zeroNodeId_append_zero {d : Nat} (cs : List TrieNode) (id : Nat)
    (h : ∀ n ∈ cs, n.value ≠ []) : zeroNodeId d (cs ++ [.mk [] [] id]) = id := by
  induction cs with
  | nil => simp [zeroNodeId_cons]
  | cons c cs ih =>
    simp only [List.cons_append, zeroNodeId_cons, h c (by simp), if_false]
    exact ih fun n hn => h n (by simp [hn])

/-- An empty label never matches. -/
theorem not_matches_nil (q : List Nat) : ¬ Matches q [] := fun h => h.2 rfl

/-! ### Replacing the id at the end of a key -/

/-- Unfolding of `setZeroNode`. -/
theorem setZeroNode_cons (id : Nat) (replace : Bool) (n : TrieNode) (ns : List TrieNode) :
    setZeroNode id replace (n :: ns) =
      match setZeroNode id replace ns with
      | some (ns1, r) => some (n :: ns1, r)
      | none =>
        if n.value = [] then
          if replace then some (TrieNode.mk n.value n.children id :: ns, id)
          else some (n :: ns, n.id)
        else none := rfl

/-- No empty-label child is found exactly when all labels are non-empty. -/
theorem setZeroNode_eq_none_iff (id : Nat) (replace : Bool) (cs : List TrieNode) :
    setZeroNode id replace cs = none ↔ ∀ n ∈ cs, n.value ≠ [] := by
  induction cs with
  | nil => simp [setZeroNode]
  | cons c cs ih =>
    rw [setZeroNode_cons]
    cases hs : setZeroNode id replace cs with
    | some p =>
      have : ¬ ∀ n ∈ cs, n.value ≠ [] := fun h => by
        rw [ih.2 h] at hs; cases hs
      simp only [List.mem_cons, forall_eq_or_imp]
      constructor
      · intro h; cases h
      · intro h; exact absurd h.2 this
    | none =>
      have hall := ih.1 hs
      by_cases hc : c.value = []
      · cases replace <;> simp [hc]
      · simp only [hc, if_false, List.mem_cons, forall_eq_or_imp, true_iff]
        exact ⟨hc, hall⟩

/-- The invariant of a node does not depend on its id. -/
theorem nodeOK_id (v : List Nat) (cs : List TrieNode) (id id1 : Nat) :
    NodeOK (.mk v cs id) ↔ NodeOK (.mk v cs id1) := by
  rw [nodeOK_mk, nodeOK_mk]

/-- With `replace` set, the empty-label child of a well-formed sibling list receives
the id; nothing else changes. -/
theorem setZeroNode_spec {d : Nat} (id : Nat) (cs : List TrieNode) (hcs : ChildrenOK cs)
    (cs1 : List TrieNode) (r : Nat) (h : setZeroNode id true cs = some (cs1, r)) :
    ChildrenOK cs1 ∧ heads cs1 = heads cs ∧ zeroNodeId d cs1 = id ∧
      ∀ q, findChildren d cs1 q = findChildren d cs q := by
  induction cs generalizing cs1 r with
  | nil => simp [setZeroNode] at h
  | cons c cs ih =>
    rw [setZeroNode_cons] at h
    rw [childrenOK_cons_heads] at hcs
    obtain ⟨hc, hhead, hrest⟩ := hcs
    cases hs : setZeroNode id true cs with
    | some p =>
      obtain ⟨ns1, r1⟩ := p
      rw [hs] at h
      simp only [Option.some.injEq, Prod.mk.injEq] at h
      obtain ⟨rfl, rfl⟩ := h
      obtain ⟨h1, h2, h3, h4⟩ := ih hrest ns1 r1 hs
      have hne : ¬ ∀ n ∈ cs, n.value ≠ [] := fun hh => by
        rw [(setZeroNode_eq_none_iff id true cs).2 hh] at hs; cases hs
      have hcv : c.value ≠ [] := by
        intro hcv
        apply hne
        intro n hn hnv
        apply hhead
        rw [mem_heads]
        exact ⟨n, hn, by simp [hnv, hcv]⟩
      refine ⟨?_, ?_, ?_, ?_⟩
      · rw [childrenOK_cons_heads]; exact ⟨hc, by rw [h2]; exact hhead, h1⟩
      · simp only [heads, List.map_cons] at h2 ⊢; rw [h2]
      · rw [zeroNodeId_cons, if_neg hcv]; exact h3
      · intro q
        by_cases hm : Matches q c.value
        · rw [findChildren_cons_of_matches c _ q hm, findChildren_cons_of_matches c _ q hm]
        · rw [findChildren_cons_of_not_matches c _ q hm,
            findChildren_cons_of_not_matches c _ q hm]
          exact h4 q
    | none =>
      by_cases hcv : c.value = []
      · simp only [hs, hcv, if_true, Option.some.injEq, Prod.mk.injEq] at h
        obtain ⟨rfl, rfl⟩ := h
        have hc1 : NodeOK (.mk [] c.children id) := by
          have := hc
          rw [c.eta, hcv] at this
          exact (nodeOK_id _ _ _ _).1 this
        refine ⟨?_, ?_, ?_, ?_⟩
        · rw [childrenOK_cons_heads]
          exact ⟨hc1, by simpa [hcv] using hhead, hrest⟩
        · simp [heads, hcv]
        · simp [zeroNodeId_cons]
        · intro q
          have h1 : ¬ Matches q (TrieNode.mk [] c.children id).value := by
            simpa using not_matches_nil q
          have h2 : ¬ Matches q c.value := by rw [hcv]; exact not_matches_nil q
          rw [findChildren_cons_of_not_matches _ _ q h1,
            findChildren_cons_of_not_matches c _ q h2]
      · simp [hs, hcv] at h

/-! ### Splitting an edge -/

/-- The first byte of a non-empty initial part. -/
theorem headD_take (v : List Nat) (c : Nat) (hc : 0 < c) : (v.take c).headD 0 = v.headD 0 := by
  cases v with
  | nil => simp
  | cons x xs =>
    cases c with
    | zero => omega
    | succ c => simp

/-- The first byte of a key that starts with a non-empty string. -/
theorem headD_of_take_eq {p q : List Nat} (h : p <+: q) (hp : p ≠ []) :
    q.headD 0 = p.headD 0 := by
  obtain ⟨t, rfl⟩ := h
  cases p with
  | nil => exact absurd rfl hp
  | cons x xs => simp

/-- The edge split of `addWord`: the split node is well formed, keeps the first
byte of the label, and changes the query exactly at the inserted key. -/
theorem splitNode_spec {d : Nat} (v : List Nat) (cs : List TrieNode) (nid : Nat)
    (ns : List TrieNode)
    (k : List Nat) (id : Nat)
    (hn : NodeOK (.mk v cs nid)) (hhead : v.headD 0 ∉ heads ns) (hk : JamoBytes k)
    (hpos : 0 < compareHStr k v) (hlt : compareHStr k v < v.length) :
    NodeOK (splitNode v cs nid k (compareHStr k v) id) ∧
    (splitNode v cs nid k (compareHStr k v) id).value.headD 0 = v.headD 0 ∧
    ∀ q, JamoBytes q → q ≠ [] →
      findChildren d (splitNode v cs nid k (compareHStr k v) id :: ns) q =
        if q = k then id else findChildren d (.mk v cs nid :: ns) q := by
  rw [nodeOK_mk] at hn
  obtain ⟨hv, -, hcs⟩ := hn
  generalize hc : compareHStr k v = c at hpos hlt
  have hck : c ≤ k.length := hc ▸ compareHStr_le_left k v
  have hp : k.take c = v.take c := hc ▸ compareHStr_take k v
  have hd : compareHStr (k.drop c) (v.drop c) = 0 := hc ▸ compareHStr_drop k v
  have hplen : (k.take c).length = c := by simp [hck]
  have hpne : k.take c ≠ [] := by
    intro h; rw [h] at hplen; simp at hplen; omega
  have hv'ne : v.drop c ≠ [] := by
    intro h
    have := congrArg List.length h
    simp at this; omega
  have hkz : JamoBytes (k.drop c) := hk.drop c
  have hvz : JamoBytes (v.drop c) := hv.drop c
  have hpz : JamoBytes (k.take c) := hk.take c
  have hheads : (k.drop c).headD 0 ≠ (v.drop c).headD 0 := by
    intro h
    have := (compareHStr_pos_iff (k.drop c) (v.drop c) hvz hkz).2
    by_cases hk' : k.drop c = []
    · rw [hk'] at h
      exact hv'ne (hvz.headD_eq_zero_iff.1 h.symm)
    · have := this ⟨hk', hv'ne, h⟩
      omega
  have hkeq : k = k.take c ++ k.drop c := (List.take_append_drop c k).symm
  have hveq : v = k.take c ++ v.drop c := by rw [hp]; exact (List.take_append_drop c v).symm
  have hphead : (k.take c).headD 0 = v.headD 0 := by rw [hp]; exact headD_take v c hpos
  have hpk : k.take c <+: k := List.take_prefix c k
  refine ⟨?_, ?_, ?_⟩
  · simp only [splitNode]
    rw [nodeOK_mk]
    refine ⟨hpz, fun h => absurd h hpne, ?_⟩
    rw [childrenOK_cons_heads, childrenOK_cons_heads, nodeOK_mk, nodeOK_mk]
    refine ⟨⟨hkz, fun _ => rfl, childrenOK_nil⟩, ?_, ⟨hvz, fun h => absurd h hv'ne, hcs⟩, ?_,
      childrenOK_nil⟩
    · simpa [heads] using hheads
    · simp [heads]
  · simpa [splitNode] using hphead
  · intro q hq hqne
    have hsv : (splitNode v cs nid k c id).value = k.take c := by simp [splitNode]
    by_cases hm : Matches q (k.take c)
    · have hpq : k.take c <+: q := ((matches_iff q _ hq hpz).1 hm).1
      have hqeq : q = k.take c ++ q.drop c := by
        obtain ⟨t, ht⟩ := hpq
        have : q.drop c = t := by
          rw [← ht, List.drop_append_eq_append_drop, hplen]; simp [hplen]
        rw [this]; exact ht.symm
      have hq'z : JamoBytes (q.drop c) := hq.drop c
      have hqhead : q.headD 0 = v.headD 0 := by
        rw [headD_of_take_eq hpq hpne]; exact hphead
      have hns : findChildren d ns q = d :=
        findChildren_of_no_match ns q
          (no_match_of_head_not_mem ns q (by rw [hqhead]; exact hhead))
      -- matching `v` on `q` is matching the rest of `v` on the rest of `q`
      have hF3 : Matches q v ↔ Matches (q.drop c) (v.drop c) := by
        rw [matches_iff q v hq hv, matches_iff _ _ hq'z hvz]
        constructor
        · rintro ⟨h1, _⟩
          refine ⟨?_, hv'ne⟩
          rw [hveq, hqeq] at h1
          simpa [List.prefix_append_right_inj] using h1
        · rintro ⟨h1, _⟩
          refine ⟨?_, fun h => by rw [h] at hlt; simp at hlt⟩
          rw [hveq, hqeq]
          simpa [List.prefix_append_right_inj] using h1
      have hqk : q = k ↔ q.drop c = k.drop c := by
        constructor
        · intro h; rw [h]
        · intro h; rw [hqeq, hkeq, h]; simp
      have hm' : Matches q (splitNode v cs nid k c id).value := by rw [hsv]; exact hm
      rw [findChildren_cons_of_matches _ _ q hm', hsv, hplen]
      simp only [splitNode]
      rw [findNode_mk]
      by_cases hq' : q.drop c = []
      · rw [if_pos hq']
        simp only [List.length_cons, List.length_nil, zeroNodeId_cons, TrieNode.value_mk,
          TrieNode.id_mk, hv'ne, if_false]
        have : (q = k) ↔ (k.drop c = []) := by rw [hqk, hq']; exact eq_comm
        by_cases hk' : k.drop c = []
        · simp [hk', this]
        · have hnm : ¬ Matches q v := by
            rw [hF3, hq']
            intro h
            have := (compareHStr_nil_left (v.drop c)) ▸ h.1
            exact hv'ne (List.length_eq_zero.1 this.symm)
          simp only [hk', this, if_false]
          rw [findChildren_cons_of_not_matches _ _ q (by simpa using hnm), hns]
          simp [zeroNodeId]
      · rw [if_neg hq']
        by_cases hmk : Matches (q.drop c) (k.drop c)
        · have hkq' : k.drop c <+: q.drop c := ((matches_iff _ _ hq'z hkz).1 hmk).1
          rw [findChildren_cons_of_matches _ _ _ (by simpa using hmk)]
          simp only [TrieNode.value_mk]
          rw [findNode_mk]
          have hiff : (q = k) ↔ ((q.drop c).drop (k.drop c).length = []) := by
            rw [hqk]
            obtain ⟨t, ht⟩ := hkq'
            rw [← ht]
            simp
          by_cases hr : (q.drop c).drop (k.drop c).length = []
          · rw [if_pos hr, if_pos (hiff.2 hr)]
            simp
          · have hnm : ¬ Matches q v := by
              rw [hF3]
              intro h
              exact hheads (hmk.head_eq.symm.trans h.head_eq)
            rw [if_neg hr, if_neg (fun h => hr (hiff.1 h)), findChildren_nil,
              findChildren_cons_of_not_matches _ _ q (by simpa using hnm), hns]
        · have hqnk : q ≠ k := by
            intro h
            apply hmk
            rw [hqk.1 h]
            exact ⟨compareHStr_self _ hkz, fun h' => hq' ((hqk.1 h).trans h')⟩
          rw [findChildren_cons_of_not_matches _ _ _ (by simpa using hmk), if_neg hqnk]
          by_cases hmv : Matches (q.drop c) (v.drop c)
          · rw [findChildren_cons_of_matches _ _ _ (by simpa using hmv),
              findChildren_cons_of_matches _ _ q (by simpa using hF3.2 hmv)]
            simp only [TrieNode.value_mk]
            have : (q.drop c).drop (v.drop c).length = q.drop v.length := by
              rw [List.drop_drop]
              congr 1
              simp; omega
            rw [this]
            exact findNode_label _ _ _ _ _
          · rw [findChildren_cons_of_not_matches _ _ _ (by simpa using hmv), findChildren_nil,
              findChildren_cons_of_not_matches _ _ q (by simpa using fun h => hmv (hF3.1 h)),
              hns]
    · have hqnk : q ≠ k := by
        intro h
        apply hm
        rw [h]
        exact (matches_iff k _ hk hpz).2 ⟨hpk, hpne⟩
      have hnm : ¬ Matches q v := by
        intro h
        apply hm
        have hvq := ((matches_iff q v hq hv).1 h).1
        refine (matches_iff q _ hq hpz).2 ⟨?_, hpne⟩
        exact List.IsPrefix.trans (by rw [hp]; exact List.take_prefix c v) hvq
      rw [if_neg hqnk, findChildren_cons_of_not_matches _ _ q (by rw [hsv]; exact hm),
        findChildren_cons_of_not_matches _ _ q (by simpa using hnm)]

/-! ### Insertion changes the query exactly at the inserted key -/

/-- A single leaf answers exactly its own label. -/
theorem findChildren_leaf {d : Nat} (k : List Nat) (id : Nat) (q : List Nat) (hk : JamoBytes k)
    (hk0 : k ≠ []) (hq : JamoBytes q) :
    findChildren d [.mk k [] id] q = if q = k then id else d := by
  by_cases hm : Matches q k
  · rw [findChildren_cons_of_matches _ _ q (by simpa using hm)]
    simp only [TrieNode.value_mk]
    rw [findNode_mk]
    obtain ⟨t, rfl⟩ := ((matches_iff q k hq hk).1 hm).1
    by_cases ht : t = []
    · subst ht; simp
    · simp [ht, findChildren_nil]
  · have : q ≠ k := by
      intro h; apply hm; rw [h]; exact ⟨compareHStr_self k hk, hk0⟩
    rw [findChildren_cons_of_not_matches _ _ q (by simpa using hm), findChildren_nil,
      if_neg this]

/-- A new leaf appended to siblings with other first bytes answers its own label
and leaves the other answers as they were. -/
theorem findChildren_append_leaf {d : Nat} (cs : List TrieNode) (k : List Nat) (id : Nat)
    (q : List Nat)
    (hk : JamoBytes k) (hk0 : k ≠ []) (hq : JamoBytes q) (hhead : k.headD 0 ∉ heads cs) :
    findChildren d (cs ++ [.mk k [] id]) q = if q = k then id else findChildren d cs q := by
  by_cases hex : ∃ n ∈ cs, Matches q n.value
  · have : q ≠ k := by
      rintro rfl
      obtain ⟨n, hn, hm⟩ := hex
      exact no_match_of_head_not_mem cs q hhead n hn hm
    rw [findChildren_append_of_match cs _ q hex, if_neg this]
  · have hno : ∀ n ∈ cs, ¬ Matches q n.value := fun n hn hm => hex ⟨n, hn, hm⟩
    rw [findChildren_append_of_no_match cs _ q hno, findChildren_leaf k id q hk hk0 hq,
      findChildren_of_no_match cs q hno]

/-- An empty-label sibling appended at the end does not change the answers for
non-empty keys. -/
theorem findChildren_append_zero {d : Nat} (cs : List TrieNode) (id : Nat) (q : List Nat) :
    findChildren d (cs ++ [.mk [] [] id]) q = findChildren d cs q := by
  by_cases hex : ∃ n ∈ cs, Matches q n.value
  · exact findChildren_append_of_match cs _ q hex
  · have hno : ∀ n ∈ cs, ¬ Matches q n.value := fun n hn hm => hex ⟨n, hn, hm⟩
    rw [findChildren_append_of_no_match cs _ q hno, findChildren_of_no_match cs q hno,
      findChildren_cons_of_not_matches _ _ q (by simpa using not_matches_nil q),
      findChildren_nil]

/-- The heads of well-formed siblings with non-empty labels are not 0. -/
theorem zero_not_mem_heads (cs : List TrieNode) (hcs : ChildrenOK cs)
    (h : ∀ n ∈ cs, n.value ≠ []) : 0 ∉ heads cs := by
  rw [mem_heads]
  rintro ⟨n, hn, h0⟩
  exact h n hn ((hcs.nodeOK n hn).jamoBytes.headD_eq_zero_iff.1 h0)

/-- The first byte of a non-empty jamo-byte string is not 0. -/
theorem headD_ne_zero {k : List Nat} (hk : JamoBytes k) (hk0 : k ≠ []) : k.headD 0 ≠ 0 :=
  fun h => hk0 (hk.headD_eq_zero_iff.1 h)

/-- Correctness of `addWord` below the root (with `replace` set). At a node: the
node stays well formed, keeps its label, and the query changes exactly at the
inserted key. On a sibling list: either no sibling shares the first byte of the
key, or the list is updated in place with the same properties. -/
theorem addAtNode_scanChildren_spec {d : Nat} :
    (∀ n, NodeOK n → n.value ≠ [] → ∀ k id, JamoBytes k →
      NodeOK (addAtNode n k id true).1 ∧ (addAtNode n k id true).1.value = n.value ∧
      ∀ q, JamoBytes q →
        findNode d (addAtNode n k id true).1 q = if q = k then id else findNode d n q) ∧
    (∀ cs, ChildrenOK cs → ∀ k id, JamoBytes k → k ≠ [] →
      (scanChildren cs k id true = none ∧ k.headD 0 ∉ heads cs) ∨
      ∃ cs1 r, scanChildren cs k id true = some (cs1, r) ∧ ChildrenOK cs1 ∧
        heads cs1 = heads cs ∧ zeroNodeId d cs1 = zeroNodeId d cs ∧
        ∀ q, JamoBytes q → q ≠ [] →
          findChildren d cs1 q = if q = k then id else findChildren d cs q) := by
  apply trie_induction
  · -- a node, given the statement for its children
    intro v cs nid ihQ hn hvne k id hk
    simp only [TrieNode.value_mk] at hvne ⊢
    have hn' := hn
    rw [nodeOK_mk] at hn'
    obtain ⟨hv, -, hcs⟩ := hn'
    rw [addAtNode_mk]
    by_cases hk0 : k = []
    · subst hk0
      rw [if_pos rfl]
      unfold finishAtNode
      by_cases hlen : cs.length > 0
      · rw [if_pos hlen]
        cases hs : setZeroNode id true cs with
        | none =>
          simp only []
          have hall := (setZeroNode_eq_none_iff id true cs).1 hs
          refine ⟨?_, by simp, ?_⟩
          · rw [nodeOK_mk]
            refine ⟨hv, fun h => absurd h hvne, ?_⟩
            rw [childrenOK_append_singleton, nodeOK_mk]
            exact ⟨hcs, ⟨jamoBytes_nil, fun _ => rfl, childrenOK_nil⟩,
              by simpa using zero_not_mem_heads cs hcs hall⟩
          · intro q _
            rw [findNode_mk, findNode_mk]
            by_cases hq0 : q = []
            · rw [if_pos hq0, if_pos hq0, if_neg (by simp), zeroNodeId_append_zero cs id hall]
            · rw [if_neg hq0, if_neg hq0, if_neg hq0, findChildren_append_zero]
        | some p =>
          obtain ⟨cs1, r⟩ := p
          simp only []
          obtain ⟨h1, h2, h3, h4⟩ := setZeroNode_spec id cs hcs cs1 r hs
          have hlen1 : cs1.length = cs.length := by
            have := congrArg List.length h2
            simpa [heads] using this
          refine ⟨?_, by simp, ?_⟩
          · rw [nodeOK_mk]
            exact ⟨hv, fun h => absurd h hvne, h1⟩
          · intro q _
            rw [findNode_mk, findNode_mk]
            by_cases hq0 : q = []
            · rw [if_pos hq0, if_pos hq0, if_neg (by omega), h3]
            · rw [if_neg hq0, if_neg hq0, if_neg hq0, h4]
      · rw [if_neg hlen]
        have hcs0 : cs = [] := List.length_eq_zero.1 (by omega)
        subst hcs0
        simp only [if_true]
        refine ⟨?_, by simp, ?_⟩
        · exact (nodeOK_id _ _ _ _).1 hn
        · intro q _
          rw [findNode_mk, findNode_mk]
          by_cases hq0 : q = []
          · simp [hq0]
          · simp [hq0]
    · rw [if_neg hk0]
      rcases ihQ hcs k id hk hk0 with ⟨hnone, hnot⟩ | ⟨cs1, r, hsome, h1, h2, h3, h4⟩
      · simp only [hnone]
        have hleaf : NodeOK (.mk k [] id) := by
          rw [nodeOK_mk]; exact ⟨hk, fun _ => rfl, childrenOK_nil⟩
        by_cases hl : cs.length = 0
        · have hcs0 : cs = [] := List.length_eq_zero.1 hl
          subst hcs0
          simp only [List.length_nil, if_true]
          have hz : ChildrenOK [TrieNode.mk [] [] nid] := by
            rw [childrenOK_cons_heads, nodeOK_mk]
            exact ⟨⟨jamoBytes_nil, fun _ => rfl, childrenOK_nil⟩, by simp [heads],
              childrenOK_nil⟩
          have hkh : k.headD 0 ∉ heads [TrieNode.mk [] [] nid] := by
            simpa [heads] using headD_ne_zero hk hk0
          refine ⟨?_, by simp, ?_⟩
          · rw [nodeOK_mk]
            refine ⟨hv, fun h => absurd h hvne, ?_⟩
            rw [childrenOK_append_singleton]
            exact ⟨hz, hleaf, by simpa using hkh⟩
          · intro q hq
            rw [findNode_mk, findNode_mk]
            by_cases hq0 : q = []
            · have : q ≠ k := fun h => hk0 (h ▸ hq0)
              rw [if_pos hq0, if_pos hq0, if_neg this, if_neg (by simp),
                zeroNodeId_append_nonempty _ _ (by simpa using hk0)]
              simp [zeroNodeId_cons]
            · rw [if_neg hq0, if_neg hq0, findChildren_append_leaf _ k id q hk hk0 hq hkh,
                findChildren_cons_of_not_matches _ _ q (by simpa using not_matches_nil q)]
        · simp only [hl, if_false]
          refine ⟨?_, by simp, ?_⟩
          · rw [nodeOK_mk]
            refine ⟨hv, fun h => absurd h hvne, ?_⟩
            rw [childrenOK_append_singleton]
            exact ⟨hcs, hleaf, by simpa using hnot⟩
          · intro q hq
            rw [findNode_mk, findNode_mk]
            by_cases hq0 : q = []
            · have : q ≠ k := fun h => hk0 (h ▸ hq0)
              rw [if_pos hq0, if_pos hq0, if_neg this, if_neg (by simp), if_neg hl,
                zeroNodeId_append_nonempty _ _ (by simpa using hk0)]
            · rw [if_neg hq0, if_neg hq0, findChildren_append_leaf _ k id q hk hk0 hq hnot]
      · simp only [hsome]
        have hlen1 : cs1.length = cs.length := by
          have := congrArg List.length h2
          simpa [heads] using this
        refine ⟨?_, by simp, ?_⟩
        · rw [nodeOK_mk]
          exact ⟨hv, fun h => absurd h hvne, h1⟩
        · intro q hq
          rw [findNode_mk, findNode_mk]
          by_cases hq0 : q = []
          · have : q ≠ k := fun h => hk0 (h ▸ hq0)
            rw [if_pos hq0, if_pos hq0, if_neg this, hlen1, h3]
          · rw [if_neg hq0, if_neg hq0, h4 q hq hq0]
  · -- the empty sibling list
    intro _ k id _ _
    left
    exact ⟨scanChildren_nil k id true, by simp [heads]⟩
  · -- a sibling list, given the statement for its head and its tail
    intro n ns ihP ihQ hcs k id hk hk0
    cases n with
    | mk v cs nid =>
    rw [childrenOK_cons_heads] at hcs
    obtain ⟨hn, hhead, hns⟩ := hcs
    simp only [TrieNode.value_mk] at hhead
    have hv : JamoBytes v := hn.jamoBytes
    rw [scanChildren_cons]
    by_cases ha : compareHStr k v = v.length ∧ v ≠ []
    · rw [if_pos ha]
      right
      obtain ⟨hOK, hval, hfind⟩ := ihP hn (by simpa using ha.2) (k.drop (compareHStr k v)) id
        (hk.drop _)
      simp only [TrieNode.value_mk] at hval
      refine ⟨_, _, rfl, ?_, ?_, ?_, ?_⟩
      · rw [childrenOK_cons_heads]
        exact ⟨hOK, by rw [hval]; exact hhead, hns⟩
      · simp [heads, hval]
      · rw [zeroNodeId_cons, zeroNodeId_cons, hval]
        simp [ha.2]
      · intro q hq _
        have hvk : v <+: k := ((matches_iff k v hk hv).1 ha).1
        by_cases hm : Matches q v
        · have hvq : v <+: q := ((matches_iff q v hq hv).1 hm).1
          rw [findChildren_cons_of_matches _ _ q (by rw [hval]; exact hm), hval,
            hfind _ (hq.drop _), findChildren_cons_of_matches _ _ q (by simpa using hm)]
          simp only [TrieNode.value_mk]
          have : (q.drop v.length = k.drop (compareHStr k v)) ↔ q = k := by
            rw [ha.1]
            obtain ⟨t, rfl⟩ := hvq
            obtain ⟨u, rfl⟩ := hvk
            simp
          by_cases hqk : q = k
          · rw [if_pos (this.2 hqk), if_pos hqk]
          · rw [if_neg (fun h => hqk (this.1 h)), if_neg hqk]
        · have hqk : q ≠ k := fun h => hm (h ▸ ha)
          rw [findChildren_cons_of_not_matches _ _ q (by rw [hval]; exact hm),
            findChildren_cons_of_not_matches _ _ q (by simpa using hm), if_neg hqk]
    · rw [if_neg ha]
      by_cases hb : compareHStr k v > 0
      · rw [if_pos hb]
        right
        have hvne : v ≠ [] := by
          intro h; rw [h, compareHStr_nil_right] at hb; omega
        have hlt : compareHStr k v < v.length := by
          have := compareHStr_le_right k v
          rcases Nat.lt_or_ge (compareHStr k v) v.length with h | h
          · exact h
          · exact absurd ⟨Nat.le_antisymm this h, hvne⟩ ha
        obtain ⟨hOK, hhd, hfind⟩ := splitNode_spec v cs nid ns k id hn hhead hk hb hlt
        have hsne : (splitNode v cs nid k (compareHStr k v) id).value ≠ [] := by
          intro h
          rw [h] at hhd
          exact headD_ne_zero hv hvne hhd.symm
        refine ⟨_, _, rfl, ?_, ?_, ?_, ?_⟩
        · rw [childrenOK_cons_heads]
          exact ⟨hOK, by rw [hhd]; exact hhead, hns⟩
        · simp only [heads, List.map_cons, TrieNode.value_mk, hhd]
        · rw [zeroNodeId_cons, zeroNodeId_cons, if_neg hsne]
          simp [hvne]
        · exact hfind
      · rw [if_neg hb]
        have hhk : v.headD 0 ≠ k.headD 0 := by
          intro h
          by_cases hvne : v = []
          · rw [hvne] at h
            exact headD_ne_zero hk hk0 h.symm
          · exact hb ((compareHStr_pos_iff k v hv hk).2 ⟨hk0, hvne, h.symm⟩)
        rcases ihQ hns k id hk hk0 with ⟨hnone, hnot⟩ | ⟨ns1, r, hsome, h1, h2, h3, h4⟩
        · left
          simp only [hnone]
          refine ⟨trivial, ?_⟩
          simp only [heads, List.map_cons, TrieNode.value_mk, List.mem_cons, not_or]
          exact ⟨fun h => hhk h.symm, hnot⟩
        · right
          simp only [hsome]
          refine ⟨_, _, rfl, ?_, ?_, ?_, ?_⟩
          · rw [childrenOK_cons_heads]
            exact ⟨hn, by simpa [h2] using hhead, h1⟩
          · simp only [heads, List.map_cons] at h2 ⊢; rw [h2]
          · rw [zeroNodeId_cons, zeroNodeId_cons, h3]
          · intro q hq hq0
            by_cases hm : Matches q v
            · have hqk : q ≠ k := by
                intro h
                rw [h] at hm
                exact hhk hm.head_eq.symm
              rw [findChildren_cons_of_matches _ _ q (by simpa using hm),
                findChildren_cons_of_matches _ _ q (by simpa using hm), if_neg hqk]
            · rw [findChildren_cons_of_not_matches _ _ q (by simpa using hm),
                findChildren_cons_of_not_matches _ _ q (by simpa using hm), h4 q hq hq0]

/-! ### Insertion at the root and sequences of insertions -/

/-- For well-formed siblings, non-empty labels mean that 0 is not a head. -/
theorem labels_nonempty_iff (cs : List TrieNode) (hcs : ChildrenOK cs) :
    (∀ n ∈ cs, n.value ≠ []) ↔ 0 ∉ heads cs := by
  constructor
  · exact zero_not_mem_heads cs hcs
  · intro h n hn hv
    exact h (mem_heads.2 ⟨n, hn, by simp [hv]⟩)

/-- The empty trie is well formed. -/
theorem rootOK_nil : RootOK [] :=
  ⟨childrenOK_nil, fun n hn => by simp at hn⟩

/-- Correctness of `addWord` at the root (with `replace` set) for a non-empty
key: the trie stays well formed and `findWord`, read on the tree, changes
exactly at the inserted key. -/
theorem addWordRoot_spec {d : Nat} (root : List TrieNode) (hroot : RootOK root) (k : List Nat)
    (id : Nat)
    (hk : JamoBytes k) (hk0 : k ≠ []) :
    RootOK (addWordRoot root k id true).1 ∧
    ∀ q, JamoBytes q →
      findRoot d (addWordRoot root k id true).1 q = if q = k then id else findRoot d root q := by
  obtain ⟨hcs, hne⟩ := hroot
  have h0 : 0 ∉ heads root := (labels_nonempty_iff root hcs).1 hne
  unfold addWordRoot
  rw [if_neg hk0]
  rcases addAtNode_scanChildren_spec.2 root hcs k id hk hk0 with
    ⟨hnone, hnot⟩ | ⟨cs1, r, hsome, h1, h2, h3, h4⟩
  · simp only [hnone]
    have hOK : ChildrenOK (root ++ [TrieNode.mk k [] id]) := by
      rw [childrenOK_append_singleton, nodeOK_mk]
      exact ⟨hcs, ⟨hk, fun _ => rfl, childrenOK_nil⟩, by simpa using hnot⟩
    refine ⟨⟨hOK, ?_⟩, ?_⟩
    · intro n hn
      rcases List.mem_append.1 hn with hn | hn
      · exact hne n hn
      · simp only [List.mem_singleton] at hn
        subst hn
        simpa using hk0
    · intro q hq
      unfold findRoot
      by_cases hq0 : q = []
      · have : q ≠ k := fun h => hk0 (h ▸ hq0)
        rw [if_pos hq0, if_pos hq0, if_neg this,
          zeroNodeId_append_nonempty _ _ (by simpa using hk0)]
      · rw [if_neg hq0, if_neg hq0, findChildren_append_leaf _ k id q hk hk0 hq hnot]
  · simp only [hsome]
    refine ⟨⟨h1, ?_⟩, ?_⟩
    · rw [labels_nonempty_iff cs1 h1, h2]
      exact h0
    · intro q hq
      unfold findRoot
      by_cases hq0 : q = []
      · have : q ≠ k := fun h => hk0 (h ▸ hq0)
        rw [if_pos hq0, if_pos hq0, if_neg this, h3]
      · rw [if_neg hq0, if_neg hq0, h4 q hq hq0]

/-- After a sequence of insertions of non-empty jamo-byte keys the trie is well
formed, and `findWord`, read on the tree, returns for every key the id it was
last inserted with. -/
theorem addAll_spec {d : Nat} (kws : List (List Nat × Nat)) (root : List TrieNode)
    (hroot : RootOK root)
    (hk : ∀ p ∈ kws, JamoBytes p.1 ∧ p.1 ≠ []) :
    RootOK (addAll root kws) ∧
    ∀ q, JamoBytes q → findRoot d (addAll root kws) q = lastId kws q (findRoot d root q) := by
  induction kws generalizing root with
  | nil => exact ⟨hroot, fun q _ => rfl⟩
  | cons p rest ih =>
    obtain ⟨k, id⟩ := p
    obtain ⟨hz, hne⟩ := hk (k, id) (by simp)
    obtain ⟨h1, h2⟩ := addWordRoot_spec root hroot k id hz hne
    obtain ⟨h3, h4⟩ := ih _ h1 fun p hp => hk p (by simp [hp])
    refine ⟨h3, fun q hq => ?_⟩
    simp only [addAll, lastId]
    rw [h4 q hq, h2 q hq]

/-- A key that was never inserted keeps the default. -/
theorem lastId_of_not_mem (kws : List (List Nat × Nat)) (q : List Nat) (d : Nat)
    (h : ∀ p ∈ kws, p.1 ≠ q) : lastId kws q d = d := by
  induction kws generalizing d with
  | nil => rfl
  | cons p rest ih =>
    obtain ⟨k, id⟩ := p
    have hk : q ≠ k := fun e => h (k, id) (by simp) e.symm
    simp only [lastId, if_neg hk]
    exact ih d fun p hp => h p (by simp [hp])

/-- With pairwise different keys, an inserted key has the id it was inserted with. -/
theorem lastId_of_mem (kws : List (List Nat × Nat)) (k : List Nat) (id d : Nat)
    (hd : (kws.map Prod.fst).Nodup) (h : (k, id) ∈ kws) : lastId kws k d = id := by
  induction kws generalizing d with
  | nil => simp at h
  | cons p rest ih =>
    obtain ⟨k1, id1⟩ := p
    simp only [List.map_cons, List.nodup_cons] at hd
    rcases List.mem_cons.1 h with heq | hmem
    · simp only [Prod.mk.injEq] at heq
      obtain ⟨rfl, rfl⟩ := heq
      simp only [lastId, if_true]
      exact lastId_of_not_mem rest k id fun p hp e =>
        hd.1 (List.mem_map.2 ⟨p, hp, e⟩)
    · simp only [lastId]
      exact ih _ hd.2 hmem

/-- The empty trie answers no key. -/
theorem findRoot_nil {d : Nat} (q : List Nat) : findRoot d [] q = d := by
  unfold findRoot
  split
  · rfl
  · exact findChildren_nil q

/-! ## Theorems: the growth test and cyclic positions of the hash table -/

/-- A positive number has at least `2 ^ (bits - 1)` as value, with `bits` the
number of binary digits `bitLengthAux` counts. -/
theorem two_pow_bitLength_le :
    ∀ fuel n, n ≤ fuel → 0 < n → 2 ^ (bitLengthAux fuel n - 1) ≤ n := by
  intro fuel
  induction fuel with
  | zero => intro n h0 h1; omega
  | succ fuel ih =>
    intro n hn hpos
    rw [bitLengthAux, if_neg (by omega)]
    simp only [Nat.add_sub_cancel]
    by_cases h2 : n / 2 = 0
    · rw [h2]
      have : bitLengthAux fuel 0 = 0 := by
        cases fuel with
        | zero => rfl
        | succ f => rw [bitLengthAux, if_pos rfl]
      rw [this]
      exact hpos
    · have hpos2 : 0 < n / 2 := Nat.pos_of_ne_zero h2
      have h := ih (n / 2) (by omega) hpos2
      have hb : 1 ≤ bitLengthAux fuel (n / 2) := by
        cases fuel with
        | zero => omega
        | succ f =>
          rw [bitLengthAux, if_neg h2]
          omega
      have hp : 2 ^ bitLengthAux fuel (n / 2) = 2 * 2 ^ (bitLengthAux fuel (n / 2) - 1) := by
        rw [← Nat.pow_succ']
        congr 1
        omega
      rw [hp]
      omega

/-- The rounding to 24 significant bits changes a number by at most one part
in `2 ^ 23`. -/
theorem roundSignificand_bounds (n : Nat) :
    8388607 * n ≤ 8388608 * roundSignificand n ∧
    8388608 * roundSignificand n ≤ 8388609 * n := by
  unfold roundSignificand
  simp only []
  by_cases hb : bitLengthAux n n ≤ 24
  · rw [if_pos hb]
    omega
  · rw [if_neg hb]
    have hpos : 0 < n := by
      rcases Nat.eq_zero_or_pos n with h | h
      · rw [h] at hb
        exact absurd (by decide) hb
      · exact h
    have hlow := two_pow_bitLength_le n n (Nat.le_refl _) hpos
    have hsplit : 2 ^ (bitLengthAux n n - 1) = 8388608 * 2 ^ (bitLengthAux n n - 24) := by
      rw [show (8388608 : Nat) = 2 ^ 23 by norm_num, ← Nat.pow_add]
      congr 1
      omega
    rw [hsplit] at hlow
    have hPpos : 0 < 2 ^ (bitLengthAux n n - 24) := Nat.pow_pos (by norm_num)
    generalize 2 ^ (bitLengthAux n n - 24) = P at hlow hPpos ⊢
    have hdm := Nat.div_add_mod n P
    have hr : n % P < P := Nat.mod_lt _ hPpos
    generalize hX : P * (n / P) = X at hdm
    have e1 : (n / P + 1) * P = X + P := by rw [Nat.add_mul, Nat.one_mul, Nat.mul_comm, hX]
    have e2 : n / P * P = X := by rw [Nat.mul_comm, hX]
    split
    · rw [e1]; omega
    · rw [e2]; omega

/-- When the growth test fails on a table with at least one slot, fewer slots
are used than the capacity. -/
theorem lt_of_not_needsGrowth (u C : Nat) (hC : 1 ≤ C) (h : needsGrowth u C = false) :
    u < C := by
  unfold needsGrowth at h
  simp only [decide_eq_false_iff_not, Nat.not_lt] at h
  have b1 := roundSignificand_bounds C
  have b2 := roundSignificand_bounds (13421773 * roundSignificand C)
  have b3 := roundSignificand_bounds u
  norm_num at h
  omega

/-- When the growth test holds, at least two thirds of the capacity are used. -/
theorem le_of_needsGrowth (u C : Nat) (h : needsGrowth u C = true) : 2 * C ≤ 3 * u := by
  unfold needsGrowth at h
  simp only [decide_eq_true_eq] at h
  have b1 := roundSignificand_bounds C
  have b2 := roundSignificand_bounds (13421773 * roundSignificand C)
  have b3 := roundSignificand_bounds u
  norm_num at h
  omega

/-- The distance between two slots. -/
theorem dist_eq (C h i : Nat) (hh : h < C) (hi : i < C) :
    (i + C - h) % C = if h ≤ i then i - h else i + C - h := by
  by_cases hle : h ≤ i
  · rw [if_pos hle, show i + C - h = (i - h) + C by omega, Nat.add_mod_right,
      Nat.mod_eq_of_lt (by omega)]
  · rw [if_neg hle, Nat.mod_eq_of_lt (by omega)]

/-- The slot a number of steps behind another. -/
theorem add_mod_eq (C h j : Nat) (hh : h < C) (hj : j < C) :
    (h + j) % C = if h + j < C then h + j else h + j - C := by
  by_cases hlt : h + j < C
  · rw [if_pos hlt, Nat.mod_eq_of_lt hlt]
  · rw [if_neg hlt, show h + j = (h + j - C) + C by omega, Nat.add_mod_right,
      Nat.mod_eq_of_lt (by omega)]
    omega

/-- The slot `j` steps behind `h` has distance `j` from `h`. -/
theorem dist_add_mod (C h j : Nat) (hh : h < C) (hj : j < C) :
    ((h + j) % C + C - h) % C = j := by
  have hlt : (h + j) % C < C := Nat.mod_lt _ (by omega)
  rw [dist_eq C h _ hh hlt, add_mod_eq C h j hh hj]
  split <;> split <;> omega

/-- Going the distance from `h` to `i` leads from `h` to `i`. -/
theorem add_dist_mod (C h i : Nat) (hh : h < C) (hi : i < C) :
    (h + (i + C - h) % C) % C = i := by
  have hlt : (i + C - h) % C < C := Nat.mod_lt _ (by omega)
  rw [add_mod_eq C h _ hh hlt, dist_eq C h i hh hi]
  split <;> split <;> omega

/-- Different numbers of steps lead to different slots. -/
theorem add_mod_inj (C h j1 j2 : Nat) (hh : h < C) (h1 : j1 < C) (h2 : j2 < C)
    (e : (h + j1) % C = (h + j2) % C) : j1 = j2 := by
  rw [← dist_add_mod C h j1 hh h1, ← dist_add_mod C h j2 hh h2, e]

/-- One more step. -/
theorem add_mod_succ (C h j : Nat) : ((h + j) % C + 1) % C = (h + (j + 1)) % C := by
  rw [Nat.add_mod, Nat.mod_mod, ← Nat.add_mod, Nat.add_assoc]

/-- The differences in the key type the code compares, taken modulo the number
`M` of its values, order the occupant of a slot and the probe as their
distances modulo the capacity do. -/
theorem dist_compare (M C p dp h : Nat) (hp : p < C) (hdp : dp < C) (hh : h < C)
    (hC : C < M) :
    ((p + M - h) % M < (p + M - dp) % M) ↔
      ((p + C - h) % C < (p + C - dp) % C) := by
  rw [dist_eq C h p hh hp, dist_eq C dp p hdp hp, dist_eq M h p (by omega) (by omega),
    dist_eq M dp p (by omega) (by omega)]
  split <;> split <;> omega

/-- The last slot, as the code computes it in the key type. -/
theorem last_slot (M C : Nat) (hC : 1 ≤ C) (hM : C < M) : (C + M - 1) % M = C - 1 := by
  rw [show C + M - 1 = (C - 1) + M by omega, Nat.add_mod_right, Nat.mod_eq_of_lt (by omega)]

/-- The number of values of a key type is a power of 256, and at least `2 ^ 32`. -/
theorem modulus_eq (K : KeyType) : K.modulus = 256 ^ K.size ∧ 2 ^ 32 ≤ K.modulus := by
  cases K <;> exact ⟨by decide, by decide⟩

/-! ### The instance `HashTable<uint32_t>` of the template is the model of `hash_table.cc` above -/

/-- The conversion to `int` and back is the identity on `uint32_t`. -/
theorem ofInt_toInt_uint32_t (x : Nat) (h : x < 2 ^ 32) :
    KeyType.uint32_t.ofInt (toInt x) = x := by
  unfold KeyType.ofInt toInt
  have hm : KeyType.uint32_t.modulus = 2 ^ 32 := by decide
  rw [hm]
  simp only [Int.ofNat_eq_coe]
  split <;> omega

/-- The probe loop of `insert` in the instance `HashTable<uint32_t>`. -/
theorem insertLoop_uint32_t {V : Type} [Zero V] :
    ∀ fuel (ht : HashTable V) (id : Nat) (v : V) (dp p : Nat) (rs : Bool),
      Template.insertLoop KeyType.uint32_t fuel ht id v dp p rs =
        insertLoop fuel ht id v dp p rs := by
  intro fuel
  induction fuel with
  | zero => intros; rfl
  | succ fuel ih =>
    intro ht id v dp p rs
    unfold Template.insertLoop insertLoop
    simp only [ih]
    rfl

/-- The call `insert` in the instance `HashTable<uint32_t>`. -/
theorem insertN_uint32_t {V : Type} [Zero V] :
    ∀ depth (ht : HashTable V) (id : Nat) (v : V),
      Template.insertN KeyType.uint32_t depth ht id v = insertN depth ht id v := by
  intro depth
  induction depth with
  | zero => intros; rfl
  | succ depth ih =>
    intro ht id v
    unfold Template.insertN insertN
    have e : Template.insertN (V := V) KeyType.uint32_t depth = insertN depth := by
      funext a b c
      exact ih a b c
    rw [e]
    simp only [insertLoop_uint32_t]
    rfl

/-- A sequence of `insert` calls in the instance `HashTable<uint32_t>`. -/
theorem insertAll_uint32_t {V : Type} [Zero V] :
    ∀ (ops : List (Nat × V)) (ht : HashTable V),
      Template.insertAll KeyType.uint32_t 2 ht ops = ht.insertAll ops := by
  intro ops
  induction ops with
  | nil => intro ht; rfl
  | cons op ops ih =>
    intro ht
    obtain ⟨id, v⟩ := op
    unfold Template.insertAll HashTable.insertAll HashTable.insert
    rw [insertN_uint32_t]
    simp only [ih]

/-- The lookup loop in the instance `HashTable<uint32_t>`. -/
theorem lookupLoop_uint32_t {V : Type} [Zero V] :
    ∀ fuel (ht : HashTable V) (id s i : Nat),
      Template.lookupLoop KeyType.uint32_t fuel ht id s i = lookupLoop fuel ht id s i := by
  intro fuel
  induction fuel with
  | zero => intros; rfl
  | succ fuel ih =>
    intro ht id s i
    unfold Template.lookupLoop lookupLoop
    simp only [ih]
    have hm : KeyType.uint32_t.modulus = 2 ^ 32 := by decide
    rw [hm, ofInt_toInt_uint32_t _ (Nat.mod_lt _ (by norm_num))]
    rfl

/-- The function `writeToStream` in the instance `HashTable<uint32_t>`. -/
theorem writeToStream_uint32_t (ht : HashTable Nat) (os : List Nat) :
    Template.writeToStream KeyType.uint32_t ht os = ht.writeToStream os := by
  have h : ∀ count bs i os, Template.writeBuckets KeyType.uint32_t bs count i os =
      writeBuckets bs count i os := by
    intro count
    induction count with
    | zero => intros; rfl
    | succ n ih =>
      intro bs i os
      unfold Template.writeBuckets writeBuckets
      simp only [ih]
      rfl
  unfold Template.writeToStream HashTable.writeToStream
  rw [h]
  rfl

/-- The function `loadFromStream` in the instance `HashTable<uint32_t>`. -/
theorem loadFromStream_uint32_t (ht : HashTable Nat) (is_ : List Nat) :
    Template.loadFromStream KeyType.uint32_t ht is_ = ht.loadFromStream is_ := by
  have h : ∀ count is_, Template.loadBuckets KeyType.uint32_t count is_ =
      loadBuckets count is_ := by
    intro count
    induction count with
    | zero => intros; rfl
    | succ n ih =>
      intro is_
      unfold Template.loadBuckets loadBuckets
      simp only [ih]
      rfl
  unfold Template.loadFromStream HashTable.loadFromStream
  simp only [h]
  rfl

/-- The function `retrieve` in the instance `HashTable<uint32_t>`. -/
theorem retrieve_uint32_t {V : Type} [Zero V] (fuel : Nat) (ht : HashTable V) (id : Nat) :
    Template.retrieve KeyType.uint32_t fuel ht id = ht.retrieve fuel id := by
  unfold Template.retrieve HashTable.retrieve
  rw [lookupLoop_uint32_t]
  rfl

/-- The function `exists` in the instance `HashTable<uint32_t>`. -/
theorem exists_uint32_t {V : Type} [Zero V] (fuel : Nat) (ht : HashTable V) (id : Nat) :
    Template.exists KeyType.uint32_t fuel ht id = ht.exists fuel id := by
  unfold Template.exists HashTable.exists
  rw [lookupLoop_uint32_t]
  rfl

/-! ## Theorems: reads and writes on the buffer -/

/-- A store keeps the size of the buffer. -/
@[simp] theorem length_writeU8 (buf : List Nat) (p v : Nat) :
    (writeU8 buf p v).length = buf.length := by
  simp [writeU8]

/-- A read after a store of one byte. -/
theorem readU8_writeU8 (buf : List Nat) (p v i : Nat) :
    readU8 (writeU8 buf p v) i = if i = p ∧ p < buf.length then v % 256 else readU8 buf i := by
  unfold readU8 writeU8
  simp only [List.getD_eq_getElem?_getD, List.getElem?_set]
  by_cases h : p = i
  · subst h
    by_cases hp : p < buf.length
    · simp [hp]
    · simp [hp, List.getElem?_eq_none (Nat.le_of_not_lt hp)]
  · simp [h, Ne.symm h]

/-- A read away from a stored byte. -/
theorem readU8_writeU8_of_ne (buf : List Nat) (p v i : Nat) (h : i ≠ p) :
    readU8 (writeU8 buf p v) i = readU8 buf i := by
  rw [readU8_writeU8, if_neg (fun hh => h hh.1)]

/-- A read of a stored byte. -/
theorem readU8_writeU8_self (buf : List Nat) (p v : Nat) (h : p < buf.length) (hv : v < 256) :
    readU8 (writeU8 buf p v) p = v := by
  rw [readU8_writeU8, if_pos ⟨rfl, h⟩, Nat.mod_eq_of_lt hv]

/-- A store of a word keeps the size of the buffer. -/
@[simp] theorem length_writeU32 (buf : List Nat) (p v : Nat) :
    (writeU32 buf p v).length = buf.length := by
  simp [writeU32]

/-- A read away from a stored word. -/
theorem readU8_writeU32_of_outside (buf : List Nat) (p v i : Nat) (h : i < p ∨ p + 4 ≤ i) :
    readU8 (writeU32 buf p v) i = readU8 buf i := by
  unfold writeU32
  rw [readU8_writeU8_of_ne _ _ _ _ (by omega), readU8_writeU8_of_ne _ _ _ _ (by omega),
    readU8_writeU8_of_ne _ _ _ _ (by omega), readU8_writeU8_of_ne _ _ _ _ (by omega)]

/-- A read of a stored word. -/
theorem readU32_writeU32 (buf : List Nat) (p v : Nat) (h : p + 4 ≤ buf.length)
    (hv : v < 2 ^ 32) : readU32 (writeU32 buf p v) p = v := by
  unfold readU32 writeU32
  simp only [readU8_writeU8, length_writeU8]
  rw [if_neg (by omega), if_neg (by omega), if_neg (by omega), if_pos ⟨trivial, by omega⟩,
    if_neg (by omega), if_neg (by omega), if_pos ⟨trivial, by omega⟩,
    if_neg (by omega), if_pos ⟨trivial, by omega⟩, if_pos ⟨trivial, by omega⟩]
  omega

/-- Words read from buffers that agree on the four bytes are equal. -/
theorem readU32_congr (buf buf1 : List Nat) (p : Nat)
    (h : ∀ i, p ≤ i → i < p + 4 → readU8 buf1 i = readU8 buf i) :
    readU32 buf1 p = readU32 buf p := by
  unfold readU32
  rw [h p (by omega) (by omega), h (p + 1) (by omega) (by omega),
    h (p + 2) (by omega) (by omega), h (p + 3) (by omega) (by omega)]

/-- Consecutive stores keep the size of the buffer. -/
@[simp] theorem length_writeBytes (buf : List Nat) (p : Nat) (bs : List Nat) :
    (writeBytes buf p bs).length = buf.length := by
  induction bs generalizing buf p with
  | nil => rfl
  | cons b bs ih => simp [writeBytes, ih]

/-- A read away from consecutive stores. -/
theorem readU8_writeBytes_of_outside (buf : List Nat) (p : Nat) (bs : List Nat) (i : Nat)
    (h : i < p ∨ p + bs.length ≤ i) : readU8 (writeBytes buf p bs) i = readU8 buf i := by
  induction bs generalizing buf p with
  | nil => rfl
  | cons b bs ih =>
    simp only [writeBytes, List.length_cons] at h ⊢
    rw [ih _ _ (by omega), readU8_writeU8_of_ne _ _ _ _ (by omega)]

/-- The label stored by `strcpy` stands in the buffer. -/
theorem labelAt_writeBytes (buf : List Nat) (p : Nat) (v : List Nat) (hv : JamoBytes v)
    (h : p + v.length + 1 ≤ buf.length) : labelAt (writeBytes buf p (v ++ [0])) p v := by
  induction v generalizing buf p with
  | nil =>
    simp only [List.nil_append, writeBytes, labelAt]
    rw [readU8_writeU8_self _ _ _ (by simpa using h) (by norm_num)]
  | cons b bs ih =>
    simp only [List.cons_append, writeBytes, labelAt, List.length_cons] at h ⊢
    have hb := hv b (by simp)
    refine ⟨?_, ?_⟩
    · rw [readU8_writeBytes_of_outside _ _ _ _ (by omega),
        readU8_writeU8_self _ _ _ (by omega) (by omega)]
    · exact ih _ _ (fun x hx => hv x (by simp [hx])) (by simp; omega)

/-- The bytes of `c_str()` of a string over the alphabet are the string itself. -/
theorem cStr_of_jamoBytes (v : List Nat) (hv : JamoBytes v) : cStr v = v := by
  unfold cStr
  rw [List.takeWhile_eq_self_iff]
  intro b hb
  simpa using (hv b hb).1

/-- The label stored by `strcpy` stands in the buffer. -/
theorem labelAt_strcpy (buf : List Nat) (p : Nat) (v : List Nat) (hv : JamoBytes v)
    (h : p + v.length + 1 ≤ buf.length) : labelAt (strcpy buf p v) p v := by
  unfold strcpy
  rw [cStr_of_jamoBytes v hv]
  exact labelAt_writeBytes buf p v hv h

/-- `strcpy` keeps the size of the buffer. -/
@[simp] theorem length_strcpy (buf : List Nat) (p : Nat) (v : List Nat) :
    (strcpy buf p v).length = buf.length := by
  simp [strcpy]

/-- A read away from the bytes stored by `strcpy`. -/
theorem readU8_strcpy_of_outside (buf : List Nat) (p : Nat) (v : List Nat) (hv : JamoBytes v)
    (i : Nat) (h : i < p ∨ p + v.length + 1 ≤ i) :
    readU8 (strcpy buf p v) i = readU8 buf i := by
  unfold strcpy
  rw [cStr_of_jamoBytes v hv]
  exact readU8_writeBytes_of_outside _ _ _ _ (by simpa using h)

/-- A label stands in every buffer that agrees on its bytes and its terminator. -/
theorem labelAt_congr (buf buf1 : List Nat) (q : Nat) (v : List Nat)
    (h : ∀ i, q ≤ i → i ≤ q + v.length → readU8 buf1 i = readU8 buf i)
    (hl : labelAt buf q v) : labelAt buf1 q v := by
  induction v generalizing q with
  | nil =>
    simp only [labelAt] at hl ⊢
    rw [h q (by omega) (by simp), hl]
  | cons b bs ih =>
    simp only [labelAt, List.length_cons] at hl h ⊢
    refine ⟨by rw [h q (by omega) (by omega)]; exact hl.1, ih (q + 1) ?_ hl.2⟩
    intro i h1 h2
    exact h i (by omega) (by omega)

/-- The remaining buffer from a position on, one byte at a time. -/
theorem drop_eq_cons_of_readU8_ne_zero (buf : List Nat) (q : Nat) (h : readU8 buf q ≠ 0) :
    buf.drop q = readU8 buf q :: buf.drop (q + 1) := by
  unfold readU8 at h ⊢
  have hq : q < buf.length := by
    by_contra hq
    rw [List.getD_eq_default _ _ (Nat.le_of_not_lt hq)] at h
    exact h rfl
  rw [List.getD_eq_getElem _ _ hq]
  exact List.drop_eq_getElem_cons hq

/-- The common part with a label in the buffer is the common part with the label. -/
theorem compareHStr_labelAt (buf : List Nat) (q : Nat) (v rest : List Nat) (hv : JamoBytes v)
    (hl : labelAt buf q v) : compareHStr rest (buf.drop q) = compareHStr rest v := by
  induction v generalizing q rest with
  | nil =>
    simp only [labelAt] at hl
    rw [compareHStr_nil_right]
    cases rest with
    | nil => exact compareHStr_nil_left _
    | cons x xs =>
      cases hd : buf.drop q with
      | nil => rfl
      | cons y ys =>
        have : y = readU8 buf q := by
          unfold readU8
          have := congrArg (fun l => l.headD 0) hd
          simp only [List.headD_cons] at this
          rw [← this]
          simp [List.getD_eq_getElem?_getD, List.head?_drop]
        rw [compareHStr_cons, if_neg]
        rw [this, hl]; simp
  | cons b bs ih =>
    simp only [labelAt] at hl
    have hb := (hv b (by simp)).1
    rw [drop_eq_cons_of_readU8_ne_zero buf q (by rw [hl.1]; exact hb), hl.1]
    cases rest with
    | nil => simp [compareHStr_nil_left]
    | cons x xs =>
      rw [compareHStr_cons, compareHStr_cons, ih (q + 1) xs (fun y hy => hv y (by simp [hy])) hl.2]

/-- `strlen` of a label in the buffer is the length of the label. -/
theorem strlen_labelAt (buf : List Nat) (q : Nat) (v : List Nat) (hv : JamoBytes v)
    (hl : labelAt buf q v) : strlen buf q = v.length := by
  induction v generalizing q with
  | nil =>
    simp only [labelAt] at hl
    unfold strlen cStr
    cases hd : buf.drop q with
    | nil => rfl
    | cons y ys =>
      have : y = readU8 buf q := by
        unfold readU8
        have := congrArg (fun l => l.headD 0) hd
        simp only [List.headD_cons] at this
        rw [← this]
        simp [List.getD_eq_getElem?_getD, List.head?_drop]
      rw [this, hl]
      simp
  | cons b bs ih =>
    simp only [labelAt] at hl
    have hb := (hv b (by simp)).1
    have := ih (q + 1) (fun y hy => hv y (by simp [hy])) hl.2
    unfold strlen cStr at this ⊢
    rw [drop_eq_cons_of_readU8_ne_zero buf q (by rw [hl.1]; exact hb), hl.1]
    simpa [hb] using this

/-- The first byte of a label in the buffer is 0 exactly for the empty label. -/
theorem readU8_labelAt (buf : List Nat) (q : Nat) (v : List Nat) (hv : JamoBytes v)
    (hl : labelAt buf q v) : readU8 buf q = 0 ↔ v = [] := by
  cases v with
  | nil => simpa [labelAt] using hl
  | cons b bs =>
    simp only [labelAt] at hl
    rw [hl.1]
    simpa using (hv b (by simp)).1

/-- `getLenght` of a node whose label stands in the buffer. -/
theorem getLenght_labelAt (buf : List Nat) (p : Nat) (v : List Nat) (hv : JamoBytes v)
    (hl : labelAt buf (p + 5) v) (hlen : v.length + 6 < 256) :
    getLenght buf p = 1 + 4 + v.length + 1 := by
  unfold getLenght getValuePtr
  rw [show p + 1 + 4 = p + 5 by omega, strlen_labelAt buf (p + 5) v hv hl]
  omega

/-! ## Theorems: the layout written by `freeze` -/

/-- Unfolding of `levelSize`. -/
theorem levelSize_cons (v : List Nat) (cs : List TrieNode) (id : Nat) (ts : List TrieNode) :
    levelSize (.mk v cs id :: ts) = 1 + 4 + v.length + 1 + levelSize ts := rfl

/-- Unfolding of `subSize`. -/
theorem subSize_cons (v : List Nat) (cs : List TrieNode) (id : Nat) (ts : List TrieNode) :
    subSize (.mk v cs id :: ts) = levelSize cs + subSize cs + subSize ts := by
  rw [subSize]

/-- Unfolding of `subSize` on the empty list. -/
theorem subSize_nil : subSize [] = 0 := by
  rw [subSize]

/-- Unfolding of `NodeFits`. -/
theorem nodeFits_mk (v : List Nat) (cs : List TrieNode) (id : Nat) :
    NodeFits (.mk v cs id) ↔
      JamoBytes v ∧ v.length + 6 < 256 ∧ cs.length < 256 ∧ id < 2 ^ 32 ∧ ChildrenFit cs := by
  rw [NodeFits]

/-- Unfolding of `ChildrenFit`. -/
theorem childrenFit_cons (n : TrieNode) (ns : List TrieNode) :
    ChildrenFit (n :: ns) ↔ NodeFits n ∧ ChildrenFit ns := by
  rw [ChildrenFit]

/-- Unfolding of `ChildrenFit` on the empty list. -/
theorem childrenFit_nil : ChildrenFit [] := by
  rw [ChildrenFit]; trivial

/-- Unfolding of `Hdr`. -/
theorem hdr_cons (buf : List Nat) (p : Nat) (v : List Nat) (cs : List TrieNode) (id : Nat)
    (ts : List TrieNode) :
    Hdr buf p (.mk v cs id :: ts) ↔
      readU8 buf p = cs.length ∧ labelAt buf (p + 5) v ∧
      (cs.length = 0 → readU32 buf (p + 1) = id) ∧
      Hdr buf (p + (1 + 4 + v.length + 1)) ts := Iff.rfl

/-- Unfolding of `Lay`. -/
theorem lay_cons (buf : List Nat) (q offset cls : Nat) (v : List Nat) (cs : List TrieNode)
    (id : Nat) (ts : List TrieNode) :
    Lay buf q offset cls (.mk v cs id :: ts) ↔
      readU8 buf (q + offset) = cs.length ∧ labelAt buf (q + offset + 5) v ∧
      v.length + 6 < 256 ∧ offset + (1 + 4 + v.length + 1) ≤ cls ∧ cls < 2 ^ 32 ∧
      (cs.length = 0 → readU32 buf (q + offset + 1) = id) ∧
      (cs.length ≠ 0 →
        readU32 buf (q + offset + 1) = cls - offset ∧
        Lay buf (q + cls) 0 (levelSize cs) cs) ∧
      Lay buf q (offset + (1 + 4 + v.length + 1)) (cls + (levelSize cs + subSize cs)) ts := by
  rw [Lay]

/-- Unfolding of `Lay` on the empty list. -/
theorem lay_nil (buf : List Nat) (q offset cls : Nat) : Lay buf q offset cls [] := by
  rw [Lay]; trivial

/-- The headers only depend on the bytes of their level. -/
theorem hdr_congr (buf buf1 : List Nat) (ts : List TrieNode) (p : Nat)
    (h : ∀ i, p ≤ i → i < p + levelSize ts → readU8 buf1 i = readU8 buf i)
    (hh : Hdr buf p ts) : Hdr buf1 p ts := by
  induction ts generalizing p with
  | nil => trivial
  | cons n ts ih =>
    cases n with
    | mk v cs id =>
    rw [hdr_cons] at hh ⊢
    rw [levelSize_cons] at h
    obtain ⟨h1, h2, h3, h4⟩ := hh
    refine ⟨?_, ?_, ?_, ?_⟩
    · rw [h p (by omega) (by omega)]; exact h1
    · exact labelAt_congr buf buf1 _ v (fun i hi1 hi2 => h i (by omega) (by omega)) h2
    · intro hc
      rw [readU32_congr buf buf1 _ (fun i hi1 hi2 => h i (by omega) (by omega))]
      exact h3 hc
    · exact ih _ (fun i hi1 hi2 => h i (by omega) (by omega)) h4

/-- The layout only depends on the bytes of the level and of the descendants. -/
theorem lay_congr_aux :
    (∀ n : TrieNode, ∀ buf buf1 q offset cls, Lay buf q offset cls n.children →
      (∀ i, (q + offset ≤ i ∧ i < q + offset + levelSize n.children) ∨
          (q + cls ≤ i ∧ i < q + cls + subSize n.children) →
        readU8 buf1 i = readU8 buf i) →
      Lay buf1 q offset cls n.children) ∧
    (∀ ts : List TrieNode, ∀ buf buf1 q offset cls, Lay buf q offset cls ts →
      (∀ i, (q + offset ≤ i ∧ i < q + offset + levelSize ts) ∨
          (q + cls ≤ i ∧ i < q + cls + subSize ts) →
        readU8 buf1 i = readU8 buf i) →
      Lay buf1 q offset cls ts) := by
  apply trie_induction
  · intro v cs id ih
    simpa using ih
  · intro buf buf1 q offset cls _ _
    exact lay_nil _ _ _ _
  · intro n ts ihn ihts buf buf1 q offset cls hl h
    cases n with
    | mk v cs id =>
    simp only [TrieNode.children_mk] at ihn
    rw [lay_cons] at hl ⊢
    rw [levelSize_cons, subSize_cons] at h
    obtain ⟨h1, h2, h3, h4, h5, h6, h7, h8⟩ := hl
    refine ⟨?_, ?_, h3, h4, h5, ?_, ?_, ?_⟩
    · rw [h _ (Or.inl ⟨by omega, by omega⟩)]; exact h1
    · exact labelAt_congr buf buf1 _ v (fun i hi1 hi2 => h i (Or.inl ⟨by omega, by omega⟩)) h2
    · intro hc
      rw [readU32_congr buf buf1 _ (fun i hi1 hi2 => h i (Or.inl ⟨by omega, by omega⟩))]
      exact h6 hc
    · intro hc
      obtain ⟨h71, h72⟩ := h7 hc
      refine ⟨?_, ?_⟩
      · rw [readU32_congr buf buf1 _ (fun i hi1 hi2 => h i (Or.inl ⟨by omega, by omega⟩))]
        exact h71
      · apply ihn buf buf1 _ _ _ h72
        intro i hi
        apply h
        right
        omega
    · apply ihts buf buf1 _ _ _ h8
      intro i hi
      apply h
      rcases hi with hi | hi
      · left; omega
      · right; omega

/-- The layout only depends on the bytes of the level and of the descendants. -/
theorem lay_congr (ts : List TrieNode) (buf buf1 : List Nat) (q offset cls : Nat)
    (hl : Lay buf q offset cls ts)
    (h : ∀ i, (q + offset ≤ i ∧ i < q + offset + levelSize ts) ∨
        (q + cls ≤ i ∧ i < q + cls + subSize ts) →
      readU8 buf1 i = readU8 buf i) :
    Lay buf1 q offset cls ts :=
  lay_congr_aux.2 ts buf buf1 q offset cls hl h

/-- Unfolding of `writeNodes`. -/
theorem writeNodes_cons (buf : List Nat) (na cls : Nat) (v : List Nat) (cs : List TrieNode)
    (id : Nat) (ts : List TrieNode) :
    writeNodes buf na cls (.mk v cs id :: ts) =
      writeNodes
        (if cs.length = 0 then
          strcpy (writeU32 (writeU8 buf (na + cls) cs.length) (na + cls + 1) id)
            (na + cls + 1 + 4) v
        else strcpy (writeU8 buf (na + cls) cs.length) (na + cls + 1 + 4) v)
        na ((cls + (1 + 4 + v.length + 1)) % 2 ^ 32) ts := rfl

/-- The first loop of `writeChildren` stores the headers of a level and nothing else. -/
theorem writeNodes_spec (ts : List TrieNode) (buf : List Nat) (na cls : Nat)
    (hfit : ChildrenFit ts) (hlen : na + cls + levelSize ts ≤ buf.length)
    (hsz : cls + levelSize ts < 2 ^ 32) :
    (writeNodes buf na cls ts).2 = cls + levelSize ts ∧
    (writeNodes buf na cls ts).1.length = buf.length ∧
    (∀ i, i < na + cls ∨ na + cls + levelSize ts ≤ i →
      readU8 (writeNodes buf na cls ts).1 i = readU8 buf i) ∧
    Hdr (writeNodes buf na cls ts).1 (na + cls) ts := by
  induction ts generalizing buf cls with
  | nil => exact ⟨rfl, rfl, fun _ _ => rfl, trivial⟩
  | cons n ts ih =>
    cases n with
    | mk v cs id =>
    rw [childrenFit_cons, nodeFits_mk] at hfit
    obtain ⟨⟨hv, hvl, hcl, hid, -⟩, hts⟩ := hfit
    rw [levelSize_cons] at hlen hsz ⊢
    rw [writeNodes_cons]
    have hmod : (cls + (1 + 4 + v.length + 1)) % 2 ^ 32 = cls + (1 + 4 + v.length + 1) :=
      Nat.mod_eq_of_lt (by omega)
    rw [hmod]
    -- the buffer after the header of the first node is written
    generalize hb2 : (if cs.length = 0 then
          strcpy (writeU32 (writeU8 buf (na + cls) cs.length) (na + cls + 1) id)
            (na + cls + 1 + 4) v
        else strcpy (writeU8 buf (na + cls) cs.length) (na + cls + 1 + 4) v) = buf2
    have hlen2 : buf2.length = buf.length := by
      rw [← hb2]; split <;> simp
    have hframe2 : ∀ i, i < na + cls ∨ na + cls + (1 + 4 + v.length + 1) ≤ i →
        readU8 buf2 i = readU8 buf i := by
      intro i hi
      rw [← hb2]
      split
      · rw [readU8_strcpy_of_outside _ _ _ hv _ (by omega),
          readU8_writeU32_of_outside _ _ _ _ (by omega),
          readU8_writeU8_of_ne _ _ _ _ (by omega)]
      · rw [readU8_strcpy_of_outside _ _ _ hv _ (by omega),
          readU8_writeU8_of_ne _ _ _ _ (by omega)]
    have hcount : readU8 buf2 (na + cls) = cs.length := by
      rw [← hb2]
      split
      · rw [readU8_strcpy_of_outside _ _ _ hv _ (by omega),
          readU8_writeU32_of_outside _ _ _ _ (by omega),
          readU8_writeU8_self _ _ _ (by omega) hcl]
      · rw [readU8_strcpy_of_outside _ _ _ hv _ (by omega),
          readU8_writeU8_self _ _ _ (by omega) hcl]
    have hlabel : labelAt buf2 (na + cls + 5) v := by
      rw [← hb2]
      split
      · exact labelAt_strcpy _ _ v hv (by simp; omega)
      · exact labelAt_strcpy _ _ v hv (by simp; omega)
    have hidr : cs.length = 0 → readU32 buf2 (na + cls + 1) = id := by
      intro hc
      rw [← hb2, if_pos hc]
      rw [readU32_congr _ _ _ (fun i hi1 hi2 =>
        readU8_strcpy_of_outside _ _ _ hv i (by omega))]
      exact readU32_writeU32 _ _ _ (by simp; omega) hid
    obtain ⟨h1, h2, h3, h4⟩ := ih buf2 (cls + (1 + 4 + v.length + 1)) hts
      (by rw [hlen2]; omega) (by omega)
    refine ⟨by rw [h1]; omega, by rw [h2, hlen2], ?_, ?_⟩
    · intro i hi
      rw [h3 i (by omega), hframe2 i (by omega)]
    · rw [hdr_cons]
      refine ⟨?_, ?_, ?_, ?_⟩
      · rw [h3 _ (by omega)]; exact hcount
      · exact labelAt_congr buf2 _ _ v (fun i hi1 hi2 => h3 i (by omega)) hlabel
      · intro hc
        rw [readU32_congr buf2 _ _ (fun i hi1 hi2 => h3 i (by omega))]
        exact hidr hc
      · have : na + cls + (1 + 4 + v.length + 1) = na + (cls + (1 + 4 + v.length + 1)) := by
          omega
        rw [this]; exact h4

/-- Unfolding of `writeSubtrees`: for a node with children the offset is stored and
`writeChildren` is called for the children. -/
theorem writeSubtrees_cons (buf : List Nat) (na cls offset : Nat) (v : List Nat)
    (cs : List TrieNode) (id : Nat) (ts : List TrieNode) :
    writeSubtrees buf na cls offset (.mk v cs id :: ts) =
      if cs.length > 0 then
        writeSubtrees
          (writeChildren (writeU32 buf (na + offset + 1) ((cls + 2 ^ 32 - offset) % 2 ^ 32))
            (na + cls) cs).1
          na
          ((cls + (writeChildren
            (writeU32 buf (na + offset + 1) ((cls + 2 ^ 32 - offset) % 2 ^ 32))
            (na + cls) cs).2) % 2 ^ 32)
          ((offset + getLenght (writeChildren
            (writeU32 buf (na + offset + 1) ((cls + 2 ^ 32 - offset) % 2 ^ 32))
            (na + cls) cs).1 (na + offset)) % 2 ^ 32) ts
      else
        writeSubtrees buf na cls ((offset + getLenght buf (na + offset)) % 2 ^ 32) ts := by
  rw [writeSubtrees, writeSubtree]
  split <;> rfl

/-- Unfolding of `writeSubtrees` on the empty list. -/
theorem writeSubtrees_nil (buf : List Nat) (na cls offset : Nat) :
    writeSubtrees buf na cls offset [] = (buf, cls) := by
  rw [writeSubtrees]

/-- Correctness of the two loops of `writeChildren`. For the children of a node:
`writeChildren` returns their total size, changes only the bytes of their block,
and lays them out. For a list of siblings whose headers are written: the second
loop returns the position behind all descendants, changes only bytes of the
headers and of the descendants, and completes the layout. -/
theorem writeSubtrees_spec_aux :
    (∀ n : TrieNode, ∀ buf na,
      na + (levelSize n.children + subSize n.children) ≤ buf.length →
      levelSize n.children + subSize n.children < 2 ^ 32 → ChildrenFit n.children →
      (writeChildren buf na n.children).2 = levelSize n.children + subSize n.children ∧
      (writeChildren buf na n.children).1.length = buf.length ∧
      (∀ i, i < na ∨ na + (levelSize n.children + subSize n.children) ≤ i →
        readU8 (writeChildren buf na n.children).1 i = readU8 buf i) ∧
      Lay (writeChildren buf na n.children).1 na 0 (levelSize n.children) n.children) ∧
    (∀ ts : List TrieNode, ∀ buf na cls offset,
      Hdr buf (na + offset) ts → offset + levelSize ts ≤ cls →
      na + cls + subSize ts ≤ buf.length → cls + subSize ts < 2 ^ 32 → ChildrenFit ts →
      (writeSubtrees buf na cls offset ts).2 = cls + subSize ts ∧
      (writeSubtrees buf na cls offset ts).1.length = buf.length ∧
      (∀ i, (i < na + offset ∨ na + offset + levelSize ts ≤ i) →
          (i < na + cls ∨ na + cls + subSize ts ≤ i) →
        readU8 (writeSubtrees buf na cls offset ts).1 i = readU8 buf i) ∧
      Lay (writeSubtrees buf na cls offset ts).1 na offset cls ts) := by
  apply trie_induction
  · -- `writeChildren` for the children of a node
    intro v cs id ih buf na hlen hsz hfit
    simp only [TrieNode.children_mk] at hlen hsz hfit ⊢
    unfold writeChildren
    obtain ⟨w1, w2, w3, w4⟩ := writeNodes_spec cs buf na 0 hfit (by omega) (by omega)
    simp only [Nat.zero_add, Nat.add_zero] at w1 w3 w4
    obtain ⟨s1, s2, s3, s4⟩ := ih (writeNodes buf na 0 cs).1 na (levelSize cs) 0
      (by simpa using w4) (by omega) (by rw [w2]; omega) (by omega) hfit
    simp only [w1]
    refine ⟨s1, by rw [s2, w2], ?_, s4⟩
    intro i hi
    rw [s3 i (by omega) (by omega), w3 i (by omega)]
  · -- no siblings left
    intro buf na cls offset _ _ _ _ _
    rw [writeSubtrees_nil, subSize_nil]
    exact ⟨rfl, rfl, fun _ _ _ => rfl, lay_nil _ _ _ _⟩
  · -- a node followed by the other siblings
    intro n ts ihn ihts buf na cls offset hh hoff hlen hsz hfit
    cases n with
    | mk v cs id =>
    simp only [TrieNode.children_mk] at ihn
    rw [childrenFit_cons, nodeFits_mk] at hfit
    obtain ⟨⟨hv, hvl, hcl, hid, hfcs⟩, hfts⟩ := hfit
    rw [hdr_cons] at hh
    obtain ⟨hcount, hlabel, hleaf, hhts⟩ := hh
    rw [levelSize_cons] at hoff
    rw [subSize_cons] at hlen hsz
    rw [writeSubtrees_cons, subSize_cons, levelSize_cons]
    by_cases hc : cs.length > 0
    · rw [if_pos hc]
      have hval : (cls + 2 ^ 32 - offset) % 2 ^ 32 = cls - offset := by
        have : cls + 2 ^ 32 - offset = (cls - offset) + 2 ^ 32 := by omega
        rw [this, Nat.add_mod_right]
        exact Nat.mod_eq_of_lt (by omega)
      rw [hval]
      generalize hb1 : writeU32 buf (na + offset + 1) (cls - offset) = buf1
      have hlen1 : buf1.length = buf.length := by rw [← hb1]; simp
      have hframe1 : ∀ i, i < na + offset + 1 ∨ na + offset + 5 ≤ i →
          readU8 buf1 i = readU8 buf i := by
        intro i hi
        rw [← hb1]
        exact readU8_writeU32_of_outside _ _ _ _ (by omega)
      have hpay1 : readU32 buf1 (na + offset + 1) = cls - offset := by
        rw [← hb1]
        exact readU32_writeU32 _ _ _ (by omega) (by omega)
      obtain ⟨c1, c2, c3, c4⟩ := ihn buf1 (na + cls) (by rw [hlen1]; omega) (by omega) hfcs
      generalize hb2 : (writeChildren buf1 (na + cls) cs).1 = buf2 at c2 c3 c4 ⊢
      rw [c1]
      have hmod : (cls + (levelSize cs + subSize cs)) % 2 ^ 32 =
          cls + (levelSize cs + subSize cs) := Nat.mod_eq_of_lt (by omega)
      rw [hmod]
      have hlabel2 : labelAt buf2 (na + offset + 5) v :=
        labelAt_congr buf _ _ v
          (fun i hi1 hi2 => by rw [c3 i (by omega), hframe1 i (by omega)]) hlabel
      have hgl : getLenght buf2 (na + offset) = 1 + 4 + v.length + 1 :=
        getLenght_labelAt buf2 _ v hv hlabel2 hvl
      rw [hgl]
      have hmod2 : (offset + (1 + 4 + v.length + 1)) % 2 ^ 32 = offset + (1 + 4 + v.length + 1) :=
        Nat.mod_eq_of_lt (by omega)
      rw [hmod2]
      have hhts2 : Hdr buf2 (na + (offset + (1 + 4 + v.length + 1))) ts := by
        apply hdr_congr buf _ ts _ _
          (by rw [show na + (offset + (1 + 4 + v.length + 1)) =
            na + offset + (1 + 4 + v.length + 1) by omega]; exact hhts)
        intro i hi1 hi2
        rw [c3 i (by omega), hframe1 i (by omega)]
      obtain ⟨t1, t2, t3, t4⟩ := ihts buf2 na (cls + (levelSize cs + subSize cs))
        (offset + (1 + 4 + v.length + 1)) hhts2 (by omega) (by rw [c2, hlen1]; omega)
        (by omega) hfts
      generalize hb3 : (writeSubtrees buf2 na (cls + (levelSize cs + subSize cs))
        (offset + (1 + 4 + v.length + 1)) ts).1 = buf3 at t2 t3 t4 ⊢
      refine ⟨by rw [t1]; omega, by rw [t2, c2, hlen1], ?_, ?_⟩
      · intro i hi1 hi2
        rw [t3 i (by omega) (by omega), c3 i (by omega), hframe1 i (by omega)]
      · rw [lay_cons]
        refine ⟨?_, ?_, hvl, by omega, by omega, ?_, ?_, t4⟩
        · rw [t3 _ (by omega) (by omega), c3 _ (by omega), hframe1 _ (by omega)]
          exact hcount
        · exact labelAt_congr buf2 _ _ v
            (fun i hi1 hi2 => t3 i (by omega) (by omega)) hlabel2
        · intro h0; omega
        · intro _
          refine ⟨?_, ?_⟩
          · rw [readU32_congr buf1 _ _ (fun i hi1 hi2 => by
              rw [t3 i (by omega) (by omega), c3 i (by omega)])]
            exact hpay1
          · apply lay_congr cs buf2 _ _ _ _ c4
            intro i hi
            exact t3 i (by omega) (by omega)
    · rw [if_neg hc]
      have hc0 : cs.length = 0 := by omega
      have hcs : cs = [] := List.length_eq_zero.1 hc0
      subst hcs
      simp only [levelSize, subSize_nil, Nat.add_zero, Nat.zero_add] at hlen hsz ⊢
      have hgl : getLenght buf (na + offset) = 1 + 4 + v.length + 1 :=
        getLenght_labelAt buf _ v hv hlabel hvl
      rw [hgl]
      have hmod2 : (offset + (1 + 4 + v.length + 1)) % 2 ^ 32 = offset + (1 + 4 + v.length + 1) :=
        Nat.mod_eq_of_lt (by omega)
      rw [hmod2]
      obtain ⟨t1, t2, t3, t4⟩ := ihts buf na cls (offset + (1 + 4 + v.length + 1))
        (by rw [show na + (offset + (1 + 4 + v.length + 1)) =
            na + offset + (1 + 4 + v.length + 1) by omega]; exact hhts)
        (by omega) (by omega) (by omega) hfts
      generalize hb3 : (writeSubtrees buf na cls (offset + (1 + 4 + v.length + 1)) ts).1 = buf3
        at t2 t3 t4 ⊢
      refine ⟨by rw [t1], t2, ?_, ?_⟩
      · intro i hi1 hi2
        exact t3 i (by omega) (by omega)
      · rw [lay_cons]
        refine ⟨?_, ?_, hvl, by omega, by omega, ?_, ?_, ?_⟩
        · rw [t3 _ (by omega) (by omega)]; exact hcount
        · exact labelAt_congr buf _ _ v (fun i hi1 hi2 => t3 i (by omega) (by omega)) hlabel
        · intro _
          rw [readU32_congr buf _ _ (fun i hi1 hi2 => t3 i (by omega) (by omega))]
          exact hleaf hc0
        · intro h0; exact absurd rfl h0
        · simpa [levelSize, subSize_nil] using t4

/-- Correctness of `writeChildren`: under the size conditions it returns the size
of the block, changes only the bytes of the block, and lays the nodes out. -/
theorem writeChildren_spec (cs : List TrieNode) (buf : List Nat) (na : Nat)
    (hlen : na + (levelSize cs + subSize cs) ≤ buf.length)
    (hsz : levelSize cs + subSize cs < 2 ^ 32) (hfit : ChildrenFit cs) :
    (writeChildren buf na cs).2 = levelSize cs + subSize cs ∧
    (writeChildren buf na cs).1.length = buf.length ∧
    (∀ i, i < na ∨ na + (levelSize cs + subSize cs) ≤ i →
      readU8 (writeChildren buf na cs).1 i = readU8 buf i) ∧
    Lay (writeChildren buf na cs).1 na 0 (levelSize cs) cs := by
  have := writeSubtrees_spec_aux.1 (.mk [] cs 0) buf na
  simpa using this hlen hsz hfit

/-- Unfolding of `getBranchLength`. -/
theorem getBranchLength_cons (v : List Nat) (cs : List TrieNode) (id : Nat) (ts : List TrieNode)
    (length : Nat) :
    getBranchLength (.mk v cs id :: ts) length =
      getBranchLength ts
        (getBranchLength cs ((length + (1 + 4 + v.length + 1)) % 2 ^ 32)) := by
  rw [getBranchLength, getBranchLengthNode]

/-- Unfolding of `getBranchLength` on the empty list. -/
theorem getBranchLength_nil (length : Nat) : getBranchLength [] length = length := by
  rw [getBranchLength]

/-- Without overflow `getBranchLength` adds the size of the block. -/
theorem getBranchLength_spec_aux :
    (∀ n : TrieNode, ∀ length,
      length + (levelSize n.children + subSize n.children) < 2 ^ 32 →
      getBranchLength n.children length =
        length + (levelSize n.children + subSize n.children)) ∧
    (∀ ts : List TrieNode, ∀ length, length + (levelSize ts + subSize ts) < 2 ^ 32 →
      getBranchLength ts length = length + (levelSize ts + subSize ts)) := by
  apply trie_induction
  · intro v cs id ih
    simpa using ih
  · intro length _
    rw [getBranchLength_nil, subSize_nil]
    rfl
  · intro n ts ihn ihts length h
    cases n with
    | mk v cs id =>
    simp only [TrieNode.children_mk] at ihn
    rw [levelSize_cons, subSize_cons] at h ⊢
    rw [getBranchLength_cons, Nat.mod_eq_of_lt (by omega), ihn _ (by omega),
      ihts _ (by omega)]
    omega

/-- Without overflow `getBranchLength` adds the size of the block. -/
theorem getBranchLength_spec (ts : List TrieNode) (length : Nat)
    (h : length + (levelSize ts + subSize ts) < 2 ^ 32) :
    getBranchLength ts length = length + (levelSize ts + subSize ts) :=
  getBranchLength_spec_aux.2 ts length h

/-- A read in a zeroed buffer. -/
theorem readU8_replicate_zero (n i : Nat) : readU8 (List.replicate n 0) i = 0 := by
  unfold readU8
  by_cases h : i < n
  · rw [List.getD_eq_getElem _ _ (by simpa using h)]
    simp
  · rw [List.getD_eq_default _ _ (by simpa using h)]

/-- Correctness of `freeze` on a non-empty trie that fits the format: the trie
leaves editing mode and has a buffer that starts with the number of root
children, followed by the layout of the tree. -/
theorem freeze_spec (t : TrieImpl) (hne : t._rootChildren ≠ [])
    (hfit : ChildrenFit t._rootChildren) (hcount : t._rootChildren.length < 256)
    (hsz : 1 + (levelSize t._rootChildren + subSize t._rootChildren) < 2 ^ 32) :
    t.freeze._editingMode = false ∧ t.freeze._rootChildren = t._rootChildren ∧
    ∃ buf, t.freeze._serializedNodeArray = some buf ∧
      readU8 buf 0 = t._rootChildren.length ∧
      Lay buf 1 0 (levelSize t._rootChildren) t._rootChildren := by
  have hl : ¬ t._rootChildren.length = 0 := fun h => hne (List.length_eq_zero.1 h)
  unfold TrieImpl.freeze
  rw [if_neg hl]
  refine ⟨rfl, rfl, _, rfl, ?_, ?_⟩
  · have hbl := getBranchLength_spec t._rootChildren 0 (by omega)
    rw [hbl]
    obtain ⟨-, -, w3, -⟩ := writeChildren_spec t._rootChildren
      (writeU8 (List.replicate (1 + (0 + (levelSize t._rootChildren +
        subSize t._rootChildren))) 0) 0 t._rootChildren.length) 1
      (by simp) (by omega) hfit
    rw [w3 0 (by omega)]
    exact readU8_writeU8_self _ _ _ (by simp) hcount
  · have hbl := getBranchLength_spec t._rootChildren 0 (by omega)
    rw [hbl]
    exact (writeChildren_spec t._rootChildren _ 1 (by simp) (by omega) hfit).2.2.2

/-! ## Theorems: `findWord` on the serialized node array -/

/-- Unfolding of `findWordLoop` at the end of the key. -/
theorem findWordLoop_nil (buf : List Nat) (fuel ptr : Nat) :
    findWordLoop buf fuel ptr [] =
      if getChildrenNo buf ptr = 0 then .ok (getId buf ptr)
      else .ok (findZeroNode buf (ptr + getChildrenOffset buf ptr) (getChildrenNo buf ptr) 0) := by
  cases fuel <;> rfl

/-- Unfolding of `findWordLoop` inside the key. -/
theorem findWordLoop_succ (buf : List Nat) (fuel ptr c : Nat) (cs : List Nat) :
    findWordLoop buf (fuel + 1) ptr (c :: cs) =
      match findDescend buf (ptr + getChildrenOffset buf ptr) (c :: cs)
          (getChildrenNo buf ptr) 0 with
      | none => .ok NIME_TRIE_WORD_NOT_FOUND
      | some (childPointer, charactersInCommon) =>
        findWordLoop buf fuel childPointer ((c :: cs).drop charactersInCommon) := rfl

/-- Unfolding of `findDescend`. -/
theorem findDescend_succ (buf : List Nat) (base : Nat) (rest : List Nat) (n read : Nat) :
    findDescend buf base rest (n + 1) read =
      if compareHStr rest (buf.drop (getValuePtr (base + read))) =
            strlen buf (getValuePtr (base + read)) ∧
          readU8 buf (getValuePtr (base + read)) ≠ 0 then
        some (base + read, compareHStr rest (buf.drop (getValuePtr (base + read))))
      else
        findDescend buf base rest n ((read + getLenght buf (base + read)) % 2 ^ 32) := rfl

/-- Unfolding of `findZeroNode`. -/
theorem findZeroNode_succ (buf : List Nat) (base n read : Nat) :
    findZeroNode buf base (n + 1) read =
      if readU8 buf (getValuePtr (base + read)) = 0 then getId buf (base + read)
      else findZeroNode buf base n ((read + getLenght buf (base + read)) % 2 ^ 32) := rfl

/-- The last loop of `findWord` on laid-out siblings finds the empty-label child. -/
theorem findZeroNode_lay (ts : List TrieNode) (buf : List Nat) (q offset cls : Nat)
    (hok : ChildrenOK ts) (hl : Lay buf q offset cls ts) :
    findZeroNode buf q ts.length offset = zeroNodeId NIME_TRIE_WORD_NOT_FOUND ts := by
  induction ts generalizing offset cls with
  | nil => rfl
  | cons n ts ih =>
    cases n with
    | mk v cs id =>
    rw [childrenOK_cons, nodeOK_mk] at hok
    obtain ⟨⟨hv, hleaf, -⟩, -, hts⟩ := hok
    rw [lay_cons] at hl
    obtain ⟨h1, h2, h3, h4, h5, h6, h7, h8⟩ := hl
    rw [List.length_cons, findZeroNode_succ, zeroNodeId_cons]
    simp only [TrieNode.value_mk, TrieNode.id_mk, getValuePtr]
    have hz := readU8_labelAt buf (q + offset + 5) v hv h2
    have e : q + offset + 1 + 4 = q + offset + 5 := by omega
    simp only [e]
    by_cases hv0 : v = []
    · rw [if_pos (hz.2 hv0), if_pos hv0]
      unfold getId
      exact h6 (by rw [hleaf hv0]; rfl)
    · rw [if_neg (fun h => hv0 (hz.1 h)), if_neg hv0,
        getLenght_labelAt buf _ v hv h2 h3, Nat.mod_eq_of_lt (by omega)]
      exact ih _ _ hts h8

/-- Correctness of the loops of `findWord` on a laid-out tree: from a laid-out
node the `while` loop returns what the tree-level query returns, and so does
one round of the child loop followed by the rest of the `while` loop. -/
theorem findWordLoop_lay_aux :
    (∀ n : TrieNode, ∀ buf q offset cls ts rest fuel, NodeOK n →
      Lay buf q offset cls (n :: ts) → 1 ≤ q → rest.length ≤ fuel →
      findWordLoop buf fuel (q + offset) rest = .ok (findNode NIME_TRIE_WORD_NOT_FOUND n rest)) ∧
    (∀ cs : List TrieNode, ∀ buf q offset cls rest fuel, ChildrenOK cs →
      Lay buf q offset cls cs → 1 ≤ q → rest.length ≤ fuel + 1 →
      (match findDescend buf q rest cs.length offset with
        | none => Except.ok NIME_TRIE_WORD_NOT_FOUND
        | some (childPointer, charactersInCommon) =>
          findWordLoop buf fuel childPointer (rest.drop charactersInCommon)) =
        .ok (findChildren NIME_TRIE_WORD_NOT_FOUND cs rest)) := by
  apply trie_induction
  · -- at a node
    intro v cs id ih buf q offset cls ts rest fuel hok hl hq hfuel
    rw [nodeOK_mk] at hok
    obtain ⟨hv, -, hcs⟩ := hok
    rw [lay_cons] at hl
    obtain ⟨h1, h2, h3, h4, h5, h6, h7, -⟩ := hl
    have hoff : getChildrenOffset buf (q + offset) = readU32 buf (q + offset + 1) := by
      unfold getChildrenOffset
      rw [if_neg (by omega)]
    have hlay : Lay buf (q + offset + getChildrenOffset buf (q + offset)) 0 (levelSize cs) cs := by
      by_cases hc : cs.length = 0
      · rw [List.length_eq_zero.1 hc]; exact lay_nil _ _ _ _
      · obtain ⟨h71, h72⟩ := h7 hc
        rw [hoff, h71, show q + offset + (cls - offset) = q + cls by omega]
        exact h72
    rw [findNode_mk]
    cases rest with
    | nil =>
      rw [findWordLoop_nil, if_pos rfl]
      unfold getChildrenNo
      rw [h1]
      by_cases hc : cs.length = 0
      · rw [if_pos hc, if_pos hc]
        unfold getId
        rw [h6 hc]
      · rw [if_neg hc, if_neg hc, findZeroNode_lay cs buf _ 0 _ hcs hlay]
    | cons c r =>
      cases fuel with
      | zero => simp at hfuel
      | succ fuel =>
        rw [findWordLoop_succ, if_neg (by simp)]
        unfold getChildrenNo
        rw [h1]
        exact ih buf _ 0 _ (c :: r) fuel hcs hlay (by omega) hfuel
  · -- no siblings
    intro buf q offset cls rest fuel _ _ _ _
    rw [findChildren_nil]
    rfl
  · -- a sibling followed by the others
    intro n ns ihn ihns buf q offset cls rest fuel hok hl hq hfuel
    cases n with
    | mk v cs id =>
    have hl' := hl
    rw [childrenOK_cons] at hok
    obtain ⟨hn, -, hns⟩ := hok
    have hv : JamoBytes v := hn.jamoBytes
    rw [lay_cons] at hl
    obtain ⟨h1, h2, h3, h4, h5, h6, h7, h8⟩ := hl
    rw [List.length_cons, findDescend_succ, findChildren_cons]
    have e : q + offset + 1 + 4 = q + offset + 5 := by omega
    simp only [getValuePtr, e, compareHStr_labelAt buf _ v rest hv h2,
      strlen_labelAt buf _ v hv h2]
    have hz := readU8_labelAt buf (q + offset + 5) v hv h2
    by_cases hm : compareHStr rest v = v.length ∧ v ≠ []
    · rw [if_pos ⟨hm.1, fun h => hm.2 (hz.1 h)⟩, if_pos hm]
      simp only []
      rw [hm.1]
      apply ihn buf q offset cls ns _ fuel hn hl' hq
      have : 0 < v.length := List.length_pos.2 hm.2
      simp; omega
    · rw [if_neg (fun h => hm ⟨h.1, fun hv0 => h.2 (hz.2 hv0)⟩), if_neg hm,
        getLenght_labelAt buf _ v hv h2 h3, Nat.mod_eq_of_lt (by omega)]
      exact ihns buf q _ _ rest fuel hns h8 hq hfuel

/-- Correctness of `findWord` on a laid-out trie: it returns what the tree-level
query returns. -/
theorem findWordLoop_root (root : List TrieNode) (buf : List Nat) (hstr : List Nat)
    (hok : ChildrenOK root) (hne : root ≠ []) (hcount : readU8 buf 0 = root.length)
    (hl : Lay buf 1 0 (levelSize root) root) :
    findWordLoop buf hstr.length 0 hstr = .ok (findRoot NIME_TRIE_WORD_NOT_FOUND root hstr) := by
  have hlen : root.length ≠ 0 := fun h => hne (List.length_eq_zero.1 h)
  have hoff : getChildrenOffset buf 0 = 1 := by
    unfold getChildrenOffset; rw [if_pos rfl]
  unfold findRoot
  cases hstr with
  | nil =>
    rw [findWordLoop_nil, if_pos rfl]
    unfold getChildrenNo
    rw [hcount, if_neg hlen, hoff, findZeroNode_lay root buf _ 0 _ hok hl]
  | cons c r =>
    rw [List.length_cons, findWordLoop_succ, if_neg (by simp)]
    unfold getChildrenNo
    rw [hcount, hoff]
    exact findWordLoop_lay_aux.2 root buf 1 0 _ (c :: r) r.length hok hl (by omega) (by simp)

/-! ## Theorems: the `HangulString` encoding -/

/-- The two shapes of the bytes of one codepoint. -/
theorem hangulBytes_cases (c : Nat) (bs : List Nat) (h : hangulBytes c = .ok bs) :
    (c = EncapsulatedNonHangulCode ∧ bs = [29]) ∨
    (0xac00 ≤ c ∧ c ≤ 0xd7af ∧
      bs = [(c - 0xac00) / 588 + 1, (c - 0xac00) % 588 / 28 + 1, (c - 0xac00) % 588 % 28 + 1]) := by
  unfold hangulBytes at h
  by_cases he : c = EncapsulatedNonHangulCode
  · left
    subst he
    simp [isSyllableCodepoint, EncapsulatedNonHangulCode, NonHangulCode] at h
    exact ⟨rfl, h.symm⟩
  · right
    by_cases hs : isSyllableCodepoint c = true
    · have hs' := hs
      simp only [isSyllableCodepoint, Bool.and_eq_true, decide_eq_true_eq] at hs'
      simp only [hs, Bool.not_true, Bool.false_and, Bool.false_eq_true, if_false, he,
        Except.ok.injEq] at h
      refine ⟨hs'.1, hs'.2, ?_⟩
      rw [← h]
      have h1 : (c - 0xac00) / 0x24c % 256 = (c - 0xac00) / 588 := by omega
      have h2 : (c - 0xac00) % 0x24c / 0x1c % 256 = (c - 0xac00) % 588 / 28 := by omega
      have h3 : (c - 0xac00) % 0x24c % 0x1c % 256 = (c - 0xac00) % 588 % 28 := by omega
      rw [h1, h2, h3]
      have h4 : ((c - 0xac00) / 588 + 1) % 256 = (c - 0xac00) / 588 + 1 := by omega
      have h5 : ((c - 0xac00) % 588 / 28 + 1) % 256 = (c - 0xac00) % 588 / 28 + 1 := by omega
      have h6 : ((c - 0xac00) % 588 % 28 + 1) % 256 = (c - 0xac00) % 588 % 28 + 1 := by omega
      rw [h4, h5, h6]
    · simp [hs, he] at h

/-- The bytes of one codepoint are over the alphabet `1..29`. -/
theorem hangulBytes_jamoBytes (c : Nat) (bs : List Nat) (h : hangulBytes c = .ok bs) :
    JamoBytes bs := by
  rcases hangulBytes_cases c bs h with ⟨-, rfl⟩ | ⟨h1, h2, rfl⟩
  · intro b hb
    simp at hb
    subst hb
    exact ⟨by norm_num, by norm_num⟩
  · intro b hb
    simp only [List.mem_cons, List.mem_singleton, List.not_mem_nil, or_false] at hb
    rcases hb with rfl | rfl | rfl <;> constructor <;> omega

/-- One codepoint gives one to three bytes. -/
theorem hangulBytes_length (c : Nat) (bs : List Nat) (h : hangulBytes c = .ok bs) :
    1 ≤ bs.length ∧ bs.length ≤ 3 := by
  rcases hangulBytes_cases c bs h with ⟨-, rfl⟩ | ⟨-, -, rfl⟩ <;> simp

/-- The bytes of a codepoint at the start of a byte string determine the
codepoint and the remaining bytes. -/
theorem hangulBytes_unique (c1 c2 : Nat) (b1 b2 r1 r2 : List Nat)
    (h1 : hangulBytes c1 = .ok b1) (h2 : hangulBytes c2 = .ok b2)
    (h : b1 ++ r1 = b2 ++ r2) : c1 = c2 ∧ b1 = b2 ∧ r1 = r2 := by
  rcases hangulBytes_cases c1 b1 h1 with ⟨e1, rfl⟩ | ⟨l1, u1, rfl⟩ <;>
    rcases hangulBytes_cases c2 b2 h2 with ⟨e2, rfl⟩ | ⟨l2, u2, rfl⟩
  · simp at h
    exact ⟨e1.trans e2.symm, rfl, h⟩
  · simp at h
    omega
  · simp at h
    omega
  · simp only [List.cons_append, List.nil_append, List.cons.injEq] at h
    obtain ⟨e1, e2, e3, e4⟩ := h
    have : c1 = c2 := by omega
    subst this
    exact ⟨rfl, rfl, e4⟩

/-- The fold of `toHangulString` computes `hangulBytesAll`. -/
theorem toHangulString_fold (cs acc : List Nat) :
    List.foldlM (fun hstr c => do
        let bs ← hangulBytes c
        pure (hstr ++ bs)) acc cs =
      match hangulBytesAll cs with
      | .error e => .error e
      | .ok r => .ok (acc ++ r) := by
  induction cs generalizing acc with
  | nil => simp [hangulBytesAll, pure, Except.pure]
  | cons c cs ih =>
    rw [List.foldlM_cons]
    simp only [hangulBytesAll]
    cases hb : hangulBytes c with
    | error e => rfl
    | ok bs =>
      simp only [bind, Except.bind, pure, Except.pure]
      have := ih (acc ++ bs)
      simp only [bind, Except.bind, pure, Except.pure] at this
      rw [this]
      cases hangulBytesAll cs with
      | error e => rfl
      | ok r => simp

/-- Source-level and recursive form of `toHangulString` agree. -/
theorem toHangulString_eq (s : String) : s.toHangulString = hangulBytesAll s._str := by
  unfold String.toHangulString
  rw [toHangulString_fold]
  cases hangulBytesAll s._str with
  | error e => rfl
  | ok r => simp

/-- A `HangulString` is over the alphabet `1..29`. -/
theorem hangulBytesAll_jamoBytes (cs h : List Nat) (hh : hangulBytesAll cs = .ok h) :
    JamoBytes h := by
  induction cs generalizing h with
  | nil =>
    simp only [hangulBytesAll, Except.ok.injEq] at hh
    subst hh
    exact jamoBytes_nil
  | cons c cs ih =>
    simp only [hangulBytesAll] at hh
    cases hb : hangulBytes c with
    | error e => simp [hb] at hh
    | ok bs =>
      cases hr : hangulBytesAll cs with
      | error e => simp [hb, hr] at hh
      | ok r =>
        simp only [hb, hr, Except.ok.injEq] at hh
        subst hh
        intro b hbm
        rcases List.mem_append.1 hbm with hbm | hbm
        · exact hangulBytes_jamoBytes c bs hb b hbm
        · exact ih r hr b hbm

/-- A `HangulString` has between one and three bytes per codepoint. -/
theorem hangulBytesAll_length (cs h : List Nat) (hh : hangulBytesAll cs = .ok h) :
    cs.length ≤ h.length ∧ h.length ≤ 3 * cs.length := by
  induction cs generalizing h with
  | nil =>
    simp only [hangulBytesAll, Except.ok.injEq] at hh
    subst hh
    simp
  | cons c cs ih =>
    simp only [hangulBytesAll] at hh
    cases hb : hangulBytes c with
    | error e => simp [hb] at hh
    | ok bs =>
      cases hr : hangulBytesAll cs with
      | error e => simp [hb, hr] at hh
      | ok r =>
        simp only [hb, hr, Except.ok.injEq] at hh
        subst hh
        have := hangulBytes_length c bs hb
        have := ih r hr
        simp only [List.length_append, List.length_cons]
        omega

/-- Different codepoint sequences have different `HangulString`s. -/
theorem hangulBytesAll_injective (cs1 cs2 h : List Nat) (h1 : hangulBytesAll cs1 = .ok h)
    (h2 : hangulBytesAll cs2 = .ok h) : cs1 = cs2 := by
  induction cs1 generalizing cs2 h with
  | nil =>
    simp only [hangulBytesAll, Except.ok.injEq] at h1
    subst h1
    cases cs2 with
    | nil => rfl
    | cons c cs =>
      have := (hangulBytesAll_length _ _ h2).1
      simp at this
  | cons c cs ih =>
    cases cs2 with
    | nil =>
      simp only [hangulBytesAll, Except.ok.injEq] at h2
      subst h2
      have := (hangulBytesAll_length _ _ h1).1
      simp at this
    | cons c2 cs2 =>
      simp only [hangulBytesAll] at h1 h2
      cases hb1 : hangulBytes c with
      | error e => simp [hb1] at h1
      | ok b1 =>
        cases hr1 : hangulBytesAll cs with
        | error e => simp [hb1, hr1] at h1
        | ok r1 =>
          cases hb2 : hangulBytes c2 with
          | error e => simp [hb2] at h2
          | ok b2 =>
            cases hr2 : hangulBytesAll cs2 with
            | error e => simp [hb2, hr2] at h2
            | ok r2 =>
              simp only [hb1, hr1, Except.ok.injEq] at h1
              simp only [hb2, hr2, Except.ok.injEq] at h2
              obtain ⟨e1, -, e3⟩ := hangulBytes_unique c c2 b1 b2 r1 r2 hb1 hb2
                (h1.trans h2.symm)
              subst e1 e3
              rw [ih cs2 r1 hr1 hr2]

/-- A pure-Hangul string has a `HangulString`. -/
theorem hangulBytesAll_of_pure (cs : List Nat)
    (h : cs.all (fun c => isSyllableCodepoint c || c == EncapsulatedNonHangulCode) = true) :
    ∃ hstr, hangulBytesAll cs = .ok hstr := by
  induction cs with
  | nil => exact ⟨[], rfl⟩
  | cons c cs ih =>
    simp only [List.all_cons, Bool.and_eq_true] at h
    obtain ⟨r, hr⟩ := ih h.2
    have : ∃ bs, hangulBytes c = .ok bs := by
      unfold hangulBytes
      have h1 := h.1
      simp only [Bool.or_eq_true, beq_iff_eq] at h1
      by_cases he : c = EncapsulatedNonHangulCode
      · simp [he]
      · have hs : isSyllableCodepoint c = true := h1.resolve_right he
        simp [hs, he]
    obtain ⟨bs, hbs⟩ := this
    exact ⟨bs ++ r, by simp [hangulBytesAll, hbs, hr]⟩

/-! ## Theorems: the trees built by `addWord` fit the serialized format -/

/-- The heads of well-formed siblings are pairwise different. -/
theorem heads_nodup (cs : List TrieNode) (h : ChildrenOK cs) : (heads cs).Nodup := by
  induction cs with
  | nil => simp [heads]
  | cons c cs ih =>
    rw [childrenOK_cons_heads] at h
    simp only [heads, List.map_cons, List.nodup_cons]
    exact ⟨h.2.1, ih h.2.2⟩

/-- The heads of well-formed siblings are at most 29. -/
theorem heads_le (cs : List TrieNode) (h : ChildrenOK cs) : ∀ b ∈ heads cs, b < 30 := by
  intro b hb
  obtain ⟨n, hn, rfl⟩ := mem_heads.1 hb
  have hj := (h.nodeOK n hn).jamoBytes
  cases hv : n.value with
  | nil => simp
  | cons x xs =>
    have := (hj x (by rw [hv]; simp)).2
    simp only [List.headD_cons]
    omega

/-- A well-formed node has at most 30 children. -/
theorem ChildrenOK.length_le {cs : List TrieNode} (h : ChildrenOK cs) : cs.length ≤ 30 := by
  have h1 : heads cs ⊆ List.range 30 := fun b hb => List.mem_range.2 (heads_le cs h b hb)
  have h2 := (List.subperm_of_subset (heads_nodup cs h) h1).length_le
  simpa [heads] using h2

/-- The format conditions for a list extended at the end. -/
theorem childrenFit_append_singleton (cs : List TrieNode) (n : TrieNode) :
    ChildrenFit (cs ++ [n]) ↔ ChildrenFit cs ∧ NodeFits n := by
  induction cs with
  | nil => simp [childrenFit_cons, childrenFit_nil]
  | cons c cs ih =>
    rw [List.cons_append, childrenFit_cons, childrenFit_cons, ih, and_assoc]

/-- Replacing the id of the empty-label child keeps the format conditions. -/
theorem setZeroNode_fits (id : Nat) (hid : id < 2 ^ 32) (cs : List TrieNode)
    (hcs : ChildrenFit cs) (cs1 : List TrieNode) (r : Nat)
    (h : setZeroNode id true cs = some (cs1, r)) : ChildrenFit cs1 := by
  induction cs generalizing cs1 r with
  | nil => simp [setZeroNode] at h
  | cons c cs ih =>
    rw [setZeroNode_cons] at h
    rw [childrenFit_cons] at hcs
    cases hs : setZeroNode id true cs with
    | some p =>
      obtain ⟨ns1, r1⟩ := p
      simp only [hs, Option.some.injEq, Prod.mk.injEq] at h
      obtain ⟨rfl, rfl⟩ := h
      rw [childrenFit_cons]
      exact ⟨hcs.1, ih hcs.2 ns1 r1 hs⟩
    | none =>
      by_cases hcv : c.value = []
      · simp only [hs, hcv, if_true, Option.some.injEq, Prod.mk.injEq] at h
        obtain ⟨rfl, rfl⟩ := h
        rw [childrenFit_cons]
        refine ⟨?_, hcs.2⟩
        have := hcs.1
        rw [c.eta, nodeFits_mk] at this
        rw [nodeFits_mk]
        exact ⟨jamoBytes_nil, by simp, this.2.2.1, hid, this.2.2.2.2⟩
      · simp [hs, hcv] at h

/-- The format conditions for a node are the conditions on its fields. -/
theorem nodeFits_iff (n : TrieNode) :
    NodeFits n ↔ JamoBytes n.value ∧ n.value.length + 6 < 256 ∧ n.children.length < 256 ∧
      n.id < 2 ^ 32 ∧ ChildrenFit n.children := by
  cases n with
  | mk v cs id => rw [nodeFits_mk]; simp

/-- Unfolding of `NodeOK` on the fields of a node. -/
theorem nodeOK_iff (n : TrieNode) :
    NodeOK n ↔ JamoBytes n.value ∧ (n.value = [] → n.children = []) ∧ ChildrenOK n.children := by
  cases n with
  | mk v cs id => rw [nodeOK_mk]; simp

/-- The id and the children of the node `addWord` leaves at the end of a key. -/
theorem finishAtNode_fits (v : List Nat) (cs : List TrieNode) (nid id : Nat)
    (hfit : NodeFits (.mk v cs nid)) (hid : id < 2 ^ 32) :
    (finishAtNode v cs nid id true).1.id < 2 ^ 32 ∧
    ChildrenFit (finishAtNode v cs nid id true).1.children := by
  rw [nodeFits_mk] at hfit
  obtain ⟨-, -, -, hnid, hcs⟩ := hfit
  unfold finishAtNode
  by_cases hlen : cs.length > 0
  · rw [if_pos hlen]
    cases hs : setZeroNode id true cs with
    | none =>
      simp only [TrieNode.id_mk, TrieNode.children_mk]
      refine ⟨hnid, ?_⟩
      rw [childrenFit_append_singleton, nodeFits_mk]
      exact ⟨hcs, jamoBytes_nil, by simp, by simp, hid, childrenFit_nil⟩
    | some p =>
      obtain ⟨cs1, r⟩ := p
      simp only [TrieNode.id_mk, TrieNode.children_mk]
      exact ⟨hnid, setZeroNode_fits id hid cs hcs cs1 r hs⟩
  · rw [if_neg hlen]
    simp only [if_true, TrieNode.id_mk, TrieNode.children_mk]
    exact ⟨hid, hcs⟩

/-- The nodes `addWord` builds from a key of fewer than 250 bytes and a 32-bit id
fit the serialized format. -/
theorem addAtNode_fits_aux :
    (∀ n, NodeOK n → n.value ≠ [] → NodeFits n → ∀ k id, JamoBytes k → k.length + 6 < 256 →
      id < 2 ^ 32 → NodeFits (addAtNode n k id true).1) ∧
    (∀ cs, ChildrenOK cs → ChildrenFit cs → ∀ k id, JamoBytes k → k ≠ [] →
      k.length + 6 < 256 → id < 2 ^ 32 → ∀ cs1 r, scanChildren cs k id true = some (cs1, r) →
      ChildrenFit cs1) := by
  apply trie_induction
  · intro v cs nid ih hn hvne hfit k id hk hkl hid
    obtain ⟨hOK, hval, -⟩ := (@addAtNode_scanChildren_spec 0).1 (.mk v cs nid) hn hvne k id hk
    have hcount := ((nodeOK_iff _).1 hOK).2.2.length_le
    rw [nodeFits_iff, hval]
    have hfit' := hfit
    rw [nodeFits_mk] at hfit'
    obtain ⟨hv, hvl, hcl, hnid, hcs⟩ := hfit'
    refine ⟨hv, hvl, by omega, ?_⟩
    rw [nodeOK_mk] at hn
    rw [addAtNode_mk]
    by_cases hk0 : k = []
    · rw [if_pos hk0]
      exact finishAtNode_fits v cs nid id hfit hid
    · rw [if_neg hk0]
      have hleaf : NodeFits (.mk k [] id) := by
        rw [nodeFits_mk]; exact ⟨hk, hkl, by simp, hid, childrenFit_nil⟩
      cases hs : scanChildren cs k id true with
      | none =>
        simp only [TrieNode.id_mk, TrieNode.children_mk]
        refine ⟨hnid, ?_⟩
        rw [childrenFit_append_singleton]
        refine ⟨?_, hleaf⟩
        split
        · rw [childrenFit_cons, nodeFits_mk]
          exact ⟨⟨jamoBytes_nil, by simp, by simp, hnid, childrenFit_nil⟩, childrenFit_nil⟩
        · exact hcs
      | some p =>
        obtain ⟨cs1, r⟩ := p
        simp only [TrieNode.id_mk, TrieNode.children_mk]
        exact ⟨hnid, ih hn.2.2 hcs k id hk hk0 hkl hid cs1 r hs⟩
  · intro _ _ k id _ _ _ _ cs1 r h
    rw [scanChildren_nil] at h
    cases h
  · intro n ns ihn ihns hok hfit k id hk hk0 hkl hid cs1 r h
    cases n with
    | mk v cs nid =>
    rw [childrenOK_cons] at hok
    rw [childrenFit_cons] at hfit
    obtain ⟨hn, -, hns⟩ := hok
    obtain ⟨hfn, hfns⟩ := hfit
    rw [scanChildren_cons] at h
    by_cases ha : compareHStr k v = v.length ∧ v ≠ []
    · rw [if_pos ha] at h
      simp only [Option.some.injEq, Prod.mk.injEq] at h
      obtain ⟨rfl, -⟩ := h
      rw [childrenFit_cons]
      refine ⟨ihn hn (by simpa using ha.2) hfn _ id (hk.drop _) ?_ hid, hfns⟩
      simp; omega
    · rw [if_neg ha] at h
      by_cases hb : compareHStr k v > 0
      · rw [if_pos hb] at h
        simp only [Option.some.injEq, Prod.mk.injEq] at h
        obtain ⟨rfl, -⟩ := h
        rw [childrenFit_cons]
        refine ⟨?_, hfns⟩
        rw [nodeFits_mk] at hfn
        obtain ⟨hv, hvl, hcl, hnid, hcs⟩ := hfn
        have hc := compareHStr_le_left k v
        simp only [splitNode]
        rw [nodeFits_mk, childrenFit_cons, childrenFit_cons, nodeFits_mk, nodeFits_mk]
        refine ⟨hk.take _, by simp; omega, by simp, hnid,
          ⟨hk.drop _, by simp; omega, by simp, hid, childrenFit_nil⟩,
          ⟨hv.drop _, by simp; omega, hcl, hnid, hcs⟩, childrenFit_nil⟩
      · rw [if_neg hb] at h
        cases hs : scanChildren ns k id true with
        | none => simp [hs] at h
        | some p =>
          obtain ⟨ns1, r1⟩ := p
          simp only [hs, Option.some.injEq, Prod.mk.injEq] at h
          obtain ⟨rfl, -⟩ := h
          rw [childrenFit_cons]
          exact ⟨hfn, ihns hns hfns k id hk hk0 hkl hid ns1 r1 hs⟩

/-- Insertion at the root keeps the format conditions. -/
theorem addWordRoot_fits (root : List TrieNode) (hroot : RootOK root) (hfit : ChildrenFit root)
    (k : List Nat) (id : Nat) (hk : JamoBytes k) (hk0 : k ≠ []) (hkl : k.length + 6 < 256)
    (hid : id < 2 ^ 32) : ChildrenFit (addWordRoot root k id true).1 := by
  unfold addWordRoot
  rw [if_neg hk0]
  cases hs : scanChildren root k id true with
  | none =>
    simp only []
    rw [childrenFit_append_singleton, nodeFits_mk]
    exact ⟨hfit, hk, hkl, by simp, hid, childrenFit_nil⟩
  | some p =>
    obtain ⟨cs1, r⟩ := p
    exact addAtNode_fits_aux.2 root hroot.1 hfit k id hk hk0 hkl hid cs1 r hs

/-- After a sequence of insertions of keys of fewer than 250 bytes with 32-bit
ids the tree fits the serialized format. -/
theorem addAll_fits (kws : List (List Nat × Nat)) (root : List TrieNode) (hroot : RootOK root)
    (hfit : ChildrenFit root)
    (hk : ∀ p ∈ kws, JamoBytes p.1 ∧ p.1 ≠ [] ∧ p.1.length + 6 < 256 ∧ p.2 < 2 ^ 32) :
    ChildrenFit (addAll root kws) := by
  induction kws generalizing root with
  | nil => exact hfit
  | cons p rest ih =>
    obtain ⟨k, id⟩ := p
    obtain ⟨h1, h2, h3, h4⟩ := hk (k, id) (by simp)
    simp only [addAll]
    exact ih _ (@addWordRoot_spec 0 root hroot k id h1 h2).1
      (addWordRoot_fits root hroot hfit k id h1 h2 h3 h4) fun p hp => hk p (by simp [hp])

/-! ## Theorems: `findWord` after `addWord` and `freeze` -/

/-- A pure-Hangul string converts to its byte key. -/
theorem toHangulString_of_pure (s : String) (h : s.isPureHangul = true) :
    s.toHangulString = .ok (encodeKey s) := by
  obtain ⟨hstr, hh⟩ := hangulBytesAll_of_pure s._str h
  unfold encodeKey
  rw [toHangulString_eq, hh]

/-- The byte key of a pure-Hangul string is over the alphabet `1..29`. -/
theorem encodeKey_jamoBytes (s : String) (h : s.isPureHangul = true) :
    JamoBytes (encodeKey s) := by
  have := toHangulString_of_pure s h
  rw [toHangulString_eq] at this
  exact hangulBytesAll_jamoBytes _ _ this

/-- The byte key of a pure-Hangul string has one to three bytes per character. -/
theorem encodeKey_length (s : String) (h : s.isPureHangul = true) :
    s.length ≤ (encodeKey s).length ∧ (encodeKey s).length ≤ 3 * s.length := by
  have := toHangulString_of_pure s h
  rw [toHangulString_eq] at this
  exact hangulBytesAll_length _ _ this

/-- Different pure-Hangul strings have different byte keys. -/
theorem encodeKey_injective (s1 s2 : String) (h1 : s1.isPureHangul = true)
    (h2 : s2.isPureHangul = true) (h : encodeKey s1 = encodeKey s2) : s1 = s2 := by
  have e1 := toHangulString_of_pure s1 h1
  have e2 := toHangulString_of_pure s2 h2
  rw [toHangulString_eq] at e1 e2
  rw [← h] at e2
  have := hangulBytesAll_injective _ _ _ e1 e2
  cases s1; cases s2
  simpa using this

/-- `addWords` on pure-Hangul keys performs the insertions of the byte keys. -/
theorem addWords_eq (ws : List (String × Nat)) (t : TrieImpl) (hed : t._editingMode = true)
    (hpure : ∀ p ∈ ws, p.1.isPureHangul = true) :
    t.addWords ws =
      .ok { t with _rootChildren := addAll t._rootChildren (encodeWords ws) } := by
  induction ws generalizing t with
  | nil => rfl
  | cons p rest ih =>
    obtain ⟨key, id⟩ := p
    have hk := toHangulString_of_pure key (hpure (key, id) (by simp))
    simp only [TrieImpl.addWords, TrieImpl.addWord, hed, Bool.not_true, Bool.false_eq_true,
      if_false, hk, bind, Except.bind, pure, Except.pure]
    rw [ih _ rfl fun p hp => hpure p (by simp [hp])]
    rfl

/-- Insertion of a non-empty key leaves a non-empty trie. -/
theorem addWordRoot_ne_nil (root : List TrieNode) (k : List Nat) (id : Nat) (hk0 : k ≠ []) :
    (addWordRoot root k id true).1 ≠ [] := by
  unfold addWordRoot
  rw [if_neg hk0]
  cases root with
  | nil => simp [scanChildren_nil]
  | cons n ns =>
    cases n with
    | mk v cs nid =>
    rw [scanChildren_cons]
    by_cases ha : compareHStr k v = v.length ∧ v ≠ []
    · rw [if_pos ha]; simp
    · rw [if_neg ha]
      by_cases hb : compareHStr k v > 0
      · rw [if_pos hb]; simp
      · rw [if_neg hb]
        cases scanChildren ns k id true with
        | none => simp
        | some p => simp

/-- Insertions into a non-empty trie leave a non-empty trie. -/
theorem addAll_ne_nil (kws : List (List Nat × Nat)) (root : List TrieNode)
    (hk : ∀ p ∈ kws, p.1 ≠ []) (h : root ≠ [] ∨ kws ≠ []) : addAll root kws ≠ [] := by
  induction kws generalizing root with
  | nil =>
    rcases h with h | h
    · exact h
    · exact absurd rfl h
  | cons p rest ih =>
    obtain ⟨k, id⟩ := p
    simp only [addAll]
    exact ih _ (fun p hp => hk p (by simp [hp]))
      (Or.inl (addWordRoot_ne_nil root k id (hk (k, id) (by simp))))

/-- What `findWord` returns on the frozen trie built by `addWords` from non-empty
pure-Hangul keys of at most 83 characters with 32-bit ids, when the serialized
node array stays below `2 ^ 32` bytes: for every pure-Hangul string the id it
was last inserted with, and `NIME_TRIE_WORD_NOT_FOUND` if it was never inserted. -/
theorem findWord_addWords (ws : List (String × Nat)) (hws : ws ≠ [])
    (hpure : ∀ p ∈ ws, p.1.isPureHangul = true) (hne : ∀ p ∈ ws, p.1.length ≠ 0)
    (hlen : ∀ p ∈ ws, p.1.length ≤ 83) (hid : ∀ p ∈ ws, p.2 < 2 ^ 32) :
    ∃ t, TrieImpl.new.addWords ws = .ok t ∧
      (t.serializedSize < 2 ^ 32 →
        ∀ q : String, q.isPureHangul = true →
          t.freeze.findWord q =
            .ok (lastId (encodeWords ws) (encodeKey q) NIME_TRIE_WORD_NOT_FOUND)) := by
  refine ⟨_, addWords_eq ws TrieImpl.new rfl hpure, ?_⟩
  intro hsz q hq
  have hkeys : ∀ p ∈ encodeWords ws,
      JamoBytes p.1 ∧ p.1 ≠ [] ∧ p.1.length + 6 < 256 ∧ p.2 < 2 ^ 32 := by
    intro p hp
    obtain ⟨w, hw, rfl⟩ := List.mem_map.1 hp
    have hl := encodeKey_length w.1 (hpure w hw)
    have h1 := hne w hw
    have h2 := hlen w hw
    refine ⟨encodeKey_jamoBytes w.1 (hpure w hw), ?_, by simp only; omega, hid w hw⟩
    intro h0
    simp only at h0
    rw [h0] at hl
    simp at hl
    exact h1 hl
  have hnew : (TrieImpl.new)._rootChildren = [] := rfl
  simp only [hnew] at hsz ⊢
  obtain ⟨hroot, hfind⟩ := @addAll_spec NIME_TRIE_WORD_NOT_FOUND (encodeWords ws) [] rootOK_nil
    fun p hp => ⟨(hkeys p hp).1, (hkeys p hp).2.1⟩
  have hfit := addAll_fits (encodeWords ws) [] rootOK_nil childrenFit_nil hkeys
  have hnn : addAll [] (encodeWords ws) ≠ [] :=
    addAll_ne_nil _ _ (fun p hp => (hkeys p hp).2.1)
      (Or.inr (by simpa [encodeWords] using hws))
  obtain ⟨hmode, hrc, buf, hbuf, hcount, hlay⟩ := freeze_spec
    { TrieImpl.new with _rootChildren := addAll [] (encodeWords ws) } hnn hfit
    (by have := hroot.1.length_le; simp only; omega) hsz
  simp only at hcount hlay
  unfold TrieImpl.findWord
  rw [hmode, toHangulString_of_pure q hq]
  simp only [Bool.false_eq_true, if_false, bind, Except.bind, hbuf]
  rw [findWordLoop_root _ buf (encodeKey q) hroot.1 hnn hcount hlay,
    hfind _ (encodeKey_jamoBytes q hq), findRoot_nil]

/-! ## Theorems: the size of the serialized node array -/

/-- The level size of a concatenation. -/
theorem levelSize_append (cs l : List TrieNode) :
    levelSize (cs ++ l) = levelSize cs + levelSize l := by
  induction cs with
  | nil => simp [levelSize]
  | cons c cs ih =>
    cases c with
    | mk v cs1 id => simp only [List.cons_append, levelSize_cons, ih]; omega

/-- The size of the descendants of a concatenation. -/
theorem subSize_append (cs l : List TrieNode) : subSize (cs ++ l) = subSize cs + subSize l := by
  induction cs with
  | nil => simp [subSize_nil]
  | cons c cs ih =>
    cases c with
    | mk v cs1 id => simp only [List.cons_append, subSize_cons, ih]; omega

/-- Replacing the id of the empty-label child does not change the sizes. -/
theorem setZeroNode_size (id : Nat) (replace : Bool) (cs cs1 : List TrieNode) (r : Nat)
    (h : setZeroNode id replace cs = some (cs1, r)) :
    levelSize cs1 = levelSize cs ∧ subSize cs1 = subSize cs := by
  induction cs generalizing cs1 r with
  | nil => simp [setZeroNode] at h
  | cons c cs ih =>
    rw [setZeroNode_cons] at h
    cases c with
    | mk v cs2 nid =>
    cases hs : setZeroNode id replace cs with
    | some p =>
      obtain ⟨ns1, r1⟩ := p
      simp only [hs, Option.some.injEq, Prod.mk.injEq] at h
      obtain ⟨rfl, rfl⟩ := h
      obtain ⟨h1, h2⟩ := ih ns1 r1 hs
      simp only [levelSize_cons, subSize_cons, h1, h2, and_self]
    | none =>
      simp only [hs, TrieNode.value_mk, TrieNode.children_mk, TrieNode.id_mk] at h
      by_cases hv : v = []
      · cases replace
        · simp only [hv, if_true, Bool.false_eq_true, if_false, Option.some.injEq,
            Prod.mk.injEq] at h
          obtain ⟨rfl, rfl⟩ := h
          simp [hv]
        · simp only [hv, if_true, Option.some.injEq, Prod.mk.injEq] at h
          obtain ⟨rfl, rfl⟩ := h
          simp only [levelSize_cons, subSize_cons, hv, and_self]
      · simp [hv] at h

/-- An `addWord` call lets the serialized size grow by at most the key length
plus the headers of two nodes. -/
theorem addAtNode_size_aux :
    (∀ n : TrieNode, ∀ k id,
      levelSize (addAtNode n k id true).1.children + subSize (addAtNode n k id true).1.children
          ≤ levelSize n.children + subSize n.children + (k.length + 12) ∧
      (addAtNode n k id true).1.value = n.value) ∧
    (∀ cs : List TrieNode, ∀ k id cs1 r, scanChildren cs k id true = some (cs1, r) →
      levelSize cs1 + subSize cs1 ≤ levelSize cs + subSize cs + (k.length + 12)) := by
  apply trie_induction
  · intro v cs nid ih k id
    rw [addAtNode_mk]
    by_cases hk0 : k = []
    · rw [if_pos hk0]
      unfold finishAtNode
      by_cases hlen : cs.length > 0
      · rw [if_pos hlen]
        cases hs : setZeroNode id true cs with
        | none =>
          simp only [TrieNode.children_mk, TrieNode.value_mk, levelSize_append, subSize_append,
            levelSize_cons, subSize_cons, levelSize, subSize_nil, List.length_nil, and_true]
          omega
        | some p =>
          obtain ⟨cs1, r⟩ := p
          obtain ⟨h1, h2⟩ := setZeroNode_size id true cs cs1 r hs
          simp only [TrieNode.children_mk, TrieNode.value_mk, h1, h2, and_true]
          omega
      · rw [if_neg hlen]
        simp
    · rw [if_neg hk0]
      cases hs : scanChildren cs k id true with
      | none =>
        simp only [TrieNode.children_mk, TrieNode.value_mk, levelSize_append, subSize_append,
          levelSize_cons, subSize_cons, levelSize, subSize_nil, and_true]
        split
        · rename_i h0
          rw [List.length_eq_zero.1 h0]
          simp only [levelSize, levelSize_cons, subSize_cons, subSize_nil, List.length_nil,
            TrieNode.value_mk]
          omega
        · omega
      | some p =>
        obtain ⟨cs1, r⟩ := p
        simp only [TrieNode.children_mk, TrieNode.value_mk, and_true]
        exact ih k id cs1 r hs
  · intro k id cs1 r h
    rw [scanChildren_nil] at h
    cases h
  · intro n ns ihn ihns k id cs1 r h
    cases n with
    | mk v cs nid =>
    rw [scanChildren_cons] at h
    by_cases ha : compareHStr k v = v.length ∧ v ≠ []
    · rw [if_pos ha] at h
      simp only [Option.some.injEq, Prod.mk.injEq] at h
      obtain ⟨rfl, -⟩ := h
      obtain ⟨h1, h2⟩ := ihn (k.drop (compareHStr k v)) id
      simp only [TrieNode.children_mk, TrieNode.value_mk] at h1 h2
      rw [(addAtNode (TrieNode.mk v cs nid) (List.drop (compareHStr k v) k) id true).1.eta,
        levelSize_cons, subSize_cons, levelSize_cons, subSize_cons, h2]
      simp only [List.length_drop] at h1
      omega
    · rw [if_neg ha] at h
      by_cases hb : compareHStr k v > 0
      · rw [if_pos hb] at h
        simp only [Option.some.injEq, Prod.mk.injEq] at h
        obtain ⟨rfl, -⟩ := h
        have hc1 := compareHStr_le_left k v
        have hc2 := compareHStr_le_right k v
        simp only [splitNode, levelSize_cons, subSize_cons, levelSize, subSize_nil,
          List.length_take, List.length_drop, TrieNode.value_mk]
        omega
      · rw [if_neg hb] at h
        cases hs : scanChildren ns k id true with
        | none => simp [hs] at h
        | some p =>
          obtain ⟨ns1, r1⟩ := p
          simp only [hs, Option.some.injEq, Prod.mk.injEq] at h
          obtain ⟨rfl, -⟩ := h
          have := ihns k id ns1 r1 hs
          simp only [levelSize_cons, subSize_cons]
          omega

/-- An `addWord` call at the root lets the serialized size grow by at most the
key length plus the headers of two nodes. -/
theorem addWordRoot_size (root : List TrieNode) (k : List Nat) (id : Nat) :
    levelSize (addWordRoot root k id true).1 + subSize (addWordRoot root k id true).1 ≤
      levelSize root + subSize root + (k.length + 12) := by
  unfold addWordRoot
  by_cases hk0 : k = []
  · rw [if_pos hk0]
    simp only
    omega
  · rw [if_neg hk0]
    cases hs : scanChildren root k id true with
    | none =>
      simp only [levelSize_append, subSize_append, levelSize_cons, subSize_cons, levelSize,
        subSize_nil, TrieNode.value_mk]
      omega
    | some p =>
      obtain ⟨cs1, r⟩ := p
      exact addAtNode_size_aux.2 root k id cs1 r hs

/-- The serialized size after a sequence of insertions of keys of at most `m` bytes. -/
theorem addAll_size (kws : List (List Nat × Nat)) (root : List TrieNode) (m : Nat)
    (hk : ∀ p ∈ kws, p.1.length ≤ m) :
    levelSize (addAll root kws) + subSize (addAll root kws) ≤
      levelSize root + subSize root + (m + 12) * kws.length := by
  induction kws generalizing root with
  | nil => simp [addAll]
  | cons p rest ih =>
    obtain ⟨k, id⟩ := p
    have h1 := addWordRoot_size root k id
    have h2 := ih (addWordRoot root k id true).1 fun p hp => hk p (by simp [hp])
    have h3 := hk (k, id) (by simp)
    simp only [addAll, List.length_cons]
    simp only at h3
    have : (m + 12) * (rest.length + 1) = (m + 12) * rest.length + (m + 12) := by ring
    omega

/-! ## Theorems: the size of a trie built from a word list -/

/-- A trie built from at most 16 million words of at most 83 characters each
needs less than `2 ^ 32` bytes when frozen. -/
theorem serializedSize_addWords (ws : List (String × Nat))
    (hpure : ∀ p ∈ ws, p.1.isPureHangul = true) (hlen : ∀ p ∈ ws, p.1.length ≤ 83)
    (hcount : ws.length ≤ 16000000) (t : TrieImpl)
    (ht : TrieImpl.new.addWords ws = .ok t) : t.serializedSize < 2 ^ 32 := by
  rw [addWords_eq ws TrieImpl.new rfl hpure] at ht
  cases ht
  have hk : ∀ p ∈ encodeWords ws, p.1.length ≤ 249 := by
    intro p hp
    obtain ⟨w, hw, rfl⟩ := List.mem_map.1 hp
    have hl := encodeKey_length w.1 (hpure w hw)
    have h2 := hlen w hw
    simp only
    omega
  have h := addAll_size (encodeWords ws) [] 249 hk
  have hl : (encodeWords ws).length = ws.length := by simp [encodeWords]
  have hnew : (TrieImpl.new)._rootChildren = [] := rfl
  simp only [TrieImpl.serializedSize, hnew]
  rw [hl] at h
  simp only [levelSize, subSize_nil] at h
  omega

/-- Different words have different byte keys. -/
theorem encodeWords_nodup (ws : List (String × Nat))
    (hpure : ∀ p ∈ ws, p.1.isPureHangul = true) (hnd : (ws.map Prod.fst).Nodup) :
    ((encodeWords ws).map Prod.fst).Nodup := by
  have e : (encodeWords ws).map Prod.fst = (ws.map Prod.fst).map encodeKey := by
    simp [encodeWords, List.map_map, Function.comp_def]
  rw [e]
  refine List.Nodup.map_on ?_ hnd
  intro s1 h1 s2 h2 h
  obtain ⟨p1, hp1, rfl⟩ := List.mem_map.1 h1
  obtain ⟨p2, hp2, rfl⟩ := List.mem_map.1 h2
  exact encodeKey_injective _ _ (hpure p1 hp1) (hpure p2 hp2) h

/-! ## Theorems: `findWordPrefixes` on the serialized node array -/

/-- Unfolding of `scanPrefixes`. -/
theorem scanPrefixes_succ (buf : List Nat) (base : Nat) (hstr : List Nat) (off n read : Nat)
    (st : PrefixScan) :
    scanPrefixes buf base hstr off (n + 1) read st =
      scanPrefixes buf base hstr off n ((read + getLenght buf (base + read)) % 2 ^ 32)
        (if compareHStr (hstr.drop off) (buf.drop (getValuePtr (base + read))) =
              strlen buf (getValuePtr (base + read)) ∧
            readU8 buf (getValuePtr (base + read)) ≠ 0 then
          { st with descendTo := some (base + read,
              off + compareHStr (hstr.drop off) (buf.drop (getValuePtr (base + read)))) }
        else if readU8 buf (getValuePtr (base + read)) = 0 then
          { st with
            prefixes := st.prefixes ++
              [⟨String.ofHangulString (hstr.take off), getId buf (base + read)⟩]
            foundZeroNode := true }
        else st) := rfl

/-- Unfolding of `finalizeZeroNodes`. -/
theorem finalizeZeroNodes_succ (buf : List Nat) (base : Nat) (hstr : List Nat) (off n read : Nat)
    (prefixes : List WordIdPair) :
    finalizeZeroNodes buf base hstr off (n + 1) read prefixes =
      finalizeZeroNodes buf base hstr off n ((read + getLenght buf (base + read)) % 2 ^ 32)
        (if readU8 buf (getValuePtr (base + read)) = 0 then
          prefixes ++ [⟨String.ofHangulString (hstr.take off), getId buf (base + read)⟩]
        else prefixes) := rfl

/-- Unfolding of `findWordPrefixesLoop` at the end of the key. -/
theorem findWordPrefixesLoop_end (buf hstr : List Nat) (fuel ptr off : Nat)
    (prefixes : List WordIdPair) (h : ¬ off < hstr.length) :
    findWordPrefixesLoop buf hstr fuel ptr off prefixes =
      .ok (finalizePrefixes buf ptr hstr off prefixes) := by
  unfold findWordPrefixesLoop
  rw [if_pos h]

/-- Unfolding of `findWordPrefixesLoop` inside the key. -/
theorem findWordPrefixesLoop_succ (buf hstr : List Nat) (fuel ptr off : Nat)
    (prefixes : List WordIdPair) (h : off < hstr.length) :
    findWordPrefixesLoop buf hstr (fuel + 1) ptr off prefixes =
      match (scanPrefixes buf (ptr + getChildrenOffset buf ptr) hstr off (getChildrenNo buf ptr) 0
          ⟨prefixes, none, false⟩).descendTo with
      | none =>
        if (scanPrefixes buf (ptr + getChildrenOffset buf ptr) hstr off (getChildrenNo buf ptr) 0
            ⟨prefixes, none, false⟩).foundZeroNode then
          .ok (scanPrefixes buf (ptr + getChildrenOffset buf ptr) hstr off
            (getChildrenNo buf ptr) 0 ⟨prefixes, none, false⟩).prefixes
        else
          .ok (finalizePrefixes buf ptr hstr off
            (scanPrefixes buf (ptr + getChildrenOffset buf ptr) hstr off
              (getChildrenNo buf ptr) 0 ⟨prefixes, none, false⟩).prefixes)
      | some (descendToNodePtr, newStrOffset) =>
        findWordPrefixesLoop buf hstr fuel descendToNodePtr newStrOffset
          (scanPrefixes buf (ptr + getChildrenOffset buf ptr) hstr off (getChildrenNo buf ptr) 0
            ⟨prefixes, none, false⟩).prefixes := by
  rw [findWordPrefixesLoop, if_neg (not_not.2 h)] <;> rfl

/-- Unfolding of `zeroHits`. -/
theorem zeroHits_cons (off : Nat) (v : List Nat) (cs : List TrieNode) (id : Nat)
    (ns : List TrieNode) :
    zeroHits off (.mk v cs id :: ns) =
      if v = [] then (off, id) :: zeroHits off ns else zeroHits off ns := rfl

/-- Unfolding of `hasZero`. -/
theorem hasZero_cons (v : List Nat) (cs : List TrieNode) (id : Nat) (ns : List TrieNode) :
    hasZero (.mk v cs id :: ns) = if v = [] then true else hasZero ns := rfl

/-- Without an empty label there are no hits of empty labels. -/
theorem zeroHits_of_hasZero_false (off : Nat) (cs : List TrieNode) (h : hasZero cs = false) :
    zeroHits off cs = [] := by
  induction cs with
  | nil => rfl
  | cons n ns ih =>
    cases n with
    | mk v cs id =>
    rw [hasZero_cons] at h
    rw [zeroHits_cons]
    by_cases hv : v = []
    · simp [hv] at h
    · rw [if_neg hv] at h
      rw [if_neg hv]
      exact ih h

/-- Unfolding of `hitPairs` on a concatenation. -/
theorem hitPairs_append (hstr : List Nat) (a b : List (Nat × Nat)) :
    hitPairs hstr (a ++ b) = hitPairs hstr a ++ hitPairs hstr b := by
  simp [hitPairs]

/-- The child loop of `findWordPrefixes` on laid-out siblings none of which
matches the rest of the key: the hits of the empty labels are added. -/
theorem scanPrefixes_no_match (ts : List TrieNode) (buf : List Nat) (q offset cls : Nat)
    (hstr : List Nat) (off : Nat) (st : PrefixScan) (hok : ChildrenOK ts)
    (hl : Lay buf q offset cls ts) (hno : ∀ n ∈ ts, ¬ Matches (hstr.drop off) n.value) :
    scanPrefixes buf q hstr off ts.length offset st =
      ⟨st.prefixes ++ hitPairs hstr (zeroHits off ts), st.descendTo,
        st.foundZeroNode || hasZero ts⟩ := by
  induction ts generalizing offset cls st with
  | nil => simp [scanPrefixes, hitPairs, zeroHits, hasZero]
  | cons n ts ih =>
    cases n with
    | mk v cs id =>
    rw [childrenOK_cons, nodeOK_mk] at hok
    obtain ⟨⟨hv, hleaf, -⟩, -, hts⟩ := hok
    rw [lay_cons] at hl
    obtain ⟨h1, h2, h3, h4, h5, h6, h7, h8⟩ := hl
    have hnm : ¬ (compareHStr (hstr.drop off) v = v.length ∧ v ≠ []) :=
      hno (.mk v cs id) (by simp)
    have e : q + offset + 1 + 4 = q + offset + 5 := by omega
    have hz := readU8_labelAt buf (q + offset + 5) v hv h2
    rw [List.length_cons, scanPrefixes_succ]
    simp only [getValuePtr, e, compareHStr_labelAt buf _ v _ hv h2,
      strlen_labelAt buf _ v hv h2]
    rw [if_neg (fun h => hnm ⟨h.1, fun hv0 => h.2 (hz.2 hv0)⟩),
      getLenght_labelAt buf _ v hv h2 h3, Nat.mod_eq_of_lt (by omega),
      ih _ _ _ hts h8 fun n hn => hno n (by simp [hn])]
    rw [zeroHits_cons, hasZero_cons]
    by_cases hv0 : v = []
    · have hid : getId buf (q + offset) = id := by
        unfold getId
        exact h6 (by rw [hleaf hv0]; rfl)
      rw [if_pos (hz.2 hv0), if_pos hv0, if_pos hv0, hid]
      simp [hitPairs]
    · rw [if_neg (fun h => hv0 (hz.1 h)), if_neg hv0, if_neg hv0]

/-- The loop after the label `finalize` of `findWordPrefixes` on laid-out
siblings adds the hits of the empty labels. -/
theorem finalizeZeroNodes_lay (ts : List TrieNode) (buf : List Nat) (q offset cls : Nat)
    (hstr : List Nat) (off : Nat) (prefixes : List WordIdPair) (hok : ChildrenOK ts)
    (hl : Lay buf q offset cls ts) :
    finalizeZeroNodes buf q hstr off ts.length offset prefixes =
      prefixes ++ hitPairs hstr (zeroHits off ts) := by
  induction ts generalizing offset cls prefixes with
  | nil => simp [finalizeZeroNodes, hitPairs, zeroHits]
  | cons n ts ih =>
    cases n with
    | mk v cs id =>
    rw [childrenOK_cons, nodeOK_mk] at hok
    obtain ⟨⟨hv, hleaf, -⟩, -, hts⟩ := hok
    rw [lay_cons] at hl
    obtain ⟨h1, h2, h3, h4, h5, h6, h7, h8⟩ := hl
    have e : q + offset + 1 + 4 = q + offset + 5 := by omega
    have hz := readU8_labelAt buf (q + offset + 5) v hv h2
    rw [List.length_cons, finalizeZeroNodes_succ]
    simp only [getValuePtr, e]
    rw [getLenght_labelAt buf _ v hv h2 h3, Nat.mod_eq_of_lt (by omega), ih _ _ _ hts h8,
      zeroHits_cons]
    by_cases hv0 : v = []
    · have hid : getId buf (q + offset) = id := by
        unfold getId
        exact h6 (by rw [hleaf hv0]; rfl)
      rw [if_pos (hz.2 hv0), if_pos hv0, hid]
      simp [hitPairs]
    · rw [if_neg (fun h => hv0 (hz.1 h)), if_neg hv0]

/-! ## Theorems: the `while` loop of `findWordPrefixes` on a laid-out tree -/

/-- Unfolding of `prefixesNode`. -/
theorem prefixesNode_mk (v : List Nat) (cs : List TrieNode) (id off : Nat) (rest : List Nat) :
    prefixesNode (.mk v cs id) off rest =
      if cs.length = 0 then [(off, id)]
      else zeroHits off cs ++ prefixesChildren cs off rest := by
  rw [prefixesNode]

/-- Unfolding of `prefixesChildren` on an empty list. -/
theorem prefixesChildren_nil (off : Nat) (rest : List Nat) : prefixesChildren [] off rest = [] := by
  rw [prefixesChildren]

/-- Unfolding of `prefixesChildren` on a non-empty list. -/
theorem prefixesChildren_cons (v : List Nat) (cs : List TrieNode) (id : Nat) (ns : List TrieNode)
    (off : Nat) (rest : List Nat) :
    prefixesChildren (.mk v cs id :: ns) off rest =
      if compareHStr rest v = v.length ∧ v ≠ [] then
        prefixesNode (.mk v cs id) (off + v.length) (rest.drop v.length)
      else prefixesChildren ns off rest := by
  rw [prefixesChildren]

/-- Without a matching sibling nothing is reported below the siblings. -/
theorem prefixesChildren_of_no_match (cs : List TrieNode) (off : Nat) (rest : List Nat)
    (h : ∀ n ∈ cs, ¬ Matches rest n.value) : prefixesChildren cs off rest = [] := by
  induction cs with
  | nil => exact prefixesChildren_nil off rest
  | cons c cs ih =>
    cases c with
    | mk v cs1 id =>
    have hv : ¬ (compareHStr rest v = v.length ∧ v ≠ []) := h (.mk v cs1 id) (by simp)
    rw [prefixesChildren_cons, if_neg hv]
    exact ih fun n hn => h n (by simp [hn])

/-- No label matches the empty rest of a key. -/
theorem not_matches_nil_left (v : List Nat) : ¬ Matches [] v := by
  intro h
  have := h.1
  rw [compareHStr_nil_left] at this
  exact h.2 (List.length_eq_zero.1 this.symm)

/-- The loop of `findWordPrefixes` from a node with children, given the effect of
the child loop on them: the hits of the empty labels among the children are
reported, then the hits below the matching child. -/
theorem findWordPrefixesLoop_core (cs : List TrieNode) (hne : cs.length ≠ 0)
    (hspec : ScanSpec cs) (buf : List Nat) (ptr : Nat) (hstr : List Nat) (off fuel : Nat)
    (acc : List WordIdPair) (hcount : getChildrenNo buf ptr = cs.length) (hok : ChildrenOK cs)
    (hlay : Lay buf (ptr + getChildrenOffset buf ptr) 0 (levelSize cs) cs)
    (hq : 1 ≤ ptr + getChildrenOffset buf ptr) (hfuel : hstr.length ≤ off + fuel) :
    findWordPrefixesLoop buf hstr fuel ptr off acc =
      .ok (acc ++ hitPairs hstr (zeroHits off cs ++ prefixesChildren cs off (hstr.drop off))) := by
  by_cases hoff : off < hstr.length
  · cases fuel with
    | zero => omega
    | succ fuel =>
      rw [findWordPrefixesLoop_succ buf hstr fuel ptr off acc hoff, hcount]
      rcases hspec buf _ 0 _ hstr off fuel ⟨acc, none, false⟩ hok hlay hq (by omega) rfl with
        ⟨hd, hno, hp, hf⟩ | ⟨p, o, hd, hres⟩
      · rw [hd, prefixesChildren_of_no_match cs off _ hno, List.append_nil]
        simp only [] at hp hf ⊢
        rw [hf, hp]
        by_cases hz : hasZero cs = true
        · simp [hz]
        · have hz0 : hasZero cs = false := by simpa using hz
          simp only [hz0, Bool.or_false, Bool.false_eq_true, if_false]
          unfold finalizePrefixes
          simp only [hcount, if_neg hne]
          rw [finalizeZeroNodes_lay cs buf _ 0 _ hstr off _ hok hlay,
            zeroHits_of_hasZero_false off cs hz0]
          simp [hitPairs]
      · rw [hd]
        simp only []
        rw [hres, hitPairs_append, List.append_assoc]
  · rw [findWordPrefixesLoop_end buf hstr fuel ptr off acc hoff]
    unfold finalizePrefixes
    simp only [hcount, if_neg hne]
    rw [finalizeZeroNodes_lay cs buf _ 0 _ hstr off _ hok hlay]
    have hnil : hstr.drop off = [] := List.drop_eq_nil_of_le (by omega)
    rw [hnil, prefixesChildren_of_no_match cs off [] fun n _ => not_matches_nil_left n.value,
      List.append_nil]

/-- Correctness of the loops of `findWordPrefixes` on a laid-out tree: from a
laid-out node the `while` loop appends the hits the tree-level function gives,
and the child loop has the effect `ScanSpec` states. -/
theorem findWordPrefixesLoop_lay_aux :
    (∀ n : TrieNode, ∀ buf q offset cls ts hstr off fuel acc, NodeOK n →
      Lay buf q offset cls (n :: ts) → 1 ≤ q → hstr.length ≤ off + fuel →
      findWordPrefixesLoop buf hstr fuel (q + offset) off acc =
        .ok (acc ++ hitPairs hstr (prefixesNode n off (hstr.drop off)))) ∧
    (∀ cs : List TrieNode, ScanSpec cs) := by
  apply trie_induction
  · -- at a node
    intro v cs id ih buf q offset cls ts hstr off fuel acc hok hl hq hfuel
    rw [nodeOK_mk] at hok
    obtain ⟨hv, -, hcs⟩ := hok
    rw [lay_cons] at hl
    obtain ⟨h1, h2, h3, h4, h5, h6, h7, -⟩ := hl
    have hoff : getChildrenOffset buf (q + offset) = readU32 buf (q + offset + 1) := by
      unfold getChildrenOffset
      rw [if_neg (by omega)]
    rw [prefixesNode_mk]
    by_cases hc : cs.length = 0
    · rw [if_pos hc]
      have hcn : getChildrenNo buf (q + offset) = 0 := by
        unfold getChildrenNo; rw [h1, hc]
      have hid : getId buf (q + offset) = id := by
        unfold getId; exact h6 hc
      have hfin : finalizePrefixes buf (q + offset) hstr off acc =
          acc ++ hitPairs hstr [(off, id)] := by
        unfold finalizePrefixes
        simp only [hcn, if_true, hid]
        rfl
      by_cases hlt : off < hstr.length
      · cases fuel with
        | zero => omega
        | succ fuel =>
          rw [findWordPrefixesLoop_succ buf hstr fuel _ off acc hlt, hcn]
          simp only [scanPrefixes, Bool.false_eq_true, if_false]
          rw [hfin]
      · rw [findWordPrefixesLoop_end buf hstr fuel _ off acc hlt, hfin]
    · rw [if_neg hc]
      obtain ⟨h71, h72⟩ := h7 hc
      have hbase : q + offset + getChildrenOffset buf (q + offset) = q + cls := by
        rw [hoff, h71]; omega
      refine findWordPrefixesLoop_core cs hc ih buf (q + offset) hstr off fuel acc ?_ hcs ?_ ?_
        hfuel
      · unfold getChildrenNo; exact h1
      · rw [hbase]; exact h72
      · omega
  · -- no siblings
    intro buf q offset cls hstr off fuel st _ _ _ _ _
    left
    refine ⟨by simpa [scanPrefixes], fun n hn => by simp at hn, ?_, ?_⟩
    · simp [scanPrefixes, hitPairs, zeroHits]
    · simp [scanPrefixes, hasZero]
  · -- a sibling followed by the others
    intro n ns ihn ihns buf q offset cls hstr off fuel st hok hl hq hfuel hst
    cases n with
    | mk v cs id =>
    have hl' := hl
    have hok' := hok
    rw [childrenOK_cons_heads] at hok'
    obtain ⟨hn, hhead, hns⟩ := hok'
    have hv : JamoBytes v := hn.jamoBytes
    have hleaf : v = [] → cs = [] := by
      rw [nodeOK_mk] at hn; exact hn.2.1
    rw [lay_cons] at hl
    obtain ⟨h1, h2, h3, h4, h5, h6, h7, h8⟩ := hl
    have e : q + offset + 1 + 4 = q + offset + 5 := by omega
    have hz := readU8_labelAt buf (q + offset + 5) v hv h2
    rw [List.length_cons, scanPrefixes_succ]
    simp only [getValuePtr, e, compareHStr_labelAt buf _ v _ hv h2,
      strlen_labelAt buf _ v hv h2]
    rw [getLenght_labelAt buf _ v hv h2 h3, Nat.mod_eq_of_lt (by omega), zeroHits_cons,
      prefixesChildren_cons]
    by_cases hm : compareHStr (hstr.drop off) v = v.length ∧ v ≠ []
    · right
      have hnone : ∀ m ∈ ns, ¬ Matches (hstr.drop off) m.value := by
        apply no_match_of_head_not_mem
        have : (hstr.drop off).headD 0 = v.headD 0 := Matches.head_eq hm
        rw [this]
        exact hhead
      rw [if_pos ⟨hm.1, fun h => hm.2 (hz.1 h)⟩, if_pos hm, if_neg hm.2,
        scanPrefixes_no_match ns buf q _ _ hstr off _ hns h8 hnone, hm.1]
      refine ⟨q + offset, off + v.length, rfl, ?_⟩
      simp only []
      have hpos : 0 < v.length := List.length_pos.2 hm.2
      rw [ihn buf q offset cls ns hstr (off + v.length) fuel _ hn hl' hq (by omega),
        List.drop_drop]
    · rw [if_neg (fun h => hm ⟨h.1, fun hv0 => h.2 (hz.2 hv0)⟩), if_neg hm]
      by_cases hv0 : v = []
      · have hid : getId buf (q + offset) = id := by
          unfold getId
          exact h6 (by rw [hleaf hv0]; rfl)
        rw [if_pos (hz.2 hv0), if_pos hv0, hid]
        rcases ihns buf q _ _ hstr off fuel
            { st with
              prefixes := st.prefixes ++ [⟨String.ofHangulString (hstr.take off), id⟩]
              foundZeroNode := true } hns h8 hq hfuel hst with
          ⟨hd, hno, hp, hf⟩ | ⟨p, o, hd, hres⟩
        · left
          refine ⟨hd, ?_, ?_, ?_⟩
          · intro m hmem
            rcases List.mem_cons.1 hmem with rfl | h
            · exact hm
            · exact hno m h
          · rw [hp]; simp [hitPairs]
          · rw [hf, hasZero_cons, if_pos hv0]; simp
        · right
          refine ⟨p, o, hd, ?_⟩
          rw [hres]; simp [hitPairs]
      · rw [if_neg (fun h => hv0 (hz.1 h)), if_neg hv0]
        rcases ihns buf q _ _ hstr off fuel st hns h8 hq hfuel hst with
          ⟨hd, hno, hp, hf⟩ | ⟨p, o, hd, hres⟩
        · left
          refine ⟨hd, ?_, hp, ?_⟩
          · intro m hmem
            rcases List.mem_cons.1 hmem with rfl | h
            · exact hm
            · exact hno m h
          · rw [hf, hasZero_cons, if_neg hv0]
        · right
          exact ⟨p, o, hd, hres⟩

/-- Correctness of `findWordPrefixes` on a laid-out trie: it returns the hits the
tree-level function gives. -/
theorem findWordPrefixesLoop_root (root : List TrieNode) (buf : List Nat) (hstr : List Nat)
    (hok : ChildrenOK root) (hne : root ≠ []) (hcount : readU8 buf 0 = root.length)
    (hl : Lay buf 1 0 (levelSize root) root) :
    findWordPrefixesLoop buf hstr hstr.length 0 0 [] =
      .ok (hitPairs hstr (prefixesRoot root hstr)) := by
  have hlen : root.length ≠ 0 := fun h => hne (List.length_eq_zero.1 h)
  have hoff : getChildrenOffset buf 0 = 1 := by
    unfold getChildrenOffset; rw [if_pos rfl]
  have := findWordPrefixesLoop_core root hlen (findWordPrefixesLoop_lay_aux.2 root) buf 0 hstr 0
    hstr.length [] (by unfold getChildrenNo; exact hcount) hok (by rw [hoff]; exact hl)
    (by rw [hoff]) (by omega)
  rw [this]
  simp [prefixesRoot]

/-! ## Theorems: the hits of `findWordPrefixes` are the stored keys along the key -/

/-- Unfolding of `lookupZero`. -/
theorem lookupZero_cons (v : List Nat) (cs : List TrieNode) (id : Nat) (ns : List TrieNode) :
    lookupZero (.mk v cs id :: ns) = if v = [] then some id else lookupZero ns := rfl

/-- Unfolding of `lookupNode`. -/
theorem lookupNode_mk (v : List Nat) (cs : List TrieNode) (id : Nat) (rest : List Nat) :
    lookupNode (.mk v cs id) rest =
      if rest = [] then (if cs.length = 0 then some id else lookupZero cs)
      else lookupChildren cs rest := by
  rw [lookupNode]

/-- Unfolding of `lookupChildren` on an empty list. -/
theorem lookupChildren_nil (rest : List Nat) : lookupChildren [] rest = none := by
  rw [lookupChildren]

/-- Unfolding of `lookupChildren` on a non-empty list. -/
theorem lookupChildren_cons (v : List Nat) (cs : List TrieNode) (id : Nat) (ns : List TrieNode)
    (rest : List Nat) :
    lookupChildren (.mk v cs id :: ns) rest =
      if compareHStr rest v = v.length ∧ v ≠ [] then
        lookupNode (.mk v cs id) (rest.drop v.length)
      else lookupChildren ns rest := by
  rw [lookupChildren]

/-- The id the last loop of `findWord` returns is the stored one, or the default. -/
theorem zeroNodeId_eq_lookupZero (d : Nat) (cs : List TrieNode) :
    zeroNodeId d cs = (lookupZero cs).getD d := by
  induction cs with
  | nil => rfl
  | cons n ns ih =>
    cases n with
    | mk v cs1 id =>
    rw [zeroNodeId_cons, lookupZero_cons, ih]
    simp only [TrieNode.value_mk, TrieNode.id_mk]
    split <;> rfl

/-- What `findWord` returns is the stored id, or the default. -/
theorem find_eq_lookup_aux :
    (∀ n : TrieNode, ∀ d q, findNode d n q = (lookupNode n q).getD d) ∧
    (∀ cs : List TrieNode, ∀ d q, findChildren d cs q = (lookupChildren cs q).getD d) := by
  apply trie_induction
  · intro v cs id ih d q
    rw [findNode_mk, lookupNode_mk, zeroNodeId_eq_lookupZero, ih]
    split
    · split <;> rfl
    · rfl
  · intro d q
    rw [findChildren_nil, lookupChildren_nil]
    rfl
  · intro n ns ihn ihns d q
    cases n with
    | mk v cs id =>
    rw [findChildren_cons, lookupChildren_cons, ihn, ihns]
    split <;> rfl

/-- What `findWord` returns on the trie is the stored id, or the default. -/
theorem findRoot_eq_lookupRoot (d : Nat) (root : List TrieNode) (q : List Nat) :
    findRoot d root q = (lookupRoot root q).getD d := by
  unfold findRoot lookupRoot
  rw [zeroNodeId_eq_lookupZero, find_eq_lookup_aux.2]
  split <;> rfl

/-- Siblings with non-empty labels give no hits of empty labels. -/
theorem zeroHits_of_nonempty (off : Nat) (cs : List TrieNode) (h : ∀ n ∈ cs, n.value ≠ []) :
    zeroHits off cs = [] ∧ lookupZero cs = none := by
  induction cs with
  | nil => exact ⟨rfl, rfl⟩
  | cons n ns ih =>
    cases n with
    | mk v cs1 id =>
    have hv : v ≠ [] := h (.mk v cs1 id) (by simp)
    rw [zeroHits_cons, lookupZero_cons, if_neg hv, if_neg hv]
    exact ih fun n hn => h n (by simp [hn])

/-- Among well-formed siblings at most one has an empty label: the hits of empty
labels are the one stored id, if any. -/
theorem zeroHits_eq (off : Nat) (cs : List TrieNode) (hok : ChildrenOK cs) :
    zeroHits off cs = (lookupZero cs).toList.map fun id => (off, id) := by
  induction cs with
  | nil => rfl
  | cons n ns ih =>
    cases n with
    | mk v cs1 id =>
    rw [childrenOK_cons] at hok
    obtain ⟨hn, hhead, hns⟩ := hok
    rw [zeroHits_cons, lookupZero_cons]
    by_cases hv : v = []
    · rw [if_pos hv, if_pos hv]
      have hne : ∀ m ∈ ns, m.value ≠ [] := by
        intro m hm h0
        have := hhead m hm
        rw [h0, hv] at this
        exact this rfl
      rw [(zeroHits_of_nonempty off ns hne).1]
      rfl
    · rw [if_neg hv, if_neg hv]
      exact ih hns

/-- A key stored below siblings has a sibling whose label starts it. -/
theorem exists_match_of_lookupChildren (cs : List TrieNode) (q : List Nat) (id : Nat)
    (h : lookupChildren cs q = some id) : ∃ m ∈ cs, Matches q m.value := by
  induction cs with
  | nil => rw [lookupChildren_nil] at h; cases h
  | cons n ns ih =>
    cases n with
    | mk v cs1 nid =>
    rw [lookupChildren_cons] at h
    by_cases hm : compareHStr q v = v.length ∧ v ≠ []
    · exact ⟨.mk v cs1 nid, List.mem_cons_self _ _, hm⟩
    · rw [if_neg hm] at h
      obtain ⟨m, hmem, hmm⟩ := ih h
      exact ⟨m, by simp [hmem], hmm⟩

/-- A label starts the first `j` bytes of a key exactly when it starts the key
and is not longer than `j`. -/
theorem matches_take_iff (rest v : List Nat) (j : Nat) (hr : JamoBytes rest) (hv : JamoBytes v) :
    Matches (rest.take j) v ↔ Matches rest v ∧ v.length ≤ j := by
  rw [matches_iff _ _ (hr.take j) hv, matches_iff _ _ hr hv, List.prefix_take_iff]
  tauto

/-- The hits are the stored keys among the initial parts of the key. At a node:
a hit at offset `off + j` with id `id` means the first `j` bytes of the rest of
the key are stored with `id`. Below siblings the same with `j` positive. -/
theorem prefixes_mem_aux :
    (∀ n : TrieNode, NodeOK n → ∀ off rest, JamoBytes rest → ∀ o id,
      (o, id) ∈ prefixesNode n off rest ↔
        ∃ j, j ≤ rest.length ∧ o = off + j ∧ lookupNode n (rest.take j) = some id) ∧
    (∀ cs : List TrieNode, ChildrenOK cs → ∀ off rest, JamoBytes rest → ∀ o id,
      (o, id) ∈ prefixesChildren cs off rest ↔
        ∃ j, 0 < j ∧ j ≤ rest.length ∧ o = off + j ∧
          lookupChildren cs (rest.take j) = some id) := by
  apply trie_induction
  · -- at a node
    intro v cs nid ih hok off rest hr o id
    rw [nodeOK_mk] at hok
    obtain ⟨hv, -, hcs⟩ := hok
    rw [prefixesNode_mk]
    have htake : ∀ j, j ≤ rest.length → (rest.take j = [] ↔ j = 0) := by
      intro j hj
      rw [List.take_eq_nil_iff]
      constructor
      · rintro (h | h)
        · exact h
        · rw [h] at hj; simpa using hj
      · exact fun h => Or.inl h
    by_cases hc : cs.length = 0
    · rw [if_pos hc, List.mem_singleton, Prod.mk.injEq]
      have hcs0 : cs = [] := List.length_eq_zero.1 hc
      constructor
      · rintro ⟨rfl, rfl⟩
        exact ⟨0, Nat.zero_le _, rfl, by rw [lookupNode_mk, if_pos (by simp), if_pos hc]⟩
      · rintro ⟨j, hj, rfl, hl⟩
        rw [lookupNode_mk] at hl
        by_cases h0 : rest.take j = []
        · rw [if_pos h0, if_pos hc] at hl
          have := (htake j hj).1 h0
          subst this
          exact ⟨rfl, (Option.some.inj hl).symm⟩
        · rw [if_neg h0, hcs0, lookupChildren_nil] at hl
          cases hl
    · rw [if_neg hc, List.mem_append, zeroHits_eq off cs hcs, ih hcs off rest hr o id]
      constructor
      · rintro (h | ⟨j, hj0, hj, rfl, hl⟩)
        · simp only [List.mem_map, Option.mem_toList, Option.mem_def, Prod.mk.injEq] at h
          obtain ⟨a, ha, rfl, rfl⟩ := h
          exact ⟨0, Nat.zero_le _, rfl, by rw [lookupNode_mk, if_pos (by simp), if_neg hc, ha]⟩
        · refine ⟨j, hj, rfl, ?_⟩
          rw [lookupNode_mk, if_neg (fun h => by have := (htake j hj).1 h; omega)]
          exact hl
      · rintro ⟨j, hj, rfl, hl⟩
        rw [lookupNode_mk] at hl
        by_cases h0 : rest.take j = []
        · rw [if_pos h0, if_neg hc] at hl
          have := (htake j hj).1 h0
          subst this
          left
          simp only [List.mem_map, Option.mem_toList, Option.mem_def, Prod.mk.injEq]
          exact ⟨id, hl, rfl, rfl⟩
        · rw [if_neg h0] at hl
          right
          refine ⟨j, ?_, hj, rfl, hl⟩
          rcases Nat.eq_zero_or_pos j with h | h
          · exact absurd ((htake j hj).2 h) h0
          · exact h
  · -- no siblings
    intro _ off rest _ o id
    rw [prefixesChildren_nil]
    constructor
    · intro h; cases h
    · rintro ⟨j, -, -, -, hl⟩
      rw [lookupChildren_nil] at hl
      cases hl
  · -- a sibling followed by the others
    intro n ns ihn ihns hok off rest hr o id
    cases n with
    | mk v cs nid =>
    rw [childrenOK_cons_heads] at hok
    obtain ⟨hn, hhead, hns⟩ := hok
    have hv : JamoBytes v := hn.jamoBytes
    rw [prefixesChildren_cons]
    by_cases hm : compareHStr rest v = v.length ∧ v ≠ []
    · rw [if_pos hm, ihn hn (off + v.length) (rest.drop v.length) (hr.drop _) o id]
      have hpre : v <+: rest := ((matches_iff rest v hr hv).1 hm).1
      have hvl : v.length ≤ rest.length := hpre.length_le
      have hpos : 0 < v.length := List.length_pos.2 hm.2
      constructor
      · rintro ⟨j, hj, rfl, hl⟩
        rw [List.length_drop] at hj
        refine ⟨v.length + j, by omega, by omega, by omega, ?_⟩
        have hmt : compareHStr (rest.take (v.length + j)) v = v.length ∧ v ≠ [] :=
          (matches_take_iff rest v _ hr hv).2 ⟨hm, by omega⟩
        rw [lookupChildren_cons, if_pos hmt, List.drop_take, Nat.add_sub_cancel_left]
        exact hl
      · rintro ⟨j, hj0, hj, rfl, hl⟩
        rw [lookupChildren_cons] at hl
        by_cases hmt : compareHStr (rest.take j) v = v.length ∧ v ≠ []
        · have hvj : v.length ≤ j := ((matches_take_iff rest v j hr hv).1 hmt).2
          rw [if_pos hmt, List.drop_take] at hl
          exact ⟨j - v.length, by rw [List.length_drop]; omega, by omega, hl⟩
        · rw [if_neg hmt] at hl
          exfalso
          obtain ⟨m, hmem, hmm⟩ := exists_match_of_lookupChildren ns _ id hl
          have hm2 : Matches rest m.value :=
            ((matches_take_iff rest m.value j hr (hns.nodeOK m hmem).jamoBytes).1 hmm).1
          have e1 : rest.headD 0 = m.value.headD 0 := hm2.head_eq
          have e2 : rest.headD 0 = v.headD 0 := Matches.head_eq hm
          apply hhead
          rw [mem_heads]
          exact ⟨m, hmem, by rw [← e1, e2]; rfl⟩
    · rw [if_neg hm, ihns hns off rest hr o id]
      have hnt : ∀ j, ¬ (compareHStr (rest.take j) v = v.length ∧ v ≠ []) := fun j h =>
        hm ((matches_take_iff rest v j hr hv).1 h).1
      constructor
      · rintro ⟨j, hj0, hj, rfl, hl⟩
        exact ⟨j, hj0, hj, rfl, by rw [lookupChildren_cons, if_neg (hnt j)]; exact hl⟩
      · rintro ⟨j, hj0, hj, rfl, hl⟩
        rw [lookupChildren_cons, if_neg (hnt j)] at hl
        exact ⟨j, hj0, hj, rfl, hl⟩

/-- The hits come in the order of their offsets, which are pairwise different:
at a node all offsets are at least `off`, below siblings they are greater. -/
theorem prefixes_sorted_aux :
    (∀ n : TrieNode, NodeOK n → ∀ off rest,
      (prefixesNode n off rest).Pairwise (fun a b => a.1 < b.1) ∧
      ∀ p ∈ prefixesNode n off rest, off ≤ p.1) ∧
    (∀ cs : List TrieNode, ChildrenOK cs → ∀ off rest,
      (prefixesChildren cs off rest).Pairwise (fun a b => a.1 < b.1) ∧
      ∀ p ∈ prefixesChildren cs off rest, off < p.1) := by
  apply trie_induction
  · intro v cs nid ih hok off rest
    rw [nodeOK_mk] at hok
    obtain ⟨hv, -, hcs⟩ := hok
    rw [prefixesNode_mk]
    by_cases hc : cs.length = 0
    · rw [if_pos hc]
      exact ⟨List.pairwise_singleton _ _, fun p hp => by rw [List.mem_singleton.1 hp]⟩
    · rw [if_neg hc, zeroHits_eq off cs hcs]
      obtain ⟨h1, h2⟩ := ih hcs off rest
      have hz : ∀ a ∈ (lookupZero cs).toList.map (fun id => (off, id)), a.1 = off := by
        intro a ha
        simp only [List.mem_map, Option.mem_toList, Option.mem_def] at ha
        obtain ⟨x, -, rfl⟩ := ha
        rfl
      refine ⟨List.pairwise_append.2 ⟨?_, h1, fun a ha b hb => ?_⟩, fun p hp => ?_⟩
      · cases lookupZero cs <;> simp
      · rw [hz a ha]; exact h2 b hb
      · rcases List.mem_append.1 hp with h | h
        · rw [hz p h]
        · exact Nat.le_of_lt (h2 p h)
  · intro _ off rest
    rw [prefixesChildren_nil]
    exact ⟨List.Pairwise.nil, fun p hp => by cases hp⟩
  · intro n ns ihn ihns hok off rest
    cases n with
    | mk v cs nid =>
    rw [childrenOK_cons_heads] at hok
    obtain ⟨hn, -, hns⟩ := hok
    rw [prefixesChildren_cons]
    by_cases hm : compareHStr rest v = v.length ∧ v ≠ []
    · rw [if_pos hm]
      obtain ⟨h1, h2⟩ := ihn hn (off + v.length) (rest.drop v.length)
      have hpos : 0 < v.length := List.length_pos.2 hm.2
      exact ⟨h1, fun p hp => by have := h2 p hp; omega⟩
    · rw [if_neg hm]
      exact ihns hns off rest

/-! ## Theorems: hits and words -/

/-- Unfolding of `hangulBytesAll` on a successful conversion. -/
theorem hangulBytesAll_cons_ok (c : Nat) (cs h : List Nat)
    (hh : hangulBytesAll (c :: cs) = .ok h) :
    ∃ bs r, hangulBytes c = .ok bs ∧ hangulBytesAll cs = .ok r ∧ h = bs ++ r := by
  simp only [hangulBytesAll] at hh
  cases hb : hangulBytes c with
  | error e => simp [hb] at hh
  | ok bs =>
    cases hr : hangulBytesAll cs with
    | error e => simp [hb, hr] at hh
    | ok r =>
      simp only [hb, hr, Except.ok.injEq] at hh
      exact ⟨bs, r, rfl, rfl, hh.symm⟩

/-- The conversion of a codepoint sequence from the conversions of its parts. -/
theorem hangulBytesAll_cons_of_ok (c : Nat) (cs bs r : List Nat) (hb : hangulBytes c = .ok bs)
    (hr : hangulBytesAll cs = .ok r) : hangulBytesAll (c :: cs) = .ok (bs ++ r) := by
  simp only [hangulBytesAll, hb, hr]

/-- The `HangulString` of a concatenation is the concatenation of the `HangulString`s. -/
theorem hangulBytesAll_append (s t a b : List Nat) (ha : hangulBytesAll s = .ok a)
    (hb : hangulBytesAll t = .ok b) : hangulBytesAll (s ++ t) = .ok (a ++ b) := by
  induction s generalizing a with
  | nil =>
    simp only [hangulBytesAll, Except.ok.injEq] at ha
    subst ha
    simpa using hb
  | cons c s ih =>
    obtain ⟨bs, r, h1, h2, rfl⟩ := hangulBytesAll_cons_ok c s a ha
    rw [List.cons_append, hangulBytesAll_cons_of_ok c (s ++ t) bs (r ++ b) h1 (ih r h2),
      List.append_assoc]

/-- A string is the start of another exactly when its `HangulString` is the start
of the other `HangulString`. -/
theorem hangulBytesAll_prefix_iff (s k a b : List Nat) (ha : hangulBytesAll s = .ok a)
    (hb : hangulBytesAll k = .ok b) : a <+: b ↔ s <+: k := by
  induction s generalizing k a b with
  | nil =>
    simp only [hangulBytesAll, Except.ok.injEq] at ha
    subst ha
    simp
  | cons c s ih =>
    obtain ⟨bs, r, h1, h2, rfl⟩ := hangulBytesAll_cons_ok c s a ha
    have hbs : 1 ≤ bs.length := (hangulBytes_length c bs h1).1
    cases k with
    | nil =>
      simp only [hangulBytesAll, Except.ok.injEq] at hb
      subst hb
      constructor
      · intro h
        have := h.length_le
        simp only [List.length_append, List.length_nil] at this
        omega
      · intro h
        have := h.length_le
        simp only [List.length_cons, List.length_nil] at this
        omega
    | cons c2 k =>
      obtain ⟨bs2, r2, h3, h4, rfl⟩ := hangulBytesAll_cons_ok c2 k b hb
      constructor
      · rintro ⟨t, ht⟩
        rw [List.append_assoc] at ht
        obtain ⟨rfl, -, e⟩ := hangulBytes_unique c c2 bs bs2 (r ++ t) r2 h1 h3 ht
        have : s <+: k := (ih k r r2 h2 h4).1 ⟨t, e⟩
        exact (List.prefix_cons_inj c).2 this
      · intro h
        have hc : c = c2 := by
          obtain ⟨t, ht⟩ := h
          simp only [List.cons_append, List.cons.injEq] at ht
          exact ht.1
        subst hc
        have hsk : s <+: k := (List.prefix_cons_inj c).1 h
        have e : bs = bs2 := by
          rw [h1] at h3
          exact Except.ok.inj h3
        subst e
        exact (List.prefix_append_right_inj bs).2 ((ih k r r2 h2 h4).2 hsk)

/-- Unfolding of `ofHangulLoop`. -/
theorem ofHangulLoop_cons (c : Nat) (cs jamos acc : List Nat) :
    ofHangulLoop (c :: cs) jamos acc =
      if c = NonHangulCode then ofHangulLoop cs jamos (acc ++ [EncapsulatedNonHangulCode])
      else if (jamos ++ [(c + 255) % 256]).length = 3 then
        ofHangulLoop cs []
          (acc ++ [(0xac00 + (jamos ++ [(c + 255) % 256]).getD 0 0 * 0x24c +
            (jamos ++ [(c + 255) % 256]).getD 1 0 * 0x1c +
            (jamos ++ [(c + 255) % 256]).getD 2 0) % 2 ^ 32])
      else ofHangulLoop cs (jamos ++ [(c + 255) % 256]) acc := rfl

/-- `String(HangulString)` on three bytes other than `NonHangulCode`. -/
theorem ofHangulLoop_three (x y z : Nat) (rest acc : List Nat) (n1 : x + 1 ≠ NonHangulCode)
    (n2 : y + 1 ≠ NonHangulCode) (n3 : z + 1 ≠ NonHangulCode) :
    ofHangulLoop ([x + 1, y + 1, z + 1] ++ rest) [] acc =
      ofHangulLoop rest []
        (acc ++ [(44032 + (x + 1 + 255) % 256 * 588 + (y + 1 + 255) % 256 * 28 +
          (z + 1 + 255) % 256) % 2 ^ 32]) := by
  simp only [List.cons_append, List.nil_append]
  rw [ofHangulLoop_cons, if_neg n1, if_neg (by simp), ofHangulLoop_cons, if_neg n2,
    if_neg (by simp), ofHangulLoop_cons, if_neg n3, if_pos (by simp)]
  simp only [List.nil_append, List.cons_append, List.getD_cons_zero, List.getD_cons_succ]

/-- `String(HangulString)` reads the bytes of one codepoint back into the codepoint. -/
theorem ofHangulLoop_hangulBytes (c : Nat) (bs rest acc : List Nat) (h : hangulBytes c = .ok bs) :
    ofHangulLoop (bs ++ rest) [] acc = ofHangulLoop rest [] (acc ++ [c]) := by
  rcases hangulBytes_cases c bs h with ⟨hc, hbs⟩ | ⟨h1, h2, hbs⟩
  · rw [hbs, List.singleton_append, ofHangulLoop_cons, if_pos (by rfl), hc]
  · have e1 : ((c - 44032) / 588 + 1 + 255) % 256 = (c - 44032) / 588 := by omega
    have e2 : ((c - 44032) % 588 / 28 + 1 + 255) % 256 = (c - 44032) % 588 / 28 := by omega
    have e3 : ((c - 44032) % 588 % 28 + 1 + 255) % 256 = (c - 44032) % 588 % 28 := by omega
    have n1 : (c - 44032) / 588 + 1 ≠ NonHangulCode := by unfold NonHangulCode; omega
    have n2 : (c - 44032) % 588 / 28 + 1 ≠ NonHangulCode := by unfold NonHangulCode; omega
    have n3 : (c - 44032) % 588 % 28 + 1 ≠ NonHangulCode := by unfold NonHangulCode; omega
    have e4 : (44032 + (c - 44032) / 588 * 588 + (c - 44032) % 588 / 28 * 28 +
        (c - 44032) % 588 % 28) % 2 ^ 32 = c := by omega
    rw [hbs, ofHangulLoop_three _ _ _ rest acc n1 n2 n3, e1, e2, e3, e4]

/-- `String(HangulString)` undoes `toHangulString`. -/
theorem ofHangulLoop_hangulBytesAll (cs h acc : List Nat) (hh : hangulBytesAll cs = .ok h) :
    ofHangulLoop h [] acc = acc ++ cs := by
  induction cs generalizing h acc with
  | nil =>
    simp only [hangulBytesAll, Except.ok.injEq] at hh
    subst hh
    simp [ofHangulLoop]
  | cons c cs ih =>
    obtain ⟨bs, r, h1, h2, rfl⟩ := hangulBytesAll_cons_ok c cs h hh
    rw [ofHangulLoop_hangulBytes c bs r acc h1, ih r _ h2]
    simp

/-- `String(HangulString)` undoes `toHangulString` on pure-Hangul strings. -/
theorem ofHangulString_encodeKey (s : String) (h : s.isPureHangul = true) :
    String.ofHangulString (encodeKey s) = s := by
  have := toHangulString_of_pure s h
  rw [toHangulString_eq] at this
  unfold String.ofHangulString
  rw [ofHangulLoop_hangulBytesAll s._str _ [] this]
  rfl

/-- A pure-Hangul string is the start of another exactly when its byte key is
the start of the other byte key. -/
theorem encodeKey_prefix_iff (s k : String) (hs : s.isPureHangul = true)
    (hk : k.isPureHangul = true) : encodeKey s <+: encodeKey k ↔ s._str <+: k._str := by
  have h1 := toHangulString_of_pure s hs
  have h2 := toHangulString_of_pure k hk
  rw [toHangulString_eq] at h1 h2
  exact hangulBytesAll_prefix_iff _ _ _ _ h1 h2

/-- The id of the last occurrence of an inserted key belongs to a pair of the list. -/
theorem lastId_mem (kws : List (List Nat × Nat)) (q : List Nat) (d : Nat)
    (h : ∃ p ∈ kws, p.1 = q) : (q, lastId kws q d) ∈ kws := by
  induction kws generalizing d with
  | nil =>
    obtain ⟨p, hp, -⟩ := h
    cases hp
  | cons p rest ih =>
    obtain ⟨k, id⟩ := p
    simp only [lastId]
    by_cases hr : ∃ p ∈ rest, p.1 = q
    · exact List.mem_cons_of_mem _ (ih _ hr)
    · rw [lastId_of_not_mem rest q _ fun p hp e => hr ⟨p, hp, e⟩]
      obtain ⟨p, hp, e⟩ := h
      rcases List.mem_cons.1 hp with rfl | hp
      · simp only at e
        rw [if_pos e.symm, e]
        exact List.mem_cons_self _ _
      · exact absurd ⟨p, hp, e⟩ hr

/-- The id of the last occurrence of an inserted key does not depend on the default. -/
theorem lastId_const (kws : List (List Nat × Nat)) (q : List Nat) (d1 d2 : Nat)
    (h : ∃ p ∈ kws, p.1 = q) : lastId kws q d1 = lastId kws q d2 := by
  induction kws generalizing d1 d2 with
  | nil =>
    obtain ⟨p, hp, -⟩ := h
    cases hp
  | cons p rest ih =>
    obtain ⟨k, id⟩ := p
    simp only [lastId]
    by_cases hr : ∃ p ∈ rest, p.1 = q
    · exact ih _ _ hr
    · obtain ⟨p, hp, e⟩ := h
      rcases List.mem_cons.1 hp with rfl | hp
      · simp only at e
        rw [if_pos e.symm, if_pos e.symm]
      · exact absurd ⟨p, hp, e⟩ hr

/-- What the tree stores after insertions into a fresh trie: for every default
`d` the stored id, or `d`, is the id of the last insertion of the key, or `d`. -/
theorem lookupRoot_getD (kws : List (List Nat × Nat))
    (hk : ∀ p ∈ kws, JamoBytes p.1 ∧ p.1 ≠ []) (q : List Nat) (hq : JamoBytes q) (d : Nat) :
    (lookupRoot (addAll [] kws) q).getD d = lastId kws q d := by
  rw [← findRoot_eq_lookupRoot, (addAll_spec kws [] rootOK_nil hk).2 q hq, findRoot_nil]

/-- A key stored in the tree after insertions into a fresh trie was inserted
with the stored id. -/
theorem lookupRoot_addAll_some (kws : List (List Nat × Nat))
    (hk : ∀ p ∈ kws, JamoBytes p.1 ∧ p.1 ≠ []) (q : List Nat) (hq : JamoBytes q) (id : Nat)
    (hl : lookupRoot (addAll [] kws) q = some id) : (q, id) ∈ kws := by
  have h := lookupRoot_getD kws hk q hq
  rw [hl] at h
  simp only [Option.getD_some] at h
  by_cases hmem : ∃ p ∈ kws, p.1 = q
  · have := lastId_mem kws q 0 hmem
    rw [← h 0] at this
    exact this
  · have := lastId_of_not_mem kws q (id + 1) fun p hp e => hmem ⟨p, hp, e⟩
    rw [← h (id + 1)] at this
    omega

/-- An inserted key is stored in the tree. -/
theorem lookupRoot_addAll_isSome (kws : List (List Nat × Nat))
    (hk : ∀ p ∈ kws, JamoBytes p.1 ∧ p.1 ≠ []) (q : List Nat) (hq : JamoBytes q)
    (hmem : ∃ p ∈ kws, p.1 = q) : ∃ id, lookupRoot (addAll [] kws) q = some id := by
  have h := lookupRoot_getD kws hk q hq
  cases hl : lookupRoot (addAll [] kws) q with
  | some x => exact ⟨x, rfl⟩
  | none =>
    have e0 := h 0
    have e1 := h 1
    rw [hl] at e0 e1
    rw [lastId_const kws q 1 0 hmem, ← e0] at e1
    simp at e1

/-- In a list with pairwise different keys a key has one id. -/
theorem id_unique_of_nodup {α : Type} (ws : List (α × Nat)) (hnd : (ws.map Prod.fst).Nodup)
    (w : α) (id1 id2 : Nat) (h1 : (w, id1) ∈ ws) (h2 : (w, id2) ∈ ws) : id1 = id2 := by
  induction ws with
  | nil => cases h1
  | cons p rest ih =>
    simp only [List.map_cons, List.nodup_cons] at hnd
    rcases List.mem_cons.1 h1 with e1 | m1
    · rcases List.mem_cons.1 h2 with e2 | m2
      · rw [← e2] at e1
        exact (Prod.mk.inj e1).2
      · exact absurd (List.mem_map.2 ⟨(w, id2), m2, by rw [← e1]⟩) hnd.1
    · rcases List.mem_cons.1 h2 with e2 | m2
      · exact absurd (List.mem_map.2 ⟨(w, id1), m1, by rw [← e2]⟩) hnd.1
      · exact ih hnd.2 m1 m2

/-- The hits on a well-formed non-empty trie are the stored keys among the
initial parts of the key. -/
theorem prefixesRoot_mem (root : List TrieNode) (hok : ChildrenOK root) (hne : root ≠ [])
    (hstr : List Nat) (hh : JamoBytes hstr) (o id : Nat) :
    (o, id) ∈ prefixesRoot root hstr ↔
      o ≤ hstr.length ∧ lookupRoot root (hstr.take o) = some id := by
  have hlen : root.length ≠ 0 := fun h => hne (List.length_eq_zero.1 h)
  have hnode : NodeOK (.mk [1] root 0) := by
    rw [nodeOK_mk]
    refine ⟨?_, fun h => absurd h (List.cons_ne_nil _ _), hok⟩
    intro b hb
    simp only [List.mem_singleton] at hb
    subst hb
    exact ⟨by decide, by decide⟩
  have e : prefixesNode (.mk [1] root 0) 0 hstr = prefixesRoot root hstr := by
    rw [prefixesNode_mk, if_neg hlen]
    rfl
  have el : ∀ q, lookupNode (.mk [1] root 0) q = lookupRoot root q := by
    intro q
    rw [lookupNode_mk, if_neg hlen]
    rfl
  rw [← e, prefixes_mem_aux.1 _ hnode 0 hstr hh o id]
  constructor
  · rintro ⟨j, hj, rfl, hl⟩
    rw [el] at hl
    rw [Nat.zero_add]
    exact ⟨hj, hl⟩
  · rintro ⟨ho, hl⟩
    exact ⟨o, ho, (Nat.zero_add o).symm, by rw [el]; exact hl⟩

/-- The hits on a well-formed non-empty trie come in the order of their offsets. -/
theorem prefixesRoot_sorted (root : List TrieNode) (hok : ChildrenOK root) (hne : root ≠ [])
    (hstr : List Nat) : (prefixesRoot root hstr).Pairwise (fun a b => a.1 < b.1) := by
  have hlen : root.length ≠ 0 := fun h => hne (List.length_eq_zero.1 h)
  have hnode : NodeOK (.mk [1] root 0) := by
    rw [nodeOK_mk]
    refine ⟨?_, fun h => absurd h (List.cons_ne_nil _ _), hok⟩
    intro b hb
    simp only [List.mem_singleton] at hb
    subst hb
    exact ⟨by decide, by decide⟩
  have e : prefixesNode (.mk [1] root 0) 0 hstr = prefixesRoot root hstr := by
    rw [prefixesNode_mk, if_neg hlen]
    rfl
  rw [← e]
  exact (prefixes_sorted_aux.1 _ hnode 0 hstr).1

/-! ## Theorems: `findWordPrefixes` on a trie built from a word list -/

/-- The byte keys of a list of non-empty pure-Hangul words of at most 83
characters with 32-bit ids are non-empty jamo-byte strings that fit the
serialized format. -/
theorem encodeWords_keys (ws : List (String × Nat))
    (hpure : ∀ p ∈ ws, p.1.isPureHangul = true) (hne : ∀ p ∈ ws, p.1.length ≠ 0)
    (hlen : ∀ p ∈ ws, p.1.length ≤ 83) (hid : ∀ p ∈ ws, p.2 < 2 ^ 32) :
    ∀ p ∈ encodeWords ws,
      JamoBytes p.1 ∧ p.1 ≠ [] ∧ p.1.length + 6 < 256 ∧ p.2 < 2 ^ 32 := by
  intro p hp
  obtain ⟨w, hw, rfl⟩ := List.mem_map.1 hp
  have hl := encodeKey_length w.1 (hpure w hw)
  have h1 := hne w hw
  have h2 := hlen w hw
  refine ⟨encodeKey_jamoBytes w.1 (hpure w hw), ?_, by simp only; omega, hid w hw⟩
  intro h0
  simp only at h0
  rw [h0] at hl
  simp at hl
  exact h1 hl

/-- A trie built from a non-empty word list and frozen: the insertions succeed,
the tree is well formed, and the buffer holds the layout of the tree. -/
theorem freeze_addWords (ws : List (String × Nat)) (hws : ws ≠ [])
    (hpure : ∀ p ∈ ws, p.1.isPureHangul = true) (hne : ∀ p ∈ ws, p.1.length ≠ 0)
    (hlen : ∀ p ∈ ws, p.1.length ≤ 83) (hid : ∀ p ∈ ws, p.2 < 2 ^ 32)
    (hcount : ws.length ≤ 16000000) :
    ∃ t buf, TrieImpl.new.addWords ws = .ok t ∧
      t.freeze._editingMode = false ∧ t.freeze._serializedNodeArray = some buf ∧
      RootOK (addAll [] (encodeWords ws)) ∧ addAll [] (encodeWords ws) ≠ [] ∧
      readU8 buf 0 = (addAll [] (encodeWords ws)).length ∧
      Lay buf 1 0 (levelSize (addAll [] (encodeWords ws))) (addAll [] (encodeWords ws)) := by
  have hkeys := encodeWords_keys ws hpure hne hlen hid
  have hadd := addWords_eq ws TrieImpl.new rfl hpure
  have hsz := serializedSize_addWords ws hpure hlen hcount _ hadd
  have hnew : (TrieImpl.new)._rootChildren = [] := rfl
  simp only [TrieImpl.serializedSize, hnew] at hsz
  obtain ⟨hroot, -⟩ := @addAll_spec 0 (encodeWords ws) [] rootOK_nil
    fun p hp => ⟨(hkeys p hp).1, (hkeys p hp).2.1⟩
  have hfit := addAll_fits (encodeWords ws) [] rootOK_nil childrenFit_nil hkeys
  have hnn : addAll [] (encodeWords ws) ≠ [] :=
    addAll_ne_nil _ _ (fun p hp => (hkeys p hp).2.1)
      (Or.inr (by simpa [encodeWords] using hws))
  obtain ⟨hmode, -, buf, hbuf, hcnt, hlay⟩ := freeze_spec
    { TrieImpl.new with _rootChildren := addAll [] (encodeWords ws) } hnn hfit
    (by have := hroot.1.length_le; simp only; omega) hsz
  simp only [hnew] at hadd
  exact ⟨_, buf, hadd, hmode, hbuf, hroot, hnn, hcnt, hlay⟩

/-- On a trie built from a non-empty word list and frozen, `findWordPrefixes`
returns the hits the tree-level function gives. -/
theorem findWordPrefixes_addWords (ws : List (String × Nat)) (hws : ws ≠ [])
    (hpure : ∀ p ∈ ws, p.1.isPureHangul = true) (hne : ∀ p ∈ ws, p.1.length ≠ 0)
    (hlen : ∀ p ∈ ws, p.1.length ≤ 83) (hid : ∀ p ∈ ws, p.2 < 2 ^ 32)
    (hcount : ws.length ≤ 16000000) :
    ∃ t, TrieImpl.new.addWords ws = .ok t ∧
      ∀ k : String, k.isPureHangul = true →
        t.freeze.findWordPrefixes k =
          .ok (hitPairs (encodeKey k)
            (prefixesRoot (addAll [] (encodeWords ws)) (encodeKey k))) := by
  obtain ⟨t, buf, hadd, hmode, hbuf, hroot, hnn, hcnt, hlay⟩ :=
    freeze_addWords ws hws hpure hne hlen hid hcount
  refine ⟨t, hadd, fun k hk => ?_⟩
  unfold TrieImpl.findWordPrefixes
  rw [hmode, toHangulString_of_pure k hk]
  simp only [Bool.false_eq_true, if_false, bind, Except.bind, hbuf]
  exact findWordPrefixesLoop_root _ buf (encodeKey k) hroot.1 hnn hcnt hlay

/-- The byte keys of non-empty pure-Hangul words are non-empty jamo-byte strings. -/
theorem encodeWords_jamo (ws : List (String × Nat))
    (hpure : ∀ p ∈ ws, p.1.isPureHangul = true) (hne : ∀ p ∈ ws, p.1.length ≠ 0) :
    ∀ p ∈ encodeWords ws, JamoBytes p.1 ∧ p.1 ≠ [] := by
  intro p hp
  obtain ⟨w, hw, rfl⟩ := List.mem_map.1 hp
  have hl := encodeKey_length w.1 (hpure w hw)
  have h1 := hne w hw
  refine ⟨encodeKey_jamoBytes w.1 (hpure w hw), ?_⟩
  intro h0
  simp only at h0
  rw [h0] at hl
  simp at hl
  exact h1 hl

/-- A hit on a trie built from a word list is a word of the list with its id: its
byte key is the key up to the offset of the hit, which decodes to the word. -/
theorem hit_is_word (ws : List (String × Nat)) (hws : ws ≠ [])
    (hpure : ∀ p ∈ ws, p.1.isPureHangul = true) (hne : ∀ p ∈ ws, p.1.length ≠ 0)
    (k : String) (hk : k.isPureHangul = true) (o id : Nat)
    (ho : (o, id) ∈ prefixesRoot (addAll [] (encodeWords ws)) (encodeKey k)) :
    o ≤ (encodeKey k).length ∧
      ∃ s, (s, id) ∈ ws ∧ encodeKey s = (encodeKey k).take o ∧
        String.ofHangulString ((encodeKey k).take o) = s := by
  have hkeys := encodeWords_jamo ws hpure hne
  obtain ⟨hroot, -⟩ := @addAll_spec 0 (encodeWords ws) [] rootOK_nil hkeys
  have hnn : addAll [] (encodeWords ws) ≠ [] :=
    addAll_ne_nil _ _ (fun p hp => (hkeys p hp).2) (Or.inr (by simpa [encodeWords] using hws))
  have hh : JamoBytes (encodeKey k) := encodeKey_jamoBytes k hk
  obtain ⟨h1, h2⟩ := (prefixesRoot_mem _ hroot.1 hnn _ hh o id).1 ho
  have h3 := lookupRoot_addAll_some _ hkeys _ (hh.take o) id h2
  obtain ⟨p, hp, he⟩ := List.mem_map.1 h3
  simp only [Prod.mk.injEq] at he
  obtain ⟨he1, he2⟩ := he
  refine ⟨h1, p.1, ?_, he1, ?_⟩
  · rw [← he2]; exact hp
  · rw [← he1]; exact ofHangulString_encodeKey p.1 (hpure p hp)

/-- A word of the list that starts the key is a hit, at the offset of the length
of its byte key. -/
theorem word_is_hit (ws : List (String × Nat)) (hws : ws ≠ [])
    (hpure : ∀ p ∈ ws, p.1.isPureHangul = true) (hne : ∀ p ∈ ws, p.1.length ≠ 0)
    (k : String) (hk : k.isPureHangul = true) (w : String) (id0 : Nat) (hw : (w, id0) ∈ ws)
    (hpre : w._str <+: k._str) :
    ∃ id, ((encodeKey w).length, id) ∈
        prefixesRoot (addAll [] (encodeWords ws)) (encodeKey k) ∧
      (w, id) ∈ ws ∧
      String.ofHangulString ((encodeKey k).take (encodeKey w).length) = w := by
  have hkeys := encodeWords_jamo ws hpure hne
  obtain ⟨hroot, -⟩ := @addAll_spec 0 (encodeWords ws) [] rootOK_nil hkeys
  have hnn : addAll [] (encodeWords ws) ≠ [] :=
    addAll_ne_nil _ _ (fun p hp => (hkeys p hp).2) (Or.inr (by simpa [encodeWords] using hws))
  have hh : JamoBytes (encodeKey k) := encodeKey_jamoBytes k hk
  have hp2 : encodeKey w <+: encodeKey k :=
    (encodeKey_prefix_iff w k (hpure _ hw) hk).2 hpre
  have htake : encodeKey w = (encodeKey k).take (encodeKey w).length :=
    List.prefix_iff_eq_take.1 hp2
  have hin : ∃ p ∈ encodeWords ws, p.1 = (encodeKey k).take (encodeKey w).length :=
    ⟨(encodeKey w, id0), List.mem_map.2 ⟨(w, id0), hw, rfl⟩, htake⟩
  obtain ⟨id, hl⟩ := lookupRoot_addAll_isSome _ hkeys _ (hh.take _) hin
  have hhit := (prefixesRoot_mem _ hroot.1 hnn _ hh (encodeKey w).length id).2
    ⟨hp2.length_le, hl⟩
  have hdec : String.ofHangulString ((encodeKey k).take (encodeKey w).length) = w := by
    rw [← htake]
    exact ofHangulString_encodeKey w (hpure _ hw)
  refine ⟨id, hhit, ?_, hdec⟩
  obtain ⟨-, s, hs, -, hs2⟩ := hit_is_word ws hws hpure hne k hk _ id hhit
  rw [hdec] at hs2
  rw [hs2]
  exact hs

/-- The pairs made from the hits on a trie built from a word list with pairwise
different keys are the words of the list that start the key, each with its id,
in the order of their lengths. -/
theorem hitPairs_addAll (ws : List (String × Nat)) (hws : ws ≠ [])
    (hpure : ∀ p ∈ ws, p.1.isPureHangul = true) (hne : ∀ p ∈ ws, p.1.length ≠ 0)
    (hnd : (ws.map Prod.fst).Nodup) (k : String) (hk : k.isPureHangul = true) :
    (∀ w id, (⟨w, id⟩ : WordIdPair) ∈ hitPairs (encodeKey k)
        (prefixesRoot (addAll [] (encodeWords ws)) (encodeKey k)) ↔
      (w, id) ∈ ws ∧ w._str <+: k._str) ∧
    (hitPairs (encodeKey k)
        (prefixesRoot (addAll [] (encodeWords ws)) (encodeKey k))).Pairwise
      (fun a b => a.str.length < b.str.length) := by
  have hkeys := encodeWords_jamo ws hpure hne
  obtain ⟨hroot, -⟩ := @addAll_spec 0 (encodeWords ws) [] rootOK_nil hkeys
  have hnn : addAll [] (encodeWords ws) ≠ [] :=
    addAll_ne_nil _ _ (fun p hp => (hkeys p hp).2) (Or.inr (by simpa [encodeWords] using hws))
  have hit := hit_is_word ws hws hpure hne k hk
  constructor
  · intro w id
    constructor
    · intro hmem
      obtain ⟨⟨o, id1⟩, hp, he⟩ := List.mem_map.1 hmem
      simp only [WordIdPair.mk.injEq] at he
      obtain ⟨he1, rfl⟩ := he
      obtain ⟨ho, s, hs, hs1, hs2⟩ := hit o id1 hp
      rw [hs2] at he1
      subst he1
      refine ⟨hs, (encodeKey_prefix_iff s k (hpure _ hs) hk).1 ?_⟩
      rw [hs1]
      exact List.take_prefix _ _
    · rintro ⟨hmem, hpre⟩
      obtain ⟨id1, hhit, hw1, hdec⟩ := word_is_hit ws hws hpure hne k hk w id hmem hpre
      have : id1 = id := id_unique_of_nodup ws hnd w id1 id hw1 hmem
      subst this
      refine List.mem_map.2 ⟨((encodeKey w).length, id1), hhit, ?_⟩
      simp only [WordIdPair.mk.injEq, and_true]
      exact hdec
  · unfold hitPairs
    rw [List.pairwise_map]
    refine List.Pairwise.imp_of_mem ?_ (prefixesRoot_sorted _ hroot.1 hnn (encodeKey k))
    intro a b ha hb hlt
    obtain ⟨o1, id1⟩ := a
    obtain ⟨o2, id2⟩ := b
    obtain ⟨ho1, s1, hs1, he1, hd1⟩ := hit o1 id1 ha
    obtain ⟨ho2, s2, hs2, he2, hd2⟩ := hit o2 id2 hb
    simp only at hlt ⊢
    rw [hd1, hd2]
    have hpre : encodeKey s1 <+: encodeKey s2 := by
      rw [he1, he2]
      have : (encodeKey k).take o1 = ((encodeKey k).take o2).take o1 := by
        rw [List.take_take, Nat.min_eq_left (Nat.le_of_lt hlt)]
      rw [this]
      exact List.take_prefix _ _
    have hpre2 : s1._str <+: s2._str :=
      (encodeKey_prefix_iff s1 s2 (hpure _ hs1) (hpure _ hs2)).1 hpre
    have hle : s1._str.length ≤ s2._str.length := hpre2.length_le
    have hneq : s1._str.length ≠ s2._str.length := by
      intro heq
      have e : s1._str = s2._str := hpre2.eq_of_length heq
      have e2 : s1 = s2 := by
        cases s1; cases s2; simpa using e
      have e3 : ((encodeKey k).take o1).length = ((encodeKey k).take o2).length := by
        rw [← he1, ← he2, e2]
      rw [List.length_take, List.length_take, Nat.min_eq_left ho1, Nat.min_eq_left ho2] at e3
      omega
    unfold String.length
    omega

/-- A cell of the matrix determines its row and column. -/
theorem cell_inj (n a b i j : Nat) (hb : b < n) (hj : j < n) (h : a * n + b = i * n + j) :
    a = i ∧ b = j := by
  rcases Nat.lt_trichotomy a i with hlt | heq | hgt
  · have := Nat.mul_le_mul_right n (show a + 1 ≤ i by omega)
    rw [Nat.add_mul, Nat.one_mul] at this
    omega
  · subst heq
    exact ⟨rfl, by omega⟩
  · have := Nat.mul_le_mul_right n (show i + 1 ≤ a by omega)
    rw [Nat.add_mul, Nat.one_mul] at this
    omega

/-- A cell of the matrix is a bit of the bitset. -/
theorem cell_lt (n i e : Nat) (hi : i ≤ e) (he : e < n) : i * n + e < n * n := by
  have := Nat.mul_le_mul_right n (show i + 1 ≤ n by omega)
  rw [Nat.add_mul, Nat.one_mul] at this
  omega

/-- For a cell of the matrix `bitForWord` returns its bit. -/
theorem bitForWord_ok (s : Segmentations) (i e : Nat) (hi : i ≤ e)
    (he : e < s._sentenceLength) (hn : s._sentenceLength * s._sentenceLength < 2 ^ 31) :
    s.bitForWord i e = .ok (i * s._sentenceLength + e) := by
  have hlt := cell_lt s._sentenceLength i e hi he
  have hle : i * s._sentenceLength ≤ i * s._sentenceLength + e := Nat.le_add_right _ _
  have hx : (i : Int) * (s._sentenceLength : Int) = ((i * s._sentenceLength : Nat) : Int) := by
    push_cast; rfl
  unfold Segmentations.bitForWord
  rw [if_neg (by omega), if_neg (by omega), hx]
  have h1 : fitsInt ((i * s._sentenceLength : Nat) : Int) = true := by
    unfold fitsInt
    rw [decide_eq_true_iff]
    omega
  have h2 : fitsInt (((i * s._sentenceLength : Nat) : Int) + (e : Int)) = true := by
    unfold fitsInt
    rw [decide_eq_true_iff]
    omega
  have h3 : ((((i * s._sentenceLength : Nat) : Int) + (e : Int)) % 2 ^ 64).toNat =
      i * s._sentenceLength + e := by
    omega
  rw [h1, h2, h3]
  rfl

/-- For a cell of the matrix `addWord` sets its bit. -/
theorem addWord_ok (s : Segmentations) (i e : Nat) (hi : i ≤ e) (he : e < s._sentenceLength)
    (hn : s._sentenceLength * s._sentenceLength < 2 ^ 31)
    (hl : s._words.length = s._sentenceLength * s._sentenceLength) :
    s.addWord i e =
      .ok { s with _words := s._words.set (i * s._sentenceLength + e) true } := by
  have hlt := cell_lt s._sentenceLength i e hi he
  unfold Segmentations.addWord
  rw [bitForWord_ok s i e hi he hn]
  simp only [bind, Except.bind]
  rw [if_pos (by omega)]
  rfl

/-- For a cell of the matrix `word` reads its bit. -/
theorem word_ok (s : Segmentations) (i e : Nat) (hi : i ≤ e) (he : e < s._sentenceLength)
    (hn : s._sentenceLength * s._sentenceLength < 2 ^ 31)
    (hl : s._words.length = s._sentenceLength * s._sentenceLength) :
    s.word i e = .ok (s._words.getD (i * s._sentenceLength + e) false) := by
  have hlt := cell_lt s._sentenceLength i e hi he
  unfold Segmentations.word
  rw [bitForWord_ok s i e hi he hn]
  simp only [bind, Except.bind]
  have hlt2 : i * s._sentenceLength + e < s._words.length := by omega
  rw [List.getElem?_eq_getElem hlt2, List.getD_eq_getElem _ _ hlt2]
  rfl

/-- An `addWord` call with the empty key leaves the tree as it is. -/
theorem addWordRoot_nil (root : List TrieNode) (id : Nat) (replace : Bool) :
    addWordRoot root [] id replace = (root, id) := by
  unfold addWordRoot
  rw [if_pos rfl]

/-- Insertions with empty keys can be left out. -/
theorem addAll_filter (kws : List (List Nat × Nat)) (root : List TrieNode) :
    addAll root kws = addAll root (kws.filter fun p => decide (p.1 ≠ [])) := by
  induction kws generalizing root with
  | nil => rfl
  | cons p rest ih =>
    obtain ⟨k, id⟩ := p
    by_cases hk : k = []
    · subst hk
      rw [List.filter_cons_of_neg (by simp)]
      simp only [addAll, addWordRoot_nil]
      exact ih root
    · rw [List.filter_cons_of_pos (by simpa using hk)]
      simp only [addAll]
      exact ih _

/-- The byte key of a pure-Hangul string is empty exactly when the string is. -/
theorem encodeKey_eq_nil_iff (s : String) (h : s.isPureHangul = true) :
    encodeKey s = [] ↔ s.length = 0 := by
  have hl := encodeKey_length s h
  constructor
  · intro e
    rw [e] at hl
    simpa using hl.1
  · intro e
    rw [e] at hl
    exact List.length_eq_zero.1 (by omega)

/-- The words with a non-empty key. -/
theorem encodeWords_filter (ws : List (String × Nat))
    (hpure : ∀ p ∈ ws, p.1.isPureHangul = true) :
    encodeWords (ws.filter fun p => decide (p.1.length ≠ 0)) =
      (encodeWords ws).filter fun p => decide (p.1 ≠ []) := by
  induction ws with
  | nil => rfl
  | cons p rest ih =>
    have hp := hpure p (by simp)
    have ih2 := ih fun q hq => hpure q (by simp [hq])
    have hiff := encodeKey_eq_nil_iff p.1 hp
    by_cases h0 : p.1.length = 0
    · rw [List.filter_cons_of_neg (by simpa using h0)]
      unfold encodeWords at ih2 ⊢
      rw [List.map_cons, List.filter_cons_of_neg (by simpa using hiff.2 h0)]
      exact ih2
    · rw [List.filter_cons_of_pos (by simpa using h0)]
      unfold encodeWords at ih2 ⊢
      rw [List.map_cons, List.map_cons,
        List.filter_cons_of_pos (by simpa using fun h => h0 (hiff.1 h))]
      rw [ih2]

/-- A trie built from a word list is the trie built from its words with a
non-empty key. -/
theorem addWords_filter (ws : List (String × Nat))
    (hpure : ∀ p ∈ ws, p.1.isPureHangul = true) :
    TrieImpl.new.addWords ws =
      TrieImpl.new.addWords (ws.filter fun p => decide (p.1.length ≠ 0)) := by
  rw [addWords_eq ws TrieImpl.new rfl hpure,
    addWords_eq _ TrieImpl.new rfl fun p hp => hpure p (List.mem_of_mem_filter hp),
    encodeWords_filter ws hpure, ← addAll_filter]

/-- Properties of all words hold for the words with a non-empty key, which are
pairwise different when all words are, and exist when some word has a non-empty key. -/
theorem filter_words (ws : List (String × Nat)) :
    (∀ p ∈ ws.filter (fun p => decide (p.1.length ≠ 0)), p ∈ ws ∧ p.1.length ≠ 0) ∧
    ((ws.map Prod.fst).Nodup →
      ((ws.filter fun p => decide (p.1.length ≠ 0)).map Prod.fst).Nodup) ∧
    (ws.filter fun p => decide (p.1.length ≠ 0)).length ≤ ws.length ∧
    ((∃ p ∈ ws, p.1.length ≠ 0) → ws.filter (fun p => decide (p.1.length ≠ 0)) ≠ []) := by
  refine ⟨fun p hp => ?_, fun h => ?_, List.length_filter_le _ _, ?_⟩
  · rw [List.mem_filter] at hp
    exact ⟨hp.1, by simpa using hp.2⟩
  · exact h.sublist ((List.filter_sublist ws).map Prod.fst)
  · rintro ⟨p, hp, h0⟩ he
    have : p ∈ ws.filter (fun p => decide (p.1.length ≠ 0)) :=
      List.mem_filter.2 ⟨hp, by simpa using h0⟩
    rw [he] at this
    cases this

/-! ## Theorems: labels the serialized format cannot hold -/

set_option maxRecDepth 100000 in
/-- A key of 84 characters (252 bytes) does not fit the format: `getLenght`
returns the node length as a `uint8_t`, so the scan of the siblings steps to a
wrong position behind such a node, and the word 나 inserted next to it is not
found. -/
theorem findWord_long_key_lost :
    (do
      let t ← TrieImpl.new.addWords [(⟨List.replicate 84 0xAC00⟩, 0), (⟨[0xB098]⟩, 1)]
      t.freeze.findWord ⟨[0xB098]⟩) = .ok NIME_TRIE_WORD_NOT_FOUND := by
  decide

/-! ### Insertion with and without `replace` -/

/-- Siblings without an empty label have no id for the empty key. -/
theorem zeroNodeId_of_nonempty {d : Nat} (cs : List TrieNode) (h : ∀ n ∈ cs, n.value ≠ []) :
    zeroNodeId d cs = d := by
  induction cs with
  | nil => rfl
  | cons c cs ih =>
    rw [zeroNodeId_cons, if_neg (h c (by simp))]
    exact ih fun n hn => h n (by simp [hn])

/-- The empty-label child of a well-formed sibling list receives the id if
`replace` is set and is left alone otherwise; the id returned is the one it
holds afterwards, and nothing else changes. -/
theorem setZeroNode_replace_spec {d : Nat} (id : Nat) (replace : Bool) (cs : List TrieNode)
    (hcs : ChildrenOK cs) (cs1 : List TrieNode) (r : Nat)
    (h : setZeroNode id replace cs = some (cs1, r)) :
    r = (if replace then id else zeroNodeId id cs) ∧
    ChildrenOK cs1 ∧ heads cs1 = heads cs ∧ zeroNodeId d cs1 = r ∧
      ∀ q, findChildren d cs1 q = findChildren d cs q := by
  induction cs generalizing cs1 r with
  | nil => simp [setZeroNode] at h
  | cons c cs ih =>
    rw [setZeroNode_cons] at h
    rw [childrenOK_cons_heads] at hcs
    obtain ⟨hc, hhead, hrest⟩ := hcs
    cases hs : setZeroNode id replace cs with
    | some p =>
      obtain ⟨ns1, r1⟩ := p
      rw [hs] at h
      simp only [Option.some.injEq, Prod.mk.injEq] at h
      obtain ⟨rfl, rfl⟩ := h
      obtain ⟨h0, h1, h2, h3, h4⟩ := ih hrest ns1 r1 hs
      have hne : ¬ ∀ n ∈ cs, n.value ≠ [] := fun hh => by
        rw [(setZeroNode_eq_none_iff id replace cs).2 hh] at hs; cases hs
      have hcv : c.value ≠ [] := by
        intro hcv
        apply hne
        intro n hn hnv
        apply hhead
        rw [mem_heads]
        exact ⟨n, hn, by simp [hnv, hcv]⟩
      refine ⟨?_, ?_, ?_, ?_, ?_⟩
      · rw [zeroNodeId_cons, if_neg hcv]; exact h0
      · rw [childrenOK_cons_heads]; exact ⟨hc, by rw [h2]; exact hhead, h1⟩
      · simp only [heads, List.map_cons] at h2 ⊢; rw [h2]
      · rw [zeroNodeId_cons, if_neg hcv]; exact h3
      · intro q
        by_cases hm : Matches q c.value
        · rw [findChildren_cons_of_matches c _ q hm, findChildren_cons_of_matches c _ q hm]
        · rw [findChildren_cons_of_not_matches c _ q hm,
            findChildren_cons_of_not_matches c _ q hm]
          exact h4 q
    | none =>
      by_cases hcv : c.value = []
      · cases replace with
        | true =>
          simp only [hs, hcv, if_true, Option.some.injEq, Prod.mk.injEq] at h
          obtain ⟨rfl, rfl⟩ := h
          have hc1 : NodeOK (.mk [] c.children id) := by
            have := hc
            rw [c.eta, hcv] at this
            exact (nodeOK_id _ _ _ _).1 this
          refine ⟨rfl, ?_, ?_, ?_, ?_⟩
          · rw [childrenOK_cons_heads]
            exact ⟨hc1, by simpa [hcv] using hhead, hrest⟩
          · simp [heads, hcv]
          · simp [zeroNodeId_cons]
          · intro q
            have h1 : ¬ Matches q (TrieNode.mk [] c.children id).value := by
              simpa using not_matches_nil q
            have h2 : ¬ Matches q c.value := by rw [hcv]; exact not_matches_nil q
            rw [findChildren_cons_of_not_matches _ _ q h1,
              findChildren_cons_of_not_matches c _ q h2]
        | false =>
          simp only [hs, hcv, if_true, Bool.false_eq_true, if_false, Option.some.injEq,
            Prod.mk.injEq] at h
          obtain ⟨rfl, rfl⟩ := h
          refine ⟨?_, ?_, rfl, ?_, fun q => rfl⟩
          · simp [zeroNodeId_cons, hcv]
          · rw [childrenOK_cons_heads]; exact ⟨hc, hhead, hrest⟩
          · simp [zeroNodeId_cons, hcv]
      · simp [hs, hcv] at h

/-- Correctness of `addWord` below the root, with or without `replace`. The id
returned is the new id if `replace` is set, and otherwise the id the key
already has, or the new id if it has none. At a node: the node stays well
formed, keeps its label, and the query changes exactly at the inserted key,
where it gives the id returned. On a sibling list: either no sibling shares the
first byte of the key, or the list is updated in place with the same properties. -/
theorem addAtNode_scanChildren_replace {d : Nat} (replace : Bool) :
    (∀ n, NodeOK n → n.value ≠ [] → ∀ k id, JamoBytes k →
      (addAtNode n k id replace).2 = (if replace then id else findNode id n k) ∧
      NodeOK (addAtNode n k id replace).1 ∧ (addAtNode n k id replace).1.value = n.value ∧
      ∀ q, JamoBytes q →
        findNode d (addAtNode n k id replace).1 q =
          if q = k then (addAtNode n k id replace).2 else findNode d n q) ∧
    (∀ cs, ChildrenOK cs → ∀ k id, JamoBytes k → k ≠ [] →
      (scanChildren cs k id replace = none ∧ k.headD 0 ∉ heads cs) ∨
      ∃ cs1 r, scanChildren cs k id replace = some (cs1, r) ∧
        r = (if replace then id else findChildren id cs k) ∧ ChildrenOK cs1 ∧
        heads cs1 = heads cs ∧ zeroNodeId d cs1 = zeroNodeId d cs ∧
        ∀ q, JamoBytes q → q ≠ [] →
          findChildren d cs1 q = if q = k then r else findChildren d cs q) := by
  apply trie_induction
  · -- a node, given the statement for its children
    intro v cs nid ihQ hn hvne k id hk
    simp only [TrieNode.value_mk] at hvne ⊢
    have hn' := hn
    rw [nodeOK_mk] at hn'
    obtain ⟨hv, -, hcs⟩ := hn'
    rw [addAtNode_mk]
    by_cases hk0 : k = []
    · subst hk0
      rw [if_pos rfl]
      unfold finishAtNode
      by_cases hlen : cs.length > 0
      · rw [if_pos hlen]
        have hlen0 : ¬ cs.length = 0 := by omega
        cases hs : setZeroNode id replace cs with
        | none =>
          simp only []
          have hall := (setZeroNode_eq_none_iff id replace cs).1 hs
          refine ⟨?_, ?_, by simp, ?_⟩
          · rw [findNode_mk, if_pos rfl, if_neg hlen0, zeroNodeId_of_nonempty cs hall]
            simp
          · rw [nodeOK_mk]
            refine ⟨hv, fun h => absurd h hvne, ?_⟩
            rw [childrenOK_append_singleton, nodeOK_mk]
            exact ⟨hcs, ⟨jamoBytes_nil, fun _ => rfl, childrenOK_nil⟩,
              by simpa using zero_not_mem_heads cs hcs hall⟩
          · intro q _
            rw [findNode_mk, findNode_mk]
            by_cases hq0 : q = []
            · rw [if_pos hq0, if_pos hq0, if_neg (by simp), zeroNodeId_append_zero cs id hall]
            · rw [if_neg hq0, if_neg hq0, if_neg hq0, findChildren_append_zero]
        | some p =>
          obtain ⟨cs1, r⟩ := p
          simp only []
          obtain ⟨h0, h1, h2, h3, h4⟩ := setZeroNode_replace_spec id replace cs hcs cs1 r hs
          have hlen1 : cs1.length = cs.length := by
            have := congrArg List.length h2
            simpa [heads] using this
          refine ⟨?_, ?_, by simp, ?_⟩
          · rw [findNode_mk, if_pos rfl, if_neg hlen0]
            exact h0
          · rw [nodeOK_mk]
            exact ⟨hv, fun h => absurd h hvne, h1⟩
          · intro q _
            rw [findNode_mk, findNode_mk]
            by_cases hq0 : q = []
            · rw [if_pos hq0, if_pos hq0, if_neg (by omega), h3]
            · rw [if_neg hq0, if_neg hq0, if_neg hq0, h4]
      · rw [if_neg hlen]
        have hcs0 : cs = [] := List.length_eq_zero.1 (by omega)
        subst hcs0
        cases replace with
        | true =>
          simp only [if_true]
          refine ⟨by first | rfl | trivial, ?_, by simp, ?_⟩
          · exact (nodeOK_id _ _ _ _).1 hn
          · intro q _
            rw [findNode_mk, findNode_mk]
            by_cases hq0 : q = []
            · simp [hq0]
            · simp [hq0]
        | false =>
          simp only [Bool.false_eq_true, if_false]
          refine ⟨?_, hn, by simp, ?_⟩
          · rw [findNode_mk]
            simp
          · intro q _
            rw [findNode_mk]
            by_cases hq0 : q = []
            · simp [hq0]
            · simp [hq0]
    · rw [if_neg hk0]
      have hfind0 : findNode id (.mk v cs nid) k = findChildren id cs k := by
        rw [findNode_mk, if_neg hk0]
      rcases ihQ hcs k id hk hk0 with ⟨hnone, hnot⟩ | ⟨cs1, r, hsome, h0, h1, h2, h3, h4⟩
      · simp only [hnone]
        have hret : id = if replace = true then id else findNode id (.mk v cs nid) k := by
          rw [hfind0, findChildren_of_no_match cs k (no_match_of_head_not_mem cs k hnot)]
          simp
        have hleaf : NodeOK (.mk k [] id) := by
          rw [nodeOK_mk]; exact ⟨hk, fun _ => rfl, childrenOK_nil⟩
        by_cases hl : cs.length = 0
        · have hcs0 : cs = [] := List.length_eq_zero.1 hl
          subst hcs0
          simp only [List.length_nil, if_true]
          have hz : ChildrenOK [TrieNode.mk [] [] nid] := by
            rw [childrenOK_cons_heads, nodeOK_mk]
            exact ⟨⟨jamoBytes_nil, fun _ => rfl, childrenOK_nil⟩, by simp [heads],
              childrenOK_nil⟩
          have hkh : k.headD 0 ∉ heads [TrieNode.mk [] [] nid] := by
            simpa [heads] using headD_ne_zero hk hk0
          refine ⟨hret, ?_, by simp, ?_⟩
          · rw [nodeOK_mk]
            refine ⟨hv, fun h => absurd h hvne, ?_⟩
            rw [childrenOK_append_singleton]
            exact ⟨hz, hleaf, by simpa using hkh⟩
          · intro q hq
            rw [findNode_mk, findNode_mk]
            by_cases hq0 : q = []
            · have : q ≠ k := fun h => hk0 (h ▸ hq0)
              rw [if_pos hq0, if_pos hq0, if_neg this, if_neg (by simp),
                zeroNodeId_append_nonempty _ _ (by simpa using hk0)]
              simp [zeroNodeId_cons]
            · rw [if_neg hq0, if_neg hq0, findChildren_append_leaf _ k id q hk hk0 hq hkh,
                findChildren_cons_of_not_matches _ _ q (by simpa using not_matches_nil q)]
        · simp only [hl, if_false]
          refine ⟨hret, ?_, by simp, ?_⟩
          · rw [nodeOK_mk]
            refine ⟨hv, fun h => absurd h hvne, ?_⟩
            rw [childrenOK_append_singleton]
            exact ⟨hcs, hleaf, by simpa using hnot⟩
          · intro q hq
            rw [findNode_mk, findNode_mk]
            by_cases hq0 : q = []
            · have : q ≠ k := fun h => hk0 (h ▸ hq0)
              rw [if_pos hq0, if_pos hq0, if_neg this, if_neg (by simp), if_neg hl,
                zeroNodeId_append_nonempty _ _ (by simpa using hk0)]
            · rw [if_neg hq0, if_neg hq0, findChildren_append_leaf _ k id q hk hk0 hq hnot]
      · simp only [hsome]
        have hlen1 : cs1.length = cs.length := by
          have := congrArg List.length h2
          simpa [heads] using this
        refine ⟨by rw [hfind0]; exact h0, ?_, by simp, ?_⟩
        · rw [nodeOK_mk]
          exact ⟨hv, fun h => absurd h hvne, h1⟩
        · intro q hq
          rw [findNode_mk, findNode_mk]
          by_cases hq0 : q = []
          · have : q ≠ k := fun h => hk0 (h ▸ hq0)
            rw [if_pos hq0, if_pos hq0, if_neg this, hlen1, h3]
          · rw [if_neg hq0, if_neg hq0, h4 q hq hq0]
  · -- the empty sibling list
    intro _ k id _ _
    left
    exact ⟨scanChildren_nil k id replace, by simp [heads]⟩
  · -- a sibling list, given the statement for its head and its tail
    intro n ns ihP ihQ hcs k id hk hk0
    cases n with
    | mk v cs nid =>
    rw [childrenOK_cons_heads] at hcs
    obtain ⟨hn, hhead, hns⟩ := hcs
    simp only [TrieNode.value_mk] at hhead
    have hv : JamoBytes v := hn.jamoBytes
    rw [scanChildren_cons]
    by_cases ha : compareHStr k v = v.length ∧ v ≠ []
    · rw [if_pos ha]
      right
      obtain ⟨hret, hOK, hval, hfind⟩ := ihP hn (by simpa using ha.2)
        (k.drop (compareHStr k v)) id (hk.drop _)
      simp only [TrieNode.value_mk] at hval
      refine ⟨_, _, rfl, ?_, ?_, ?_, ?_, ?_⟩
      · rw [hret, findChildren_cons_of_matches _ _ k (by simpa using ha)]
        simp only [TrieNode.value_mk, ha.1]
      · rw [childrenOK_cons_heads]
        exact ⟨hOK, by rw [hval]; exact hhead, hns⟩
      · simp [heads, hval]
      · rw [zeroNodeId_cons, zeroNodeId_cons, hval]
        simp [ha.2]
      · intro q hq _
        have hvk : v <+: k := ((matches_iff k v hk hv).1 ha).1
        by_cases hm : Matches q v
        · have hvq : v <+: q := ((matches_iff q v hq hv).1 hm).1
          rw [findChildren_cons_of_matches _ _ q (by rw [hval]; exact hm), hval,
            hfind _ (hq.drop _), findChildren_cons_of_matches _ _ q (by simpa using hm)]
          simp only [TrieNode.value_mk]
          have : (q.drop v.length = k.drop (compareHStr k v)) ↔ q = k := by
            rw [ha.1]
            obtain ⟨t, rfl⟩ := hvq
            obtain ⟨u, rfl⟩ := hvk
            simp
          by_cases hqk : q = k
          · rw [if_pos (this.2 hqk), if_pos hqk]
          · rw [if_neg (fun h => hqk (this.1 h)), if_neg hqk]
        · have hqk : q ≠ k := fun h => hm (h ▸ ha)
          rw [findChildren_cons_of_not_matches _ _ q (by rw [hval]; exact hm),
            findChildren_cons_of_not_matches _ _ q (by simpa using hm), if_neg hqk]
    · rw [if_neg ha]
      have hnm : ¬ Matches k (TrieNode.mk v cs nid).value := fun h => ha h
      by_cases hb : compareHStr k v > 0
      · rw [if_pos hb]
        right
        have hvne : v ≠ [] := by
          intro h; rw [h, compareHStr_nil_right] at hb; omega
        have hlt : compareHStr k v < v.length := by
          have := compareHStr_le_right k v
          rcases Nat.lt_or_ge (compareHStr k v) v.length with h | h
          · exact h
          · exact absurd ⟨Nat.le_antisymm this h, hvne⟩ ha
        obtain ⟨hOK, hhd, hfind⟩ := splitNode_spec v cs nid ns k id hn hhead hk hb hlt
        have hsne : (splitNode v cs nid k (compareHStr k v) id).value ≠ [] := by
          intro h
          rw [h] at hhd
          exact headD_ne_zero hv hvne hhd.symm
        have hkv : k.headD 0 = v.headD 0 :=
          ((compareHStr_pos_iff k v hv hk).1 hb).2.2
        refine ⟨_, _, rfl, ?_, ?_, ?_, ?_, ?_⟩
        · rw [findChildren_cons_of_not_matches _ _ k hnm,
            findChildren_of_no_match ns k
              (no_match_of_head_not_mem ns k (by rw [hkv]; exact hhead))]
          simp
        · rw [childrenOK_cons_heads]
          exact ⟨hOK, by rw [hhd]; exact hhead, hns⟩
        · simp only [heads, List.map_cons, TrieNode.value_mk, hhd]
        · rw [zeroNodeId_cons, zeroNodeId_cons, if_neg hsne]
          simp [hvne]
        · exact hfind
      · rw [if_neg hb]
        have hhk : v.headD 0 ≠ k.headD 0 := by
          intro h
          by_cases hvne : v = []
          · rw [hvne] at h
            exact headD_ne_zero hk hk0 h.symm
          · exact hb ((compareHStr_pos_iff k v hv hk).2 ⟨hk0, hvne, h.symm⟩)
        rcases ihQ hns k id hk hk0 with ⟨hnone, hnot⟩ | ⟨ns1, r, hsome, h0, h1, h2, h3, h4⟩
        · left
          simp only [hnone]
          refine ⟨trivial, ?_⟩
          simp only [heads, List.map_cons, TrieNode.value_mk, List.mem_cons, not_or]
          exact ⟨fun h => hhk h.symm, hnot⟩
        · right
          simp only [hsome]
          refine ⟨_, _, rfl, ?_, ?_, ?_, ?_, ?_⟩
          · rw [findChildren_cons_of_not_matches _ _ k hnm]
            exact h0
          · rw [childrenOK_cons_heads]
            exact ⟨hn, by simpa [h2] using hhead, h1⟩
          · simp only [heads, List.map_cons] at h2 ⊢; rw [h2]
          · rw [zeroNodeId_cons, zeroNodeId_cons, h3]
          · intro q hq hq0
            by_cases hm : Matches q v
            · have hqk : q ≠ k := by
                intro h
                rw [h] at hm
                exact hhk hm.head_eq.symm
              rw [findChildren_cons_of_matches _ _ q (by simpa using hm),
                findChildren_cons_of_matches _ _ q (by simpa using hm), if_neg hqk]
            · rw [findChildren_cons_of_not_matches _ _ q (by simpa using hm),
                findChildren_cons_of_not_matches _ _ q (by simpa using hm), h4 q hq hq0]

/-- An optional id is determined by what it gives for every default. -/
theorem option_eq_of_getD (a b : Option Nat) (h : ∀ d, a.getD d = b.getD d) : a = b := by
  cases a with
  | none =>
    cases b with
    | none => rfl
    | some y =>
      have := h (y + 1)
      simp at this
  | some x =>
    cases b with
    | none =>
      have := h (x + 1)
      simp at this
    | some y =>
      have := h 0
      simp only [Option.getD_some] at this
      rw [this]

/-- Correctness of `addWord` at the root for a non-empty key, with or without
`replace`: the id returned is the new id if `replace` is set, and otherwise
the id the key already has, or the new id if it has none; the trie stays well
formed, and `findWord`, read on the tree, changes exactly at the inserted key,
where it gives the id returned. -/
theorem addWordRoot_replace_spec {d : Nat} (replace : Bool) (root : List TrieNode)
    (hroot : RootOK root) (k : List Nat) (id : Nat) (hk : JamoBytes k) (hk0 : k ≠ []) :
    (addWordRoot root k id replace).2 = (if replace then id else findRoot id root k) ∧
    RootOK (addWordRoot root k id replace).1 ∧
    ∀ q, JamoBytes q →
      findRoot d (addWordRoot root k id replace).1 q =
        if q = k then (addWordRoot root k id replace).2 else findRoot d root q := by
  obtain ⟨hcs, hne⟩ := hroot
  have h0 : 0 ∉ heads root := (labels_nonempty_iff root hcs).1 hne
  have hfr : findRoot id root k = findChildren id root k := by
    unfold findRoot
    rw [if_neg hk0]
  unfold addWordRoot
  rw [if_neg hk0]
  rcases (@addAtNode_scanChildren_replace d replace).2 root hcs k id hk hk0 with
    ⟨hnone, hnot⟩ | ⟨cs1, r, hsome, hr, h1, h2, h3, h4⟩
  · simp only [hnone]
    have hOK : ChildrenOK (root ++ [TrieNode.mk k [] id]) := by
      rw [childrenOK_append_singleton, nodeOK_mk]
      exact ⟨hcs, ⟨hk, fun _ => rfl, childrenOK_nil⟩, by simpa using hnot⟩
    refine ⟨?_, ⟨hOK, ?_⟩, ?_⟩
    · rw [hfr, findChildren_of_no_match root k (no_match_of_head_not_mem root k hnot)]
      simp
    · intro n hn
      rcases List.mem_append.1 hn with hn | hn
      · exact hne n hn
      · simp only [List.mem_singleton] at hn
        subst hn
        simpa using hk0
    · intro q hq
      unfold findRoot
      by_cases hq0 : q = []
      · have : q ≠ k := fun h => hk0 (h ▸ hq0)
        rw [if_pos hq0, if_pos hq0, if_neg this,
          zeroNodeId_append_nonempty _ _ (by simpa using hk0)]
      · rw [if_neg hq0, if_neg hq0, findChildren_append_leaf _ k id q hk hk0 hq hnot]
  · simp only [hsome]
    refine ⟨by rw [hfr]; exact hr, ⟨h1, ?_⟩, ?_⟩
    · rw [labels_nonempty_iff cs1 h1, h2]
      exact h0
    · intro q hq
      unfold findRoot
      by_cases hq0 : q = []
      · have : q ≠ k := fun h => hk0 (h ▸ hq0)
        rw [if_pos hq0, if_pos hq0, if_neg this, h3]
      · rw [if_neg hq0, if_neg hq0, h4 q hq hq0]

/-- The id returned by `addWord` at the root, and the ids stored afterwards, in
terms of the ids stored before. -/
theorem lookupRoot_addWordRoot (replace : Bool) (root : List TrieNode) (hroot : RootOK root)
    (k : List Nat) (id : Nat) (hk : JamoBytes k) (hk0 : k ≠ []) :
    (addWordRoot root k id replace).2 =
      (if replace then id else (lookupRoot root k).getD id) ∧
    RootOK (addWordRoot root k id replace).1 ∧
    ∀ q, JamoBytes q →
      lookupRoot (addWordRoot root k id replace).1 q =
        if q = k then some (addWordRoot root k id replace).2 else lookupRoot root q := by
  obtain ⟨h1, h2, -⟩ := @addWordRoot_replace_spec 0 replace root hroot k id hk hk0
  refine ⟨by rw [h1, findRoot_eq_lookupRoot], h2, fun q hq => ?_⟩
  apply option_eq_of_getD
  intro d
  obtain ⟨-, -, h3⟩ := @addWordRoot_replace_spec d replace root hroot k id hk hk0
  have := h3 q hq
  rw [findRoot_eq_lookupRoot, findRoot_eq_lookupRoot] at this
  rw [this]
  by_cases hqk : q = k
  · rw [if_pos hqk, if_pos hqk]
    rfl
  · rw [if_neg hqk, if_neg hqk]

/-- A well-formed trie stores no id for the empty key. -/
theorem lookupRoot_nil_key (root : List TrieNode) (hroot : RootOK root) :
    lookupRoot root [] = none := by
  unfold lookupRoot
  rw [if_pos rfl]
  exact (zeroHits_of_nonempty 0 root hroot.2).2

/-- The call `addWord` on a trie in editing mode with a pure-Hangul key. -/
theorem addWord_eq (t : TrieImpl) (k : String) (id : Nat) (replace : Bool)
    (hmode : t._editingMode = true) (hk : k.isPureHangul = true) :
    t.addWord k id replace =
      .ok ({ t with _rootChildren := (addWordRoot t._rootChildren (encodeKey k) id replace).1 },
        (addWordRoot t._rootChildren (encodeKey k) id replace).2) := by
  simp only [TrieImpl.addWord, hmode, Bool.not_true, Bool.false_eq_true, if_false,
    toHangulString_of_pure k hk, bind, Except.bind, pure, Except.pure]

/-! ## Claims C1 and C2: `findWord` on a frozen trie -/

/-- C1 (amended): for every list of at most 16 million (key, id) pairs with
pairwise distinct pure-Hangul keys of at most 83 characters and 32-bit ids,
inserted with `addWord` in the order of the list into a fresh trie that is then
frozen, all insertions succeed and `findWord(k)` returns `id` for every pair
`(k, id)` of the list whose key is not empty. -/
theorem findWord_of_inserted (ws : List (String × Nat))
    (hpure : ∀ p ∈ ws, p.1.isPureHangul = true) (hlen : ∀ p ∈ ws, p.1.length ≤ 83)
    (hid : ∀ p ∈ ws, p.2 < 2 ^ 32) (hcount : ws.length ≤ 16000000)
    (hnd : (ws.map Prod.fst).Nodup) :
    ∃ t, TrieImpl.new.addWords ws = .ok t ∧
      ∀ p ∈ ws, p.1.length ≠ 0 → t.freeze.findWord p.1 = .ok p.2 := by
  obtain ⟨hf, hfnd, hfl, -⟩ := filter_words ws
  have hpure2 : ∀ p ∈ ws.filter (fun p => decide (p.1.length ≠ 0)), p.1.isPureHangul = true :=
    fun p hp => hpure p (hf p hp).1
  rw [addWords_filter ws hpure]
  by_cases hws : ws.filter (fun p => decide (p.1.length ≠ 0)) = []
  · rw [hws]
    refine ⟨TrieImpl.new, rfl, fun p hp h0 => ?_⟩
    have : p ∈ ws.filter (fun p => decide (p.1.length ≠ 0)) :=
      List.mem_filter.2 ⟨hp, by simpa using h0⟩
    rw [hws] at this
    cases this
  · obtain ⟨t, ht, h⟩ := findWord_addWords _ hws hpure2 (fun p hp => (hf p hp).2)
      (fun p hp => hlen p (hf p hp).1) (fun p hp => hid p (hf p hp).1)
    refine ⟨t, ht, fun p hp h0 => ?_⟩
    have hmem : p ∈ ws.filter (fun p => decide (p.1.length ≠ 0)) :=
      List.mem_filter.2 ⟨hp, by simpa using h0⟩
    rw [h (serializedSize_addWords _ hpure2 (fun p hp => hlen p (hf p hp).1)
      (Nat.le_trans hfl hcount) t ht) p.1 (hpure p hp)]
    congr 1
    exact lastId_of_mem _ (encodeKey p.1) p.2 _
      (encodeWords_nodup _ hpure2 (hfnd hnd)) (List.mem_map.2 ⟨p, hmem, rfl⟩)

/-- Witness for `findWord_of_inserted`: the words 빨 (7), 빨갛 (0), 빨간 (1) and
파랗 (3) of the repository's test. -/
theorem findWord_of_inserted_witness :
    ∃ t, TrieImpl.new.addWords
        [(⟨[0xBE68]⟩, 7), (⟨[0xBE68, 0xAC1B]⟩, 0), (⟨[0xBE68, 0xAC04]⟩, 1),
          (⟨[0xD30C, 0xB797]⟩, 3)] = .ok t ∧
      ∀ p ∈ ([(⟨[0xBE68]⟩, 7), (⟨[0xBE68, 0xAC1B]⟩, 0), (⟨[0xBE68, 0xAC04]⟩, 1),
          (⟨[0xD30C, 0xB797]⟩, 3)] : List (String × Nat)),
        p.1.length ≠ 0 → t.freeze.findWord p.1 = .ok p.2 :=
  findWord_of_inserted
    [(⟨[0xBE68]⟩, 7), (⟨[0xBE68, 0xAC1B]⟩, 0), (⟨[0xBE68, 0xAC04]⟩, 1), (⟨[0xD30C, 0xB797]⟩, 3)]
    (by decide) (by decide) (by decide) (by decide) (by decide)

/-- Counterexample to C1 as stated: after `addWord("", 5)` and `addWord("가", 1)`
on a fresh trie (both succeed, the first returns 5) and `freeze()`,
`findWord("")` returns `NIME_TRIE_WORD_NOT_FOUND`, not 5. -/
theorem findWord_empty_key_lost :
    (TrieImpl.new.addWord ⟨[]⟩ 5).map Prod.snd = .ok 5 ∧
    (do
      let t ← TrieImpl.new.addWords [(⟨[]⟩, 5), (⟨[0xAC00]⟩, 1)]
      t.freeze.findWord ⟨[]⟩) = .ok NIME_TRIE_WORD_NOT_FOUND ∧
    NIME_TRIE_WORD_NOT_FOUND ≠ 5 := by
  decide

/-- C3 (amended): for every list of at most 16 million (key, id) pairs with
pairwise distinct pure-Hangul keys of at most 83 characters, at least one of
them not empty, and 32-bit ids, inserted into a fresh trie that is then frozen,
and every pure-Hangul string `k`, `findWordPrefixes(k)` returns exactly the
pairs `(w, id)` of the list whose key `w` is not empty and a character-wise
initial part of `k` (`k` itself included), each exactly once, ordered from
shortest to longest. -/
theorem findWordPrefixes_spec (ws : List (String × Nat)) (k : String)
    (hex : ∃ p ∈ ws, p.1.length ≠ 0)
    (hpure : ∀ p ∈ ws, p.1.isPureHangul = true) (hlen : ∀ p ∈ ws, p.1.length ≤ 83)
    (hid : ∀ p ∈ ws, p.2 < 2 ^ 32) (hcount : ws.length ≤ 16000000)
    (hnd : (ws.map Prod.fst).Nodup) (hk : k.isPureHangul = true) :
    ∃ t r, TrieImpl.new.addWords ws = .ok t ∧ t.freeze.findWordPrefixes k = .ok r ∧
      (∀ w id, (⟨w, id⟩ : WordIdPair) ∈ r ↔
        (w, id) ∈ ws ∧ w.length ≠ 0 ∧ w._str <+: k._str) ∧
      r.Nodup ∧ r.Pairwise (fun a b => a.str.length < b.str.length) := by
  obtain ⟨hf, hfnd, hfl, hfne⟩ := filter_words ws
  have hpure2 : ∀ p ∈ ws.filter (fun p => decide (p.1.length ≠ 0)), p.1.isPureHangul = true :=
    fun p hp => hpure p (hf p hp).1
  rw [addWords_filter ws hpure]
  obtain ⟨t, ht, h⟩ := findWordPrefixes_addWords _ (hfne hex) hpure2 (fun p hp => (hf p hp).2)
    (fun p hp => hlen p (hf p hp).1) (fun p hp => hid p (hf p hp).1)
    (Nat.le_trans hfl hcount)
  obtain ⟨h1, h2⟩ := hitPairs_addAll _ (hfne hex) hpure2 (fun p hp => (hf p hp).2)
    (hfnd hnd) k hk
  refine ⟨t, _, ht, h k hk, fun w id => ?_, ?_, h2⟩
  · rw [h1 w id, List.mem_filter]
    simp only [ne_eq, decide_not, Bool.not_eq_eq_eq_not, Bool.not_true, decide_eq_false_iff_not]
    tauto
  · refine List.Pairwise.imp ?_ h2
    intro a b hab e
    rw [e] at hab
    exact Nat.lt_irrefl _ hab

/-- Witness for `findWordPrefixes_spec`: the words of the repository's test (빨 7,
빨갛 0, 빨간 1, 빨개 2, 파랗 3, 파란 4, 빨래 5, 빨리 6, 파 9) and the key 빨간색. -/
theorem findWordPrefixes_spec_witness :
    ∃ t r, TrieImpl.new.addWords
        [(⟨[0xBE68]⟩, 7), (⟨[0xBE68, 0xAC1B]⟩, 0), (⟨[0xBE68, 0xAC04]⟩, 1),
          (⟨[0xBE68, 0xAC1C]⟩, 2), (⟨[0xD30C, 0xB797]⟩, 3), (⟨[0xD30C, 0xB780]⟩, 4),
          (⟨[0xBE68, 0xB798]⟩, 5), (⟨[0xBE68, 0xB9AC]⟩, 6), (⟨[0xD30C]⟩, 9)] = .ok t ∧
      t.freeze.findWordPrefixes ⟨[0xBE68, 0xAC04, 0xC0C9]⟩ = .ok r ∧
      (∀ w id, (⟨w, id⟩ : WordIdPair) ∈ r ↔
        (w, id) ∈ ([(⟨[0xBE68]⟩, 7), (⟨[0xBE68, 0xAC1B]⟩, 0), (⟨[0xBE68, 0xAC04]⟩, 1),
          (⟨[0xBE68, 0xAC1C]⟩, 2), (⟨[0xD30C, 0xB797]⟩, 3), (⟨[0xD30C, 0xB780]⟩, 4),
          (⟨[0xBE68, 0xB798]⟩, 5), (⟨[0xBE68, 0xB9AC]⟩, 6), (⟨[0xD30C]⟩, 9)] :
            List (String × Nat)) ∧
        w.length ≠ 0 ∧ w._str <+: [0xBE68, 0xAC04, 0xC0C9]) ∧
      r.Nodup ∧ r.Pairwise (fun a b => a.str.length < b.str.length) :=
  findWordPrefixes_spec
    [(⟨[0xBE68]⟩, 7), (⟨[0xBE68, 0xAC1B]⟩, 0), (⟨[0xBE68, 0xAC04]⟩, 1),
      (⟨[0xBE68, 0xAC1C]⟩, 2), (⟨[0xD30C, 0xB797]⟩, 3), (⟨[0xD30C, 0xB780]⟩, 4),
      (⟨[0xBE68, 0xB798]⟩, 5), (⟨[0xBE68, 0xB9AC]⟩, 6), (⟨[0xD30C]⟩, 9)]
    ⟨[0xBE68, 0xAC04, 0xC0C9]⟩
    (by decide) (by decide) (by decide) (by decide) (by decide) (by decide) (by decide)

/-- Counterexample to C3 as stated: after `addWord("", 5)` and `addWord("가", 1)`
on a fresh trie and `freeze()`, `findWordPrefixes("가")` returns only `("가", 1)`,
although the key `""` of the pair `("", 5)` is an initial part of `"가"`. -/
theorem findWordPrefixes_misses_empty_key :
    (do
      let t ← TrieImpl.new.addWords [(⟨[]⟩, 5), (⟨[0xAC00]⟩, 1)]
      t.freeze.findWordPrefixes ⟨[0xAC00]⟩) = .ok [⟨⟨[0xAC00]⟩, 1⟩] ∧
    ([] : List Nat) <+: [0xAC00] ∧
    (⟨⟨[]⟩, 5⟩ : WordIdPair) ∉ [(⟨⟨[0xAC00]⟩, 1⟩ : WordIdPair)] := by
  decide

/-! ## Claim C4: the lattice of `Segmentations::ForSentence` -/

/-- Outside `0xD7A4..0xD7AF` the classification of `type()` is the one of the
specification: `HangulSyllable` exactly on `0xAC00..0xD7A3`, `HangulJamo`
exactly on `0x3131..0x3163`, `EncapsulatedNonHangulSyllable` exactly at
`0xFFFFFFFE`, and `Character` elsewhere. -/
theorem type_outside_D7A4_D7AF (cp : Nat) (h : cp < 0xD7A4 ∨ 0xD7AF < cp) :
    ((Character.mk cp).type = .HangulSyllable ↔ 0xAC00 ≤ cp ∧ cp ≤ 0xD7A3) ∧
    ((Character.mk cp).type = .HangulJamo ↔ 0x3131 ≤ cp ∧ cp ≤ 0x3163) ∧
    ((Character.mk cp).type = .EncapsulatedNonHangulSyllable ↔ cp = 0xFFFFFFFE) ∧
    ((Character.mk cp).type = .Character ↔
      ¬ (0xAC00 ≤ cp ∧ cp ≤ 0xD7A3) ∧ ¬ (0x3131 ≤ cp ∧ cp ≤ 0x3163) ∧ cp ≠ 0xFFFFFFFE) := by
  unfold Character.type Character.unicodeCodepoint EncapsulatedNonHangulCode
  simp only
  by_cases h1 : 0xac00 ≤ cp ∧ cp ≤ 0xd7af
  · rw [if_pos h1]
    refine ⟨⟨fun _ => by omega, fun _ => rfl⟩, ⟨fun h => (nomatch h), fun _ => by omega⟩,
      ⟨fun h => (nomatch h), fun _ => by omega⟩, ⟨fun h => (nomatch h), fun _ => by omega⟩⟩
  · rw [if_neg h1]
    by_cases h2 : 0x3131 ≤ cp ∧ cp ≤ 0x3163
    · rw [if_pos h2]
      refine ⟨⟨fun h => (nomatch h), fun _ => by omega⟩, ⟨fun _ => h2, fun _ => rfl⟩,
        ⟨fun h => (nomatch h), fun _ => by omega⟩, ⟨fun h => (nomatch h), fun h => absurd h2 h.2.1⟩⟩
    · rw [if_neg h2]
      by_cases h3 : cp = 2 ^ 32 - 2
      · rw [if_pos h3]
        refine ⟨⟨fun h => (nomatch h), fun _ => by omega⟩,
          ⟨fun h => (nomatch h), fun h => absurd h h2⟩,
          ⟨fun _ => by omega, fun _ => rfl⟩, ⟨fun h => (nomatch h), fun h => by omega⟩⟩
      · rw [if_neg h3]
        refine ⟨⟨fun h => (nomatch h), fun _ => by omega⟩,
          ⟨fun h => (nomatch h), fun h => absurd h h2⟩,
          ⟨fun h => (nomatch h), fun _ => by omega⟩,
          ⟨fun _ => ⟨by omega, h2, by omega⟩, fun _ => rfl⟩⟩

/-- C11 (the code at the failing input): `Character(0xD7A4)` stores `0xD7A4`,
which is outside `0xAC00..0xD7A3`, and `type()` returns `HangulSyllable` for it;
`choseong()` then reads past the end of its table. -/
theorem type_at_D7A4 :
    Character.ofCodepoint 0xD7A4 = .ok ⟨0xD7A4⟩ ∧
    (Character.mk 0xD7A4).type = .HangulSyllable ∧
    ¬ (0xAC00 ≤ 0xD7A4 ∧ 0xD7A4 ≤ 0xD7A3) ∧
    (Character.mk 0xD7A4).choseong = .error .undefinedBehaviour := by
  decide

/-- Every codepoint of the three positional blocks has a jamo, whose
compatibility codepoint lies in `0x3131..0x3163` and is not positional. -/
theorem positional_jamo (p : Nat) (h : isPositionalUnicodeJamoCodepoint p = true) :
    ∃ j, HangulJamoFromPositionalUnicode p = .ok j ∧
      _hangulJamoToCompatibility j = j.toNat ∧ j.toNat ≤ 50 ∧
      isPositionalUnicodeJamoCodepoint (_hangulJamoToCompatibility j + 0x3131) = false := by
  simp only [isPositionalUnicodeJamoCodepoint, Bool.or_eq_true, Bool.and_eq_true,
    decide_eq_true_iff] at h
  rcases h with (⟨h1, h2⟩ | ⟨h1, h2⟩) | ⟨h1, h2⟩
  · interval_cases p <;> exact ⟨_, rfl, by decide, by decide, by decide⟩
  · interval_cases p <;> exact ⟨_, rfl, by decide, by decide, by decide⟩
  · interval_cases p <;> exact ⟨_, rfl, by decide, by decide, by decide⟩

/-- The codepoint `setUnicodeCodepoint` stores for a positional codepoint. -/
theorem setUnicodeCodepoint_positional (c : Character) (p : Nat) (j : HangulJamo)
    (h : isPositionalUnicodeJamoCodepoint p = true)
    (hj : HangulJamoFromPositionalUnicode p = .ok j)
    (hc : _hangulJamoToCompatibility j = j.toNat)
    (hn : isPositionalUnicodeJamoCodepoint (_hangulJamoToCompatibility j + 0x3131) = false) :
    c.setUnicodeCodepoint p = .ok ⟨0x3131 + j.toNat⟩ := by
  have h0 : isPositionalUnicodeJamoCodepoint (initialCodepoint .HangulJamo) = false := by decide
  unfold Character.setUnicodeCodepoint
  rw [setUnicodeCodepointFuel, if_pos h, setUnicodeCodepointFuel, if_neg (by simp [h0])]
  simp only [bind, Except.bind, hj]
  rw [setUnicodeCodepointFuel, if_neg (by simp [hn]), hc, Nat.add_comm]

/-- C12: for every codepoint `p` of the three positional-jamo blocks
`setUnicodeCodepoint(p)` stores `0x3131` plus the index of
`HangulJamoFromPositionalUnicode(p)`, which lies in `0x3131..0x3163` (`0x11AF`
is stored as `0x3139`, Rieul); every other codepoint is stored unchanged; so
the call always returns, the stored codepoint `cp` is never positional, and
`Character(cp)` equals the character. -/
theorem setUnicodeCodepoint_spec (c : Character) (p : Nat) :
    (isPositionalUnicodeJamoCodepoint p = true →
      ∃ j, HangulJamoFromPositionalUnicode p = .ok j ∧
        c.setUnicodeCodepoint p = .ok ⟨0x3131 + j.toNat⟩ ∧
        0x3131 ≤ 0x3131 + j.toNat ∧ 0x3131 + j.toNat ≤ 0x3163) ∧
    (HangulJamoFromPositionalUnicode 0x11AF = .ok .Rieul ∧
      c.setUnicodeCodepoint 0x11AF = .ok ⟨0x3139⟩) ∧
    (isPositionalUnicodeJamoCodepoint p = false → c.setUnicodeCodepoint p = .ok ⟨p⟩) ∧
    ∃ c1, c.setUnicodeCodepoint p = .ok c1 ∧
      isPositionalUnicodeJamoCodepoint c1.unicodeCodepoint = false ∧
      ∃ c2, Character.ofCodepoint c1.unicodeCodepoint = .ok c2 ∧ c2.isEqualTo c1 = true := by
  have hpos : isPositionalUnicodeJamoCodepoint p = true →
      ∃ j, HangulJamoFromPositionalUnicode p = .ok j ∧
        c.setUnicodeCodepoint p = .ok ⟨0x3131 + j.toNat⟩ ∧
        0x3131 ≤ 0x3131 + j.toNat ∧ 0x3131 + j.toNat ≤ 0x3163 ∧
        isPositionalUnicodeJamoCodepoint (0x3131 + j.toNat) = false := by
    intro h
    obtain ⟨j, hj, hc, h50, hn⟩ := positional_jamo p h
    refine ⟨j, hj, setUnicodeCodepoint_positional c p j h hj hc hn, by omega, by omega, ?_⟩
    rw [hc, Nat.add_comm] at hn
    exact hn
  refine ⟨fun h => ?_, ⟨by decide, ?_⟩, setUnicodeCodepoint_plain c p, ?_⟩
  · obtain ⟨j, h1, h2, h3, h4, -⟩ := hpos h
    exact ⟨j, h1, h2, h3, h4⟩
  · exact setUnicodeCodepoint_positional c 0x11AF .Rieul (by decide) (by decide) (by decide)
      (by decide)
  · by_cases h : isPositionalUnicodeJamoCodepoint p = true
    · obtain ⟨j, -, h2, -, -, h5⟩ := hpos h
      refine ⟨_, h2, h5, ⟨0x3131 + j.toNat⟩, ?_, by simp [Character.isEqualTo]⟩
      exact setUnicodeCodepoint_plain _ _ h5
    · have hf : isPositionalUnicodeJamoCodepoint p = false := by simpa using h
      refine ⟨_, setUnicodeCodepoint_plain c p hf, hf, ⟨p⟩, ?_, by simp [Character.isEqualTo]⟩
      exact setUnicodeCodepoint_plain _ _ hf

/-- Witness for `setUnicodeCodepoint_spec`: the positional lead U+1100 is stored
as the compatibility jamo U+3131. -/
theorem setUnicodeCodepoint_spec_witness :
    isPositionalUnicodeJamoCodepoint 0x1100 = true ∧
    ∃ j, HangulJamoFromPositionalUnicode 0x1100 = .ok j ∧
      (Character.mk 0).setUnicodeCodepoint 0x1100 = .ok ⟨0x3131 + j.toNat⟩ ∧
      0x3131 ≤ 0x3131 + j.toNat ∧ 0x3131 + j.toNat ≤ 0x3163 :=
  ⟨by decide, (setUnicodeCodepoint_spec ⟨0⟩ 0x1100).1 (by decide)⟩

/-! ## Claims C16 and C17: the `HangulString` conversion -/

/-- The test of `toHangulString` and `isPureHangul` for a syllable is the test of `type()`. -/
theorem isSyllableCodepoint_iff_type (c : Nat) :
    isSyllableCodepoint c = true ↔ (Character.mk c).type = .HangulSyllable := by
  unfold isSyllableCodepoint Character.type Character.unicodeCodepoint
  simp only [Bool.and_eq_true, decide_eq_true_iff]
  constructor
  · intro h
    rw [if_pos h]
  · intro h
    by_contra hn
    rw [if_neg hn] at h
    split at h
    · cases h
    · split at h <;> cases h

/-- The conversion of one codepoint: it throws exactly for a codepoint that is
neither a syllable nor the sentinel, and otherwise gives the bytes of the
specification. -/
theorem hangulBytes_spec (c : Nat) :
    (isSyllableCodepoint c = false ∧ c ≠ EncapsulatedNonHangulCode ∧
      hangulBytes c = .error .cannotConvert) ∨
    ((isSyllableCodepoint c = true ∨ c = EncapsulatedNonHangulCode) ∧
      hangulBytes c = .ok (specHangulBytes c)) := by
  cases h : hangulBytes c with
  | error e =>
    left
    unfold hangulBytes at h
    by_cases hc : (!isSyllableCodepoint c && c != EncapsulatedNonHangulCode) = true
    · rw [if_pos hc] at h
      simp only [Bool.and_eq_true, Bool.not_eq_true', bne_iff_ne, ne_eq] at hc
      cases h
      exact ⟨hc.1, hc.2, rfl⟩
    · rw [if_neg hc] at h
      split at h <;> cases h
  | ok bs =>
    right
    rcases hangulBytes_cases c bs h with ⟨rfl, rfl⟩ | ⟨h1, h2, rfl⟩
    · exact ⟨Or.inr rfl, by simp [specHangulBytes]⟩
    · refine ⟨Or.inl (by simp [isSyllableCodepoint]; omega), ?_⟩
      unfold specHangulBytes EncapsulatedNonHangulCode
      rw [if_neg (by omega)]

/-- The conversion of a codepoint sequence: it throws `CannotConvert` exactly
when the sequence is not pure Hangul, and otherwise gives the concatenation of
the bytes of the codepoints. -/
theorem hangulBytesAll_spec (cs : List Nat) :
    (cs.all (fun c => isSyllableCodepoint c || c == EncapsulatedNonHangulCode) = false ∧
      hangulBytesAll cs = .error .cannotConvert) ∨
    (cs.all (fun c => isSyllableCodepoint c || c == EncapsulatedNonHangulCode) = true ∧
      hangulBytesAll cs = .ok (cs.flatMap specHangulBytes)) := by
  induction cs with
  | nil => exact Or.inr ⟨rfl, rfl⟩
  | cons c cs ih =>
    rcases hangulBytes_spec c with ⟨h1, h2, h3⟩ | ⟨h1, h3⟩
    · left
      refine ⟨?_, by simp only [hangulBytesAll, h3]⟩
      simp [List.all_cons, h1, h2]
    · have hc : (isSyllableCodepoint c || c == EncapsulatedNonHangulCode) = true := by
        rcases h1 with h1 | h1
        · simp [h1]
        · simp [h1]
      rcases ih with ⟨h4, h5⟩ | ⟨h4, h5⟩
      · left
        refine ⟨?_, by simp only [hangulBytesAll, h3, h5]⟩
        rw [List.all_cons, h4, Bool.and_false]
      · right
        refine ⟨?_, by simp only [hangulBytesAll, h3, h5, List.flatMap_cons]⟩
        rw [List.all_cons, h4, hc, Bool.and_self]

/-- With the range `0xAC00..0xD7AF` the code tests a syllable by (the test of
`type()`): for every `String` `s`, `toHangulString()` fails with `CannotConvert`
if and only if some codepoint of `s` is neither in that range nor ENCAP, that
is if and only if `isPureHangul()` is false; otherwise it returns the
concatenation, in order, of the three bytes lead index + 1, vowel index + 1,
trail index + 1 of each codepoint of the range and the byte 29 of each ENCAP,
and no byte of the result is 0. -/
theorem toHangulString_spec (s : String) :
    (s.toHangulString = .error .cannotConvert ↔
      ∃ c ∈ s._str, (Character.mk c).type ≠ .HangulSyllable ∧ c ≠ EncapsulatedNonHangulCode) ∧
    (s.toHangulString = .error .cannotConvert ↔ s.isPureHangul = false) ∧
    (s.isPureHangul = true →
      s.toHangulString = .ok (s._str.flatMap specHangulBytes) ∧
      ∀ b ∈ s._str.flatMap specHangulBytes, b ≠ 0) := by
  have hpure : s.isPureHangul = false ↔
      ∃ c ∈ s._str, (Character.mk c).type ≠ .HangulSyllable ∧
        c ≠ EncapsulatedNonHangulCode := by
    unfold String.isPureHangul
    rw [List.all_eq_false]
    constructor
    · rintro ⟨c, hc, h⟩
      simp only [Bool.or_eq_true, beq_iff_eq, not_or, Bool.not_eq_true] at h
      refine ⟨c, hc, fun ht => ?_, h.2⟩
      rw [(isSyllableCodepoint_iff_type c).2 ht] at h
      exact absurd h.1 (by simp)
    · rintro ⟨c, hc, h1, h2⟩
      refine ⟨c, hc, ?_⟩
      simp only [Bool.or_eq_true, beq_iff_eq, not_or, Bool.not_eq_true]
      refine ⟨?_, h2⟩
      cases h : isSyllableCodepoint c with
      | false => rfl
      | true => exact absurd ((isSyllableCodepoint_iff_type c).1 h) h1
  have hiff : s.toHangulString = .error .cannotConvert ↔ s.isPureHangul = false := by
    rw [toHangulString_eq]
    unfold String.isPureHangul
    rcases hangulBytesAll_spec s._str with ⟨h1, h2⟩ | ⟨h1, h2⟩
    · rw [h1, h2]
      simp
    · rw [h1, h2]
      simp
  refine ⟨hiff.trans hpure, hiff, fun h => ?_⟩
  have hok : s.toHangulString = .ok (s._str.flatMap specHangulBytes) := by
    rw [toHangulString_eq]
    unfold String.isPureHangul at h
    rcases hangulBytesAll_spec s._str with ⟨h1, -⟩ | ⟨-, h2⟩
    · rw [h] at h1
      cases h1
    · exact h2
  refine ⟨hok, fun b hb => ?_⟩
  rw [toHangulString_eq] at hok
  exact (hangulBytesAll_jamoBytes _ _ hok b hb).1

/-- Witness for `toHangulString_spec`: the pure-Hangul string ENCAP 한 converts to
the bytes 29, 19, 1, 5. -/
theorem toHangulString_spec_witness :
    String.isPureHangul ⟨[EncapsulatedNonHangulCode, 0xD55C]⟩ = true ∧
    String.toHangulString ⟨[EncapsulatedNonHangulCode, 0xD55C]⟩ = .ok [29, 19, 1, 5] ∧
    ([EncapsulatedNonHangulCode, 0xD55C] : List Nat).flatMap specHangulBytes = [29, 19, 1, 5] :=
  ⟨by decide,
    ((toHangulString_spec ⟨[EncapsulatedNonHangulCode, 0xD55C]⟩).2.2 (by decide)).1.trans
      (by decide),
    by decide⟩

/-- C16 (the code at the failing input): U+D7A4 is neither a Hangul syllable
(it is above U+D7A3, its lead index would be 19) nor ENCAP, yet
`toHangulString()` does not fail on the string U+D7A4: it returns the bytes
20, 1, 1, and `isPureHangul()` is true. -/
theorem toHangulString_at_D7A4 :
    ¬ (0xAC00 ≤ 0xD7A4 ∧ 0xD7A4 ≤ 0xD7A3) ∧ (0xD7A4 - 0xAC00) / 588 = 19 ∧
    (0xD7A4 : Nat) ≠ EncapsulatedNonHangulCode ∧
    String.toHangulString ⟨[0xD7A4]⟩ = .ok [20, 1, 1] ∧
    String.toHangulString ⟨[0xD7A4]⟩ ≠ .error .cannotConvert ∧
    String.isPureHangul ⟨[0xD7A4]⟩ = true := by
  decide

/-- C17: for every pure-Hangul `String` `s` (only syllables and ENCAP sentinels)
`toHangulString()` succeeds and `String(s.toHangulString())` equals `s`; no byte
of a syllable is 29, the byte of the sentinel. -/
theorem ofHangulString_toHangulString (s : String) (h : s.isPureHangul = true) :
    (∃ hstr, s.toHangulString = .ok hstr ∧ String.ofHangulString hstr = s) ∧
    ∀ c ∈ s._str, c ≠ EncapsulatedNonHangulCode → ∀ b ∈ specHangulBytes c, b ≠ 29 := by
  refine ⟨⟨encodeKey s, toHangulString_of_pure s h, ofHangulString_encodeKey s h⟩, ?_⟩
  intro c hc hne b hb
  unfold String.isPureHangul at h
  rw [List.all_eq_true] at h
  have hs := h c hc
  simp only [Bool.or_eq_true, beq_iff_eq, hne, or_false] at hs
  simp only [isSyllableCodepoint, Bool.and_eq_true, decide_eq_true_iff] at hs
  unfold specHangulBytes at hb
  rw [if_neg hne] at hb
  simp only [List.mem_cons, List.mem_singleton, List.not_mem_nil, or_false] at hb
  omega

/-- Witness for `ofHangulString_toHangulString`: the string 한 글 ENCAP of the
repository's test. -/
theorem ofHangulString_toHangulString_witness :
    String.isPureHangul ⟨[0xD55C, 0xAE00, EncapsulatedNonHangulCode]⟩ = true ∧
    ∃ hstr, String.toHangulString ⟨[0xD55C, 0xAE00, EncapsulatedNonHangulCode]⟩ = .ok hstr ∧
      String.ofHangulString hstr = ⟨[0xD55C, 0xAE00, EncapsulatedNonHangulCode]⟩ :=
  ⟨by decide,
    (ofHangulString_toHangulString ⟨[0xD55C, 0xAE00, EncapsulatedNonHangulCode]⟩
      (by decide)).1⟩

/-! ## Claim C20: the jamo setters and the three-jamo constructor reject exactly the invalid jamo -/

/-- The call `setUnicodeCodepoint` always returns. -/
theorem setUnicodeCodepoint_total (c : Character) (p : Nat) :
    ∃ c1, c.setUnicodeCodepoint p = .ok c1 := by
  by_cases h : isPositionalUnicodeJamoCodepoint p = true
  · obtain ⟨j, hj, hc, -, hn⟩ := positional_jamo p h
    exact ⟨_, setUnicodeCodepoint_positional c p j h hj hc hn⟩
  · exact ⟨_, setUnicodeCodepoint_plain c p (by simpa using h)⟩

/-- The outcome of `setChoseong` on a syllable, by the table entry of the jamo. -/
theorem setChoseong_outcome (c : Character) (j : HangulJamo) (h : c.type = .HangulSyllable) :
    ∃ l, _hangulJamoToChoseong j = .ok l ∧
      (l = CI → c.setChoseong j = (c, .error .invalidArgument)) ∧
      (l ≠ CI → (c.setChoseong j).2 = .ok ()) := by
  obtain ⟨l, hl, -⟩ := choseong_table j
  refine ⟨l, hl, fun hc => ?_, fun hc => ?_⟩
  · simp [Character.setChoseong, Character.setChoseongImpl, h, hl, hc]
  · simp only [Character.setChoseong, Character.setChoseongImpl, h, hl, ne_eq, not_true,
      if_false, if_neg hc]
    obtain ⟨c1, h1⟩ := setUnicodeCodepoint_total c
      (((c.unicodeCodepoint + 2 ^ 32 -
        (c.unicodeCodepoint + 2 ^ 32 - 0xac00) % 2 ^ 32 / 0x24c % 256 * 0x24c) % 2 ^ 32 +
        l * 0x24c) % 2 ^ 32)
    rw [h1]

/-- The outcome of `setJungseong` on a syllable, by the table entry of the jamo. -/
theorem setJungseong_outcome (c : Character) (j : HangulJamo) (h : c.type = .HangulSyllable) :
    ∃ v, _hangulJamoToJungseong j = .ok v ∧
      (v = CI → c.setJungseong j = (c, .error .invalidArgument)) ∧
      (v ≠ CI → (c.setJungseong j).2 = .ok ()) := by
  obtain ⟨v, hv, -⟩ := jungseong_table j
  refine ⟨v, hv, fun hc => ?_, fun hc => ?_⟩
  · simp [Character.setJungseong, Character.setJungseongImpl, h, hv, hc]
  · simp only [Character.setJungseong, Character.setJungseongImpl, h, hv, ne_eq, not_true,
      if_false, if_neg hc]
    obtain ⟨c1, h1⟩ := setUnicodeCodepoint_total c
      (((c.unicodeCodepoint + 2 ^ 32 -
        (c.unicodeCodepoint + 2 ^ 32 - 0xac00) % 2 ^ 32 % 0x24c / 0x1c % 256 * 0x1c) % 2 ^ 32 +
        v * 0x1c) % 2 ^ 32)
    rw [h1]

/-- The outcome of `setJongseong` on a syllable, by the table entry of the jamo. -/
theorem setJongseong_outcome (c : Character) (j : HangulJamo) (h : c.type = .HangulSyllable) :
    ∃ t, _hangulJamoToJongseong j = .ok t ∧
      (t = CI → c.setJongseong j = (c, .error .invalidArgument)) ∧
      (t ≠ CI → (c.setJongseong j).2 = .ok ()) := by
  obtain ⟨t, ht, -⟩ := jongseong_table j
  refine ⟨t, ht, fun hc => ?_, fun hc => ?_⟩
  · simp [Character.setJongseong, Character.setJongseongImpl, h, ht, hc]
  · simp only [Character.setJongseong, Character.setJongseongImpl, h, ht, ne_eq, not_true,
      if_false, if_neg hc]
    obtain ⟨c1, h1⟩ := setUnicodeCodepoint_total c
      (((c.unicodeCodepoint + 2 ^ 32 -
        (c.unicodeCodepoint + 2 ^ 32 - 0xac00) % 2 ^ 32 % 0x24c % 0x1c % 256) % 2 ^ 32 +
        t) % 2 ^ 32)
    rw [h1]

/-- The three-jamo constructor fails with invalid-argument exactly when one of
the three table entries is `CI`, and returns a character otherwise. -/
theorem ofJamos_outcome (L V T : HangulJamo) :
    (Character.ofJamos L V T = .error .invalidArgument ↔
      (_hangulJamoToChoseong L = .ok CI ∨ _hangulJamoToJungseong V = .ok CI ∨
        _hangulJamoToJongseong T = .ok CI)) ∧
    (Character.ofJamos L V T = .error .invalidArgument ∨ ∃ c, Character.ofJamos L V T = .ok c) := by
  obtain ⟨l, hl, -⟩ := choseong_table L
  obtain ⟨v, hv, -⟩ := jungseong_table V
  obtain ⟨t, ht, -⟩ := jongseong_table T
  by_cases h1 : l = CI
  · subst h1
    have e : Character.ofJamos L V T = .error .invalidArgument := by
      simp [Character.ofJamos, hl, bind, Except.bind, throw, throwThe, MonadExceptOf.throw]
    exact ⟨⟨fun _ => Or.inl hl, fun _ => e⟩, Or.inl e⟩
  by_cases h2 : v = CI
  · subst h2
    have e : Character.ofJamos L V T = .error .invalidArgument := by
      simp [Character.ofJamos, hl, hv, h1, bind, Except.bind, throw, throwThe,
        MonadExceptOf.throw, pure, Except.pure]
    exact ⟨⟨fun _ => Or.inr (Or.inl hv), fun _ => e⟩, Or.inl e⟩
  by_cases h3 : t = CI
  · subst h3
    have e : Character.ofJamos L V T = .error .invalidArgument := by
      simp [Character.ofJamos, hl, hv, ht, h1, h2, bind, Except.bind, throw, throwThe,
        MonadExceptOf.throw, pure, Except.pure]
    exact ⟨⟨fun _ => Or.inr (Or.inr ht), fun _ => e⟩, Or.inl e⟩
  obtain ⟨c1, hc1⟩ := setUnicodeCodepoint_total ⟨0⟩
    ((0xac00 + l * 0x24c + v * 0x1c + t) % 2 ^ 32)
  have e : Character.ofJamos L V T = .ok c1 := by
    simp only [Character.ofJamos, hl, hv, ht, bind, Except.bind, h1, h2, h3, if_false, pure,
      Except.pure]
    exact hc1
  refine ⟨⟨fun h => ?_, fun h => ?_⟩, Or.inr ⟨c1, e⟩⟩
  · rw [e] at h
    cases h
  · rcases h with h | h | h
    · rw [hl] at h; cases h; exact absurd rfl h1
    · rw [hv] at h; cases h; exact absurd rfl h2
    · rw [ht] at h; cases h; exact absurd rfl h3

/-- C20: on a syllable each of `setChoseong(j)`, `setJungseong(j)`,
`setJongseong(j)` fails with invalid-argument exactly when the entry of `j` in
the table of that position is the marker `CI`, returns normally otherwise, and
leaves the character as it was when it fails; the three-jamo constructor fails
with invalid-argument exactly when one of its three jamo has the entry `CI`,
and returns a character otherwise. A vowel has the entry `CI` as a lead, and
`Any` has it in every position. -/
theorem setters_reject_invalid_jamo (c : Character) (j : HangulJamo)
    (h : c.type = .HangulSyllable) :
    (((c.setChoseong j).2 = .error .invalidArgument ↔ _hangulJamoToChoseong j = .ok CI) ∧
      ((c.setChoseong j).2 = .error .invalidArgument ∨ (c.setChoseong j).2 = .ok ()) ∧
      ((c.setChoseong j).2 = .error .invalidArgument → (c.setChoseong j).1 = c)) ∧
    (((c.setJungseong j).2 = .error .invalidArgument ↔ _hangulJamoToJungseong j = .ok CI) ∧
      ((c.setJungseong j).2 = .error .invalidArgument ∨ (c.setJungseong j).2 = .ok ()) ∧
      ((c.setJungseong j).2 = .error .invalidArgument → (c.setJungseong j).1 = c)) ∧
    (((c.setJongseong j).2 = .error .invalidArgument ↔ _hangulJamoToJongseong j = .ok CI) ∧
      ((c.setJongseong j).2 = .error .invalidArgument ∨ (c.setJongseong j).2 = .ok ()) ∧
      ((c.setJongseong j).2 = .error .invalidArgument → (c.setJongseong j).1 = c)) ∧
    (∀ L V T : HangulJamo,
      (Character.ofJamos L V T = .error .invalidArgument ↔
        (_hangulJamoToChoseong L = .ok CI ∨ _hangulJamoToJungseong V = .ok CI ∨
          _hangulJamoToJongseong T = .ok CI)) ∧
      (Character.ofJamos L V T = .error .invalidArgument ∨
        ∃ c1, Character.ofJamos L V T = .ok c1)) ∧
    _hangulJamoToChoseong .A = .ok CI ∧ _hangulJamoToChoseong .Any = .ok CI ∧
    _hangulJamoToJungseong .Any = .ok CI ∧ _hangulJamoToJongseong .Any = .ok CI := by
  refine ⟨?_, ?_, ?_, ofJamos_outcome, by decide, by decide, by decide, by decide⟩
  · obtain ⟨l, hl, h1, h2⟩ := setChoseong_outcome c j h
    by_cases hc : l = CI
    · have e := h1 hc
      subst hc
      rw [e]
      exact ⟨⟨fun _ => hl, fun _ => rfl⟩, Or.inl rfl, fun _ => rfl⟩
    · have e := h2 hc
      rw [e, hl]
      refine ⟨⟨fun x => (nomatch x), fun x => ?_⟩, Or.inr rfl, fun x => (nomatch x)⟩
      cases x
      exact absurd rfl hc
  · obtain ⟨l, hl, h1, h2⟩ := setJungseong_outcome c j h
    by_cases hc : l = CI
    · have e := h1 hc
      subst hc
      rw [e]
      exact ⟨⟨fun _ => hl, fun _ => rfl⟩, Or.inl rfl, fun _ => rfl⟩
    · have e := h2 hc
      rw [e, hl]
      refine ⟨⟨fun x => (nomatch x), fun x => ?_⟩, Or.inr rfl, fun x => (nomatch x)⟩
      cases x
      exact absurd rfl hc
  · obtain ⟨l, hl, h1, h2⟩ := setJongseong_outcome c j h
    by_cases hc : l = CI
    · have e := h1 hc
      subst hc
      rw [e]
      exact ⟨⟨fun _ => hl, fun _ => rfl⟩, Or.inl rfl, fun _ => rfl⟩
    · have e := h2 hc
      rw [e, hl]
      refine ⟨⟨fun x => (nomatch x), fun x => ?_⟩, Or.inr rfl, fun x => (nomatch x)⟩
      cases x
      exact absurd rfl hc

/-- Witness for `setters_reject_invalid_jamo`: the syllable U+D55C and the vowel `A`. -/
theorem setters_reject_invalid_jamo_witness :
    (Character.mk 0xD55C).type = .HangulSyllable ∧
    ((Character.mk 0xD55C).setChoseong .A).2 = .error .invalidArgument ∧
    ((Character.mk 0xD55C).setChoseong .A).1 = ⟨0xD55C⟩ ∧
    ((Character.mk 0xD55C).setJungseong .A).2 = .ok () :=
  ⟨by decide,
    ((setters_reject_invalid_jamo ⟨0xD55C⟩ .A (by decide)).1.1).2 (by decide),
    (setters_reject_invalid_jamo ⟨0xD55C⟩ .A (by decide)).1.2.2 (by decide),
    by decide⟩

/-! ## Claims C18 and C19: encapsulation and restoration of non-Hangul runs -/

/-- The element of a string behind a part of known length. -/
theorem getD_append_cons (a : List Nat) (c : Nat) (cs : List Nat) (n : Nat)
    (h : n = a.length) : (a ++ c :: cs).getD n 0 = c := by
  subst h
  rw [List.getD_eq_getElem?_getD, List.getElem?_append_right (Nat.le_refl _)]
  simp

/-- Replacing the middle part of a string. -/
theorem replaceRange_append (a b c by_ : List Nat) (n m : Nat) (hn : n = a.length)
    (hm : m = a.length + b.length) : replaceRange (a ++ b ++ c) n m by_ = a ++ by_ ++ c := by
  subst hn hm
  unfold replaceRange
  have h1 : List.take a.length (a ++ b ++ c) = a := by
    rw [List.append_assoc, List.take_left]
  have h2 : List.drop (a.length + b.length) (a ++ b ++ c) = c := by
    rw [← List.length_append, List.drop_left]
  rw [h1, h2]

/-- The loop of `encapsulateNonHangul`, from a state in which `out` is rewritten,
`buffer` is the open run and `rest` is still to be read, ends and leads to the
encapsulated form of `rest`. -/
theorem encapsulateLoop_spec (fuel : Nat) (out buffer rest : List Nat) (sp : Nat)
    (enh : List (List Nat)) (hsp : buffer ≠ [] → sp = out.length)
    (hfuel : 2 * rest.length + (if buffer = [] then 0 else 1) + 1 ≤ fuel) :
    (encapsulateLoop fuel ⟨out ++ buffer ++ rest, out.length + buffer.length, buffer, sp,
        enh⟩).map encapsulateResult =
      some (out ++ (encapsulated rest buffer).1, enh ++ (encapsulated rest buffer).2) := by
  induction fuel generalizing out buffer rest sp enh with
  | zero => omega
  | succ n ih =>
    cases rest with
    | nil =>
      rw [encapsulateLoop, if_pos (by simp)]
      simp only [Option.map_some', encapsulateResult, encapsulated, List.append_nil]
      by_cases hb : buffer = []
      · subst hb
        simp
      · have hl : buffer.length > 0 := List.length_pos.2 hb
        rw [if_pos hl, if_neg hb]
        have := replaceRange_append out buffer [] [EncapsulatedNonHangulCode] sp
          (out ++ buffer).length (hsp hb) (by simp)
        simp only [List.append_nil] at this
        rw [this]
    | cons c cs =>
      have hi : ¬ out.length + buffer.length = (out ++ buffer ++ c :: cs).length := by
        simp
      have hget : (out ++ buffer ++ c :: cs).getD (out.length + buffer.length) 0 = c :=
        getD_append_cons (out ++ buffer) c cs _ (by simp)
      rw [encapsulateLoop]
      simp only [hi, if_false, hget]
      by_cases hs : isSyllableCodepoint c = true
      · by_cases hb : buffer = []
        · subst hb
          simp only [hs, Bool.not_true, Bool.false_eq_true, if_false, List.length_nil,
            gt_iff_lt, Nat.lt_irrefl, List.append_nil, Nat.add_zero]
          have := ih (out ++ [c]) [] cs sp enh (fun h => absurd rfl h)
            (by simp only [List.length_cons, if_true] at hfuel ⊢; omega)
          simp only [List.append_nil, List.length_append, List.length_singleton,
            List.length_nil, Nat.add_zero, List.append_assoc, List.singleton_append] at this
          rw [this, encapsulated, if_pos hs, if_pos rfl]
        · have hl : buffer.length > 0 := List.length_pos.2 hb
          simp only [hs, Bool.not_true, Bool.false_eq_true, if_false, hl, if_true]
          rw [replaceRange_append out buffer (c :: cs) [EncapsulatedNonHangulCode] sp
            (sp + buffer.length) (hsp hb) (by rw [hsp hb])]
          have := ih (out ++ [EncapsulatedNonHangulCode]) [] (c :: cs) sp (enh ++ [buffer])
            (fun h => absurd rfl h)
            (by simp only [List.length_cons, if_true, if_neg hb] at hfuel ⊢; omega)
          simp only [List.append_nil, List.length_append, List.length_singleton,
            List.length_nil, Nat.add_zero, List.append_assoc, List.singleton_append] at this
          simp only [Nat.add_sub_cancel, List.append_assoc, List.singleton_append]
          rw [this, encapsulated, if_pos hs, if_pos rfl, encapsulated, if_pos hs, if_neg hb]
      · have hs' : isSyllableCodepoint c = false := by simpa using hs
        simp only [hs', Bool.not_false, if_true]
        have := ih out (buffer ++ [c]) cs (if buffer.length = 0 then out.length + buffer.length
            else sp)
          enh
          (fun _ => by
            by_cases hb : buffer = []
            · subst hb; simp
            · rw [if_neg (by simpa using hb)]; exact hsp hb)
          (by
            simp only [List.length_cons] at hfuel
            rw [if_neg (by simp)]
            omega)
        simp only [List.length_append, List.length_singleton, List.append_assoc,
          List.singleton_append] at this
        simp only [List.append_assoc] at this ⊢
        rw [Nat.add_assoc, this, encapsulated, if_neg hs]

/-- The function `encapsulateNonHangul` returns, and its result is the
encapsulated form of the string. -/
theorem encapsulateNonHangul_eq (s : String) :
    s.encapsulateNonHangul =
      some (⟨(encapsulated s._str []).1⟩, ⟨(encapsulated s._str []).2⟩) := by
  have h := encapsulateLoop_spec (2 * s._str.length + 1) [] [] s._str 0 []
    (fun h => absurd rfl h) (by simp)
  simp only [List.nil_append, List.length_nil, Nat.add_zero] at h
  unfold String.encapsulateNonHangul
  cases hl : encapsulateLoop (2 * s._str.length + 1) ⟨s._str, 0, [], 0, []⟩ with
  | none => rw [hl] at h; cases h
  | some st =>
    rw [hl] at h
    simp only [Option.map_some', Option.some.injEq] at h
    simp only []
    unfold encapsulateResult at h
    by_cases hb : st.buffer.length > 0
    · rw [if_pos hb] at h ⊢
      simp only [Prod.mk.injEq] at h
      rw [h.1, h.2]
    · rw [if_neg hb] at h ⊢
      simp only [Prod.mk.injEq] at h
      rw [h.1, h.2]

/-- Without runs the string stays as it is. -/
theorem restored_nil (x : List Nat) : restored x [] = x := by
  cases x <;> rfl

/-- A codepoint other than the sentinel is kept. -/
theorem restored_cons_of_ne (c : Nat) (x : List Nat) (runs : List (List Nat))
    (hc : c ≠ EncapsulatedNonHangulCode) : restored (c :: x) runs = c :: restored x runs := by
  cases runs with
  | nil => rw [restored_nil, restored_nil]
  | cons r rs => rw [restored, if_neg hc]

/-- A sentinel takes the first run. -/
theorem restored_sentinel (x : List Nat) (r : List Nat) (rs : List (List Nat)) :
    restored (EncapsulatedNonHangulCode :: x) (r :: rs) = r ++ restored x rs := by
  rw [restored, if_pos rfl]

/-- Text without sentinels is kept. -/
theorem restored_append_of_no_sentinel (u x : List Nat) (runs : List (List Nat))
    (hu : ∀ b ∈ u, b ≠ EncapsulatedNonHangulCode) :
    restored (u ++ x) runs = u ++ restored x runs := by
  induction u with
  | nil => rfl
  | cons a u ih =>
    rw [List.cons_append, restored_cons_of_ne _ _ _ (hu a (by simp)),
      ih (fun b hb => hu b (by simp [hb])), List.cons_append]

/-- A syllable is not the sentinel. -/
theorem syllable_ne_sentinel (c : Nat) (h : isSyllableCodepoint c = true) :
    c ≠ EncapsulatedNonHangulCode := by
  simp only [isSyllableCodepoint, Bool.and_eq_true, decide_eq_true_iff] at h
  unfold EncapsulatedNonHangulCode
  omega

/-- The sentinel is not a syllable. -/
theorem sentinel_not_syllable : isSyllableCodepoint EncapsulatedNonHangulCode = false := by
  decide

/-- The properties of the encapsulated form of `cs` behind an open run `buffer`
of codepoints that are not syllables (for the range `0xAC00..0xD7AF` of the
code): putting the runs back gives `buffer ++ cs`; every run is a non-empty
sequence of codepoints that are not syllables; no two sentinels are adjacent;
every codepoint is a syllable or the sentinel; the syllables are those of `cs`
in the same order; and there are as many sentinels as runs. -/
theorem encapsulated_spec (cs buffer : List Nat)
    (hbuf : ∀ b ∈ buffer, isSyllableCodepoint b = false) :
    restored (encapsulated cs buffer).1 (encapsulated cs buffer).2 = buffer ++ cs ∧
    (∀ r ∈ (encapsulated cs buffer).2, r ≠ [] ∧ ∀ b ∈ r, isSyllableCodepoint b = false) ∧
    (encapsulated cs buffer).1.Chain'
      (fun a b => ¬ (a = EncapsulatedNonHangulCode ∧ b = EncapsulatedNonHangulCode)) ∧
    (∀ x ∈ (encapsulated cs buffer).1,
      isSyllableCodepoint x = true ∨ x = EncapsulatedNonHangulCode) ∧
    (encapsulated cs buffer).1.filter isSyllableCodepoint = cs.filter isSyllableCodepoint ∧
    (encapsulated cs buffer).1.count EncapsulatedNonHangulCode =
      (encapsulated cs buffer).2.length := by
  induction cs generalizing buffer with
  | nil =>
    by_cases hb : buffer = []
    · subst hb
      simp [encapsulated, restored]
    · simp only [encapsulated, if_neg hb, List.append_nil]
      refine ⟨by rw [restored_sentinel, restored_nil, List.append_nil], ?_, by simp, by simp,
        by simp [sentinel_not_syllable], by simp⟩
      intro r hr
      simp only [List.mem_singleton] at hr
      subst hr
      exact ⟨hb, hbuf⟩
  | cons c cs ih =>
    by_cases hs : isSyllableCodepoint c = true
    · obtain ⟨h1, h2, h3, h4, h5, h6⟩ := ih [] (fun b hb => by simp at hb)
      have hc := syllable_ne_sentinel c hs
      have hchain : (c :: (encapsulated cs []).1).Chain'
          (fun a b => ¬ (a = EncapsulatedNonHangulCode ∧ b = EncapsulatedNonHangulCode)) := by
        rw [List.chain'_cons']
        exact ⟨fun b _ h => hc h.1, h3⟩
      by_cases hb : buffer = []
      · subst hb
        simp only [encapsulated, hs, if_true, List.nil_append]
        refine ⟨?_, h2, hchain, ?_, ?_, ?_⟩
        · rw [restored_cons_of_ne _ _ _ hc, h1, List.nil_append]
        · intro x hx
          rcases List.mem_cons.1 hx with rfl | hx
          · exact Or.inl hs
          · exact h4 x hx
        · rw [List.filter_cons_of_pos hs, List.filter_cons_of_pos hs, h5]
        · rw [List.count_cons_of_ne hc.symm, h6]
      · simp only [encapsulated, hs, if_true, if_neg hb]
        refine ⟨?_, ?_, ?_, ?_, ?_, ?_⟩
        · rw [restored_sentinel, restored_cons_of_ne _ _ _ hc, h1, List.nil_append]
        · intro r hr
          rcases List.mem_cons.1 hr with rfl | hr
          · exact ⟨hb, hbuf⟩
          · exact h2 r hr
        · rw [List.chain'_cons']
          exact ⟨fun b hb1 h => by
            simp only [List.head?_cons, Option.mem_def, Option.some.injEq] at hb1
            exact hc (hb1 ▸ h.2), hchain⟩
        · intro x hx
          rcases List.mem_cons.1 hx with rfl | hx
          · exact Or.inr rfl
          · rcases List.mem_cons.1 hx with rfl | hx
            · exact Or.inl hs
            · exact h4 x hx
        · rw [List.filter_cons_of_neg (by simp [sentinel_not_syllable]),
            List.filter_cons_of_pos hs, List.filter_cons_of_pos hs, h5]
        · rw [List.count_cons_self, List.count_cons_of_ne hc.symm, h6, List.length_cons]
    · have hs' : isSyllableCodepoint c = false := by simpa using hs
      have hbuf1 : ∀ b ∈ buffer ++ [c], isSyllableCodepoint b = false := by
        intro b hb
        rcases List.mem_append.1 hb with hb | hb
        · exact hbuf b hb
        · simp only [List.mem_singleton] at hb
          subst hb
          exact hs'
      obtain ⟨h1, h2, h3, h4, h5, h6⟩ := ih (buffer ++ [c]) hbuf1
      have he : encapsulated (c :: cs) buffer = encapsulated cs (buffer ++ [c]) := by
        rw [encapsulated, if_neg hs]
      rw [he]
      refine ⟨by rw [h1]; simp, h2, h3, h4, ?_, h6⟩
      rw [h5, List.filter_cons_of_neg hs]

/-- With the range `0xAC00..0xD7AF` the code tests a syllable by,
`encapsulateNonHangul` returns for every string `s` a string `str` and runs
`runs` such that: `str` with the `k`-th sentinel replaced by the `k`-th run is
`s`; every run is a non-empty sequence of codepoints outside the range; `str`
has no two adjacent sentinels (the runs are maximal) and consists of codepoints
of the range and sentinels; the codepoints of the range keep their order;
there are as many sentinels as runs; and `isPureHangul()` holds afterwards. -/
theorem encapsulateNonHangul_spec (s : String) :
    ∃ str runs, s.encapsulateNonHangul = some (⟨str⟩, ⟨runs⟩) ∧
      restored str runs = s._str ∧
      (∀ r ∈ runs, r ≠ [] ∧ ∀ b ∈ r, isSyllableCodepoint b = false) ∧
      str.Chain'
        (fun a b => ¬ (a = EncapsulatedNonHangulCode ∧ b = EncapsulatedNonHangulCode)) ∧
      (∀ x ∈ str, isSyllableCodepoint x = true ∨ x = EncapsulatedNonHangulCode) ∧
      str.filter isSyllableCodepoint = s._str.filter isSyllableCodepoint ∧
      str.count EncapsulatedNonHangulCode = runs.length ∧
      (String.mk str).isPureHangul = true := by
  obtain ⟨h1, h2, h3, h4, h5, h6⟩ := encapsulated_spec s._str [] (fun b hb => by simp at hb)
  refine ⟨_, _, encapsulateNonHangul_eq s, h1, h2, h3, h4, h5, h6, ?_⟩
  unfold String.isPureHangul
  rw [List.all_eq_true]
  intro x hx
  rcases h4 x hx with h | h
  · simp [h]
  · simp [h]

/-- C18 (the code at the failing input): U+D7A4 is not a Hangul syllable (it is
above U+D7A3), yet `encapsulateNonHangul` leaves the string U+D7A4 as it is and
returns an empty sidecar instead of replacing the run by a sentinel. -/
theorem encapsulateNonHangul_at_D7A4 :
    ¬ (0xAC00 ≤ 0xD7A4 ∧ 0xD7A4 ≤ 0xD7A3) ∧
    (String.mk [0xD7A4]).encapsulateNonHangul = some (⟨[0xD7A4]⟩, ⟨[]⟩) ∧
    (String.mk [0xD7A4]).encapsulateNonHangul ≠
      some (⟨[EncapsulatedNonHangulCode]⟩, ⟨[[0xD7A4]]⟩) := by
  decide

/-- The loop of `restoreNonHangul` on runs that are not empty and contain no
sentinel: from position `pre.length` on it replaces the sentinels of `x` by the
runs in order. -/
theorem restoreLoop_spec (fuel : Nat) (pre x : List Nat) (runs : List (List Nat))
    (hruns : ∀ r ∈ runs, r ≠ [] ∧ ∀ b ∈ r, b ≠ EncapsulatedNonHangulCode)
    (hne : runs ≠ []) (hfuel : x.length + (runs.map List.length).sum + 1 ≤ fuel) :
    restoreLoop fuel (pre ++ x) pre.length runs = some (.ok (pre ++ restored x runs)) := by
  induction fuel generalizing pre x runs with
  | zero => omega
  | succ n ih =>
    cases x with
    | nil =>
      unfold restoreLoop
      rw [if_pos (by simp)]
      cases runs <;> rfl
    | cons c x =>
      have h1 : ¬ pre.length = (pre ++ c :: x).length := by simp
      have h2 : ¬ (pre ++ c :: x).length < pre.length := by simp
      unfold restoreLoop
      rw [if_neg h1, if_neg h2, getD_append_cons pre c x _ rfl]
      by_cases hc : c = EncapsulatedNonHangulCode
      · subst hc
        rw [if_pos rfl]
        cases runs with
        | nil => exact absurd rfl hne
        | cons r rs =>
          simp only []
          have hr := hruns r (by simp)
          have hrep : replaceRange (pre ++ EncapsulatedNonHangulCode :: x) pre.length
              (pre.length + 1) r = pre ++ r ++ x := by
            have := replaceRange_append pre [EncapsulatedNonHangulCode] x r pre.length
              (pre.length + 1) rfl rfl
            simpa using this
          rw [hrep, restored_sentinel]
          by_cases hrs : rs = []
          · subst hrs
            rw [if_pos rfl, restored_nil, List.append_assoc]
          · rw [if_neg hrs]
            obtain ⟨a, r1, rfl⟩ := List.exists_cons_of_ne_nil hr.1
            have := ih (pre ++ [a]) (r1 ++ x) rs (fun r hr1 => hruns r (by simp [hr1])) hrs
              (by
                simp only [List.length_cons, List.map_cons, List.sum_cons,
                  List.length_append] at hfuel ⊢
                omega)
            simp only [List.length_append, List.length_singleton, List.append_assoc,
              List.singleton_append] at this
            simp only [List.append_assoc, List.cons_append]
            rw [this, restored_append_of_no_sentinel r1 x rs
              (fun b hb => hr.2 b (by simp [hb]))]
      · rw [if_neg hc]
        have := ih (pre ++ [c]) x runs hruns hne
          (by simp only [List.length_cons] at hfuel; omega)
        simp only [List.length_append, List.length_singleton, List.append_assoc,
          List.singleton_append] at this
        rw [this, restored_cons_of_ne _ _ _ hc]

/-- For a sidecar with at least one run, each run non-empty and free of
sentinels, `restoreNonHangul` replaces the `k`-th sentinel of the string by the
`k`-th run, for as many sentinels as there are runs. -/
theorem restoreNonHangul_of_clean_runs (s : String) (sidecar : EncapsulatedNonHangul)
    (hne : sidecar._nonHangulStrings ≠ [])
    (hruns : ∀ r ∈ sidecar._nonHangulStrings, r ≠ [] ∧ ∀ b ∈ r, b ≠ EncapsulatedNonHangulCode) :
    s.restoreNonHangul sidecar = some (.ok ⟨restored s._str sidecar._nonHangulStrings⟩) := by
  have h := restoreLoop_spec (s._str.length + (sidecar._nonHangulStrings.map List.length).sum + 1)
    [] s._str sidecar._nonHangulStrings hruns hne (Nat.le_refl _)
  simp only [List.nil_append, List.length_nil] at h
  unfold String.restoreNonHangul
  simp only [h]

/-- C19 (the code at the failing input): the string ENCAP 한, as
`encapsulateNonHangul` leaves the string a 한, restored with an empty sidecar:
at the sentinel the loop dereferences the end iterator of the empty sidecar,
where the claim has the string left as it is. With two runs of which the first
holds a sentinel (the sidecar of a ENCAP 한 x), the second run replaces the
sentinel inside the first run that was just put back. -/
theorem restoreNonHangul_on_empty_sidecar :
    (String.mk [0x61, 0xD55C]).encapsulateNonHangul =
      some (⟨[EncapsulatedNonHangulCode, 0xD55C]⟩, ⟨[[0x61]]⟩) ∧
    String.restoreNonHangul ⟨[EncapsulatedNonHangulCode, 0xD55C]⟩ ⟨[]⟩ =
      some (.error .undefinedBehaviour) ∧
    restored [EncapsulatedNonHangulCode, 0xD55C] [] = [EncapsulatedNonHangulCode, 0xD55C] ∧
    String.restoreNonHangul ⟨[EncapsulatedNonHangulCode, 0xD55C, EncapsulatedNonHangulCode]⟩
        ⟨[[0x61, EncapsulatedNonHangulCode], [0x78]]⟩ =
      some (.ok ⟨[0x61, 0x78, 0xD55C, EncapsulatedNonHangulCode]⟩) ∧
    restored [EncapsulatedNonHangulCode, 0xD55C, EncapsulatedNonHangulCode]
        [[0x61, EncapsulatedNonHangulCode], [0x78]] =
      [0x61, EncapsulatedNonHangulCode, 0xD55C, 0x78] := by
  decide

/-! ## Claims C14 and C15: writing a container to a stream and loading it back -/

/-- The object representation has the size of the type. -/
theorem toBytes_length (n x : Nat) : (toBytes n x).length = n := by
  induction n generalizing x with
  | zero => rfl
  | succ n ih => simp [toBytes, ih]

/-- An integer that fits the type is recovered from its object representation. -/
theorem ofBytes_toBytes (n x : Nat) (h : x < 256 ^ n) : ofBytes (toBytes n x) = x := by
  induction n generalizing x with
  | zero =>
    simp only [Nat.pow_zero, Nat.lt_one_iff] at h
    subst h
    rfl
  | succ n ih =>
    have h1 : x / 256 < 256 ^ n := by
      rw [Nat.div_lt_iff_lt_mul (by decide)]
      rw [Nat.pow_succ] at h
      exact h
    simp only [toBytes, ofBytes, ih _ h1]
    omega

/-- Reading back what `StreamBinaryWrite` has written. -/
theorem StreamBinaryRead_toBytes (n x : Nat) (tail : List Nat) (h : x < 256 ^ n) :
    StreamBinaryRead n (toBytes n x ++ tail) = .ok (x, tail) := by
  unfold StreamBinaryRead
  rw [if_neg (by simp [toBytes_length])]
  have h1 : (toBytes n x ++ tail).take n = toBytes n x := by
    rw [List.take_append_of_le_length (by simp [toBytes_length])]
    exact List.take_of_length_le (by simp [toBytes_length])
  have h2 : (toBytes n x ++ tail).drop n = tail := by
    have := List.drop_left (toBytes n x) tail
    rwa [toBytes_length] at this
  rw [h1, h2, ofBytes_toBytes n x h]

/-- After `freeze` on a non-empty trie that fits the format, the node array has
the length recorded in `_serializedNodeArraySize`, below `2 ^ 32`. -/
theorem freeze_array_size (t : TrieImpl) (hne : t._rootChildren ≠ [])
    (hfit : ChildrenFit t._rootChildren)
    (hsz : 1 + (levelSize t._rootChildren + subSize t._rootChildren) < 2 ^ 32) :
    t.freeze._editingMode = false ∧
    ∃ buf, t.freeze._serializedNodeArray = some buf ∧
      t.freeze._serializedNodeArraySize = buf.length ∧ buf.length < 2 ^ 32 := by
  have hl : ¬ t._rootChildren.length = 0 := fun h => hne (List.length_eq_zero.1 h)
  unfold TrieImpl.freeze
  rw [if_neg hl]
  refine ⟨rfl, _, rfl, ?_⟩
  have hbl := getBranchLength_spec t._rootChildren 0 (by omega)
  simp only [hbl]
  obtain ⟨-, w2, -, -⟩ := writeChildren_spec t._rootChildren
    (writeU8 (List.replicate (1 + (0 + (levelSize t._rootChildren +
      subSize t._rootChildren))) 0) 0 t._rootChildren.length) 1
    (by simp [writeU8]) (by omega) hfit
  rw [w2]
  simp only [writeU8, List.length_set, List.length_replicate]
  refine ⟨?_, by omega⟩
  rw [Nat.mod_eq_of_lt (by omega)]

/-- C14 (amended): for every frozen trie `T` that has a node array of the
recorded size (below `2 ^ 32` bytes), `writeToStream` writes the size as 4 bytes
followed by the array, and a trie that is likewise not in editing mode and
calls `loadFromStream` on these bytes consumes exactly them and answers
`findWord` as `T` does, for every string. -/
theorem loadFromStream_writeToStream (T r : TrieImpl) (buf tail : List Nat)
    (hT : T._editingMode = false) (hbuf : T._serializedNodeArray = some buf)
    (hsize : T._serializedNodeArraySize = buf.length) (h32 : buf.length < 2 ^ 32)
    (hr : r._editingMode = false) :
    T.writeToStream [] = .ok (toBytes 4 buf.length ++ buf) ∧
    ∃ r1, r.loadFromStream (toBytes 4 buf.length ++ buf ++ tail) = .ok (r1, tail) ∧
      r1._editingMode = false ∧ r1._serializedNodeArray = some buf ∧
      ∀ k : String, r1.findWord k = T.findWord k := by
  have hw : T.writeToStream [] = .ok (toBytes 4 buf.length ++ buf) := by
    unfold TrieImpl.writeToStream StreamBinaryWrite
    simp [hT, hbuf, hsize]
  have hread : StreamBinaryRead 4 (toBytes 4 buf.length ++ buf ++ tail) =
      .ok (buf.length, buf ++ tail) := by
    rw [List.append_assoc]
    exact StreamBinaryRead_toBytes 4 buf.length (buf ++ tail) (by omega)
  refine ⟨hw, { r with _serializedNodeArraySize := buf.length
                       _serializedNodeArray := some buf }, ?_, hr, rfl, ?_⟩
  · unfold TrieImpl.loadFromStream
    rw [hr, hread]
    simp
  · intro k
    unfold TrieImpl.findWord
    simp only [hr, hT, hbuf]

/-- Witness for `loadFromStream_writeToStream`: the trie with the word 가 (id 7),
frozen, written and loaded into a frozen empty trie. -/
theorem loadFromStream_writeToStream_witness :
    (TrieImpl.new.addWord ⟨[0xAC00]⟩ 7).map (fun p => p.1.freeze._serializedNodeArray) =
      .ok (some [1, 0, 7, 0, 0, 0, 1, 1, 1, 0]) ∧
    (TrieImpl.freeze ⟨true, [TrieNode.mk [1, 1, 1] [] 7], none, 0⟩).writeToStream [] =
      .ok ([10, 0, 0, 0] ++ [1, 0, 7, 0, 0, 0, 1, 1, 1, 0]) ∧
    ∃ r1, TrieImpl.new.freeze.loadFromStream
        ([10, 0, 0, 0] ++ [1, 0, 7, 0, 0, 0, 1, 1, 1, 0] ++ []) = .ok (r1, []) ∧
      r1._editingMode = false ∧ r1._serializedNodeArray = some [1, 0, 7, 0, 0, 0, 1, 1, 1, 0] ∧
      ∀ k : String, r1.findWord k =
        (TrieImpl.freeze ⟨true, [TrieNode.mk [1, 1, 1] [] 7], none, 0⟩).findWord k :=
  ⟨by decide,
    (loadFromStream_writeToStream (TrieImpl.freeze ⟨true, [TrieNode.mk [1, 1, 1] [] 7], none, 0⟩)
      TrieImpl.new.freeze [1, 0, 7, 0, 0, 0, 1, 1, 1, 0] [] (by decide) (by decide) (by decide)
      (by decide) (by decide)).1,
    (loadFromStream_writeToStream (TrieImpl.freeze ⟨true, [TrieNode.mk [1, 1, 1] [] 7], none, 0⟩)
      TrieImpl.new.freeze [1, 0, 7, 0, 0, 0, 1, 1, 1, 0] [] (by decide) (by decide) (by decide)
      (by decide) (by decide)).2⟩

/-- Counterexample to C14 as stated: a freshly constructed trie is in editing
mode, where `loadFromStream` returns at its guard without reading; the trie
then answers `NIME_TRIE_WORD_NOT_FOUND` for the word 가, for which the written
trie answers 7. -/
theorem loadFromStream_in_editing_mode :
    (TrieImpl.freeze ⟨true, [TrieNode.mk [1, 1, 1] [] 7], none, 0⟩).writeToStream [] =
      .ok [10, 0, 0, 0, 1, 0, 7, 0, 0, 0, 1, 1, 1, 0] ∧
    TrieImpl.new._editingMode = true ∧
    (TrieImpl.new.loadFromStream [10, 0, 0, 0, 1, 0, 7, 0, 0, 0, 1, 1, 1, 0]).map
        (fun p => (p.1.findWord ⟨[0xAC00]⟩, p.2)) =
      .ok (.ok NIME_TRIE_WORD_NOT_FOUND, [10, 0, 0, 0, 1, 0, 7, 0, 0, 0, 1, 1, 1, 0]) ∧
    (TrieImpl.freeze ⟨true, [TrieNode.mk [1, 1, 1] [] 7], none, 0⟩).findWord ⟨[0xAC00]⟩ =
      .ok 7 ∧
    NIME_TRIE_WORD_NOT_FOUND ≠ 7 := by
  decide

/-! ## Claim C15: a hash table written to a stream and loaded back -/

/-- The loop of `writeToStream` appends to the stream. -/
theorem writeBuckets_append (K : KeyType) (buckets : List (Bucket Nat)) (count i : Nat)
    (os : List Nat) :
    Template.writeBuckets K buckets count i os =
      os ++ Template.writeBuckets K buckets count i [] := by
  induction count generalizing i os with
  | zero => simp [Template.writeBuckets]
  | succ n ih =>
    simp only [Template.writeBuckets]
    rw [ih, ih (i + 1) (StreamBinaryWriteBool _ _)]
    simp only [StreamBinaryWriteBool, StreamBinaryWrite, List.append_assoc, List.nil_append]

/-- Reading back a `bool`. -/
theorem StreamBinaryReadBool_toBytes (u : Bool) (tail : List Nat) :
    StreamBinaryReadBool (toBytes 1 (if u then 1 else 0) ++ tail) = .ok (u, tail) := by
  cases u <;> rfl

/-- The loop of `loadFromStream` reads back the slots the loop of
`writeToStream` has written, in order, and consumes exactly their bytes. -/
theorem loadBuckets_writeBuckets (K : KeyType) (buckets : List (Bucket Nat)) (count i : Nat)
    (tail : List Nat)
    (hrange : ∀ j, i ≤ j → j < i + count →
      (buckets.getD j Bucket.zero).id < K.modulus ∧
      (buckets.getD j Bucket.zero).value < 2 ^ 64) :
    Template.loadBuckets K count (Template.writeBuckets K buckets count i [] ++ tail) =
      .ok ((List.range' i count).map (fun j => buckets.getD j Bucket.zero), tail) := by
  induction count generalizing i with
  | zero => rfl
  | succ n ih =>
    obtain ⟨h1, h2⟩ := hrange i (Nat.le_refl _) (by omega)
    rw [(modulus_eq K).1] at h1
    simp only [Template.writeBuckets]
    rw [writeBuckets_append]
    simp only [StreamBinaryWriteBool, StreamBinaryWrite, List.append_assoc, List.nil_append]
    unfold Template.loadBuckets
    rw [StreamBinaryRead_toBytes K.size _ _ h1]
    simp only []
    rw [StreamBinaryRead_toBytes 8 _ _ (by omega)]
    simp only []
    rw [StreamBinaryReadBool_toBytes]
    simp only []
    rw [ih (i + 1) (fun j hj1 hj2 => hrange j (by omega) (by omega))]
    simp only [List.range'_succ, List.map_cons]

/-- The lookup loop reads the capacity and the slots below it only. -/
theorem lookupLoop_congr (K : KeyType) (ht1 ht2 : HashTable Nat)
    (h1 : ht1._bucketsNo = ht2._bucketsNo)
    (h2 : ∀ i < ht2._bucketsNo, ht1._buckets.getD i Bucket.zero = ht2._buckets.getD i Bucket.zero)
    (fuel id startingLocation i : Nat) :
    Template.lookupLoop K fuel ht1 id startingLocation i =
      Template.lookupLoop K fuel ht2 id startingLocation i := by
  induction fuel generalizing i with
  | zero => rfl
  | succ n ih =>
    unfold Template.lookupLoop
    rw [h1]
    by_cases hi : i < ht2._bucketsNo
    · rw [if_neg (not_not.2 hi), if_neg (not_not.2 hi), h2 i hi, ih]
    · rw [if_pos hi, if_pos hi]

/-- C15: for both key types `T` of the template, `uint32_t` and `uint64_t`, and
every `HashTable<T>` (its capacity and ids values of `T`, its values 64-bit
patterns), `loadFromStream` on the bytes written by `writeToStream` consumes
exactly these bytes and gives a table with the capacity of the written table
and, in every slot, the id, value and used flag of its slot; `retrieve(id)`
and `exists(id)` then behave on it as on the written table for every id. -/
theorem hashTable_load_write (K : KeyType) (ht ht0 : HashTable Nat) (tail : List Nat)
    (hcap : ht._bucketsNo < K.modulus)
    (hrange : ∀ i < ht._bucketsNo,
      (ht._buckets.getD i Bucket.zero).id < K.modulus ∧
      (ht._buckets.getD i Bucket.zero).value < 2 ^ 64) :
    ∃ ht1, Template.loadFromStream K ht0 (Template.writeToStream K ht [] ++ tail) =
        .ok (ht1, tail) ∧
      ht1._bucketsNo = ht._bucketsNo ∧ ht1._buckets.length = ht._bucketsNo ∧
      (∀ i < ht._bucketsNo,
        ht1._buckets.getD i Bucket.zero = ht._buckets.getD i Bucket.zero) ∧
      ∀ fuel id, Template.retrieve K fuel ht1 id = Template.retrieve K fuel ht id ∧
        Template.exists K fuel ht1 id = Template.exists K fuel ht id := by
  have hslots : ∀ i < ht._bucketsNo,
      ((List.range' 0 ht._bucketsNo).map (fun j => ht._buckets.getD j Bucket.zero)).getD i
        Bucket.zero = ht._buckets.getD i Bucket.zero := by
    intro i hi
    rw [List.getD_eq_getElem _ _ (by simpa using hi)]
    simp
  have hload : Template.loadFromStream K ht0 (Template.writeToStream K ht [] ++ tail) =
      .ok (⟨ht._bucketsNo,
        (List.range' 0 ht._bucketsNo).map (fun j => ht._buckets.getD j Bucket.zero),
        ht0._usedUpBuckets⟩, tail) := by
    unfold Template.loadFromStream Template.writeToStream
    rw [writeBuckets_append]
    simp only [StreamBinaryWrite, List.nil_append, List.append_assoc]
    rw [StreamBinaryRead_toBytes K.size _ _ (by rw [← (modulus_eq K).1]; exact hcap)]
    simp only []
    rw [loadBuckets_writeBuckets K ht._buckets ht._bucketsNo 0 tail
      (fun j _ hj => hrange j (by omega))]
  refine ⟨_, hload, rfl, by simp, hslots, fun fuel id => ?_⟩
  have hc := lookupLoop_congr K
    ⟨ht._bucketsNo, (List.range' 0 ht._bucketsNo).map (fun j => ht._buckets.getD j Bucket.zero),
      ht0._usedUpBuckets⟩ ht rfl hslots fuel id (K.hash id % ht._bucketsNo)
    (K.hash id % ht._bucketsNo)
  unfold Template.retrieve Template.exists
  simp only [hc, and_self]

/-- Witness for `hashTable_load_write` in `HashTable<uint64_t>`: the table of
capacity 2 after `insert(500000000000, 10)`, an id above `2 ^ 32`, with the
value written as the pattern 10; the capacity and the id take 8 bytes each. -/
theorem hashTable_load_write_witness :
    Template.insertAll KeyType.uint64_t 2 (HashTable.new 2 : HashTable Nat)
        [(500000000000, 10)] =
      some (⟨2, [⟨500000000000, 10, true⟩, ⟨0, 0, false⟩], 1⟩, [0]) ∧
    Template.writeToStream KeyType.uint64_t
        ⟨2, [⟨500000000000, 10, true⟩, ⟨0, 0, false⟩], 1⟩ [] =
      [2, 0, 0, 0, 0, 0, 0, 0,
       0, 136, 82, 106, 116, 0, 0, 0, 10, 0, 0, 0, 0, 0, 0, 0, 1,
       0, 0, 0, 0, 0, 0, 0, 0, 0, 0, 0, 0, 0, 0, 0, 0, 0] ∧
    ∃ ht1, Template.loadFromStream KeyType.uint64_t (HashTable.new 5 : HashTable Nat)
        (Template.writeToStream KeyType.uint64_t
          ⟨2, [⟨500000000000, 10, true⟩, ⟨0, 0, false⟩], 1⟩ [] ++ []) = .ok (ht1, []) ∧
      ht1._bucketsNo = 2 ∧ ht1._buckets.length = 2 ∧
      (∀ i < 2, ht1._buckets.getD i Bucket.zero =
        ([⟨500000000000, 10, true⟩, ⟨0, 0, false⟩] : List (Bucket Nat)).getD i Bucket.zero) ∧
      ∀ fuel id, Template.retrieve KeyType.uint64_t fuel ht1 id =
          Template.retrieve KeyType.uint64_t fuel
            ⟨2, [⟨500000000000, 10, true⟩, ⟨0, 0, false⟩], 1⟩ id ∧
        Template.exists KeyType.uint64_t fuel ht1 id =
          Template.exists KeyType.uint64_t fuel
            ⟨2, [⟨500000000000, 10, true⟩, ⟨0, 0, false⟩], 1⟩ id :=
  ⟨by decide, by decide,
    hashTable_load_write KeyType.uint64_t ⟨2, [⟨500000000000, 10, true⟩, ⟨0, 0, false⟩], 1⟩
      (HashTable.new 5) [] (by decide) (by decide)⟩

/-! ## Claim C13: `addWord` with and without `replace` -/

/-- The calls `addWord(k, J, false)` and `addWord(k, J, true)` on a well-formed
trie in editing mode, for a pure-Hangul key `k`: the id returned, the ids
stored afterwards, and what `findWord(k)` returns after `freeze()`. -/
theorem addWord_replace_aux (t : TrieImpl) (k : String) (J : Nat)
    (hmode : t._editingMode = true) (hroot : RootOK t._rootChildren)
    (hk : k.isPureHangul = true) :
    (∀ I, t.storedId k = some I →
      (∃ t1, t.addWord k J false = .ok (t1, I) ∧
        ∀ q : String, q.isPureHangul = true → t1.storedId q = t.storedId q) ∧
      (∃ t2, t.addWord k J true = .ok (t2, J) ∧ t2.storedId k = some J ∧
        (∀ q : String, q.isPureHangul = true → q ≠ k → t2.storedId q = t.storedId q) ∧
        (ChildrenFit t._rootChildren → k.length ≤ 83 → J < 2 ^ 32 →
          t2.serializedSize < 2 ^ 32 → t2.freeze.findWord k = .ok J))) ∧
    (t.storedId k = none → ∀ replace, ∃ t3, t.addWord k J replace = .ok (t3, J)) ∧
    (∀ replace, ∃ t4 r, t.addWord k J replace = .ok (t4, r) ∧ t4._editingMode = true ∧
      RootOK t4._rootChildren) := by
  have hkb := encodeKey_jamoBytes k hk
  by_cases hk0 : encodeKey k = []
  · have hnone : t.storedId k = none := by
      unfold TrieImpl.storedId
      rw [hk0]
      exact lookupRoot_nil_key _ hroot
    refine ⟨fun I hI => ?_, fun _ replace => ?_, fun replace => ?_⟩
    · rw [hnone] at hI
      cases hI
    · refine ⟨{ t with
        _rootChildren := (addWordRoot t._rootChildren (encodeKey k) J replace).1 }, ?_⟩
      rw [addWord_eq t k J replace hmode hk, hk0, addWordRoot_nil]
    · refine ⟨_, _, addWord_eq t k J replace hmode hk, hmode, ?_⟩
      simp only [hk0, addWordRoot_nil]
      exact hroot
  · refine ⟨fun I hI => ⟨?_, ?_⟩, fun hnone replace => ?_, fun replace => ?_⟩
    · obtain ⟨h1, -, h3⟩ := lookupRoot_addWordRoot false t._rootChildren hroot (encodeKey k) J
        hkb hk0
      unfold TrieImpl.storedId at hI
      rw [hI] at h1
      simp only [Bool.false_eq_true, if_false, Option.getD_some] at h1
      refine ⟨_, by rw [addWord_eq t k J false hmode hk, h1], fun q hq => ?_⟩
      unfold TrieImpl.storedId
      simp only []
      rw [h3 _ (encodeKey_jamoBytes q hq), h1]
      by_cases hqk : encodeKey q = encodeKey k
      · rw [if_pos hqk, hqk, hI]
      · rw [if_neg hqk]
    · obtain ⟨h1, h2, h3⟩ := lookupRoot_addWordRoot true t._rootChildren hroot (encodeKey k) J
        hkb hk0
      simp only [if_true] at h1
      refine ⟨_, by rw [addWord_eq t k J true hmode hk, h1], ?_, fun q hq hqk => ?_,
        fun hfit hlen hJ hsz => ?_⟩
      · unfold TrieImpl.storedId
        simp only []
        rw [h3 _ hkb, if_pos rfl, h1]
      · unfold TrieImpl.storedId
        simp only []
        rw [h3 _ (encodeKey_jamoBytes q hq),
          if_neg (fun h => hqk (encodeKey_injective q k hq hk h))]
      · have hl := encodeKey_length k hk
        have hlen' : k._str.length ≤ 83 := hlen
        have hfit2 := addWordRoot_fits t._rootChildren hroot hfit (encodeKey k) J hkb hk0
          (by unfold String.length at hl; omega) hJ
        have hnn := addWordRoot_ne_nil t._rootChildren (encodeKey k) J hk0
        obtain ⟨hmode2, -, buf, hbuf, hcount, hlay⟩ := freeze_spec
          { t with _rootChildren := (addWordRoot t._rootChildren (encodeKey k) J true).1 }
          hnn hfit2 (by have := h2.1.length_le; simp only; omega) hsz
        simp only at hcount hlay
        obtain ⟨-, -, h4⟩ := @addWordRoot_replace_spec NIME_TRIE_WORD_NOT_FOUND true
          t._rootChildren hroot (encodeKey k) J hkb hk0
        unfold TrieImpl.findWord
        rw [hmode2, toHangulString_of_pure k hk]
        simp only [Bool.false_eq_true, if_false, bind, Except.bind, hbuf]
        rw [findWordLoop_root _ buf (encodeKey k) h2.1 hnn hcount hlay, h4 _ hkb, if_pos rfl,
          h1]
    · obtain ⟨h1, -, -⟩ := lookupRoot_addWordRoot replace t._rootChildren hroot (encodeKey k) J
        hkb hk0
      unfold TrieImpl.storedId at hnone
      rw [hnone] at h1
      simp only [Option.getD_none, ite_self] at h1
      exact ⟨_, by rw [addWord_eq t k J replace hmode hk, h1]⟩
    · obtain ⟨-, h2, -⟩ := lookupRoot_addWordRoot replace t._rootChildren hroot (encodeKey k) J
        hkb hk0
      exact ⟨_, _, addWord_eq t k J replace hmode hk, hmode, h2⟩

/-- A sequence of `addWord` calls with pure-Hangul keys on a well-formed trie in
editing mode succeeds and leaves a well-formed trie in editing mode. -/
theorem addWordsWith_rootOK (ops : List (String × Nat × Bool)) (t : TrieImpl)
    (hmode : t._editingMode = true) (hroot : RootOK t._rootChildren)
    (hpure : ∀ p ∈ ops, p.1.isPureHangul = true) :
    ∃ t1, t.addWordsWith ops = .ok t1 ∧ t1._editingMode = true ∧ RootOK t1._rootChildren := by
  induction ops generalizing t with
  | nil => exact ⟨t, rfl, hmode, hroot⟩
  | cons p rest ih =>
    obtain ⟨key, id, replace⟩ := p
    obtain ⟨t4, r, h4, hm4, hr4⟩ :=
      (addWord_replace_aux t key id hmode hroot
        (hpure (key, id, replace) (List.mem_cons_self _ _))).2.2 replace
    obtain ⟨t1, h1, hm1, hr1⟩ := ih t4 hm4 hr4 (fun p hp => hpure p (by simp [hp]))
    refine ⟨t1, ?_, hm1, hr1⟩
    rw [TrieImpl.addWordsWith, h4]
    exact h1

/-- C13 (amended): on the trie built from a fresh trie by any sequence of
`addWord` calls with pure-Hangul keys (any ids, any `replace`), which is in
editing mode, for every pure-Hangul key `k` and every id `J`: if `k` is present
with id `I`, then `addWord(k, J, false)` returns `I` and leaves the id stored
for every key as it was, and `addWord(k, J, true)` returns `J`, stores `J` for
`k`, leaves the other keys as they were and, when the trie fits the serialized
format (`k` of at most 83 characters, `J` a 32-bit number, less than `2 ^ 32`
bytes), makes `findWord(k)` return `J` after `freeze()`; if `k` is not
present, `addWord(k, J, *)` returns `J`. -/
theorem addWord_replace_spec (ops : List (String × Nat × Bool)) (k : String) (J : Nat)
    (hops : ∀ p ∈ ops, p.1.isPureHangul = true) (hk : k.isPureHangul = true) :
    ∃ t, TrieImpl.new.addWordsWith ops = .ok t ∧ t._editingMode = true ∧
      (∀ I, t.storedId k = some I →
        (∃ t1, t.addWord k J false = .ok (t1, I) ∧
          ∀ q : String, q.isPureHangul = true → t1.storedId q = t.storedId q) ∧
        (∃ t2, t.addWord k J true = .ok (t2, J) ∧ t2.storedId k = some J ∧
          (∀ q : String, q.isPureHangul = true → q ≠ k → t2.storedId q = t.storedId q) ∧
          (ChildrenFit t._rootChildren → k.length ≤ 83 → J < 2 ^ 32 →
            t2.serializedSize < 2 ^ 32 → t2.freeze.findWord k = .ok J))) ∧
      (t.storedId k = none → ∀ replace, ∃ t3, t.addWord k J replace = .ok (t3, J)) := by
  obtain ⟨t, ht, hmode, hroot⟩ := addWordsWith_rootOK ops TrieImpl.new rfl rootOK_nil hops
  obtain ⟨h1, h2, -⟩ := addWord_replace_aux t k J hmode hroot hk
  exact ⟨t, ht, hmode, h1, h2⟩

/-- Witness for `addWord_replace_spec`: after `addWord(가, 7)` the key 가 is
present with id 7; `addWord(가, 9, false)` returns 7 and `addWord(가, 9, true)`
returns 9. -/
theorem addWord_replace_spec_witness :
    ∃ t, TrieImpl.new.addWordsWith [(⟨[0xAC00]⟩, 7, true)] = .ok t ∧
      t.storedId ⟨[0xAC00]⟩ = some 7 ∧
      (t.addWord ⟨[0xAC00]⟩ 9 false).map Prod.snd = .ok 7 ∧
      (t.addWord ⟨[0xAC00]⟩ 9 true).map Prod.snd = .ok 9 := by
  obtain ⟨t, ht, -, h, -⟩ := addWord_replace_spec [(⟨[0xAC00]⟩, 7, true)] ⟨[0xAC00]⟩ 9
    (by decide) (by decide)
  have hs : t.storedId ⟨[0xAC00]⟩ = some 7 := by
    have e : TrieImpl.new.addWordsWith [(⟨[0xAC00]⟩, 7, true)] =
        .ok ⟨true, [TrieNode.mk [1, 1, 1] [] 7], none, 0⟩ := by rfl
    rw [e] at ht
    cases ht
    decide
  obtain ⟨⟨t1, h1, -⟩, ⟨t2, h2, -⟩⟩ := h 7 hs
  exact ⟨t, ht, hs, by rw [h1]; rfl, by rw [h2]; rfl⟩

/-- Counterexample to C13 as stated: the key `a` is not present in the fresh
trie, and `addWord(a, 5, replace)` throws `CannotConvert` instead of returning 5,
for both values of `replace`. -/
theorem addWord_throws_on_latin_key :
    TrieImpl.new._editingMode = true ∧
    TrieImpl.new.storedId ⟨[0x61]⟩ = none ∧
    (TrieImpl.new.addWord ⟨[0x61]⟩ 5 true).map Prod.snd = .error .cannotConvert ∧
    (TrieImpl.new.addWord ⟨[0x61]⟩ 5 false).map Prod.snd = .error .cannotConvert := by
  decide

/-! ## Claims C21, C22 and C30: positions of a syllable, unsupported operations, jamo bytes -/

/-- The getters on the syllable with lead index `l`, vowel index `v` and trail index `t`. -/
theorem getters_of_indices (l v t : Nat) (hl : l ≤ 18) (hv : v ≤ 20) (ht : t ≤ 27) :
    (Character.mk (0xAC00 + 588 * l + 28 * v + t)).type = .HangulSyllable ∧
    (Character.mk (0xAC00 + 588 * l + 28 * v + t)).choseong = _choseongToHangulJamo l ∧
    (Character.mk (0xAC00 + 588 * l + 28 * v + t)).jungseong = _jungseongToHangulJamo v ∧
    (Character.mk (0xAC00 + 588 * l + 28 * v + t)).jongseong = _jongseongToHangulJamo t := by
  have ty : (Character.mk (0xAC00 + 588 * l + 28 * v + t)).type = .HangulSyllable := by
    simp only [Character.type, Character.unicodeCodepoint]
    rw [if_pos (by omega)]
  have h1 : (0xAC00 + 588 * l + 28 * v + t + 2 ^ 32 - 0xac00) % 2 ^ 32
      = 588 * l + 28 * v + t := by omega
  refine ⟨ty, ?_, ?_, ?_⟩
  · simp only [Character.choseong, ty, ne_eq, not_true_eq_false, if_false,
      Character.choseongImpl, Character.unicodeCodepoint]
    have : ((0xAC00 + 588 * l + 28 * v + t + 2 ^ 32 - 0xac00) % 2 ^ 32 / 0x24c) % 256 = l := by
      rw [h1]; omega
    rw [this]
  · simp only [Character.jungseong, ty, ne_eq, not_true_eq_false, if_false,
      Character.jungseongImpl, Character.unicodeCodepoint]
    have : ((0xAC00 + 588 * l + 28 * v + t + 2 ^ 32 - 0xac00) % 2 ^ 32 % 0x24c / 0x1c) % 256
        = v := by
      rw [h1]; omega
    rw [this]
  · simp only [Character.jongseong, ty, ne_eq, not_true_eq_false, if_false,
      Character.jongseongImpl, Character.unicodeCodepoint]
    have : ((0xAC00 + 588 * l + 28 * v + t + 2 ^ 32 - 0xac00) % 2 ^ 32 % 0x24c % 0x1c) % 256
        = t := by
      rw [h1]; omega
    rw [this]

/-- Every index of a position has a jamo. -/
theorem jamo_of_indices (l v t : Nat) (hl : l ≤ 18) (hv : v ≤ 20) (ht : t ≤ 27) :
    (∃ L, _choseongToHangulJamo l = .ok L) ∧ (∃ V, _jungseongToHangulJamo v = .ok V) ∧
    (∃ T, _jongseongToHangulJamo t = .ok T) := by
  refine ⟨?_, ?_, ?_⟩
  · interval_cases l <;> exact ⟨_, rfl⟩
  · interval_cases v <;> exact ⟨_, rfl⟩
  · interval_cases t <;> exact ⟨_, rfl⟩

/-- A codepoint of `0xAC00..0xD7A3` in terms of its three indices. -/
theorem syllable_indices (cp : Nat) (h1 : 0xAC00 ≤ cp) (h2 : cp ≤ 0xD7A3) :
    ∃ l v t, l ≤ 18 ∧ v ≤ 20 ∧ t ≤ 27 ∧ cp = 0xAC00 + 588 * l + 28 * v + t :=
  ⟨(cp - 0xAC00) / 588, (cp - 0xAC00) % 588 / 28, (cp - 0xAC00) % 588 % 28,
    by omega, by omega, by omega, by omega⟩

/-- The call `setChoseong` on the syllable with indices `l0`, `v`, `t`, for a
jamo with lead index `l`. -/
theorem setChoseong_of_indices (l0 v t : Nat) (hl0 : l0 ≤ 18) (hv : v ≤ 20) (ht : t ≤ 27)
    (j : HangulJamo) (l : Nat) (hj : _hangulJamoToChoseong j = .ok l) (hl : l ≤ 18) :
    (Character.mk (0xAC00 + 588 * l0 + 28 * v + t)).setChoseong j =
      (⟨0xAC00 + 588 * l + 28 * v + t⟩, .ok ()) := by
  have ty := (getters_of_indices l0 v t hl0 hv ht).1
  have hne : l ≠ CI := by simp only [CI]; omega
  have hcp : ((0xAC00 + 588 * l0 + 28 * v + t + 2 ^ 32 -
      (0xAC00 + 588 * l0 + 28 * v + t + 2 ^ 32 - 0xac00) % 2 ^ 32 / 0x24c % 256 * 0x24c)
        % 2 ^ 32 + l * 0x24c) % 2 ^ 32 = 0xAC00 + 588 * l + 28 * v + t := by
    have h1 : (0xAC00 + 588 * l0 + 28 * v + t + 2 ^ 32 - 0xac00) % 2 ^ 32
        = 588 * l0 + 28 * v + t := by omega
    rw [h1]
    have h2 : (588 * l0 + 28 * v + t) / 0x24c % 256 = l0 := by omega
    rw [h2]
    omega
  simp only [Character.setChoseong, ty, ne_eq, not_true_eq_false, if_false,
    Character.setChoseongImpl, hj, if_neg hne, Character.unicodeCodepoint, hcp]
  rw [setUnicodeCodepoint_plain _ _ (syllable_not_positional _ (by omega))]

/-- The call `setJungseong` on the syllable with indices `l`, `v0`, `t`, for a
jamo with vowel index `v`. -/
theorem setJungseong_of_indices (l v0 t : Nat) (hl : l ≤ 18) (hv0 : v0 ≤ 20) (ht : t ≤ 27)
    (j : HangulJamo) (v : Nat) (hj : _hangulJamoToJungseong j = .ok v) (hv : v ≤ 20) :
    (Character.mk (0xAC00 + 588 * l + 28 * v0 + t)).setJungseong j =
      (⟨0xAC00 + 588 * l + 28 * v + t⟩, .ok ()) := by
  have ty := (getters_of_indices l v0 t hl hv0 ht).1
  have hne : v ≠ CI := by simp only [CI]; omega
  have hcp : ((0xAC00 + 588 * l + 28 * v0 + t + 2 ^ 32 -
      (0xAC00 + 588 * l + 28 * v0 + t + 2 ^ 32 - 0xac00) % 2 ^ 32 % 0x24c / 0x1c % 256 * 0x1c)
        % 2 ^ 32 + v * 0x1c) % 2 ^ 32 = 0xAC00 + 588 * l + 28 * v + t := by
    have h1 : (0xAC00 + 588 * l + 28 * v0 + t + 2 ^ 32 - 0xac00) % 2 ^ 32
        = 588 * l + 28 * v0 + t := by omega
    rw [h1]
    have h2 : (588 * l + 28 * v0 + t) % 0x24c / 0x1c % 256 = v0 := by omega
    rw [h2]
    omega
  simp only [Character.setJungseong, ty, ne_eq, not_true_eq_false, if_false,
    Character.setJungseongImpl, hj, if_neg hne, Character.unicodeCodepoint, hcp]
  rw [setUnicodeCodepoint_plain _ _ (syllable_not_positional _ (by omega))]

/-- The call `setJongseong` on the syllable with indices `l`, `v`, `t0`, for a
jamo with trail index `t`. -/
theorem setJongseong_of_indices (l v t0 : Nat) (hl : l ≤ 18) (hv : v ≤ 20) (ht0 : t0 ≤ 27)
    (j : HangulJamo) (t : Nat) (hj : _hangulJamoToJongseong j = .ok t) (ht : t ≤ 27) :
    (Character.mk (0xAC00 + 588 * l + 28 * v + t0)).setJongseong j =
      (⟨0xAC00 + 588 * l + 28 * v + t⟩, .ok ()) := by
  have ty := (getters_of_indices l v t0 hl hv ht0).1
  have hne : t ≠ CI := by simp only [CI]; omega
  have hcp : ((0xAC00 + 588 * l + 28 * v + t0 + 2 ^ 32 -
      (0xAC00 + 588 * l + 28 * v + t0 + 2 ^ 32 - 0xac00) % 2 ^ 32 % 0x24c % 0x1c % 256)
        % 2 ^ 32 + t) % 2 ^ 32 = 0xAC00 + 588 * l + 28 * v + t := by
    have h1 : (0xAC00 + 588 * l + 28 * v + t0 + 2 ^ 32 - 0xac00) % 2 ^ 32
        = 588 * l + 28 * v + t0 := by omega
    rw [h1]
    have h2 : (588 * l + 28 * v + t0) % 0x24c % 0x1c % 256 = t0 := by omega
    rw [h2]
    omega
  simp only [Character.setJongseong, ty, ne_eq, not_true_eq_false, if_false,
    Character.setJongseongImpl, hj, if_neg hne, Character.unicodeCodepoint, hcp]
  rw [setUnicodeCodepoint_plain _ _ (syllable_not_positional _ (by omega))]

/-- C21: for every Hangul syllable `c` (a codepoint of `0xAC00..0xD7A3`), whose
three getters return jamo, and every jamo `j`: if `j` is a valid lead, then
after `c.setChoseong(j)` the character is still a syllable, `choseong()` is
`j`, and `jungseong()` and `jongseong()` are as before; likewise
`setJungseong(j)` for a valid vowel changes only the vowel and
`setJongseong(j)` for a valid trail changes only the trail. -/
theorem setters_change_one_position (c : Character) (j : HangulJamo)
    (h1 : 0xAC00 ≤ c.unicodeCodepoint) (h2 : c.unicodeCodepoint ≤ 0xD7A3) :
    (∃ L V T, c.choseong = .ok L ∧ c.jungseong = .ok V ∧ c.jongseong = .ok T) ∧
    (∀ l, _hangulJamoToChoseong j = .ok l → l ≠ CI →
      ∃ c1, c.setChoseong j = (c1, .ok ()) ∧ c1.type = .HangulSyllable ∧
        0xAC00 ≤ c1.unicodeCodepoint ∧ c1.unicodeCodepoint ≤ 0xD7A3 ∧
        c1.choseong = .ok j ∧ c1.jungseong = c.jungseong ∧ c1.jongseong = c.jongseong) ∧
    (∀ v, _hangulJamoToJungseong j = .ok v → v ≠ CI →
      ∃ c1, c.setJungseong j = (c1, .ok ()) ∧ c1.type = .HangulSyllable ∧
        0xAC00 ≤ c1.unicodeCodepoint ∧ c1.unicodeCodepoint ≤ 0xD7A3 ∧
        c1.choseong = c.choseong ∧ c1.jungseong = .ok j ∧ c1.jongseong = c.jongseong) ∧
    (∀ t, _hangulJamoToJongseong j = .ok t → t ≠ CI →
      ∃ c1, c.setJongseong j = (c1, .ok ()) ∧ c1.type = .HangulSyllable ∧
        0xAC00 ≤ c1.unicodeCodepoint ∧ c1.unicodeCodepoint ≤ 0xD7A3 ∧
        c1.choseong = c.choseong ∧ c1.jungseong = c.jungseong ∧ c1.jongseong = .ok j) := by
  obtain ⟨cp⟩ := c
  simp only [Character.unicodeCodepoint] at h1 h2
  obtain ⟨l0, v0, t0, hl0, hv0, ht0, rfl⟩ := syllable_indices cp h1 h2
  obtain ⟨-, g1, g2, g3⟩ := getters_of_indices l0 v0 t0 hl0 hv0 ht0
  obtain ⟨⟨L, hL⟩, ⟨V, hV⟩, ⟨T, hT⟩⟩ := jamo_of_indices l0 v0 t0 hl0 hv0 ht0
  refine ⟨⟨L, V, T, by rw [g1, hL], by rw [g2, hV], by rw [g3, hT]⟩, ?_, ?_, ?_⟩
  · intro l hj hne
    obtain ⟨l', hl', hL'⟩ := choseong_table j
    rw [hj] at hl'
    cases hl'
    obtain ⟨hl18, hback⟩ := hL'.resolve_left hne
    obtain ⟨ty, k1, k2, k3⟩ := getters_of_indices l v0 t0 hl18 hv0 ht0
    refine ⟨_, setChoseong_of_indices l0 v0 t0 hl0 hv0 ht0 j l hj hl18, ty, ?_, ?_, ?_, ?_, ?_⟩
    · simp only [Character.unicodeCodepoint]; omega
    · simp only [Character.unicodeCodepoint]; omega
    · rw [k1, hback]
    · rw [k2, g2]
    · rw [k3, g3]
  · intro v hj hne
    obtain ⟨v', hv', hV'⟩ := jungseong_table j
    rw [hj] at hv'
    cases hv'
    obtain ⟨hv20, hback⟩ := hV'.resolve_left hne
    obtain ⟨ty, k1, k2, k3⟩ := getters_of_indices l0 v t0 hl0 hv20 ht0
    refine ⟨_, setJungseong_of_indices l0 v0 t0 hl0 hv0 ht0 j v hj hv20, ty, ?_, ?_, ?_, ?_, ?_⟩
    · simp only [Character.unicodeCodepoint]; omega
    · simp only [Character.unicodeCodepoint]; omega
    · rw [k1, g1]
    · rw [k2, hback]
    · rw [k3, g3]
  · intro t hj hne
    obtain ⟨t', ht', hT'⟩ := jongseong_table j
    rw [hj] at ht'
    cases ht'
    obtain ⟨ht27, hback⟩ := hT'.resolve_left hne
    obtain ⟨ty, k1, k2, k3⟩ := getters_of_indices l0 v0 t hl0 hv0 ht27
    refine ⟨_, setJongseong_of_indices l0 v0 t0 hl0 hv0 ht0 j t hj ht27, ty, ?_, ?_, ?_, ?_, ?_⟩
    · simp only [Character.unicodeCodepoint]; omega
    · simp only [Character.unicodeCodepoint]; omega
    · rw [k1, g1]
    · rw [k2, g2]
    · rw [k3, hback]

/-- Witness for `setters_change_one_position`: 한 (U+D55C) with the lead set to
Giyeok is 간 (U+AC04), with the vowel A and the trail Nieun as before. -/
theorem setters_change_one_position_witness :
    _hangulJamoToChoseong .Giyeok = .ok 0 ∧
    ∃ c1, (Character.mk 0xD55C).setChoseong .Giyeok = (c1, .ok ()) ∧
      c1.type = .HangulSyllable ∧
      0xAC00 ≤ c1.unicodeCodepoint ∧ c1.unicodeCodepoint ≤ 0xD7A3 ∧
      c1.choseong = .ok .Giyeok ∧ c1.jungseong = (Character.mk 0xD55C).jungseong ∧
      c1.jongseong = (Character.mk 0xD55C).jongseong :=
  ⟨by decide,
    (setters_change_one_position ⟨0xD55C⟩ .Giyeok (by decide) (by decide)).2.1 0 (by decide)
      (by decide)⟩


/-- The cast to a jamo does not raise `OperationNotSupported`. -/
theorem castToHangulJamo_ne_operationNotSupported (v : Nat) :
    castToHangulJamo v ≠ .error .operationNotSupported := by
  unfold castToHangulJamo
  cases h2 : HangulJamo.ofNat? v with
  | none =>
    simp only []
    intro h
    exact Err.noConfusion (Except.error.inj h)
  | some j =>
    simp only []
    intro h
    exact Except.noConfusion h

/-- A table read followed by the cast to a jamo does not raise `OperationNotSupported`. -/
theorem tableJamo_ne_operationNotSupported (table : List Nat) (i : Nat) :
    (tableRead table i >>= castToHangulJamo) ≠ .error .operationNotSupported := by
  unfold tableRead
  cases h1 : table[i]? with
  | none =>
    simp only [bind, Except.bind]
    intro h
    exact Err.noConfusion (Except.error.inj h)
  | some v =>
    simp only [bind, Except.bind]
    unfold castToHangulJamo
    cases h2 : HangulJamo.ofNat? v with
    | none =>
      simp only []
      intro h
      exact Err.noConfusion (Except.error.inj h)
    | some j =>
      simp only []
      intro h
      exact Except.noConfusion h

/-- The call `setHangulJamo` on a character of type `HangulJamo` returns normally. -/
theorem setHangulJamo_outcome (c : Character) (j : HangulJamo) (h : c.type = .HangulJamo) :
    (c.setHangulJamo j).2 = .ok () := by
  unfold Character.setHangulJamo
  rw [if_neg (not_not.mpr h)]
  unfold Character.setHangulJamoImpl
  obtain ⟨c1, h1⟩ := setUnicodeCodepoint_total c
    ((_hangulJamoToCompatibility j + 0x3131) % 2 ^ 32)
  simp only [h1]

/-- The call `setToHangulSyllableCode` on a syllable or a sentinel returns normally. -/
theorem setToHangulSyllableCode_outcome (c : Character) (code : Nat)
    (h : ¬ (c.type ≠ .HangulSyllable ∧ c.type ≠ .EncapsulatedNonHangulSyllable)) :
    (c.setToHangulSyllableCode code).2 = .ok () := by
  unfold Character.setToHangulSyllableCode
  rw [if_neg h]
  unfold Character.setToHangulSyllableCodeImpl
  obtain ⟨c1, h1⟩ := setUnicodeCodepoint_total c
    (if code = HangulSyllableCodeSymbol then initialCodepoint .EncapsulatedNonHangulSyllable
      else (code + 0xac00) % 2 ^ 32)
  simp only [h1]

/-- C22: for every `Character` `c`: each of `choseong()`, `jungseong()`,
`jongseong()`, `setChoseong(j)`, `setJungseong(j)`, `setJongseong(j)` raises
`OperationNotSupported` if and only if `c.type()` is not `HangulSyllable`;
`hangulJamo()` and `setHangulJamo(j)` raise it if and only if `c.type()` is not
`HangulJamo`; `hangulSyllableCode()` (and `setToHangulSyllableCode(code)`)
raises it if and only if `c.type()` is neither `HangulSyllable` nor
`EncapsulatedNonHangulSyllable`; a setter that raises it leaves `c` unchanged. -/
theorem operationNotSupported_iff (c : Character) (j : HangulJamo) (code : Nat) :
    (c.choseong = .error .operationNotSupported ↔ c.type ≠ .HangulSyllable) ∧
    (c.jungseong = .error .operationNotSupported ↔ c.type ≠ .HangulSyllable) ∧
    (c.jongseong = .error .operationNotSupported ↔ c.type ≠ .HangulSyllable) ∧
    (((c.setChoseong j).2 = .error .operationNotSupported ↔ c.type ≠ .HangulSyllable) ∧
      ((c.setChoseong j).2 = .error .operationNotSupported → (c.setChoseong j).1 = c)) ∧
    (((c.setJungseong j).2 = .error .operationNotSupported ↔ c.type ≠ .HangulSyllable) ∧
      ((c.setJungseong j).2 = .error .operationNotSupported → (c.setJungseong j).1 = c)) ∧
    (((c.setJongseong j).2 = .error .operationNotSupported ↔ c.type ≠ .HangulSyllable) ∧
      ((c.setJongseong j).2 = .error .operationNotSupported → (c.setJongseong j).1 = c)) ∧
    (c.hangulJamo = .error .operationNotSupported ↔ c.type ≠ .HangulJamo) ∧
    (((c.setHangulJamo j).2 = .error .operationNotSupported ↔ c.type ≠ .HangulJamo) ∧
      ((c.setHangulJamo j).2 = .error .operationNotSupported → (c.setHangulJamo j).1 = c)) ∧
    (c.hangulSyllableCode = .error .operationNotSupported ↔
      (c.type ≠ .HangulSyllable ∧ c.type ≠ .EncapsulatedNonHangulSyllable)) ∧
    (((c.setToHangulSyllableCode code).2 = .error .operationNotSupported ↔
        (c.type ≠ .HangulSyllable ∧ c.type ≠ .EncapsulatedNonHangulSyllable)) ∧
      ((c.setToHangulSyllableCode code).2 = .error .operationNotSupported →
        (c.setToHangulSyllableCode code).1 = c)) := by
  have hget : ∀ (r : Except Err HangulJamo), r ≠ .error .operationNotSupported →
      ((if c.type ≠ .HangulSyllable then .error .operationNotSupported else r) =
        .error .operationNotSupported ↔ c.type ≠ .HangulSyllable) := by
    intro r hr
    by_cases ht : c.type ≠ .HangulSyllable
    · rw [if_pos ht]
      exact ⟨fun _ => ht, fun _ => rfl⟩
    · rw [if_neg ht]
      exact ⟨fun h => absurd h hr, fun h => absurd h ht⟩
  have hset : ∀ (r : Character × Except Err Unit),
      (c.type ≠ .HangulSyllable → r = (c, .error .operationNotSupported)) →
      (c.type = .HangulSyllable → r.2 = .error .invalidArgument ∨ r.2 = .ok ()) →
      ((r.2 = .error .operationNotSupported ↔ c.type ≠ .HangulSyllable) ∧
        (r.2 = .error .operationNotSupported → r.1 = c)) := by
    intro r h1 h2
    by_cases ht : c.type ≠ .HangulSyllable
    · rw [h1 ht]
      exact ⟨⟨fun _ => ht, fun _ => rfl⟩, fun _ => rfl⟩
    · have ht' : c.type = .HangulSyllable := not_not.1 ht
      rcases h2 ht' with h | h
      · rw [h]
        exact ⟨⟨fun x => (nomatch x), fun x => absurd x ht⟩, fun x => (nomatch x)⟩
      · rw [h]
        exact ⟨⟨fun x => (nomatch x), fun x => absurd x ht⟩, fun x => (nomatch x)⟩
  refine ⟨?_, ?_, ?_, ?_, ?_, ?_, ?_, ?_, ?_, ?_⟩
  · unfold Character.choseong
    refine hget _ ?_
    unfold Character.choseongImpl _choseongToHangulJamo
    exact tableJamo_ne_operationNotSupported _ _
  · unfold Character.jungseong
    refine hget _ ?_
    unfold Character.jungseongImpl _jungseongToHangulJamo
    exact tableJamo_ne_operationNotSupported _ _
  · unfold Character.jongseong
    refine hget _ ?_
    unfold Character.jongseongImpl _jongseongToHangulJamo
    exact tableJamo_ne_operationNotSupported _ _
  · refine hset _ (fun ht => by unfold Character.setChoseong; rw [if_pos ht]) (fun ht => ?_)
    obtain ⟨l, hl, h1, h2⟩ := setChoseong_outcome c j ht
    by_cases hc : l = CI
    · exact Or.inl (by rw [h1 hc])
    · exact Or.inr (h2 hc)
  · refine hset _ (fun ht => by unfold Character.setJungseong; rw [if_pos ht]) (fun ht => ?_)
    obtain ⟨l, hl, h1, h2⟩ := setJungseong_outcome c j ht
    by_cases hc : l = CI
    · exact Or.inl (by rw [h1 hc])
    · exact Or.inr (h2 hc)
  · refine hset _ (fun ht => by unfold Character.setJongseong; rw [if_pos ht]) (fun ht => ?_)
    obtain ⟨l, hl, h1, h2⟩ := setJongseong_outcome c j ht
    by_cases hc : l = CI
    · exact Or.inl (by rw [h1 hc])
    · exact Or.inr (h2 hc)
  · unfold Character.hangulJamo
    by_cases ht : c.type ≠ .HangulJamo
    · rw [if_pos ht]
      exact ⟨fun _ => ht, fun _ => rfl⟩
    · rw [if_neg ht]
      refine ⟨fun h => ?_, fun h => absurd h ht⟩
      exact absurd h (castToHangulJamo_ne_operationNotSupported _)
  · by_cases ht : c.type ≠ .HangulJamo
    · have e : c.setHangulJamo j = (c, .error .operationNotSupported) := by
        unfold Character.setHangulJamo; rw [if_pos ht]
      rw [e]
      exact ⟨⟨fun _ => ht, fun _ => rfl⟩, fun _ => rfl⟩
    · rw [setHangulJamo_outcome c j (not_not.1 ht)]
      exact ⟨⟨fun x => (nomatch x), fun x => absurd x ht⟩, fun x => (nomatch x)⟩
  · unfold Character.hangulSyllableCode
    by_cases ht : c.type ≠ .HangulSyllable ∧ c.type ≠ .EncapsulatedNonHangulSyllable
    · rw [if_pos ht]
      exact ⟨fun _ => ht, fun _ => rfl⟩
    · rw [if_neg ht]
      exact ⟨fun x => (nomatch x), fun x => absurd x ht⟩
  · by_cases ht : c.type ≠ .HangulSyllable ∧ c.type ≠ .EncapsulatedNonHangulSyllable
    · have e : c.setToHangulSyllableCode code = (c, .error .operationNotSupported) := by
        unfold Character.setToHangulSyllableCode; rw [if_pos ht]
      rw [e]
      exact ⟨⟨fun _ => ht, fun _ => rfl⟩, fun _ => rfl⟩
    · rw [setToHangulSyllableCode_outcome c code ht]
      exact ⟨⟨fun x => (nomatch x), fun x => absurd x ht⟩, fun x => (nomatch x)⟩


/-- C30 (amended): for every Hangul syllable (a codepoint of `0xAC00..0xD7A3`)
`toHangulString` produces three bytes: the first (lead) lies in `1..19`, the
second (vowel) in `1..21` and the third (trail) in `1..28`, where 1 stands
for "no trail"; none of them is 29 or 0, and 29 is the byte of ENCAP. -/
theorem syllable_bytes (c : Nat) (h1 : 0xAC00 ≤ c) (h2 : c ≤ 0xD7A3) :
    (∃ b1 b2 b3, String.toHangulString ⟨[c]⟩ = .ok [b1, b2, b3] ∧
      (1 ≤ b1 ∧ b1 ≤ 19) ∧ (1 ≤ b2 ∧ b2 ≤ 21) ∧ (1 ≤ b3 ∧ b3 ≤ 28) ∧
      (b3 = 1 ↔ (Character.mk c).jongseong = .ok .None) ∧
      b1 ≠ 29 ∧ b2 ≠ 29 ∧ b3 ≠ 29 ∧ b1 ≠ 0 ∧ b2 ≠ 0 ∧ b3 ≠ 0) ∧
    String.toHangulString ⟨[EncapsulatedNonHangulCode]⟩ = .ok [29] := by
  refine ⟨?_, by decide⟩
  have hpos : isSyllableCodepoint c = true := by
    simp only [isSyllableCodepoint, Bool.and_eq_true, decide_eq_true_iff]
    omega
  have hne : c ≠ EncapsulatedNonHangulCode := syllable_ne_sentinel c hpos
  have hb : hangulBytes c = .ok (specHangulBytes c) := by
    rcases hangulBytes_spec c with ⟨hf, -, -⟩ | ⟨-, h⟩
    · rw [hpos] at hf
      cases hf
    · exact h
  have hs : String.toHangulString ⟨[c]⟩ = .ok (specHangulBytes c) := by
    rw [toHangulString_eq]
    simp only [hangulBytesAll, hb, List.append_nil]
  unfold specHangulBytes at hs
  rw [if_neg hne] at hs
  obtain ⟨l, v, t, hl, hv, ht, rfl⟩ := syllable_indices c h1 h2
  have e1 : (0xAC00 + 588 * l + 28 * v + t - 0xAC00) / 588 = l := by omega
  have e2 : (0xAC00 + 588 * l + 28 * v + t - 0xAC00) % 588 / 28 = v := by omega
  have e3 : (0xAC00 + 588 * l + 28 * v + t - 0xAC00) % 588 % 28 = t := by omega
  rw [e1, e2, e3] at hs
  refine ⟨_, _, _, hs, ⟨by omega, by omega⟩, ⟨by omega, by omega⟩, ⟨by omega, by omega⟩, ?_,
    by omega, by omega, by omega, by omega, by omega, by omega⟩
  rw [(getters_of_indices l v t hl hv ht).2.2.2]
  constructor
  · intro h0
    have : t = 0 := by omega
    subst this
    rfl
  · intro hn
    by_contra hc
    have ht1 : 1 ≤ t := by omega
    interval_cases t <;> cases hn

/-- Witness for `syllable_bytes`: 힣 (U+D7A3), the last syllable, gives the bytes
19, 21, 28. -/
theorem syllable_bytes_witness :
    String.toHangulString ⟨[0xD7A3]⟩ = .ok [19, 21, 28] ∧
    ∃ b1 b2 b3, String.toHangulString ⟨[0xD7A3]⟩ = .ok [b1, b2, b3] ∧
      (1 ≤ b1 ∧ b1 ≤ 19) ∧ (1 ≤ b2 ∧ b2 ≤ 21) ∧ (1 ≤ b3 ∧ b3 ≤ 28) ∧
      (b3 = 1 ↔ (Character.mk 0xD7A3).jongseong = .ok .None) ∧
      b1 ≠ 29 ∧ b2 ≠ 29 ∧ b3 ≠ 29 ∧ b1 ≠ 0 ∧ b2 ≠ 0 ∧ b3 ≠ 0 :=
  ⟨by decide, (syllable_bytes 0xD7A3 (by decide) (by decide)).1⟩

/-- Counterexample to C30 as stated: for 가 (U+AC00) `toHangulString` produces
the bytes 1, 1, 1, so the vowel byte is not in `20..40` and the trail byte,
which stands for "no trail", is 1 and not 41; for 힣 (U+D7A3) it produces
19, 21, 28. -/
theorem syllable_bytes_of_ga :
    String.toHangulString ⟨[0xAC00]⟩ = .ok [1, 1, 1] ∧
    (Character.mk 0xAC00).jongseong = .ok .None ∧
    ¬ (20 ≤ 1 ∧ 1 ≤ 40) ∧ ¬ (41 ≤ 1 ∧ 1 ≤ 51) ∧
    String.toHangulString ⟨[0xD7A3]⟩ = .ok [19, 21, 28] ∧ ¬ (41 ≤ 28 ∧ 28 ≤ 51) := by
  decide

/-! ## Claims: the stored codepoints of a `String` -/

/-- The codepoint `setUnicodeCodepoint` stores is never positional. -/
theorem setUnicodeCodepoint_stored (c : Character) (p : Nat) :
    ∃ c1, c.setUnicodeCodepoint p = .ok c1 ∧
      isPositionalUnicodeJamoCodepoint c1.codepoint = false := by
  by_cases h : isPositionalUnicodeJamoCodepoint p = true
  · obtain ⟨j, hj, hc, -, hn⟩ := positional_jamo p h
    refine ⟨_, setUnicodeCodepoint_positional c p j h hj hc hn, ?_⟩
    show isPositionalUnicodeJamoCodepoint (0x3131 + j.toNat) = false
    rw [Nat.add_comm, ← hc]
    exact hn
  · exact ⟨_, setUnicodeCodepoint_plain c p (by simpa using h), by simpa using h⟩

/-- The character after a store through `setUnicodeCodepoint` is not positional. -/
theorem stored_of_match (c : Character) (p : Nat) :
    isPositionalUnicodeJamoCodepoint
      (match c.setUnicodeCodepoint p with
        | .ok c1 => ((c1, .ok ()) : Character × Except Err Unit)
        | .error e => (c, .error e)).1.codepoint = false := by
  obtain ⟨c1, h1, h2⟩ := setUnicodeCodepoint_stored c p
  rw [h1]
  exact h2

/-- The call `setChoseong` leaves no positional codepoint. -/
theorem setChoseong_stored (c : Character) (j : HangulJamo)
    (h : isPositionalUnicodeJamoCodepoint c.codepoint = false) :
    isPositionalUnicodeJamoCodepoint (c.setChoseong j).1.codepoint = false := by
  unfold Character.setChoseong
  split
  · exact h
  · unfold Character.setChoseongImpl
    split
    · exact h
    · simp only []
      split
      · exact h
      · exact stored_of_match c _

/-- The call `setJungseong` leaves no positional codepoint. -/
theorem setJungseong_stored (c : Character) (j : HangulJamo)
    (h : isPositionalUnicodeJamoCodepoint c.codepoint = false) :
    isPositionalUnicodeJamoCodepoint (c.setJungseong j).1.codepoint = false := by
  unfold Character.setJungseong
  split
  · exact h
  · unfold Character.setJungseongImpl
    split
    · exact h
    · simp only []
      split
      · exact h
      · exact stored_of_match c _

/-- The call `setJongseong` leaves no positional codepoint. -/
theorem setJongseong_stored (c : Character) (j : HangulJamo)
    (h : isPositionalUnicodeJamoCodepoint c.codepoint = false) :
    isPositionalUnicodeJamoCodepoint (c.setJongseong j).1.codepoint = false := by
  unfold Character.setJongseong
  split
  · exact h
  · unfold Character.setJongseongImpl
    split
    · exact h
    · simp only []
      split
      · exact h
      · exact stored_of_match c _

/-- A mutating method of `Character` leaves no positional codepoint. -/
theorem call_stored (c : Character) (op : CharacterCall)
    (h : isPositionalUnicodeJamoCodepoint c.codepoint = false) :
    isPositionalUnicodeJamoCodepoint (c.call op).1.codepoint = false := by
  cases op with
  | setUnicodeCodepoint p =>
    obtain ⟨c1, h1, h2⟩ := setUnicodeCodepoint_stored c p
    simp only [Character.call, h1]
    exact h2
  | setChoseong j =>
    simp only [Character.call]
    exact setChoseong_stored c j h
  | setJungseong j =>
    simp only [Character.call]
    exact setJungseong_stored c j h
  | setJongseong j =>
    simp only [Character.call]
    exact setJongseong_stored c j h
  | setHangulJamo j =>
    simp only [Character.call]
    unfold Character.setHangulJamo
    split
    · exact h
    · unfold Character.setHangulJamoImpl
      obtain ⟨c1, h1, h2⟩ := setUnicodeCodepoint_stored c
        ((_hangulJamoToCompatibility j + 0x3131) % 2 ^ 32)
      simp only [h1]
      exact h2
  | setToHangulSyllableCode code =>
    simp only [Character.call]
    unfold Character.setToHangulSyllableCode
    split
    · exact h
    · unfold Character.setToHangulSyllableCodeImpl
      obtain ⟨c1, h1, h2⟩ := setUnicodeCodepoint_stored c
        (if code = HangulSyllableCodeSymbol then initialCodepoint .EncapsulatedNonHangulSyllable
          else (code + 0xac00) % 2 ^ 32)
      simp only [h1]
      exact h2

/-- The loop of `_normalize` returns, and leaves no positional codepoint. -/
theorem normalizeLoop_spec (l : List Nat) :
    ∃ r, normalizeLoop l = .ok r ∧ ∀ c ∈ r, isPositionalUnicodeJamoCodepoint c = false := by
  induction l with
  | nil => exact ⟨[], rfl, fun c hc => by cases hc⟩
  | cons ch rest ih =>
    obtain ⟨r, h1, h2⟩ := ih
    by_cases hp : isPositionalUnicodeJamoCodepoint ch = true
    · obtain ⟨c1, e1, e2⟩ := setUnicodeCodepoint_stored ⟨ch⟩ ch
      refine ⟨c1.codepoint :: r, ?_, fun c hc => ?_⟩
      · unfold normalizeLoop
        rw [if_pos hp, e1, h1]
        rfl
      · rcases List.mem_cons.1 hc with h | h
        · rw [h]; exact e2
        · exact h2 c h
    · refine ⟨ch :: r, ?_, fun c hc => ?_⟩
      · unfold normalizeLoop
        rw [if_neg hp, h1]
        rfl
      · rcases List.mem_cons.1 hc with h | h
        · rw [h]; simpa using hp
        · exact h2 c h

/-- The function `_normalize` leaves no positional codepoint. -/
theorem normalize_spec (s r : String) (h : s._normalize = .ok r) :
    ∀ c ∈ r._str, isPositionalUnicodeJamoCodepoint c = false := by
  obtain ⟨l, h1, h2⟩ := normalizeLoop_spec s._str
  unfold String._normalize at h
  rw [h1] at h
  have e := Except.ok.inj h
  subst e
  exact h2

/-- The sentinel is not a positional codepoint. -/
theorem sentinel_not_positional :
    isPositionalUnicodeJamoCodepoint EncapsulatedNonHangulCode = false := by
  decide

/-- The loop of the constructor from a `HangulString` appends no positional codepoint. -/
theorem ofHangulLoop_stored (hstr jamos acc : List Nat)
    (hj : ∀ b ∈ jamos, b < 256)
    (ha : ∀ c ∈ acc, isPositionalUnicodeJamoCodepoint c = false) :
    ∀ c ∈ ofHangulLoop hstr jamos acc, isPositionalUnicodeJamoCodepoint c = false := by
  induction hstr generalizing jamos acc with
  | nil => exact ha
  | cons b bs ih =>
    unfold ofHangulLoop
    by_cases hb : b = NonHangulCode
    · rw [if_pos hb]
      refine ih jamos _ hj fun c hc => ?_
      rcases List.mem_append.1 hc with h | h
      · exact ha c h
      · rw [List.mem_singleton.1 h]
        exact sentinel_not_positional
    · rw [if_neg hb]
      have hj1 : ∀ x ∈ jamos ++ [(b + 255) % 256], x < 256 := by
        intro x hx
        rcases List.mem_append.1 hx with h | h
        · exact hj x h
        · rw [List.mem_singleton.1 h]
          exact Nat.mod_lt _ (by decide)
      simp only []
      by_cases hl : (jamos ++ [(b + 255) % 256]).length = 3
      · rw [if_pos hl]
        refine ih [] _ (fun x hx => by cases hx) fun c hc => ?_
        rcases List.mem_append.1 hc with h | h
        · exact ha c h
        · rw [List.mem_singleton.1 h]
          apply syllable_not_positional
          have b0 : ∀ k, (jamos ++ [(b + 255) % 256]).getD k 0 < 256 := by
            intro k
            rw [List.getD_eq_getElem?_getD]
            cases hk : (jamos ++ [(b + 255) % 256])[k]? with
            | none => simp
            | some v => exact hj1 v (List.getElem?_mem hk)
          have x0 := b0 0
          have x1 := b0 1
          have x2 := b0 2
          rw [Nat.mod_eq_of_lt (by omega)]
          omega
      · rw [if_neg hl]
        exact ih _ acc hj1 ha

/-- The codepoints of an encapsulated string are sentinels or codepoints of the
string, and the codepoints of its runs come from the open run or the string. -/
theorem encapsulated_mem (l : List Nat) :
    ∀ buf : List Nat,
      (∀ c ∈ (encapsulated l buf).1, c = EncapsulatedNonHangulCode ∨ c ∈ l) ∧
      (∀ r ∈ (encapsulated l buf).2, ∀ c ∈ r, c ∈ buf ∨ c ∈ l) := by
  induction l with
  | nil =>
    intro buf
    unfold encapsulated
    by_cases hb : buf = []
    · rw [if_pos hb]
      exact ⟨fun c hc => (by cases hc), fun r hr => (by cases hr)⟩
    · rw [if_neg hb]
      refine ⟨fun c hc => Or.inl (List.mem_singleton.1 hc), fun r hr c hc => ?_⟩
      rw [List.mem_singleton.1 hr] at hc
      exact Or.inl hc
  | cons x xs ih =>
    intro buf
    unfold encapsulated
    by_cases hs : isSyllableCodepoint x = true
    · rw [if_pos hs]
      obtain ⟨i1, i2⟩ := ih []
      by_cases hb : buf = []
      · rw [if_pos hb]
        refine ⟨fun c hc => ?_, fun r hr c hc => ?_⟩
        · rcases List.mem_cons.1 hc with h | h
          · exact Or.inr (by rw [h]; exact List.mem_cons_self _ _)
          · rcases i1 c h with h1 | h1
            · exact Or.inl h1
            · exact Or.inr (List.mem_cons_of_mem _ h1)
        · rcases i2 r hr c hc with h1 | h1
          · cases h1
          · exact Or.inr (List.mem_cons_of_mem _ h1)
      · rw [if_neg hb]
        refine ⟨fun c hc => ?_, fun r hr c hc => ?_⟩
        · rcases List.mem_cons.1 hc with h | h
          · exact Or.inl h
          · rcases List.mem_cons.1 h with h | h
            · exact Or.inr (by rw [h]; exact List.mem_cons_self _ _)
            · rcases i1 c h with h1 | h1
              · exact Or.inl h1
              · exact Or.inr (List.mem_cons_of_mem _ h1)
        · rcases List.mem_cons.1 hr with h | h
          · rw [h] at hc
            exact Or.inl hc
          · rcases i2 r h c hc with h1 | h1
            · cases h1
            · exact Or.inr (List.mem_cons_of_mem _ h1)
    · rw [if_neg hs]
      obtain ⟨i1, i2⟩ := ih (buf ++ [x])
      refine ⟨fun c hc => ?_, fun r hr c hc => ?_⟩
      · rcases i1 c hc with h1 | h1
        · exact Or.inl h1
        · exact Or.inr (List.mem_cons_of_mem _ h1)
      · rcases i2 r hr c hc with h1 | h1
        · rcases List.mem_append.1 h1 with h2 | h2
          · exact Or.inl h2
          · exact Or.inr (by rw [List.mem_singleton.1 h2]; exact List.mem_cons_self _ _)
        · exact Or.inr (List.mem_cons_of_mem _ h1)

/-- The codepoints of a string after a replacement come from the string or
from the replacement. -/
theorem replaceRange_mem (s : List Nat) (first last : Nat) (r : List Nat) :
    ∀ c ∈ replaceRange s first last r, c ∈ s ∨ c ∈ r := by
  intro c hc
  unfold replaceRange at hc
  rcases List.mem_append.1 hc with h | h
  · rcases List.mem_append.1 h with h1 | h1
    · exact Or.inl (List.mem_of_mem_take h1)
    · exact Or.inr h1
  · exact Or.inl (List.mem_of_mem_drop h)

/-- The codepoints of a restored string come from the string or from a run. -/
theorem restoreLoop_mem (fuel : Nat) :
    ∀ (str : List Nat) (i : Nat) (runs : List (List Nat)) (r : List Nat),
      restoreLoop fuel str i runs = some (.ok r) →
      ∀ c ∈ r, c ∈ str ∨ ∃ run ∈ runs, c ∈ run := by
  induction fuel with
  | zero =>
    intro str i runs r h
    unfold restoreLoop at h
    cases h
  | succ n ih =>
    intro str i runs r h c hc
    unfold restoreLoop at h
    by_cases h1 : i = str.length
    · rw [if_pos h1] at h
      have e := Except.ok.inj (Option.some.inj h)
      rw [← e] at hc
      exact Or.inl hc
    · rw [if_neg h1] at h
      by_cases h2 : str.length < i
      · rw [if_pos h2] at h
        exact Except.noConfusion (Option.some.inj h)
      · rw [if_neg h2] at h
        by_cases h3 : str.getD i 0 = EncapsulatedNonHangulCode
        · rw [if_pos h3] at h
          cases runs with
          | nil => exact Except.noConfusion (Option.some.inj h)
          | cons r0 rest =>
            simp only [] at h
            by_cases h4 : rest = []
            · rw [if_pos h4] at h
              have e := Except.ok.inj (Option.some.inj h)
              rw [← e] at hc
              rcases replaceRange_mem _ _ _ _ c hc with x | x
              · exact Or.inl x
              · exact Or.inr ⟨r0, List.mem_cons_self _ _, x⟩
            · rw [if_neg h4] at h
              rcases ih _ _ _ _ h c hc with x | ⟨run, x1, x2⟩
              · rcases replaceRange_mem _ _ _ _ c x with y | y
                · exact Or.inl y
                · exact Or.inr ⟨r0, List.mem_cons_self _ _, y⟩
              · exact Or.inr ⟨run, List.mem_cons_of_mem _ x1, x2⟩
        · rw [if_neg h3] at h
          exact ih _ _ _ _ h c hc

/-- The codepoints of a string after `restoreNonHangul` come from the string
or from a run of the sidecar. -/
theorem restoreOutcome_mem (a : String) (sidecar : EncapsulatedNonHangul) (r : String)
    (h : restoreOutcome (a.restoreNonHangul sidecar) = .ok r) :
    ∀ c ∈ r._str, c ∈ a._str ∨ ∃ run ∈ sidecar._nonHangulStrings, c ∈ run := by
  unfold String.restoreNonHangul at h
  simp only [] at h
  cases hl : restoreLoop (a._str.length + (sidecar._nonHangulStrings.map List.length).sum + 1)
      a._str 0 sidecar._nonHangulStrings with
  | none =>
    rw [hl] at h
    exact Except.noConfusion h
  | some x =>
    rw [hl] at h
    cases x with
    | error e => exact Except.noConfusion h
    | ok str =>
      have e : (⟨str⟩ : String) = r := Except.ok.inj h
      rw [← e]
      exact restoreLoop_mem _ _ _ _ _ hl

/-- No string made through the public operations stores a positional codepoint. -/
theorem eval_stored (e : StringTerm) :
    ∀ s, e.eval = .ok s → ∀ c ∈ s._str, isPositionalUnicodeJamoCodepoint c = false := by
  induction e with
  | empty =>
    intro s h c hc
    have e := Except.ok.inj h
    rw [← e] at hc
    cases hc
  | ofCharacter ch =>
    intro s h
    exact normalize_spec _ s h
  | ofCodepoints decoded =>
    intro s h
    exact normalize_spec _ s h
  | ofHangulString hstr =>
    intro s h
    have e := Except.ok.inj h
    rw [← e]
    exact ofHangulLoop_stored hstr [] [] (fun b hb => by cases hb) (fun c hc => by cases hc)
  | append s str ih1 ih2 =>
    intro r h c hc
    unfold StringTerm.eval at h
    cases ha : s.eval with
    | error e => rw [ha] at h; exact Except.noConfusion h
    | ok a =>
      cases hb : str.eval with
      | error e => rw [ha, hb] at h; exact Except.noConfusion h
      | ok b =>
        rw [ha, hb] at h
        have e := Except.ok.inj h
        rw [← e] at hc
        rcases List.mem_append.1 hc with x | x
        · exact ih1 a ha c x
        · exact ih2 b hb c x
  | appendCharacter s ch ih =>
    intro r h
    unfold StringTerm.eval at h
    cases ha : s.eval with
    | error e => rw [ha] at h; exact Except.noConfusion h
    | ok a =>
      rw [ha] at h
      exact normalize_spec _ r h
  | prepend s str ih1 ih2 =>
    intro r h c hc
    unfold StringTerm.eval at h
    cases ha : s.eval with
    | error e => rw [ha] at h; exact Except.noConfusion h
    | ok a =>
      cases hb : str.eval with
      | error e => rw [ha, hb] at h; exact Except.noConfusion h
      | ok b =>
        rw [ha, hb] at h
        have e := Except.ok.inj h
        rw [← e] at hc
        rcases List.mem_append.1 hc with x | x
        · exact ih2 b hb c x
        · exact ih1 a ha c x
  | prependCharacter s ch ih =>
    intro r h
    unfold StringTerm.eval at h
    cases ha : s.eval with
    | error e => rw [ha] at h; exact Except.noConfusion h
    | ok a =>
      rw [ha] at h
      exact normalize_spec _ r h
  | substring s start end_ ih =>
    intro r h c hc
    unfold StringTerm.eval at h
    cases ha : s.eval with
    | error e => rw [ha] at h; exact Except.noConfusion h
    | ok a =>
      rw [ha] at h
      have e := Except.ok.inj h
      rw [← e] at hc
      exact ih a ha c (List.mem_of_mem_drop (List.mem_of_mem_take hc))
  | clear s ih =>
    intro r h c hc
    unfold StringTerm.eval at h
    cases ha : s.eval with
    | error e => rw [ha] at h; exact Except.noConfusion h
    | ok a =>
      rw [ha] at h
      have e := Except.ok.inj h
      rw [← e] at hc
      cases hc
  | encapsulateNonHangul s ih =>
    intro r h c hc
    unfold StringTerm.eval at h
    cases ha : s.eval with
    | error e => rw [ha] at h; exact Except.noConfusion h
    | ok a =>
      rw [ha] at h
      simp only [bind, Except.bind, encapsulateNonHangul_eq] at h
      have e := Except.ok.inj h
      rw [← e] at hc
      rcases (encapsulated_mem a._str []).1 c hc with x | x
      · rw [x]; exact sentinel_not_positional
      · exact ih a ha c x
  | restoreNonHangul s origin ih1 ih2 =>
    intro r h c hc
    unfold StringTerm.eval at h
    cases ha : s.eval with
    | error e => rw [ha] at h; exact Except.noConfusion h
    | ok a =>
      cases hb : origin.eval with
      | error e => rw [ha, hb] at h; exact Except.noConfusion h
      | ok o =>
        rw [ha, hb] at h
        simp only [bind, Except.bind, encapsulateNonHangul_eq] at h
        rcases restoreOutcome_mem a _ r h c hc with x | ⟨run, x1, x2⟩
        · exact ih1 a ha c x
        · rcases (encapsulated_mem o._str []).2 run x1 c x2 with y | y
          · cases y
          · exact ih2 o hb c y
  | restoreNonHangulEmpty s ih =>
    intro r h c hc
    unfold StringTerm.eval at h
    cases ha : s.eval with
    | error e => rw [ha] at h; exact Except.noConfusion h
    | ok a =>
      rw [ha] at h
      simp only [bind, Except.bind] at h
      rcases restoreOutcome_mem a _ r h c hc with x | ⟨run, x1, x2⟩
      · exact ih a ha c x
      · cases x1
  | mutateAt s i call ih =>
    intro r h c hc
    unfold StringTerm.eval at h
    cases ha : s.eval with
    | error e => rw [ha] at h; exact Except.noConfusion h
    | ok a =>
      rw [ha] at h
      simp only [bind, Except.bind] at h
      unfold String.mutateAt at h
      by_cases hi : i < a._str.length
      · rw [if_pos hi] at h
        simp only [] at h
        have e := Except.ok.inj h
        rw [← e] at hc
        simp only [] at hc
        rcases List.mem_or_eq_of_mem_set hc with x | x
        · exact ih a ha c x
        · rw [x]
          refine call_stored _ call ?_
          rw [List.getD_eq_getElem _ _ hi]
          exact ih a ha _ (List.getElem_mem _)
      · rw [if_neg hi] at h
        exact Except.noConfusion h

/-- C23: in every `String` made through the public operations (construction
from a `Character`, a codepoint sequence or a `HangulString`; `append`;
`prepend`; `substring`; `clear`; `encapsulateNonHangul`; `restoreNonHangul`;
mutation through a character reference), no stored codepoint lies in a
positional-jamo block (U+1100..U+1112, U+1161..U+1175, U+11A8..U+11C2). -/
theorem reachable_no_positional (e : StringTerm) (s : String) (h : e.eval = .ok s) :
    ∀ c ∈ s._str, ¬ ((0x1100 ≤ c ∧ c ≤ 0x1112) ∨ (0x1161 ≤ c ∧ c ≤ 0x1175) ∨
      (0x11A8 ≤ c ∧ c ≤ 0x11C2)) := by
  intro c hc
  have := eval_stored e s h c hc
  simp only [isPositionalUnicodeJamoCodepoint, Bool.or_eq_false_iff, Bool.and_eq_false_iff,
    decide_eq_false_iff_not] at this
  omega

/-- C23 at the string made by `String("ᆫ가")`, `append` of U+1100 and a
store of U+1161 through `characterAt(1)`: the string is ㄴㅏㄱ (U+3134, U+314F,
U+3131), and its second codepoint is not positional. -/
theorem reachable_no_positional_witness :
    (StringTerm.mutateAt (.appendCharacter (.ofCodepoints [0x11AB, 0xAC00]) ⟨0x1100⟩) 1
      (.setUnicodeCodepoint 0x1161)).eval = .ok ⟨[0x3134, 0x314F, 0x3131]⟩ ∧
    ¬ ((0x1100 ≤ 0x314F ∧ 0x314F ≤ 0x1112) ∨ (0x1161 ≤ 0x314F ∧ 0x314F ≤ 0x1175) ∨
      (0x11A8 ≤ 0x314F ∧ 0x314F ≤ 0x11C2)) :=
  ⟨by decide,
    reachable_no_positional
      (.mutateAt (.appendCharacter (.ofCodepoints [0x11AB, 0xAC00]) ⟨0x1100⟩) 1
        (.setUnicodeCodepoint 0x1161))
      ⟨[0x3134, 0x314F, 0x3131]⟩ (by decide) 0x314F (by decide)⟩

/-! ## Claims: `findMatchesEndingWithJamo` -/

/-- On a character of type `HangulSyllable` the vowel and the trail can be read. -/
theorem vowel_trail_total (c : Character) (h : c.type = .HangulSyllable) :
    (∃ V, c.jungseong = .ok V) ∧ (∃ T, c.jongseong = .ok T) := by
  constructor
  · unfold Character.jungseong
    rw [if_neg (not_not.2 h)]
    unfold Character.jungseongImpl
    exact (jamo_of_indices 0 _ 0 (by omega) (by omega) (by omega)).2.1
  · unfold Character.jongseong
    rw [if_neg (not_not.2 h)]
    unfold Character.jongseongImpl
    exact (jamo_of_indices 0 0 _ (by omega) (by omega) (by omega)).2.2

/-- On a character of type `HangulJamo` the jamo can be read. -/
theorem hangulJamo_total (c : Character) (h : c.type = .HangulJamo) :
    ∃ j, c.hangulJamo = .ok j := by
  have hr : 0x3131 ≤ c.unicodeCodepoint ∧ c.unicodeCodepoint ≤ 0x3163 := by
    unfold Character.type at h
    simp only [] at h
    by_cases h1 : 0xac00 ≤ c.unicodeCodepoint ∧ c.unicodeCodepoint ≤ 0xd7af
    · rw [if_pos h1] at h
      exact CharacterType.noConfusion h
    · rw [if_neg h1] at h
      by_cases h2 : 0x3131 ≤ c.unicodeCodepoint ∧ c.unicodeCodepoint ≤ 0x3163
      · exact h2
      · rw [if_neg h2] at h
        by_cases h3 : c.unicodeCodepoint = EncapsulatedNonHangulCode
        · rw [if_pos h3] at h
          exact CharacterType.noConfusion h
        · rw [if_neg h3] at h
          exact CharacterType.noConfusion h
  unfold Character.hangulJamo
  rw [if_neg (not_not.2 h)]
  unfold Character.hangulJamoImpl
  have hk : (c.unicodeCodepoint + 2 ^ 32 - 0x3131) % 2 ^ 32 % 256 ≤ 50 := by omega
  generalize (c.unicodeCodepoint + 2 ^ 32 - 0x3131) % 2 ^ 32 % 256 = k at hk
  interval_cases k <;> exact ⟨_, rfl⟩

/-- The condition of the loop of `findMatchesEndingWithJamo` can be evaluated, and
holds exactly for a character of type `HangulSyllable` whose vowel or trail is
the jamo and for a character of type `HangulJamo` that is the jamo. -/
theorem matchesEndingWithJamo_spec (c : Character) (J : HangulJamo) :
    ∃ b, matchesEndingWithJamo c J = .ok b ∧
      (b = true ↔
        ((c.type = .HangulSyllable ∧ (c.jungseong = .ok J ∨ c.jongseong = .ok J)) ∨
          (c.type = .HangulJamo ∧ c.hangulJamo = .ok J))) := by
  unfold matchesEndingWithJamo
  by_cases h1 : c.type = .HangulSyllable
  · rw [if_pos h1]
    obtain ⟨⟨V, hV⟩, ⟨T, hT⟩⟩ := vowel_trail_total c h1
    rw [hV, hT]
    simp only [bind, Except.bind]
    have hne : ¬ c.type = .HangulJamo := by rw [h1]; exact fun h => CharacterType.noConfusion h
    by_cases hv : V = J
    · rw [if_pos hv]
      refine ⟨true, rfl, ?_⟩
      rw [hv]
      exact ⟨fun _ => Or.inl ⟨h1, Or.inl rfl⟩, fun _ => rfl⟩
    · rw [if_neg hv]
      refine ⟨decide (T = J), rfl, ?_⟩
      rw [decide_eq_true_iff]
      constructor
      · intro h
        exact Or.inl ⟨h1, Or.inr (by rw [h])⟩
      · rintro (⟨-, h | h⟩ | ⟨h, -⟩)
        · exact absurd (Except.ok.inj h) hv
        · exact Except.ok.inj h
        · exact absurd h hne
  · rw [if_neg h1]
    by_cases h2 : c.type = .HangulJamo
    · rw [if_pos h2]
      obtain ⟨j, hj⟩ := hangulJamo_total c h2
      rw [hj]
      simp only [bind, Except.bind]
      refine ⟨decide (j = J), rfl, ?_⟩
      rw [decide_eq_true_iff]
      constructor
      · intro h
        exact Or.inr ⟨h2, by rw [h]⟩
      · rintro (⟨h, -⟩ | ⟨-, h⟩)
        · exact absurd h h1
        · exact Except.ok.inj h
    · rw [if_neg h2]
      refine ⟨false, rfl, ?_⟩
      constructor
      · intro h
        cases h
      · rintro (⟨h, -⟩ | ⟨h, -⟩)
        · exact absurd h h1
        · exact absurd h h2

/-- An offset below `2 ^ 31` is stored as it is. -/
theorem castToInt_of_lt (k : Nat) (h : k < 2 ^ 31) : castToInt k = k := by
  unfold castToInt
  omega

/-- The loop of `findMatchesEndingWithJamo`: it appends, in ascending order, the
offsets of the characters for which the condition holds. -/
theorem findMatchesLoop_spec (J : HangulJamo) (l : List Nat) :
    ∀ (k : Nat) (result : List Int), k + l.length ≤ 2 ^ 31 →
      ∃ r, findMatchesLoop J l k result = .ok (result ++ r) ∧
        r.Pairwise (fun a b => a < b) ∧
        ∀ x : Int, x ∈ r ↔
          ∃ n : Nat, x = ((k + n : Nat) : Int) ∧ n < l.length ∧
            matchesEndingWithJamo ⟨l.getD n 0⟩ J = .ok true := by
  induction l with
  | nil =>
    intro k result _
    refine ⟨[], by simp [findMatchesLoop], List.Pairwise.nil, fun x => ?_⟩
    constructor
    · intro h; cases h
    · rintro ⟨n, -, h, -⟩
      cases h
  | cons ch rest ih =>
    intro k result hk
    simp only [List.length_cons] at hk
    obtain ⟨b, hb, -⟩ := matchesEndingWithJamo_spec ⟨ch⟩ J
    obtain ⟨r, h1, h2, h3⟩ := ih (k + 1) (if b then result ++ [castToInt k] else result)
      (by omega)
    have hc : castToInt k = (k : Int) := castToInt_of_lt k (by omega)
    have tail : ∀ x : Int, x ∈ r →
        ∃ n : Nat, x = ((k + n : Nat) : Int) ∧ n < (ch :: rest).length ∧
          matchesEndingWithJamo ⟨(ch :: rest).getD n 0⟩ J = .ok true := by
      intro x hx
      obtain ⟨n, e1, e2, e3⟩ := (h3 x).1 hx
      refine ⟨n + 1, ?_, by simp only [List.length_cons]; omega, ?_⟩
      · rw [e1]; omega
      · rw [List.getD_cons_succ]; exact e3
    have tail2 : ∀ (x : Int) (n : Nat), x = ((k + (n + 1) : Nat) : Int) →
        n + 1 < (ch :: rest).length →
        matchesEndingWithJamo ⟨(ch :: rest).getD (n + 1) 0⟩ J = .ok true → x ∈ r := by
      intro x n e1 e2 e3
      refine (h3 x).2 ⟨n, ?_, ?_, ?_⟩
      · rw [e1]; omega
      · simp only [List.length_cons] at e2; omega
      · rw [List.getD_cons_succ] at e3; exact e3
    cases b with
    | true =>
      refine ⟨(k : Int) :: r, ?_, ?_, fun x => ?_⟩
      · unfold findMatchesLoop
        rw [hb]
        simp only [bind, Except.bind, if_true] at h1 ⊢
        rw [h1, hc]
        simp
      · refine List.Pairwise.cons (fun a ha => ?_) h2
        obtain ⟨n, e1, -, -⟩ := (h3 a).1 ha
        rw [e1]; omega
      · rw [List.mem_cons]
        constructor
        · rintro (h | h)
          · exact ⟨0, by rw [h]; rfl, by simp, by rw [List.getD_cons_zero]; exact hb⟩
          · exact tail x h
        · rintro ⟨n, e1, e2, e3⟩
          cases n with
          | zero => exact Or.inl (by rw [e1]; rfl)
          | succ n => exact Or.inr (tail2 x n e1 e2 e3)
    | false =>
      refine ⟨r, ?_, h2, fun x => ?_⟩
      · unfold findMatchesLoop
        rw [hb]
        simp only [bind, Except.bind, Bool.false_eq_true, if_false] at h1 ⊢
        exact h1
      · constructor
        · exact tail x
        · rintro ⟨n, e1, e2, e3⟩
          cases n with
          | zero =>
            rw [List.getD_cons_zero, hb] at e3
            cases e3
          | succ n => exact tail2 x n e1 e2 e3

/-- The result of `findMatchesEndingWithJamo(f, J)` on a string of fewer than
`2 ^ 31` characters, for a start index `f` in `[0, length]`: the offsets `k` in
`[0, length - f)`, in strictly ascending order, of the characters at `f + k` that
have type `HangulSyllable` (a codepoint of `0xAC00..0xD7AF`) and `J` as vowel or
trail, or have type `HangulJamo` and are `J`. -/
theorem findMatchesEndingWithJamo_spec (s : String) (f : Nat) (J : HangulJamo)
    (hs : s.length < 2 ^ 31) (hf : f ≤ s.length) :
    ∃ r, s.findMatchesEndingWithJamo f J = .ok r ∧
      r.Pairwise (fun a b => a < b) ∧
      ∀ x : Int, x ∈ r ↔
        ∃ k : Nat, x = (k : Int) ∧ k < s.length - f ∧
          (((Character.mk (s._str.getD (f + k) 0)).type = .HangulSyllable ∧
              ((Character.mk (s._str.getD (f + k) 0)).jungseong = .ok J ∨
                (Character.mk (s._str.getD (f + k) 0)).jongseong = .ok J)) ∨
            ((Character.mk (s._str.getD (f + k) 0)).type = .HangulJamo ∧
              (Character.mk (s._str.getD (f + k) 0)).hangulJamo = .ok J)) := by
  unfold String.length at hs hf
  obtain ⟨r, h1, h2, h3⟩ := findMatchesLoop_spec J (s._str.drop f) 0 []
    (by rw [List.length_drop]; omega)
  refine ⟨r, ?_, h2, fun x => ?_⟩
  · unfold String.findMatchesEndingWithJamo
    rw [if_pos hf, h1]
    rfl
  · rw [h3 x]
    unfold String.length
    have hd : ∀ n, (s._str.drop f).getD n 0 = s._str.getD (f + n) 0 := by
      intro n
      rw [List.getD_eq_getElem?_getD, List.getD_eq_getElem?_getD, List.getElem?_drop]
    constructor
    · rintro ⟨n, e1, e2, e3⟩
      refine ⟨n, by rw [e1, Nat.zero_add], by rw [List.length_drop] at e2; exact e2, ?_⟩
      obtain ⟨b, hb, hiff⟩ := matchesEndingWithJamo_spec ⟨s._str.getD (f + n) 0⟩ J
      rw [hd n, hb] at e3
      exact hiff.1 (Except.ok.inj e3)
    · rintro ⟨n, e1, e2, e3⟩
      refine ⟨n, by rw [e1, Nat.zero_add], by rw [List.length_drop]; exact e2, ?_⟩
      obtain ⟨b, hb, hiff⟩ := matchesEndingWithJamo_spec ⟨s._str.getD (f + n) 0⟩ J
      rw [hd n, hb, hiff.2 e3]

/-- The result at the string 가 followed by ㅏ with the jamo ㅏ. -/
theorem findMatchesEndingWithJamo_spec_witness :
    ∃ r, (String.mk [0xAC00, 0x314F]).findMatchesEndingWithJamo 0 .A = .ok r ∧
      r.Pairwise (fun a b => a < b) ∧
      ∀ x : Int, x ∈ r ↔
        ∃ k : Nat, x = (k : Int) ∧ k < (String.mk [0xAC00, 0x314F]).length - 0 ∧
          (((Character.mk ((String.mk [0xAC00, 0x314F])._str.getD (0 + k) 0)).type =
                .HangulSyllable ∧
              ((Character.mk ((String.mk [0xAC00, 0x314F])._str.getD (0 + k) 0)).jungseong =
                  .ok .A ∨
                (Character.mk ((String.mk [0xAC00, 0x314F])._str.getD (0 + k) 0)).jongseong =
                  .ok .A)) ∨
            ((Character.mk ((String.mk [0xAC00, 0x314F])._str.getD (0 + k) 0)).type =
                .HangulJamo ∧
              (Character.mk ((String.mk [0xAC00, 0x314F])._str.getD (0 + k) 0)).hangulJamo =
                .ok .A)) :=
  findMatchesEndingWithJamo_spec ⟨[0xAC00, 0x314F]⟩ 0 .A (by decide) (by decide)

/-- C29: on the one-character string U+D7A4, a codepoint that is neither a
Hangul syllable (`0xAC00..0xD7A3`) nor a standalone jamo,
`findMatchesEndingWithJamo(0, A)` reports the offset 0. -/
theorem findMatchesEndingWithJamo_at_D7A4 :
    (String.mk [0xD7A4]).findMatchesEndingWithJamo 0 .A = .ok [0] ∧
    ¬ (0xAC00 ≤ 0xD7A4 ∧ 0xD7A4 ≤ 0xD7A3) ∧
    (Character.mk 0xD7A4).type ≠ .HangulJamo ∧
    (String.mk [0xD7A3]).findMatchesEndingWithJamo 0 .A = .ok [] := by
  decide

/-! ## Claims: calls in the wrong mode of the trie -/

/-- C24 (amended): on a frozen trie `addWord(k, id, replace)` leaves the trie
unchanged and returns 0; on a trie in editing mode `findWord(k)` returns
`NIME_TRIE_WORD_NOT_FOUND` and `findWordPrefixes(k)` returns the empty list,
for every key `k`, every `id` and both values of `replace`. -/
theorem mode_errors_are_noops (t : TrieImpl) (k : String) (id : Nat) (replace : Bool) :
    (t._editingMode = false → t.addWord k id replace = .ok (t, 0)) ∧
    (t._editingMode = true →
      t.findWord k = .ok NIME_TRIE_WORD_NOT_FOUND ∧ t.findWordPrefixes k = .ok []) := by
  refine ⟨fun h => ?_, fun h => ⟨?_, ?_⟩⟩
  · unfold TrieImpl.addWord
    rw [h]
    rfl
  · unfold TrieImpl.findWord
    rw [h]
    rfl
  · unfold TrieImpl.findWordPrefixes
    rw [h]
    rfl

/-- C24 at a frozen trie holding 가 and at an empty trie in editing mode, for a
key that is not pure Hangul. -/
theorem mode_errors_are_noops_witness :
    ((TrieImpl.new.addWords [(⟨[0xAC00]⟩, 3)]).map fun t =>
      (t.freeze.addWord ⟨[0x41]⟩ 7 false).map fun r =>
        (r.2, r.1._serializedNodeArray == t.freeze._serializedNodeArray)) =
      .ok (.ok (0, true)) ∧
    TrieImpl.new.findWord ⟨[0x41]⟩ = .ok NIME_TRIE_WORD_NOT_FOUND ∧
    TrieImpl.new.findWordPrefixes ⟨[0x41]⟩ = .ok [] := by
  refine ⟨by decide, ?_⟩
  exact (mode_errors_are_noops TrieImpl.new ⟨[0x41]⟩ 7 false).2 rfl

/-- Counterexample to C24 as stated: on a frozen trie `addWord(가, 7)` returns 0,
not the id 7 that was passed. -/
theorem addWord_frozen_returns_zero :
    ((TrieImpl.new.freeze).addWord ⟨[0xAC00]⟩ 7 true).map Prod.snd = .ok 0 ∧ (0 : Nat) ≠ 7 := by
  decide

/-! ## Claim C25: iteration over a frozen trie -/

/-- Unfolding of `leavesNode`. -/
theorem leavesNode_mk (v : List Nat) (cs : List TrieNode) (id : Nat) (pre : List Nat) :
    leavesNode (.mk v cs id) pre =
      if cs.length = 0 then [(pre ++ v, id)] else leavesChildren cs (pre ++ v) := by
  rw [leavesNode]

/-- Unfolding of `leavesChildren` on an empty list. -/
theorem leavesChildren_nil (pre : List Nat) : leavesChildren [] pre = [] := by
  rw [leavesChildren]

/-- Unfolding of `leavesChildren` on a non-empty list. -/
theorem leavesChildren_cons (n : TrieNode) (ns : List TrieNode) (pre : List Nat) :
    leavesChildren (n :: ns) pre = leavesNode n pre ++ leavesChildren ns pre := by
  rw [leavesChildren]

/-- A concatenation of jamo-byte strings is jamo-byte. -/
theorem JamoBytes.append {a b : List Nat} (ha : JamoBytes a) (hb : JamoBytes b) :
    JamoBytes (a ++ b) := by
  intro x hx
  rcases List.mem_append.1 hx with h | h
  · exact ha x h
  · exact hb x h

/-- The words below well-formed nodes are jamo-byte strings. -/
theorem leaves_jamoBytes_aux :
    (∀ n : TrieNode, NodeOK n → ∀ pre, JamoBytes pre →
      ∀ p ∈ leavesNode n pre, JamoBytes p.1) ∧
    (∀ cs : List TrieNode, ChildrenOK cs → ∀ pre, JamoBytes pre →
      ∀ p ∈ leavesChildren cs pre, JamoBytes p.1) := by
  apply trie_induction
  · intro v cs id ih hok pre hpre p hp
    rw [nodeOK_mk] at hok
    obtain ⟨hv, -, hcs⟩ := hok
    rw [leavesNode_mk] at hp
    by_cases hc : cs.length = 0
    · rw [if_pos hc] at hp
      rw [List.mem_singleton.1 hp]
      exact hpre.append hv
    · rw [if_neg hc] at hp
      exact ih hcs _ (hpre.append hv) p hp
  · intro _ pre _ p hp
    rw [leavesChildren_nil] at hp
    cases hp
  · intro n ns ihn ihns hok pre hpre p hp
    rw [childrenOK_cons] at hok
    rw [leavesChildren_cons] at hp
    rcases List.mem_append.1 hp with h | h
    · exact ihn hok.1 pre hpre p h
    · exact ihns hok.2.2 pre hpre p h

/-- The form of the words below well-formed nodes: the labels `pre`, the label
of the node, and a rest that is empty below a node with an empty label. -/
theorem leaves_form_aux :
    (∀ n : TrieNode, NodeOK n → ∀ pre, ∀ p ∈ leavesNode n pre,
      ∃ r, p.1 = pre ++ n.value ++ r ∧ (n.value = [] → r = [])) ∧
    (∀ cs : List TrieNode, ChildrenOK cs → ∀ pre, ∀ p ∈ leavesChildren cs pre,
      ∃ m ∈ cs, ∃ r, p.1 = pre ++ m.value ++ r ∧ (m.value = [] → r = [])) := by
  apply trie_induction
  · intro v cs id ih hok pre p hp
    rw [nodeOK_mk] at hok
    obtain ⟨hv, hleaf, hcs⟩ := hok
    rw [leavesNode_mk] at hp
    by_cases hc : cs.length = 0
    · rw [if_pos hc] at hp
      rw [List.mem_singleton.1 hp]
      exact ⟨[], by simp [TrieNode.value], fun _ => rfl⟩
    · rw [if_neg hc] at hp
      obtain ⟨m, hm, r, h1, -⟩ := ih hcs _ p hp
      refine ⟨m.value ++ r, ?_, fun h0 => ?_⟩
      · rw [h1]
        simp [TrieNode.value]
      · exact absurd (List.length_eq_zero.2 (hleaf h0)) hc
  · intro _ pre p hp
    rw [leavesChildren_nil] at hp
    cases hp
  · intro n ns ihn ihns hok pre p hp
    rw [childrenOK_cons] at hok
    rw [leavesChildren_cons] at hp
    rcases List.mem_append.1 hp with h | h
    · obtain ⟨r, h1, h2⟩ := ihn hok.1 pre p h
      exact ⟨n, List.mem_cons_self _ _, r, h1, h2⟩
    · obtain ⟨m, hm, r, h1, h2⟩ := ihns hok.2.2 pre p h
      exact ⟨m, List.mem_cons_of_mem _ hm, r, h1, h2⟩

/-- The first byte of a concatenation that starts with a non-empty string. -/
theorem headD_append_of_ne_nil (a b : List Nat) (h : a ≠ []) : (a ++ b).headD 0 = a.headD 0 := by
  cases a with
  | nil => exact absurd rfl h
  | cons x xs => rfl

/-- Two siblings with different first bytes have no word in common. -/
theorem sibling_words_differ (v w r1 r2 : List Nat)
    (hd : w.headD 0 ≠ v.headD 0) (h1 : v = [] → r1 = []) (h2 : w = [] → r2 = []) :
    v ++ r1 ≠ w ++ r2 := by
  intro e
  by_cases v0 : v = []
  · by_cases w0 : w = []
    · rw [v0, w0] at hd
      exact hd rfl
    · rw [v0, h1 v0] at e
      simp only [List.append_nil, List.nil_append] at e
      exact w0 (List.append_eq_nil.1 e.symm).1
  · by_cases w0 : w = []
    · rw [w0, h2 w0] at e
      simp only [List.append_nil, List.nil_append] at e
      exact v0 (List.append_eq_nil.1 e).1
    · have := congrArg (fun l => l.headD 0) e
      simp only [headD_append_of_ne_nil _ _ v0, headD_append_of_ne_nil _ _ w0] at this
      exact hd this.symm

/-- The words below well-formed nodes are pairwise different. -/
theorem leaves_nodup_aux :
    (∀ n : TrieNode, NodeOK n → ∀ pre, ((leavesNode n pre).map Prod.fst).Nodup) ∧
    (∀ cs : List TrieNode, ChildrenOK cs → ∀ pre,
      ((leavesChildren cs pre).map Prod.fst).Nodup) := by
  apply trie_induction
  · intro v cs id ih hok pre
    rw [nodeOK_mk] at hok
    rw [leavesNode_mk]
    by_cases hc : cs.length = 0
    · rw [if_pos hc]
      exact List.nodup_singleton _
    · rw [if_neg hc]
      exact ih hok.2.2 _
  · intro _ pre
    rw [leavesChildren_nil]
    exact List.nodup_nil
  · intro n ns ihn ihns hok pre
    have hok0 := hok
    rw [childrenOK_cons] at hok
    obtain ⟨hn, hheads, hns⟩ := hok
    rw [leavesChildren_cons, List.map_append, List.nodup_append]
    refine ⟨ihn hn pre, ihns hns pre, ?_⟩
    intro k hk1 hk2
    obtain ⟨p1, hp1, e1⟩ := List.mem_map.1 hk1
    obtain ⟨p2, hp2, e2⟩ := List.mem_map.1 hk2
    obtain ⟨r1, f1, g1⟩ := leaves_form_aux.1 n hn pre p1 hp1
    obtain ⟨m, hm, r2, f2, g2⟩ := leaves_form_aux.2 ns hns pre p2 hp2
    have e : pre ++ n.value ++ r1 = pre ++ m.value ++ r2 := by
      rw [← f1, ← f2, e1, e2]
    rw [List.append_assoc, List.append_assoc] at e
    exact sibling_words_differ n.value m.value r1 r2 (hheads m hm) g1 g2
      (List.append_cancel_left e)

/-- The words below well-formed nodes are the stored keys: below a node a word
is its label followed by a key stored below it, below siblings it is a key
stored below them. -/
theorem leaves_mem_aux :
    (∀ n : TrieNode, NodeOK n → ∀ pre r id, JamoBytes r →
      ((pre ++ n.value ++ r, id) ∈ leavesNode n pre ↔ lookupNode n r = some id)) ∧
    (∀ cs : List TrieNode, ChildrenOK cs → ∀ pre r id, JamoBytes r →
      ((pre ++ r, id) ∈ leavesChildren cs pre ↔ lookupRoot cs r = some id)) := by
  apply trie_induction
  · intro v cs id0 ih hok pre r id hr
    rw [nodeOK_mk] at hok
    obtain ⟨hv, hleaf, hcs⟩ := hok
    rw [leavesNode_mk, lookupNode_mk]
    simp only [TrieNode.value]
    by_cases hc : cs.length = 0
    · rw [if_pos hc, if_pos hc, List.mem_singleton]
      have hcs0 : cs = [] := List.length_eq_zero.1 hc
      by_cases hr0 : r = []
      · rw [if_pos hr0, hr0]
        simp only [List.append_nil, Prod.mk.injEq, true_and, Option.some.injEq]
        exact ⟨fun h => h.symm, fun h => h.symm⟩
      · rw [if_neg hr0, hcs0, lookupChildren_nil]
        constructor
        · intro h
          have := congrArg (fun p => p.1.length) h
          simp only [List.length_append] at this
          have : r.length = 0 := by omega
          exact absurd (List.length_eq_zero.1 this) hr0
        · intro h
          cases h
    · rw [if_neg hc, if_neg hc]
      rw [ih hcs (pre ++ v) r id hr]
      rfl
  · intro _ pre r id _
    rw [leavesChildren_nil]
    unfold lookupRoot
    by_cases hr0 : r = []
    · rw [if_pos hr0]
      exact ⟨fun h => (by cases h), fun h => (by cases h)⟩
    · rw [if_neg hr0, lookupChildren_nil]
      exact ⟨fun h => (by cases h), fun h => (by cases h)⟩
  · intro n ns ihn ihns hok pre r id hr
    have hok0 := hok
    rw [childrenOK_cons] at hok
    obtain ⟨hn, hheads, hns⟩ := hok
    rw [leavesChildren_cons, List.mem_append, ihns hns pre r id hr]
    have hnode : (pre ++ r, id) ∈ leavesNode n pre ↔
        ∃ r1, r = n.value ++ r1 ∧ lookupNode n r1 = some id := by
      constructor
      · intro h
        obtain ⟨r1, f1, -⟩ := leaves_form_aux.1 n hn pre _ h
        simp only at f1
        rw [List.append_assoc] at f1
        have e := List.append_cancel_left f1
        have hr1 : JamoBytes r1 := by
          rw [e] at hr
          exact fun b hb => hr b (List.mem_append_right _ hb)
        rw [e, ← List.append_assoc] at h
        exact ⟨r1, e, (ihn hn pre r1 id hr1).1 h⟩
      · rintro ⟨r1, e, h⟩
        have hr1 : JamoBytes r1 := by
          rw [e] at hr
          exact fun b hb => hr b (List.mem_append_right _ hb)
        rw [e, ← List.append_assoc]
        exact (ihn hn pre r1 id hr1).2 h
    rw [hnode]
    cases n with
    | mk v cs id0 =>
    have hval : (TrieNode.mk v cs id0).value = v := rfl
    simp only [hval] at hheads hnode ⊢
    rw [nodeOK_mk] at hn
    obtain ⟨hv, hleaf, hcs⟩ := hn
    unfold lookupRoot
    by_cases hr0 : r = []
    · rw [if_pos hr0, if_pos hr0, lookupZero_cons]
      by_cases hv0 : v = []
      · rw [if_pos hv0]
        have hz : lookupZero ns = none := by
          refine (zeroHits_of_nonempty 0 ns fun m hm h0 => ?_).2
          have := hheads m hm
          rw [h0, hv0] at this
          exact this rfl
        rw [hz]
        constructor
        · rintro (⟨r1, e, h⟩ | h)
          · rw [hr0, hv0] at e
            have e1 : r1 = [] := by simpa using e.symm
            rw [lookupNode_mk, if_pos e1, hleaf hv0] at h
            exact h
          · cases h
        · intro h
          refine Or.inl ⟨[], by rw [hr0, hv0]; rfl, ?_⟩
          rw [lookupNode_mk, if_pos rfl, hleaf hv0]
          exact h
      · rw [if_neg hv0]
        constructor
        · rintro (⟨r1, e, -⟩ | h)
          · rw [hr0] at e
            exact absurd (List.append_eq_nil.1 e.symm).1 hv0
          · exact h
        · exact fun h => Or.inr h
    · rw [if_neg hr0, if_neg hr0, lookupChildren_cons]
      by_cases hm : compareHStr r v = v.length ∧ v ≠ []
      · rw [if_pos hm]
        have hpre : v <+: r := ((matches_iff r v hr hv).1 hm).1
        have hdrop : r = v ++ r.drop v.length := by
          obtain ⟨t, ht⟩ := hpre
          rw [← ht]
          simp
        constructor
        · rintro (⟨r1, e, h⟩ | h)
          · have : r.drop v.length = r1 := by rw [e]; simp
            rw [this]
            exact h
          · obtain ⟨m, hmem, hmm⟩ := exists_match_of_lookupChildren ns r id h
            have h1 := hmm.head_eq
            have h2 := head_eq_of_match r v hm.1 hm.2
            exact absurd (h1.symm.trans h2) (hheads m hmem)
        · intro h
          exact Or.inl ⟨r.drop v.length, hdrop, h⟩
      · rw [if_neg hm]
        constructor
        · rintro (⟨r1, e, hl⟩ | h)
          · exfalso
            by_cases hv0 : v = []
            · rw [hv0] at e
              simp only [List.nil_append] at e
              rw [lookupNode_mk, hleaf hv0] at hl
              rw [if_neg (by rw [← e]; exact hr0), lookupChildren_nil] at hl
              cases hl
            · exact hm ((matches_iff r v hr hv).2 ⟨⟨r1, e.symm⟩, hv0⟩)
          · exact h
        · exact fun h => Or.inr h

/-- Below well-formed siblings there are no more words than bytes in their layout. -/
theorem leaves_length_aux :
    (∀ n : TrieNode, ∀ pre,
      (leavesNode n pre).length ≤ 1 + (levelSize n.children + subSize n.children)) ∧
    (∀ cs : List TrieNode, ∀ pre,
      (leavesChildren cs pre).length ≤ levelSize cs + subSize cs) := by
  apply trie_induction
  · intro v cs id ih pre
    rw [leavesNode_mk]
    simp only [TrieNode.children]
    by_cases hc : cs.length = 0
    · rw [if_pos hc]
      simp
    · rw [if_neg hc]
      have := ih (pre ++ v)
      omega
  · intro pre
    rw [leavesChildren_nil]
    simp
  · intro n ns ihn ihns pre
    cases n with
    | mk v cs id =>
    rw [leavesChildren_cons, List.length_append, levelSize_cons, subSize_cons]
    have h1 := ihn pre
    have h2 := ihns pre
    simp only [TrieNode.children] at h1
    omega

/-- The label of a node in the buffer, read as a zero-terminated string. -/
theorem cStr_labelAt (buf : List Nat) (q : Nat) (v : List Nat) (hv : JamoBytes v)
    (hl : labelAt buf q v) : cStr (buf.drop q) = v := by
  induction v generalizing q with
  | nil =>
    simp only [labelAt] at hl
    unfold cStr
    cases hd : buf.drop q with
    | nil => rfl
    | cons y ys =>
      have : y = readU8 buf q := by
        unfold readU8
        have := congrArg (fun l => l.headD 0) hd
        simp only [List.headD_cons] at this
        rw [← this]
        simp [List.getD_eq_getElem?_getD, List.head?_drop]
      rw [this, hl]
      simp
  | cons b bs ih =>
    simp only [labelAt] at hl
    have hb := (hv b (by simp)).1
    have := ih (q + 1) (fun y hy => hv y (by simp [hy])) hl.2
    unfold cStr at this ⊢
    rw [drop_eq_cons_of_readU8_ne_zero buf q (by rw [hl.1]; exact hb), hl.1]
    rw [List.takeWhile_cons, if_pos (by simpa using hb), this]

/-- The function `getValue` on a node whose label stands in the buffer. -/
theorem getValue_labelAt (buf : List Nat) (p : Nat) (v : List Nat) (hv : JamoBytes v)
    (hl : labelAt buf (p + 5) v) : getValue buf p = v := by
  unfold getValue getValuePtr
  rw [show p + 1 + 4 = p + 5 by omega]
  exact cStr_labelAt buf (p + 5) v hv hl

/-- Unfolding of `FramesOK` on an empty chain. -/
theorem framesOK_nil (buf : List Nat) (size : Nat) (outs : List (List Nat × Nat)) :
    FramesOK buf size [] outs ↔ outs = [] := by
  rw [FramesOK]

/-- Unfolding of `FramesOK` on a non-empty chain. -/
theorem framesOK_cons (buf : List Nat) (size : Nat) (f : IteratorFrame)
    (fs : List IteratorFrame) (outs : List (List Nat × Nat)) :
    FramesOK buf size (f :: fs) outs ↔
      ∃ q offset cls n rs outs1,
        f._snaPointer = q + offset ∧ Lay buf q offset cls (n :: rs) ∧ ChildrenOK (n :: rs) ∧
        q + cls + subSize (n :: rs) ≤ size ∧ f._childrenLeft = rs.length ∧
        FramesOK buf size fs outs1 ∧ outs = leavesChildren rs f._prefixBytes ++ outs1 := by
  rw [FramesOK]

/-- One step of `nextFuel`. -/
theorem nextFuel_succ (buf : List Nat) (size fuel : Nat) (it : IteratorImpl) :
    nextFuel buf size (fuel + 1) it =
      if (nextMove buf it).2 then some ((nextMove buf it).1, iteratorEnd size)
      else if getChildrenNo buf (nextMove buf it).1._snaPointer > 0 then
        nextFuel buf size fuel (nextMove buf it).1
      else some ((nextMove buf it).1, (nextMove buf it).1) := rfl

/-- One step of `ascendLoop`. -/
theorem ascendLoop_cons (buf : List Nat) (f : IteratorFrame) (fs : List IteratorFrame)
    (it : IteratorImpl) :
    ascendLoop buf (f :: fs) it =
      if f._childrenLeft > 0 then
        (⟨f._snaPointer + getLenght buf f._snaPointer, (f._childrenLeft + 255) % 256, fs,
          f._prefixBytes⟩, false)
      else ascendLoop buf fs ⟨f._snaPointer, f._childrenLeft, fs, f._prefixBytes⟩ := rfl

/-- The step from a node to its right sibling keeps the iterator on the layout;
the words from the sibling on remain. -/
theorem moveRight_iterAt (buf : List Nat) (size q offset cls : Nat) (v : List Nat)
    (cs : List TrieNode) (id : Nat) (r1 : TrieNode) (rrs : List TrieNode)
    (frames : List IteratorFrame) (pre : List Nat) (outs : List (List Nat × Nat))
    (hlay : Lay buf q offset cls (.mk v cs id :: r1 :: rrs))
    (hok : ChildrenOK (.mk v cs id :: r1 :: rrs))
    (hb : q + cls + subSize (.mk v cs id :: r1 :: rrs) ≤ size)
    (hf : FramesOK buf size frames outs) :
    IterAt buf size
      ⟨q + offset + getLenght buf (q + offset), ((rrs.length + 1) + 255) % 256, frames, pre⟩
      (leavesChildren (r1 :: rrs) pre ++ outs) := by
  have hlen := hok.length_le
  rw [lay_cons] at hlay
  obtain ⟨-, l2, l3, -, -, -, -, l8⟩ := hlay
  rw [childrenOK_cons] at hok
  obtain ⟨hn, -, hrs⟩ := hok
  rw [nodeOK_mk] at hn
  rw [getLenght_labelAt buf (q + offset) v hn.1 l2 l3]
  refine ⟨q, offset + (1 + 4 + v.length + 1), cls + (levelSize cs + subSize cs), r1, rrs, outs,
    ?_, l8, hrs, ?_, ?_, hf, rfl⟩
  · simp only
    omega
  · rw [subSize_cons] at hb
    omega
  · simp only [List.length_cons] at hlen ⊢
    omega

/-- The code at the label `ascend`: either the null parent is reached and no
word remains, or the iterator stands on the layout at the next node to the
right of a parent. -/
theorem ascendLoop_spec (buf : List Nat) (size : Nat) (frames : List IteratorFrame) :
    ∀ (it0 : IteratorImpl) (outs : List (List Nat × Nat)), FramesOK buf size frames outs →
      ((ascendLoop buf frames it0).2 = true ∧ outs = []) ∨
      ((ascendLoop buf frames it0).2 = false ∧
        IterAt buf size (ascendLoop buf frames it0).1 outs) := by
  induction frames with
  | nil =>
    intro it0 outs hf
    rw [framesOK_nil] at hf
    exact Or.inl ⟨rfl, hf⟩
  | cons f fs ih =>
    intro it0 outs hf
    rw [framesOK_cons] at hf
    obtain ⟨q, offset, cls, n, rs, outs1, hp, hlay, hok, hb, hcl, hfs, ho⟩ := hf
    rw [ascendLoop_cons]
    cases rs with
    | nil =>
      rw [if_neg (by rw [hcl]; simp)]
      rw [leavesChildren_nil, List.nil_append] at ho
      rw [ho]
      exact ih _ outs1 hfs
    | cons r1 rrs =>
      rw [if_pos (by rw [hcl]; simp)]
      refine Or.inr ⟨rfl, ?_⟩
      cases n with
      | mk v cs id =>
      have := moveRight_iterAt buf size q offset cls v cs id r1 rrs fs f._prefixBytes outs1
        hlay hok hb hfs
      rw [ho, hp, hcl]
      exact this

/-- The statements of `next` before its last `if`, at a node with children. -/
theorem nextMove_descend (buf : List Nat) (it : IteratorImpl)
    (h : getChildrenNo buf it._snaPointer ≠ 0) :
    nextMove buf it =
      (⟨it._snaPointer + getChildrenOffsetOfNode buf it._snaPointer,
        (getChildrenNo buf it._snaPointer + 255) % 256,
        ⟨it._snaPointer, it._childrenLeft, it._prefixBytes⟩ :: it._parent,
        it._prefixBytes ++ getValue buf it._snaPointer⟩, false) := by
  unfold nextMove
  rw [if_neg (fun x => h x.2)]
  simp only []
  rw [if_pos (Nat.pos_of_ne_zero h)]

/-- The statements of `next` before its last `if`, at a leaf with a sibling to
its right. -/
theorem nextMove_right (buf : List Nat) (it : IteratorImpl)
    (h : getChildrenNo buf it._snaPointer = 0) (hcl : it._childrenLeft ≠ 0) :
    nextMove buf it =
      (⟨it._snaPointer + getLenght buf it._snaPointer, (it._childrenLeft + 255) % 256,
        it._parent, it._prefixBytes⟩, false) := by
  unfold nextMove
  rw [if_neg (fun x => hcl x.1)]
  simp only []
  rw [if_neg (by rw [h]; exact Nat.lt_irrefl 0)]

/-- The statements of `next` before its last `if`, at a leaf without a sibling
to its right. -/
theorem nextMove_ascend (buf : List Nat) (it : IteratorImpl)
    (h : getChildrenNo buf it._snaPointer = 0) (hcl : it._childrenLeft = 0) :
    nextMove buf it = ascendLoop buf it._parent it := by
  unfold nextMove
  rw [if_pos ⟨hcl, h⟩]

/-- From a node with children `next` descends to the first leaf below it; no
word is passed on the way. -/
theorem nextFuel_descend (buf : List Nat) (size : Nat) :
    ∀ (fuel : Nat) (it : IteratorImpl) (out : List (List Nat × Nat)),
      IterAt buf size it out → getChildrenNo buf it._snaPointer ≠ 0 →
      size ≤ it._snaPointer + fuel →
      ∃ it1, nextFuel buf size fuel it = some (it1, it1) ∧
        getChildrenNo buf it1._snaPointer = 0 ∧ IterAt buf size it1 out := by
  intro fuel
  induction fuel with
  | zero =>
    intro it out hat hcn hfuel
    obtain ⟨q, offset, cls, cur, rs, outs, hp, hlay, hok, hb, hcl, hf, hout⟩ := hat
    cases cur with
    | mk v cs id =>
    rw [lay_cons] at hlay
    obtain ⟨-, -, -, l4, -⟩ := hlay
    omega
  | succ fuel ih =>
    intro it out hat hcn hfuel
    obtain ⟨q, offset, cls, cur, rs, outs, hp, hlay, hok, hb, hcl, hf, hout⟩ := hat
    cases cur with
    | mk v cs id =>
    have hlay0 := hlay
    have hok0 := hok
    rw [lay_cons] at hlay
    obtain ⟨l1, l2, l3, l4, l5, l6, l7, l8⟩ := hlay
    rw [childrenOK_cons] at hok
    obtain ⟨hn, -, hrs⟩ := hok
    rw [nodeOK_mk] at hn
    obtain ⟨hv, -, hcs⟩ := hn
    have hcount : getChildrenNo buf it._snaPointer = cs.length := by
      unfold getChildrenNo
      rw [hp]
      exact l1
    have hc0 : cs.length ≠ 0 := by rw [← hcount]; exact hcn
    obtain ⟨l7a, l7b⟩ := l7 hc0
    have hoff : getChildrenOffsetOfNode buf it._snaPointer = cls - offset := by
      unfold getChildrenOffsetOfNode
      rw [hp]
      exact l7a
    have hval : getValue buf it._snaPointer = v := by
      rw [hp]
      exact getValue_labelAt buf (q + offset) v hv l2
    have hmove := nextMove_descend buf it hcn
    rw [hoff, hval, hcount] at hmove
    cases cs with
    | nil => exact absurd rfl hc0
    | cons c1 crs =>
    have hlen := hcs.length_le
    have hat1 : IterAt buf size
        ⟨it._snaPointer + (cls - offset), ((c1 :: crs).length + 255) % 256,
          ⟨it._snaPointer, it._childrenLeft, it._prefixBytes⟩ :: it._parent,
          it._prefixBytes ++ v⟩ out := by
      refine ⟨q + cls, 0, levelSize (c1 :: crs), c1, crs,
        leavesChildren rs it._prefixBytes ++ outs, ?_, l7b, hcs, ?_, ?_, ?_, ?_⟩
      · simp only
        omega
      · rw [subSize_cons] at hb
        omega
      · simp only [List.length_cons] at hlen ⊢
        omega
      · rw [framesOK_cons]
        exact ⟨q, offset, cls, .mk v (c1 :: crs) id, rs, outs, hp, hlay0, hok0, hb, hcl, hf, rfl⟩
      · rw [hout, leavesChildren_cons, leavesNode_mk, if_neg hc0, List.append_assoc]
    rw [nextFuel_succ, hmove]
    simp only [Bool.false_eq_true, if_false]
    by_cases hnext : getChildrenNo buf (it._snaPointer + (cls - offset)) = 0
    · rw [if_neg (by rw [hnext]; exact Nat.lt_irrefl 0)]
      exact ⟨_, rfl, hnext, hat1⟩
    · rw [if_pos (Nat.pos_of_ne_zero hnext)]
      refine ih _ out hat1 hnext ?_
      simp only
      omega

/-- The last `if` of `next` and of `begin`: from a node on the layout the
iterator comes to rest on the first leaf at or below the node. -/
theorem settle_spec (buf : List Nat) (size fuel : Nat) (st : IteratorImpl)
    (out : List (List Nat × Nat)) (hat : IterAt buf size st out) (hfuel : size ≤ fuel) :
    ∃ it1,
      (if getChildrenNo buf st._snaPointer > 0 then nextFuel buf size fuel st
        else some (st, st)) = some (it1, it1) ∧
      getChildrenNo buf it1._snaPointer = 0 ∧ IterAt buf size it1 out := by
  by_cases h : getChildrenNo buf st._snaPointer = 0
  · rw [if_neg (by rw [h]; exact Nat.lt_irrefl 0)]
    exact ⟨st, rfl, h, hat⟩
  · rw [if_pos (Nat.pos_of_ne_zero h)]
    exact nextFuel_descend buf size fuel st out hat h (by omega)

/-- From a leaf: the iterator is not the end, its value is the first of the
remaining words, and `next` returns the end when this was the last word and
otherwise an iterator on the leaf of the next word. -/
theorem nextFuel_leaf (buf : List Nat) (size fuel : Nat) (it : IteratorImpl)
    (out : List (List Nat × Nat)) (hat : IterAt buf size it out)
    (hleaf : getChildrenNo buf it._snaPointer = 0) (hfuel : size ≤ fuel) :
    ∃ k id out1, out = (k, id) :: out1 ∧
      it.value buf = ⟨String.ofHangulString k, id⟩ ∧ it._snaPointer ≠ size ∧
      ∃ self r, nextFuel buf size (fuel + 1) it = some (self, r) ∧
        ((out1 = [] ∧ r = iteratorEnd size) ∨
          (getChildrenNo buf r._snaPointer = 0 ∧ IterAt buf size r out1)) := by
  obtain ⟨q, offset, cls, cur, rs, outs, hp, hlay, hok, hb, hcl, hf, hout⟩ := hat
  cases cur with
  | mk v cs id =>
  have hlay0 := hlay
  have hok0 := hok
  rw [lay_cons] at hlay
  obtain ⟨l1, l2, l3, l4, l5, l6, l7, l8⟩ := hlay
  rw [childrenOK_cons] at hok
  obtain ⟨hn, -, hrs⟩ := hok
  rw [nodeOK_mk] at hn
  obtain ⟨hv, -, hcs⟩ := hn
  have hcount : getChildrenNo buf it._snaPointer = cs.length := by
    unfold getChildrenNo
    rw [hp]
    exact l1
  have hc0 : cs.length = 0 := by rw [← hcount]; exact hleaf
  have hval : getValue buf it._snaPointer = v := by
    rw [hp]
    exact getValue_labelAt buf (q + offset) v hv l2
  have hid : getId buf it._snaPointer = id := by
    unfold getId
    rw [hp]
    exact l6 hc0
  refine ⟨it._prefixBytes ++ v, id, leavesChildren rs it._prefixBytes ++ outs, ?_, ?_, ?_, ?_⟩
  · rw [hout, leavesChildren_cons, leavesNode_mk, if_pos hc0]
    rfl
  · unfold IteratorImpl.value
    rw [hval, hid]
  · omega
  · rw [nextFuel_succ]
    cases rs with
    | nil =>
      have hcl0 : it._childrenLeft = 0 := by rw [hcl]; rfl
      rw [nextMove_ascend buf it hleaf hcl0, leavesChildren_nil, List.nil_append]
      rcases ascendLoop_spec buf size it._parent it outs hf with ⟨h1, h2⟩ | ⟨h1, h2⟩
      · rw [h1, if_pos rfl]
        exact ⟨_, _, rfl, Or.inl ⟨h2, rfl⟩⟩
      · rw [h1]
        simp only [Bool.false_eq_true, if_false]
        obtain ⟨it1, e1, e2, e3⟩ := settle_spec buf size fuel _ outs h2 hfuel
        exact ⟨it1, it1, e1, Or.inr ⟨e2, e3⟩⟩
    | cons r1 rrs =>
      have hcl0 : it._childrenLeft ≠ 0 := by rw [hcl]; simp
      rw [nextMove_right buf it hleaf hcl0]
      simp only [Bool.false_eq_true, if_false]
      have hat1 := moveRight_iterAt buf size q offset cls v cs id r1 rrs it._parent
        it._prefixBytes outs hlay0 hok0 hb hf
      rw [← hp, ← List.length_cons r1 rrs, ← hcl] at hat1
      obtain ⟨it1, e1, e2, e3⟩ := settle_spec buf size fuel _ _ hat1 hfuel
      exact ⟨it1, it1, e1, Or.inr ⟨e2, e3⟩⟩

/-- One step of `iterateLoop`. -/
theorem iterateLoop_succ (buf : List Nat) (size fuel : Nat) (it : IteratorImpl) :
    iterateLoop buf size (fuel + 1) it =
      if it.notEqualTo (iteratorEnd size) then
        match it.next buf size with
        | none => none
        | some r =>
          match iterateLoop buf size fuel r.2 with
          | none => none
          | some rest => some (it.value buf :: rest)
      else some [] := rfl

/-- The loop over the iterators visits the remaining words in order. -/
theorem iterateLoop_spec (buf : List Nat) (size : Nat) :
    ∀ (fuel : Nat) (it : IteratorImpl) (out : List (List Nat × Nat)),
      IterAt buf size it out → getChildrenNo buf it._snaPointer = 0 → out.length < fuel →
      iterateLoop buf size fuel it = some (leafPairs out) := by
  intro fuel
  induction fuel with
  | zero =>
    intro it out _ _ h
    omega
  | succ fuel ih =>
    intro it out hat hleaf hfuel
    obtain ⟨k, id, out1, e1, e2, e3, self, r, e4, e5⟩ :=
      nextFuel_leaf buf size size it out hat hleaf (Nat.le_refl _)
    have hne : it.notEqualTo (iteratorEnd size) = true := by
      unfold IteratorImpl.notEqualTo iteratorEnd
      simp only [bne_iff_ne, ne_eq]
      exact e3
    rw [iterateLoop_succ, if_pos hne]
    unfold IteratorImpl.next
    rw [e4]
    simp only []
    rw [e1] at hfuel ⊢
    simp only [List.length_cons] at hfuel
    rcases e5 with ⟨h1, h2⟩ | ⟨h1, h2⟩
    · rw [h2, h1]
      have hfp : 0 < fuel := by
        rw [h1] at hfuel
        simp only [List.length_nil] at hfuel
        omega
      obtain ⟨f, hf⟩ := Nat.exists_eq_succ_of_ne_zero (Nat.pos_iff_ne_zero.1 hfp)
      rw [hf, iterateLoop_succ]
      have hend : (iteratorEnd size).notEqualTo (iteratorEnd size) = false := by
        unfold IteratorImpl.notEqualTo
        simp
      rw [if_neg (by rw [hend]; exact Bool.false_ne_true)]
      simp only [leafPairs, List.map_cons, List.map_nil, e2]
    · rw [ih r out1 h2 h1 (by omega)]
      simp only [leafPairs, List.map_cons, e2]

/-- The size `freeze` records for a non-empty trie whose layout fits 32 bits. -/
theorem freeze_size_eq (t : TrieImpl) (hne : t._rootChildren ≠ [])
    (hsz : 1 + (levelSize t._rootChildren + subSize t._rootChildren) < 2 ^ 32) :
    t.freeze._serializedNodeArraySize =
      1 + (levelSize t._rootChildren + subSize t._rootChildren) := by
  have hl : ¬ t._rootChildren.length = 0 := fun h => hne (List.length_eq_zero.1 h)
  unfold TrieImpl.freeze
  rw [if_neg hl]
  simp only []
  rw [getBranchLength_spec t._rootChildren 0 (by omega), Nat.zero_add,
    Nat.mod_eq_of_lt hsz]

/-- The iteration over a trie whose node array holds the layout of the tree
`root` visits the words of the tree from left to right. -/
theorem iterate_lay (t : TrieImpl) (root : List TrieNode) (buf : List Nat)
    (hbuf : t._serializedNodeArray = some buf)
    (hsize : t._serializedNodeArraySize = 1 + (levelSize root + subSize root))
    (hok : ChildrenOK root) (hne : root ≠ []) (hcount : readU8 buf 0 = root.length)
    (hlay : Lay buf 1 0 (levelSize root) root) :
    t.iterate = .ok (leafPairs (leavesChildren root [])) := by
  cases root with
  | nil => exact absurd rfl hne
  | cons c1 crs =>
  have hlen := hok.length_le
  have hat : IterAt buf t._serializedNodeArraySize
      ⟨1, (getChildrenNo buf 0 + 255) % 256, [], []⟩ (leavesChildren (c1 :: crs) []) := by
    refine ⟨1, 0, levelSize (c1 :: crs), c1, crs, [], rfl, hlay, hok, ?_, ?_, ?_, ?_⟩
    · rw [hsize]
      omega
    · unfold getChildrenNo
      rw [hcount]
      simp only [List.length_cons] at hlen ⊢
      omega
    · rw [framesOK_nil]
    · rw [List.append_nil]
  have hcnt := (leaves_length_aux.2 (c1 :: crs) [])
  obtain ⟨it1, e1, e2, e3⟩ := settle_spec buf t._serializedNodeArraySize
    (t._serializedNodeArraySize + 1) _ _ hat (Nat.le_succ _)
  have hbegin : t.begin = .ok it1 := by
    unfold TrieImpl.begin
    rw [hbuf]
    simp only []
    by_cases h : getChildrenNo buf 1 > 0
    · rw [if_pos h] at e1 ⊢
      unfold IteratorImpl.next
      rw [e1]
    · rw [if_neg h] at e1 ⊢
      have := (Prod.mk.inj (Option.some.inj e1)).1
      rw [this]
  unfold TrieImpl.iterate
  rw [hbuf]
  simp only []
  rw [hbegin]
  simp only []
  rw [iterateLoop_spec buf _ _ it1 _ e3 e2 (by rw [hsize]; omega)]

/-- A trie built from a non-empty word list and frozen: the insertions succeed
and the iteration visits the words of the tree from left to right. -/
theorem iterate_addWords (ws : List (String × Nat)) (hws : ws ≠ [])
    (hpure : ∀ p ∈ ws, p.1.isPureHangul = true) (hne : ∀ p ∈ ws, p.1.length ≠ 0)
    (hlen : ∀ p ∈ ws, p.1.length ≤ 83) (hid : ∀ p ∈ ws, p.2 < 2 ^ 32)
    (hcount : ws.length ≤ 16000000) :
    ∃ t, TrieImpl.new.addWords ws = .ok t ∧
      t._rootChildren = addAll [] (encodeWords ws) ∧
      t.freeze.iterate = .ok (leafPairs (leavesChildren (addAll [] (encodeWords ws)) [])) := by
  obtain ⟨t, buf, hadd, hmode, hbuf, hroot, hnn, hcnt, hlay⟩ :=
    freeze_addWords ws hws hpure hne hlen hid hcount
  have hadd2 := addWords_eq ws TrieImpl.new rfl hpure
  have hsz := serializedSize_addWords ws hpure hlen hcount _ hadd2
  rw [hadd] at hadd2
  have ht := Except.ok.inj hadd2
  have hrc : t._rootChildren = addAll [] (encodeWords ws) := by rw [ht]; rfl
  refine ⟨t, hadd, hrc, ?_⟩
  have hsize := freeze_size_eq t (by rw [hrc]; exact hnn)
    (by
      rw [ht]
      simp only [TrieImpl.serializedSize] at hsz
      exact hsz)
  rw [hrc] at hsize
  exact iterate_lay t.freeze _ buf hbuf hsize hroot.1 hnn hcnt hlay

/-- C25 (amended): for every trie frozen from a list `W` of at most 16 million
(key, id) pairs with pairwise distinct pure-Hangul keys of at most 83
characters, at least one of them not empty, and 32-bit ids, iterating from
`begin()` to `end()` yields exactly the pairs of `W` whose key is not empty,
each exactly once, and the words yielded are, from left to right, the
concatenations of the edge labels on the paths from the root to the leaves
(the children with an empty label included). -/
theorem iterate_spec (ws : List (String × Nat))
    (hex : ∃ p ∈ ws, p.1.length ≠ 0)
    (hpure : ∀ p ∈ ws, p.1.isPureHangul = true) (hlen : ∀ p ∈ ws, p.1.length ≤ 83)
    (hid : ∀ p ∈ ws, p.2 < 2 ^ 32) (hcount : ws.length ≤ 16000000)
    (hnd : (ws.map Prod.fst).Nodup) :
    ∃ t r, TrieImpl.new.addWords ws = .ok t ∧ t.freeze.iterate = .ok r ∧
      (∀ w id, (⟨w, id⟩ : WordIdPair) ∈ r ↔ (w, id) ∈ ws ∧ w.length ≠ 0) ∧
      r.Nodup ∧ r = leafPairs (leavesChildren t._rootChildren []) := by
  obtain ⟨hf, hfnd, hfl, hfne⟩ := filter_words ws
  have hpure2 : ∀ p ∈ ws.filter (fun p => decide (p.1.length ≠ 0)), p.1.isPureHangul = true :=
    fun p hp => hpure p (hf p hp).1
  have hne2 : ∀ p ∈ ws.filter (fun p => decide (p.1.length ≠ 0)), p.1.length ≠ 0 :=
    fun p hp => (hf p hp).2
  rw [addWords_filter ws hpure]
  obtain ⟨t, ht, hrc, hit⟩ := iterate_addWords _ (hfne hex) hpure2 hne2
    (fun p hp => hlen p (hf p hp).1) (fun p hp => hid p (hf p hp).1)
    (Nat.le_trans hfl hcount)
  have hk := encodeWords_jamo _ hpure2 hne2
  have hkeys := encodeWords_keys _ hpure2 hne2 (fun p hp => hlen p (hf p hp).1)
    (fun p hp => hid p (hf p hp).1)
  obtain ⟨hroot, -⟩ := @addAll_spec 0 (encodeWords (ws.filter fun p => decide (p.1.length ≠ 0)))
    [] rootOK_nil fun p hp => ⟨(hkeys p hp).1, (hkeys p hp).2.1⟩
  -- every word of the tree is the key of a pair of the list
  have hword : ∀ p ∈ leavesChildren
      (addAll [] (encodeWords (ws.filter fun p => decide (p.1.length ≠ 0)))) [],
      ∃ w, (w, p.2) ∈ ws.filter (fun p => decide (p.1.length ≠ 0)) ∧ encodeKey w = p.1 ∧
        String.ofHangulString p.1 = w := by
    intro p hp
    have hj := leaves_jamoBytes_aux.2 _ hroot.1 [] jamoBytes_nil p hp
    have hl := (leaves_mem_aux.2 _ hroot.1 [] p.1 p.2 hj).1 (by rw [List.nil_append]; exact hp)
    have hm := lookupRoot_addAll_some _ hk p.1 hj p.2 hl
    unfold encodeWords at hm
    obtain ⟨x, hx, ex⟩ := List.mem_map.1 hm
    have e1 : encodeKey x.1 = p.1 := congrArg Prod.fst ex
    have e2 : x.2 = p.2 := congrArg Prod.snd ex
    refine ⟨x.1, ?_, e1, ?_⟩
    · rw [← e2]
      exact hx
    · rw [← e1]
      exact ofHangulString_encodeKey x.1 (hpure2 x hx)
  refine ⟨t, _, ht, hit, fun w id => ?_, ?_, by rw [hrc]⟩
  · unfold leafPairs
    rw [List.mem_map]
    constructor
    · rintro ⟨p, hp, e⟩
      obtain ⟨w1, h1, -, h3⟩ := hword p hp
      have ew : String.ofHangulString p.1 = w := congrArg WordIdPair.str e
      have ei : p.2 = id := congrArg WordIdPair.id e
      rw [← ew, ← ei, h3]
      exact hf _ h1
    · rintro ⟨hw, hw0⟩
      have hmem : (w, id) ∈ ws.filter (fun p => decide (p.1.length ≠ 0)) := by
        rw [List.mem_filter]
        exact ⟨hw, by simpa using hw0⟩
      have hwp := hpure2 _ hmem
      have hj : JamoBytes (encodeKey w) := (hk (encodeKey w, id)
        (by unfold encodeWords; exact List.mem_map.2 ⟨(w, id), hmem, rfl⟩)).1
      obtain ⟨id1, hl⟩ := lookupRoot_addAll_isSome _ hk (encodeKey w) hj
        ⟨(encodeKey w, id), by unfold encodeWords; exact List.mem_map.2 ⟨(w, id), hmem, rfl⟩,
          rfl⟩
      have hleaf := (leaves_mem_aux.2 _ hroot.1 [] (encodeKey w) id1 hj).2 hl
      rw [List.nil_append] at hleaf
      obtain ⟨w1, h1, h2, h3⟩ := hword _ hleaf
      simp only at h1 h2 h3
      have ew : w1 = w := by
        rw [← h3]
        exact ofHangulString_encodeKey w hwp
      rw [ew] at h1
      have eid : id1 = id := id_unique_of_nodup _ (hfnd hnd) w id1 id h1 hmem
      rw [eid] at hleaf
      exact ⟨_, hleaf, by simp only [ofHangulString_encodeKey w hwp]⟩
  · unfold leafPairs
    refine List.Nodup.map_on ?_ (List.Nodup.of_map _ (leaves_nodup_aux.2 _ hroot.1 []))
    intro p1 hp1 p2 hp2 e
    obtain ⟨w1, -, a2, a3⟩ := hword p1 hp1
    obtain ⟨w2, -, b2, b3⟩ := hword p2 hp2
    have ew : String.ofHangulString p1.1 = String.ofHangulString p2.1 :=
      congrArg WordIdPair.str e
    have ei : p1.2 = p2.2 := congrArg WordIdPair.id e
    rw [a3, b3] at ew
    have : p1.1 = p2.1 := by rw [← a2, ← b2, ew]
    exact Prod.ext this ei

/-- C25 at the words of the repository's test (빨갛 0, 빨간 1, 빨개 2, 파랗 3,
파란 4, 빨래 5, 빨리 6) and the word 빨 7. -/
theorem iterate_spec_witness :
    ∃ t r, TrieImpl.new.addWords
        [(⟨[0xBE68, 0xAC1B]⟩, 0), (⟨[0xBE68, 0xAC04]⟩, 1), (⟨[0xBE68, 0xAC1C]⟩, 2),
          (⟨[0xD30C, 0xB797]⟩, 3), (⟨[0xD30C, 0xB780]⟩, 4), (⟨[0xBE68, 0xB798]⟩, 5),
          (⟨[0xBE68, 0xB9AC]⟩, 6), (⟨[0xBE68]⟩, 7)] = .ok t ∧
      t.freeze.iterate = .ok r ∧
      (∀ w id, (⟨w, id⟩ : WordIdPair) ∈ r ↔
        (w, id) ∈ ([(⟨[0xBE68, 0xAC1B]⟩, 0), (⟨[0xBE68, 0xAC04]⟩, 1), (⟨[0xBE68, 0xAC1C]⟩, 2),
          (⟨[0xD30C, 0xB797]⟩, 3), (⟨[0xD30C, 0xB780]⟩, 4), (⟨[0xBE68, 0xB798]⟩, 5),
          (⟨[0xBE68, 0xB9AC]⟩, 6), (⟨[0xBE68]⟩, 7)] : List (String × Nat)) ∧
        w.length ≠ 0) ∧
      r.Nodup ∧ r = leafPairs (leavesChildren t._rootChildren []) :=
  iterate_spec
    [(⟨[0xBE68, 0xAC1B]⟩, 0), (⟨[0xBE68, 0xAC04]⟩, 1), (⟨[0xBE68, 0xAC1C]⟩, 2),
      (⟨[0xD30C, 0xB797]⟩, 3), (⟨[0xD30C, 0xB780]⟩, 4), (⟨[0xBE68, 0xB798]⟩, 5),
      (⟨[0xBE68, 0xB9AC]⟩, 6), (⟨[0xBE68]⟩, 7)]
    (by decide) (by decide) (by decide) (by decide) (by decide) (by decide)

/-- Counterexample to C25 as stated: after `addWord("", 5)` and `addWord("가", 1)`
on a fresh trie and `freeze()`, the iteration yields only `("가", 1)`; the pair
`("", 5)` of the set is not yielded. -/
theorem iterate_misses_empty_key :
    (do
      let t ← TrieImpl.new.addWords [(⟨[]⟩, 5), (⟨[0xAC00]⟩, 1)]
      t.freeze.iterate) = .ok [⟨⟨[0xAC00]⟩, 1⟩] ∧
    (⟨⟨[]⟩, 5⟩ : WordIdPair) ∉ [(⟨⟨[0xAC00]⟩, 1⟩ : WordIdPair)] := by
  decide

/-! ## Claims: the accessors of `Segmentations` -/

/-- A fresh object has one cleared bit per cell, and the number of bits fits an `int`. -/
theorem new_shape (N : Nat) (s0 : Segmentations) (h : Segmentations.new N = .ok s0) :
    s0._sentenceLength = N ∧ s0._words = List.replicate (N * N) false ∧ N * N < 2 ^ 31 := by
  unfold Segmentations.new at h
  by_cases hf : fitsInt ((N : Int) * N) = true
  · rw [if_pos hf] at h
    have e := Except.ok.inj h
    subst e
    refine ⟨rfl, rfl, ?_⟩
    unfold fitsInt at hf
    rw [decide_eq_true_iff] at hf
    have := hf.2
    have e2 : ((N : Int) * N) = ((N * N : Nat) : Int) := by push_cast; rfl
    rw [e2] at this
    omega
  · rw [if_neg hf] at h
    exact Except.noConfusion h

/-- A call that returns keeps the sentence length and the number of bits. -/
theorem call_shape (s s1 : Segmentations) (op : SegmentationsCall) (h : s.call op = .ok s1) :
    s1._sentenceLength = s._sentenceLength ∧ s1._words.length = s._words.length := by
  cases op with
  | addWord a b =>
    simp only [Segmentations.call, Segmentations.addWord] at h
    cases hb : s.bitForWord a b with
    | error e => rw [hb] at h; exact Except.noConfusion h
    | ok bit =>
      rw [hb] at h
      simp only [bind, Except.bind] at h
      by_cases hlt : bit < s._words.length
      · rw [if_pos hlt] at h
        have e := Except.ok.inj h
        subst e
        exact ⟨rfl, List.length_set _ _ _⟩
      · rw [if_neg hlt] at h
        exact Except.noConfusion h
  | removeWord a b =>
    simp only [Segmentations.call, Segmentations.removeWord] at h
    cases hb : s.bitForWord a b with
    | error e => rw [hb] at h; exact Except.noConfusion h
    | ok bit =>
      rw [hb] at h
      simp only [bind, Except.bind] at h
      by_cases hlt : bit < s._words.length
      · rw [if_pos hlt] at h
        have e := Except.ok.inj h
        subst e
        exact ⟨rfl, List.length_set _ _ _⟩
      · rw [if_neg hlt] at h
        exact Except.noConfusion h

/-- A sequence of calls that return keeps the sentence length and the number of bits. -/
theorem calls_shape (ops : List SegmentationsCall) (s s1 : Segmentations)
    (h : s.calls ops = .ok s1) :
    s1._sentenceLength = s._sentenceLength ∧ s1._words.length = s._words.length := by
  induction ops generalizing s with
  | nil =>
    have e := Except.ok.inj h
    subst e
    exact ⟨rfl, rfl⟩
  | cons op ops ih =>
    simp only [Segmentations.calls] at h
    cases hc : s.call op with
    | error e => rw [hc] at h; exact Except.noConfusion h
    | ok s2 =>
      rw [hc] at h
      simp only [bind, Except.bind] at h
      obtain ⟨a1, a2⟩ := ih s2 h
      obtain ⟨b1, b2⟩ := call_shape s s2 op hc
      exact ⟨a1.trans b1, a2.trans b2⟩

/-- The shape of every object made by the constructor and calls that return. -/
theorem reachable_shape (N : Nat) (ops : List SegmentationsCall) (s0 s : Segmentations)
    (h0 : Segmentations.new N = .ok s0) (hs : s0.calls ops = .ok s) :
    s._sentenceLength = N ∧ s._words.length = N * N ∧ N * N < 2 ^ 31 := by
  obtain ⟨a1, a2, a3⟩ := new_shape N s0 h0
  obtain ⟨b1, b2⟩ := calls_shape ops s0 s hs
  refine ⟨b1.trans a1, ?_, a3⟩
  rw [b2, a2, List.length_replicate]

/-- For a cell of the matrix `removeWord` clears its bit. -/
theorem removeWord_ok (s : Segmentations) (i e : Nat) (hi : i ≤ e) (he : e < s._sentenceLength)
    (hn : s._sentenceLength * s._sentenceLength < 2 ^ 31)
    (hl : s._words.length = s._sentenceLength * s._sentenceLength) :
    s.removeWord i e =
      .ok { s with _words := s._words.set (i * s._sentenceLength + e) false } := by
  have hlt := cell_lt s._sentenceLength i e hi he
  unfold Segmentations.removeWord
  rw [bitForWord_ok s i e hi he hn]
  simp only [bind, Except.bind]
  rw [if_pos (by omega)]
  rfl

/-- The bits after one bit is written. -/
theorem getD_set_bit (l : List Bool) (k j : Nat) (b : Bool) (hk : k < l.length) :
    (l.set k b).getD j false = if j = k then b else l.getD j false := by
  rw [List.getD_eq_getElem?_getD, List.getD_eq_getElem?_getD, List.getElem?_set]
  by_cases h : k = j
  · subst h
    simp [hk]
  · rw [if_neg h, if_neg (fun x => h x.symm)]

/-- The loop of `wordsStartingAt` from the column `i` to the last one. -/
theorem wordsStartingAtLoop_spec (s : Segmentations) (p : Nat)
    (hn : s._sentenceLength * s._sentenceLength < 2 ^ 31)
    (hl : s._words.length = s._sentenceLength * s._sentenceLength) :
    ∀ (n i : Nat) (words : List Int), p ≤ i → i + n ≤ s._sentenceLength →
      ∃ l, wordsStartingAtLoop s p n i words = .ok (words ++ l) ∧
        l.Pairwise (fun a b => a < b) ∧
        ∀ j : Int, j ∈ l ↔ ((i : Int) ≤ j ∧ j < ((i + n : Nat) : Int) ∧ s.word p j = .ok true) := by
  intro n
  induction n with
  | zero =>
    intro i words _ _
    refine ⟨[], by simp [wordsStartingAtLoop], List.Pairwise.nil, fun j => ?_⟩
    constructor
    · intro h; cases h
    · rintro ⟨h1, h2, -⟩
      omega
  | succ n ih =>
    intro i words hpi hin
    have hw := word_ok s p i hpi (by omega) hn hl
    obtain ⟨l, h1, h2, h3⟩ := ih (i + 1)
      (if s._words.getD (p * s._sentenceLength + i) false then words ++ [(i : Int)] else words)
      (by omega) (by omega)
    have e1 : ((i : Int) + 1) = ((i + 1 : Nat) : Int) := by push_cast; rfl
    cases hb : s._words.getD (p * s._sentenceLength + i) false with
    | true =>
      rw [hb] at hw h1
      refine ⟨(i : Int) :: l, ?_, ?_, fun j => ?_⟩
      · simp only [wordsStartingAtLoop, hw, bind, Except.bind, e1]
        simp only [if_true] at h1 ⊢
        rw [h1]
        simp
      · refine List.Pairwise.cons (fun a ha => ?_) h2
        have := ((h3 a).1 ha).1
        omega
      · rw [List.mem_cons, h3 j]
        constructor
        · rintro (h | ⟨a, b, c⟩)
          · subst h
            exact ⟨Int.le_refl _, by omega, hw⟩
          · exact ⟨by omega, by omega, c⟩
        · rintro ⟨a, b, c⟩
          by_cases hj : j = (i : Int)
          · exact Or.inl hj
          · exact Or.inr ⟨by omega, by omega, c⟩
    | false =>
      rw [hb] at hw h1
      refine ⟨l, ?_, h2, fun j => ?_⟩
      · simp only [wordsStartingAtLoop, hw, bind, Except.bind, e1]
        simp only [Bool.false_eq_true, if_false] at h1 ⊢
        exact h1
      · rw [h3 j]
        constructor
        · rintro ⟨a, b, c⟩
          exact ⟨by omega, by omega, c⟩
        · rintro ⟨a, b, c⟩
          by_cases hj : j = (i : Int)
          · subst hj
            rw [hw] at c
            cases c
          · exact ⟨by omega, by omega, c⟩

/-- The loop of `wordsEndingAt` from the row `n - 1` down to the first one. -/
theorem wordsEndingAtLoop_spec (s : Segmentations) (p : Nat) (hp : p < s._sentenceLength)
    (hn : s._sentenceLength * s._sentenceLength < 2 ^ 31)
    (hl : s._words.length = s._sentenceLength * s._sentenceLength) :
    ∀ (n : Nat) (words : List Int), n ≤ p + 1 →
      ∃ l, wordsEndingAtLoop s p n ((n : Int) - 1) words = .ok (words ++ l) ∧
        l.Pairwise (fun a b => a > b) ∧
        ∀ j : Int, j ∈ l ↔ (0 ≤ j ∧ j < (n : Int) ∧ s.word j p = .ok true) := by
  intro n
  induction n with
  | zero =>
    intro words _
    refine ⟨[], by simp [wordsEndingAtLoop], List.Pairwise.nil, fun j => ?_⟩
    constructor
    · intro h; cases h
    · rintro ⟨h1, h2, -⟩
      omega
  | succ n ih =>
    intro words hnp
    have hw := word_ok s n p (by omega) hp hn hl
    obtain ⟨l, h1, h2, h3⟩ := ih
      (if s._words.getD (n * s._sentenceLength + p) false then words ++ [(n : Int)] else words)
      (by omega)
    have e1 : (((n + 1 : Nat) : Int) - 1) = (n : Int) := by push_cast; omega
    have e2 : ((n : Int) - 1) = ((n : Int) - 1) := rfl
    cases hb : s._words.getD (n * s._sentenceLength + p) false with
    | true =>
      rw [hb] at hw h1
      refine ⟨(n : Int) :: l, ?_, ?_, fun j => ?_⟩
      · rw [e1]
        simp only [wordsEndingAtLoop, hw, bind, Except.bind]
        simp only [if_true] at h1 ⊢
        rw [h1]
        simp
      · refine List.Pairwise.cons (fun a ha => ?_) h2
        have := ((h3 a).1 ha).2.1
        omega
      · rw [List.mem_cons, h3 j]
        constructor
        · rintro (h | ⟨a, b, c⟩)
          · subst h
            exact ⟨by omega, by omega, hw⟩
          · exact ⟨a, by omega, c⟩
        · rintro ⟨a, b, c⟩
          by_cases hj : j = (n : Int)
          · exact Or.inl hj
          · exact Or.inr ⟨a, by omega, c⟩
    | false =>
      rw [hb] at hw h1
      refine ⟨l, ?_, h2, fun j => ?_⟩
      · rw [e1]
        simp only [wordsEndingAtLoop, hw, bind, Except.bind]
        simp only [Bool.false_eq_true, if_false] at h1 ⊢
        exact h1
      · rw [h3 j]
        constructor
        · rintro ⟨a, b, c⟩
          exact ⟨a, by omega, c⟩
        · rintro ⟨a, b, c⟩
          by_cases hj : j = (n : Int)
          · subst hj
            rw [hw] at c
            cases c
          · exact ⟨a, by omega, c⟩

/-- C26: for every `Segmentations` of sentence length `N` (made by the
constructor and by calls of `addWord` and `removeWord` that return) and every
position `p` in `[0, N)`: `wordsStartingAt(p)` is the strictly ascending list of
exactly those `j` in `[p, N)` with `word(p, j)` true, and `wordsEndingAt(p)` is
the strictly descending list of exactly those `i` in `[0, p]` with `word(i, p)`
true. -/
theorem wordsStartingAt_wordsEndingAt_spec (N : Nat) (ops : List SegmentationsCall)
    (s0 s : Segmentations) (p : Nat)
    (h0 : Segmentations.new N = .ok s0) (hs : s0.calls ops = .ok s) (hp : p < N) :
    (∃ l, s.wordsStartingAt p = .ok l ∧ l.Pairwise (fun a b => a < b) ∧
      ∀ j : Int, j ∈ l ↔ ((p : Int) ≤ j ∧ j < (N : Int) ∧ s.word p j = .ok true)) ∧
    (∃ l, s.wordsEndingAt p = .ok l ∧ l.Pairwise (fun a b => a > b) ∧
      ∀ i : Int, i ∈ l ↔ (0 ≤ i ∧ i ≤ (p : Int) ∧ s.word i p = .ok true)) := by
  obtain ⟨e1, e2, e3⟩ := reachable_shape N ops s0 s h0 hs
  have hn : s._sentenceLength * s._sentenceLength < 2 ^ 31 := by rw [e1]; exact e3
  have hl : s._words.length = s._sentenceLength * s._sentenceLength := by rw [e1]; exact e2
  constructor
  · obtain ⟨l, h1, h2, h3⟩ := wordsStartingAtLoop_spec s p hn hl (N - p) p [] (Nat.le_refl _)
      (by rw [e1]; omega)
    refine ⟨l, ?_, h2, fun j => ?_⟩
    · unfold Segmentations.wordsStartingAt
      have e : ((s._sentenceLength : Int) - (p : Int)).toNat = N - p := by rw [e1]; omega
      rw [e, h1]
      rfl
    · rw [h3 j]
      have e : ((p + (N - p) : Nat) : Int) = (N : Int) := by omega
      rw [e]
  · obtain ⟨l, h1, h2, h3⟩ := wordsEndingAtLoop_spec s p (by rw [e1]; exact hp) hn hl (p + 1) []
      (Nat.le_refl _)
    refine ⟨l, ?_, h2, fun i => ?_⟩
    · unfold Segmentations.wordsEndingAt
      have e : ((p : Int) + 1).toNat = p + 1 := by omega
      have e4 : (((p + 1 : Nat) : Int) - 1) = (p : Int) := by omega
      rw [e4] at h1
      rw [e, h1]
      rfl
    · rw [h3 i]
      constructor
      · rintro ⟨a, b, c⟩
        exact ⟨a, by omega, c⟩
      · rintro ⟨a, b, c⟩
        exact ⟨a, by omega, c⟩

/-- C26 at the object of length 3 holding the words (0, 2) and (1, 1), at the
position 0. -/
theorem wordsStartingAt_wordsEndingAt_spec_witness :
    (∃ l, (Segmentations.mk 3
        [false, false, true, false, true, false, false, false, false]).wordsStartingAt
          ((0 : Nat) : Int) = .ok l ∧
      l.Pairwise (fun a b => a < b) ∧
      ∀ j : Int, j ∈ l ↔ (((0 : Nat) : Int) ≤ j ∧ j < ((3 : Nat) : Int) ∧
        (Segmentations.mk 3
          [false, false, true, false, true, false, false, false, false]).word
            ((0 : Nat) : Int) j = .ok true)) ∧
    (∃ l, (Segmentations.mk 3
        [false, false, true, false, true, false, false, false, false]).wordsEndingAt
          ((0 : Nat) : Int) = .ok l ∧
      l.Pairwise (fun a b => a > b) ∧
      ∀ i : Int, i ∈ l ↔ (0 ≤ i ∧ i ≤ ((0 : Nat) : Int) ∧
        (Segmentations.mk 3
          [false, false, true, false, true, false, false, false, false]).word
            i ((0 : Nat) : Int) = .ok true)) :=
  wordsStartingAt_wordsEndingAt_spec 3
    [.addWord 0 1, .addWord 0 2, .addWord 1 1, .removeWord 0 1]
    (Segmentations.mk 3 (List.replicate 9 false))
    (Segmentations.mk 3 [false, false, true, false, true, false, false, false, false])
    0 (by decide) (by decide) (by decide)

/-- C27: a fresh `Segmentations(N)` has `word(i, j)` false for every cell
`0 <= i <= j < N`; on every object made from it by calls that return, for every
such cell `addWord(i, j)` makes `word(i, j)` true and `removeWord(i, j)` makes it
false, and in both cases `word` is unchanged at every other cell of the range. -/
theorem word_addWord_removeWord (N : Nat) (ops : List SegmentationsCall)
    (s0 s : Segmentations) (i j : Nat)
    (h0 : Segmentations.new N = .ok s0) (hs : s0.calls ops = .ok s)
    (hij : i ≤ j) (hj : j < N) :
    s0.word i j = .ok false ∧
    (∃ s1, s.addWord i j = .ok s1 ∧ s1.word i j = .ok true ∧
      ∀ a b : Nat, a ≤ b → b < N → (a, b) ≠ (i, j) → s1.word a b = s.word a b) ∧
    (∃ s1, s.removeWord i j = .ok s1 ∧ s1.word i j = .ok false ∧
      ∀ a b : Nat, a ≤ b → b < N → (a, b) ≠ (i, j) → s1.word a b = s.word a b) := by
  obtain ⟨a1, a2, a3⟩ := new_shape N s0 h0
  obtain ⟨e1, e2, e3⟩ := reachable_shape N ops s0 s h0 hs
  obtain ⟨sl, w⟩ := s
  simp only at e1 e2
  subst e1
  have hc := cell_lt sl i j hij hj
  have key : ∀ (v : Bool),
      (Segmentations.mk sl (w.set (i * sl + j) v)).word i j = .ok v ∧
      ∀ a b : Nat, a ≤ b → b < sl → (a, b) ≠ (i, j) →
        (Segmentations.mk sl (w.set (i * sl + j) v)).word a b = (Segmentations.mk sl w).word a b := by
    intro v
    have hl2 : (w.set (i * sl + j) v).length = sl * sl := by rw [List.length_set]; exact e2
    constructor
    · rw [word_ok ⟨sl, w.set (i * sl + j) v⟩ i j hij hj e3 hl2]
      simp only
      rw [getD_set_bit _ _ _ _ (by omega), if_pos rfl]
    · intro a b hab hb hne
      rw [word_ok ⟨sl, w.set (i * sl + j) v⟩ a b hab hb e3 hl2, word_ok ⟨sl, w⟩ a b hab hb e3 e2]
      simp only
      rw [getD_set_bit _ _ _ _ (by omega), if_neg]
      intro h
      obtain ⟨x, y⟩ := cell_inj sl a b i j hb hj h
      exact hne (by rw [x, y])
  refine ⟨?_, ⟨_, addWord_ok ⟨sl, w⟩ i j hij hj e3 e2, (key true).1, (key true).2⟩,
    ⟨_, removeWord_ok ⟨sl, w⟩ i j hij hj e3 e2, (key false).1, (key false).2⟩⟩
  have hl0 : s0._words.length = s0._sentenceLength * s0._sentenceLength := by
    rw [a1, a2, List.length_replicate]
  rw [word_ok s0 i j hij (by rw [a1]; exact hj) (by rw [a1]; exact e3) hl0, a1, a2,
    List.getD_eq_getElem?_getD, List.getElem?_replicate]
  rw [if_pos hc]
  rfl

/-- C27 at the cell (0, 1) of the object of length 2 made by `addWord(1, 1)`. -/
theorem word_addWord_removeWord_witness :
    (Segmentations.mk 2 [false, false, false, false]).word ((0 : Nat) : Int) ((1 : Nat) : Int) =
      .ok false ∧
    (∃ s1, (Segmentations.mk 2 [false, false, false, true]).addWord ((0 : Nat) : Int)
        ((1 : Nat) : Int) = .ok s1 ∧
      s1.word ((0 : Nat) : Int) ((1 : Nat) : Int) = .ok true ∧
      ∀ a b : Nat, a ≤ b → b < 2 → (a, b) ≠ (0, 1) →
        s1.word a b = (Segmentations.mk 2 [false, false, false, true]).word a b) ∧
    (∃ s1, (Segmentations.mk 2 [false, false, false, true]).removeWord ((0 : Nat) : Int)
        ((1 : Nat) : Int) = .ok s1 ∧
      s1.word ((0 : Nat) : Int) ((1 : Nat) : Int) = .ok false ∧
      ∀ a b : Nat, a ≤ b → b < 2 → (a, b) ≠ (0, 1) →
        s1.word a b = (Segmentations.mk 2 [false, false, false, true]).word a b) :=
  word_addWord_removeWord 2 [.addWord 1 1]
    (Segmentations.mk 2 (List.replicate 4 false))
    (Segmentations.mk 2 [false, false, false, true])
    0 1 (by decide) (by decide) (by decide) (by decide)

/-- C28: on a `Segmentations` of length 3, `addWord(0, 4)` raises no error and
sets the bit of the cell (1, 1); `word(0, 3)` raises no error; `word(3, 3)` passes
the range test and reads outside the bitset. -/
theorem addWord_beyond_sentence :
    ((Segmentations.new 3).bind fun s => s.addWord 0 4) =
      .ok ⟨3, [false, false, false, false, true, false, false, false, false]⟩ ∧
    ((Segmentations.new 3).bind fun s => (s.addWord 0 4).bind fun s1 => s1.word 1 1) =
      .ok true ∧
    ((Segmentations.new 3).bind fun s => s.word 0 3) = .ok false ∧
    ((Segmentations.new 3).bind fun s => s.bitForWord 3 3) = .ok 12 ∧
    ((Segmentations.new 3).bind fun s => s.word 3 3) = .error .undefinedBehaviour := by
  decide

/-! ## Claims on the states of the hash table: the counter and the lookup loops -/

/-- C37: a table of capacity 2 holding id 0 (value 10.0, one used slot, counter 1)
is written with `writeToStream`; the table the stream constructor builds from
these bytes has the same slots, one of them used, but its counter
`_usedUpBuckets` is 0, because `loadFromStream` never assigns it. -/
theorem loadFromStream_counter_not_restored :
    (HashTable.new 2 : HashTable Nat).insert 0 0x4024000000000000 =
      some (⟨2, [⟨0, 0x4024000000000000, true⟩, ⟨0, 0, false⟩], 1⟩, 0) ∧
    HashTable.ofStream
        ((HashTable.mk 2 [⟨0, 0x4024000000000000, true⟩, ⟨0, 0, false⟩] 1).writeToStream []) =
      .ok (⟨2, [⟨0, 0x4024000000000000, true⟩, ⟨0, 0, false⟩], 0⟩, []) ∧
    (HashTable.mk 2 [⟨0, 0x4024000000000000, true⟩, ⟨0, 0, false⟩] 0).usedSlots = 1 ∧
    (HashTable.mk 2 [⟨0, 0x4024000000000000, true⟩, ⟨0, 0, false⟩] 0)._usedUpBuckets = 0 := by
  decide

/-- C38: on a fresh table of capacity 2, `insert(1, 10)` and `insert(3, 20)` both
return 0 and fill both slots (both ids have home slot 1); on the resulting
table `exists(4)` and `retrieve(4)`, whose id also has home slot 1, never
return, whatever the number of loop iterations: no slot is empty and no
occupant has a smaller probe distance than the probe. -/
theorem lookup_cycles_on_full_table :
    (HashTable.new 2 : HashTable Int).insertAll [(1, 10), (3, 20)] =
      some (tableTwoFull, [0, 0]) ∧
    ∀ fuel, tableTwoFull.exists fuel 4 = none ∧ tableTwoFull.retrieve fuel 4 = none := by
  refine ⟨by decide, fun fuel => ?_⟩
  have h4 : hash32 4 % 2 = 1 := by decide
  have h1 : hash32 1 % 2 = 1 := by decide
  have h3 : hash32 3 % 2 = 1 := by decide
  have key : ∀ n, lookupLoop n tableTwoFull 4 1 1 = none ∧
      lookupLoop n tableTwoFull 4 1 0 = none := by
    intro n
    induction n with
    | zero => exact ⟨rfl, rfl⟩
    | succ n ih =>
      constructor
      · simp only [lookupLoop, tableTwoFull, h1]
        simpa [tableTwoFull] using ih.2
      · simp only [lookupLoop, tableTwoFull, h3]
        simpa [tableTwoFull] using ih.1
  simp only [HashTable.exists, HashTable.retrieve, tableTwoFull, h4]
  have := (key fuel).1
  simp only [tableTwoFull] at this
  simp only [this, and_self]

/-! ### Claim C31: the order of the probe distances -/

/-- A read in a bucket array after a store. -/
theorem getD_set_bucket {V : Type} (bs : List (Bucket V)) (p i : Nat) (b z : Bucket V) :
    (bs.set p b).getD i z = if i = p ∧ p < bs.length then b else bs.getD i z := by
  simp only [List.getD_eq_getElem?_getD, List.getElem?_set]
  by_cases h : p = i
  · subst h
    by_cases hp : p < bs.length
    · simp [hp]
    · simp [hp, List.getElem?_eq_none (Nat.le_of_not_lt hp)]
  · have h2 : ¬ i = p := fun e => h e.symm
    simp [h, h2]

/-- The home of an id is a slot. -/
theorem homeAt_lt {V : Type} [Zero V] (K : KeyType) (T : HashTable V) (i : Nat)
    (hC : 1 ≤ T._bucketsNo) : T.homeAt K i < T._bucketsNo :=
  Nat.mod_lt _ (by omega)

/-- A probe distance is below the capacity. -/
theorem distAt_lt {V : Type} [Zero V] (K : KeyType) (T : HashTable V) (i : Nat)
    (hC : 1 ≤ T._bucketsNo) : T.distAt K i < T._bucketsNo :=
  Nat.mod_lt _ (by omega)

/-- A used slot lies in the bucket array. -/
theorem lt_length_of_used {V : Type} [Zero V] (T : HashTable V) (p : Nat)
    (h : T.usedAt p = true) : p < T._buckets.length := by
  by_contra hp
  unfold HashTable.usedAt at h
  rw [List.getD_eq_default _ _ (Nat.le_of_not_lt hp)] at h
  cases h

/-- No more slots are used than the table has. -/
theorem usedSlots_le {V : Type} [Zero V] (T : HashTable V) : T.usedSlots ≤ T._bucketsNo := by
  unfold HashTable.usedSlots HashTable.slots
  exact Nat.le_trans (List.length_filter_le _ _) (by rw [List.length_take]; omega)

/-- The number of used slots after a store into a slot that was not used. -/
theorem usedSlots_set_new {V : Type} [Zero V] (T T1 : HashTable V) (p : Nat) (b : Bucket V)
    (hC : T1._bucketsNo = T._bucketsNo) (hb : T1._buckets = T._buckets.set p b)
    (hp : p < T._bucketsNo) (hlen : T._bucketsNo ≤ T._buckets.length)
    (hold : T.usedAt p = false) (hnew : b.used = true) :
    T1.usedSlots = T.usedSlots + 1 := by
  have hlt : p < (List.take T._bucketsNo T._buckets).length := by
    rw [List.length_take]; omega
  unfold HashTable.usedSlots HashTable.slots
  rw [hC, hb, List.set_take, ← List.countP_eq_length_filter, ← List.countP_eq_length_filter,
    List.countP_set _ _ _ _ hlt]
  have hget : (List.take T._bucketsNo T._buckets)[p] = T._buckets.getD p Bucket.zero := by
    rw [List.getElem_take, List.getD_eq_getElem _ _ (by omega)]
  unfold HashTable.usedAt at hold
  rw [hget, hold, hnew]
  simp

/-- The number of used slots after a store that keeps the flag of the slot. -/
theorem usedSlots_set_same {V : Type} [Zero V] (T T1 : HashTable V) (p : Nat) (b : Bucket V)
    (hC : T1._bucketsNo = T._bucketsNo) (hb : T1._buckets = T._buckets.set p b)
    (hp : p < T._bucketsNo) (hlen : T._bucketsNo ≤ T._buckets.length)
    (hold : T.usedAt p = true) (hnew : b.used = true) :
    T1.usedSlots = T.usedSlots := by
  have hlt : p < (List.take T._bucketsNo T._buckets).length := by
    rw [List.length_take]; omega
  unfold HashTable.usedSlots HashTable.slots
  rw [hC, hb, List.set_take, ← List.countP_eq_length_filter, ← List.countP_eq_length_filter,
    List.countP_set _ _ _ _ hlt]
  have hget : (List.take T._bucketsNo T._buckets)[p] = T._buckets.getD p Bucket.zero := by
    rw [List.getElem_take, List.getD_eq_getElem _ _ (by omega)]
  have hpos := List.boole_getElem_le_countP (fun b : Bucket V => b.used)
    (List.take T._bucketsNo T._buckets) p hlt
  unfold HashTable.usedAt at hold
  rw [hget, hold] at hpos
  rw [hget, hold, hnew]
  simp only [if_true] at hpos ⊢
  omega

/-- The order of the probe distances after the probe stores its id in the slot
it stands at, which was not used or held an id with a probe distance that is
not larger than that of the probe. -/
theorem lookupOrdered_store {V : Type} [Zero V] (K : KeyType) (T T1 : HashTable V)
    (p dp k : Nat) (hC : T1._bucketsNo = T._bucketsNo)
    (hdp : dp < T._bucketsNo) (hk : k < T._bucketsNo)
    (hp : p = (dp + k) % T._bucketsNo)
    (hused : ∀ i, i ≠ p → T1.usedAt i = T.usedAt i)
    (hhome : ∀ i, i ≠ p → T1.homeAt K i = T.homeAt K i)
    (hup : T1.usedAt p = true) (hhp : T1.homeAt K p = dp)
    (hold : T.usedAt p = true → T.distAt K p ≤ k)
    (hcar : T.Carried K dp k) (hinv : T.LookupOrdered K) : T1.LookupOrdered K := by
  have hdist : ∀ i, i ≠ p → T1.distAt K i = T.distAt K i := by
    intro i hi
    unfold HashTable.distAt
    rw [hC, hhome i hi]
  have hdp1 : T1.distAt K p = k := by
    unfold HashTable.distAt
    rw [hC, hhp, hp]
    exact dist_add_mod _ dp k hdp hk
  intro i hi hui j hj
  rw [hC] at hi ⊢
  by_cases hip : i = p
  · rw [hip] at hj ⊢
    rw [hdp1] at hj
    rw [hhp]
    by_cases hjk : j = k
    · rw [hjk, ← hp, hdp1]
      exact ⟨hup, Nat.le_refl _⟩
    · have hjlt : j < k := by omega
      have hne : (dp + j) % T._bucketsNo ≠ p := by
        rw [hp]
        intro e
        exact hjk (add_mod_inj _ dp j k hdp (by omega) hk e)
      rw [hused _ hne, hdist _ hne]
      exact hcar j hjlt
  · rw [hused i hip] at hui
    rw [hdist i hip] at hj
    rw [hhome i hip]
    obtain ⟨h1, h2⟩ := hinv i hi hui j hj
    by_cases hs : (T.homeAt K i + j) % T._bucketsNo = p
    · rw [hs] at h1 h2 ⊢
      rw [hdp1]
      exact ⟨hup, Nat.le_trans h2 (hold h1)⟩
    · rw [hused _ hs, hdist _ hs]
      exact ⟨h1, h2⟩

/-- The order of the probe distances in a table whose slots hold the same ids
and flags. -/
theorem lookupOrdered_congr {V : Type} [Zero V] (K : KeyType) (T T1 : HashTable V)
    (hC : T1._bucketsNo = T._bucketsNo)
    (hused : ∀ i, T1.usedAt i = T.usedAt i) (hhome : ∀ i, T1.homeAt K i = T.homeAt K i)
    (hinv : T.LookupOrdered K) : T1.LookupOrdered K := by
  have hdist : ∀ i, T1.distAt K i = T.distAt K i := by
    intro i
    unfold HashTable.distAt
    rw [hC, hhome i]
  intro i hi hui j hj
  rw [hC] at hi ⊢
  rw [hused] at hui ⊢
  rw [hdist] at hj ⊢
  rw [hhome]
  exact hinv i hi hui j hj

/-- After a swap the probe carries the former occupant of the slot, which has
passed the slots from its home to that slot. -/
theorem carried_swap {V : Type} [Zero V] (K : KeyType) (T T1 : HashTable V) (p dp k : Nat)
    (hC : T1._bucketsNo = T._bucketsNo) (hC1 : 1 ≤ T._bucketsNo)
    (hdp : dp < T._bucketsNo) (hk : k < T._bucketsNo) (hpC : p < T._bucketsNo)
    (hp : p = (dp + k) % T._bucketsNo)
    (hused : ∀ i, i ≠ p → T1.usedAt i = T.usedAt i)
    (hhome : ∀ i, i ≠ p → T1.homeAt K i = T.homeAt K i)
    (hup : T1.usedAt p = true) (hhp : T1.homeAt K p = dp)
    (hold : T.usedAt p = true) (hlt : T.distAt K p < k)
    (hinv : T.LookupOrdered K) : T1.Carried K (T.homeAt K p) (T.distAt K p + 1) := by
  have hh := homeAt_lt K T p hC1
  have hd := distAt_lt K T p hC1
  have hslot : (T.homeAt K p + T.distAt K p) % T._bucketsNo = p :=
    add_dist_mod _ (T.homeAt K p) p hh hpC
  intro j hj
  rw [hC]
  by_cases hjd : j = T.distAt K p
  · rw [hjd, hslot]
    refine ⟨hup, ?_⟩
    unfold HashTable.distAt
    rw [hC, hhp, hp, dist_add_mod _ dp k hdp hk]
    unfold HashTable.distAt at hlt
    rw [← hp]
    omega
  · have hne : (T.homeAt K p + j) % T._bucketsNo ≠ p := by
      intro e
      exact hjd (add_mod_inj _ _ j _ hh (by omega) hd (e.trans hslot.symm))
    have hdist : T1.distAt K ((T.homeAt K p + j) % T._bucketsNo) =
        T.distAt K ((T.homeAt K p + j) % T._bucketsNo) := by
      unfold HashTable.distAt
      rw [hC, hhome _ hne]
    rw [hused _ hne, hdist]
    exact hinv p hpC hold j (by omega)

/-- One iteration of the probe loop of `insert`. -/
theorem insertLoop_succ {V : Type} [Zero V] (K : KeyType) (fuel : Nat) (ht : HashTable V)
    (id : Nat) (value : V) (desiredPosition position : Nat) (reachedStart : Bool) :
    Template.insertLoop K (fuel + 1) ht id value desiredPosition position reachedStart =
      if (reachedStart && position == (ht._bucketsNo + K.modulus - 1) % K.modulus) = true then
        some (ht, -1)
      else if (!(ht._buckets.getD position Bucket.zero).used) = true then
        some ({ ht with
                _buckets := ht._buckets.set position ⟨id, value, true⟩
                _usedUpBuckets := (ht._usedUpBuckets + 1) % K.modulus }, 0)
      else if (ht._buckets.getD position Bucket.zero).id = id then
        some ({ ht with
                _buckets :=
                  ht._buckets.set position
                    ({ (ht._buckets.getD position Bucket.zero) with value := value }) }, 1)
      else if (position + K.modulus -
          K.hash (ht._buckets.getD position Bucket.zero).id % ht._bucketsNo) % K.modulus <
          (position + K.modulus - desiredPosition) % K.modulus then
        Template.insertLoop K fuel
          { ht with
            _buckets :=
              ht._buckets.set position
                ({ (ht._buckets.getD position Bucket.zero) with id := id, value := value }) }
          (ht._buckets.getD position Bucket.zero).id
          (ht._buckets.getD position Bucket.zero).value
          (K.hash (ht._buckets.getD position Bucket.zero).id % ht._bucketsNo)
          ((position + 1) % K.modulus % ht._bucketsNo) (reachedStart || position == 0)
      else
        Template.insertLoop K fuel ht id value desiredPosition
          ((position + 1) % K.modulus % ht._bucketsNo) (reachedStart || position == 0) := rfl

/-- The flags and homes of a table after a store into the slot `p`. -/
theorem slots_after_set {V : Type} [Zero V] (K : KeyType) (T T1 : HashTable V) (p : Nat)
    (b : Bucket V) (hC : T1._bucketsNo = T._bucketsNo) (hb : T1._buckets = T._buckets.set p b)
    (hp : p < T._buckets.length) :
    (∀ i, i ≠ p → T1.usedAt i = T.usedAt i) ∧
    (∀ i, i ≠ p → T1.homeAt K i = T.homeAt K i) ∧
    T1.usedAt p = b.used ∧ T1.homeAt K p = K.hash b.id % T._bucketsNo := by
  unfold HashTable.usedAt HashTable.homeAt
  rw [hC, hb]
  refine ⟨fun i hi => ?_, fun i hi => ?_, ?_, ?_⟩
  · rw [getD_set_bucket, if_neg (fun h => hi h.1)]
  · rw [getD_set_bucket, if_neg (fun h => hi h.1)]
  · rw [getD_set_bucket, if_pos ⟨rfl, hp⟩]
  · rw [getD_set_bucket, if_pos ⟨rfl, hp⟩]

/-- The flags and homes of a table after a store behind the end of its bucket
array, which the model drops. -/
theorem slots_after_set_outside {V : Type} [Zero V] (K : KeyType) (T T1 : HashTable V)
    (p : Nat) (b : Bucket V) (hC : T1._bucketsNo = T._bucketsNo)
    (hb : T1._buckets = T._buckets.set p b) (hp : T._buckets.length ≤ p) :
    (∀ i, T1.usedAt i = T.usedAt i) ∧ (∀ i, T1.homeAt K i = T.homeAt K i) := by
  unfold HashTable.usedAt HashTable.homeAt
  rw [hC, hb, List.set_eq_of_length_le hp]
  exact ⟨fun _ => rfl, fun _ => rfl⟩

/-- The probe loop of `insert` keeps the order of the probe distances: started
on a table of capacity `C` in the range of the key type whose probe distances
are in order, in a state in which the carried id has passed `k < C` slots from
its home, it leaves, when it returns, a table of the same capacity with the
probe distances in order. Nothing is assumed about the number of used slots,
the counter or the size of the bucket array. -/
theorem insertLoop_order {V : Type} [Zero V] (K : KeyType) (C : Nat) :
    ∀ fuel (T : HashTable V) (id : Nat) (v : V) (k : Nat) (rs : Bool)
      (r : HashTable V × Int),
      T._bucketsNo = C → 1 ≤ C → C < K.modulus → k < C → T.LookupOrdered K →
      T.Carried K (K.hash id % C) k →
      Template.insertLoop K fuel T id v (K.hash id % C) ((K.hash id % C + k) % C) rs =
        some r →
      r.1._bucketsNo = C ∧ r.1.LookupOrdered K := by
  intro fuel
  induction fuel with
  | zero =>
    intro T id v k rs r _ _ _ _ _ _ h
    rw [Template.insertLoop] at h
    cases h
  | succ fuel ih =>
    intro T id v k rs r hTC hC1 hCM hk hinv hcar h
    subst hTC
    have hdp : K.hash id % T._bucketsNo < T._bucketsNo := Nat.mod_lt _ (by omega)
    have hpC : (K.hash id % T._bucketsNo + k) % T._bucketsNo < T._bucketsNo :=
      Nat.mod_lt _ (by omega)
    generalize hp : (K.hash id % T._bucketsNo + k) % T._bucketsNo = p at h hpC
    rw [insertLoop_succ] at h
    by_cases h1 : (rs && p == (T._bucketsNo + K.modulus - 1) % K.modulus) = true
    · -- the loop ends without storing
      rw [if_pos h1] at h
      cases h
      exact ⟨rfl, hinv⟩
    · rw [if_neg h1] at h
      by_cases h2 : (!(T._buckets.getD p Bucket.zero).used) = true
      · -- the slot is not used: the id is stored
        rw [if_pos h2] at h
        cases h
        have hold : T.usedAt p = false := by
          unfold HashTable.usedAt
          simpa using h2
        refine ⟨rfl, ?_⟩
        by_cases hpl : p < T._buckets.length
        · obtain ⟨s1, s2, s3, s4⟩ := slots_after_set K T
            { T with _buckets := T._buckets.set p ⟨id, v, true⟩
                     _usedUpBuckets := (T._usedUpBuckets + 1) % K.modulus } p ⟨id, v, true⟩
            rfl rfl hpl
          refine lookupOrdered_store K T
            { T with _buckets := T._buckets.set p ⟨id, v, true⟩
                     _usedUpBuckets := (T._usedUpBuckets + 1) % K.modulus }
            p (K.hash id % T._bucketsNo) k rfl hdp hk
            hp.symm s1 s2 s3 s4 ?_ hcar hinv
          intro hu2
          rw [hold] at hu2
          cases hu2
        · obtain ⟨s1, s2⟩ := slots_after_set_outside K T
            { T with _buckets := T._buckets.set p ⟨id, v, true⟩
                     _usedUpBuckets := (T._usedUpBuckets + 1) % K.modulus } p ⟨id, v, true⟩
            rfl rfl (Nat.le_of_not_lt hpl)
          exact lookupOrdered_congr K T
            { T with _buckets := T._buckets.set p ⟨id, v, true⟩
                     _usedUpBuckets := (T._usedUpBuckets + 1) % K.modulus }
            rfl s1 s2 hinv
      · rw [if_neg h2] at h
        have hold : T.usedAt p = true := by
          unfold HashTable.usedAt
          simpa using h2
        have hpl : p < T._buckets.length := lt_length_of_used T p hold
        by_cases h3 : (T._buckets.getD p Bucket.zero).id = id
        · -- the slot holds the id: the value is replaced
          rw [if_pos h3] at h
          cases h
          obtain ⟨s1, s2, s3, s4⟩ := slots_after_set K T
            { T with
              _buckets :=
                T._buckets.set p ({ (T._buckets.getD p Bucket.zero) with value := v }) } p
            ({ (T._buckets.getD p Bucket.zero) with value := v }) rfl rfl hpl
          refine ⟨rfl, ?_⟩
          refine lookupOrdered_congr K T
            { T with
              _buckets :=
                T._buckets.set p ({ (T._buckets.getD p Bucket.zero) with value := v }) }
            rfl (fun i => ?_) (fun i => ?_) hinv
          · by_cases hi : i = p
            · rw [hi, s3]
              rfl
            · exact s1 i hi
          · by_cases hi : i = p
            · rw [hi, s4]
              rfl
            · exact s2 i hi
        · rw [if_neg h3] at h
          have hnext : (p + 1) % K.modulus % T._bucketsNo = (p + 1) % T._bucketsNo := by
            rw [Nat.mod_eq_of_lt (a := p + 1) (by omega)]
          have hdist : (p + T._bucketsNo - K.hash id % T._bucketsNo) % T._bucketsNo = k := by
            rw [← hp]
            exact dist_add_mod _ _ k hdp hk
          have hcmp := dist_compare K.modulus T._bucketsNo p (K.hash id % T._bucketsNo)
            (K.hash (T._buckets.getD p Bucket.zero).id % T._bucketsNo) hpC hdp
            (Nat.mod_lt _ (by omega)) hCM
          rw [hdist] at hcmp
          rw [hnext] at h
          by_cases h4 : (p + K.modulus -
              K.hash (T._buckets.getD p Bucket.zero).id % T._bucketsNo) % K.modulus <
              (p + K.modulus - K.hash id % T._bucketsNo) % K.modulus
          · -- the occupant is nearer to its home: swap
            rw [if_pos h4] at h
            have hlt : T.distAt K p < k := hcmp.1 h4
            obtain ⟨s1, s2, s3, s4⟩ := slots_after_set K T
              { T with
                _buckets :=
                  T._buckets.set p
                    ({ (T._buckets.getD p Bucket.zero) with id := id, value := v }) } p
              ({ (T._buckets.getD p Bucket.zero) with id := id, value := v }) rfl rfl hpl
            have s3b : HashTable.usedAt
                { T with
                  _buckets :=
                    T._buckets.set p
                      ({ (T._buckets.getD p Bucket.zero) with id := id, value := v }) }
                p = true := by
              rw [s3]
              exact hold
            have hinv1 := lookupOrdered_store K T
              { T with
                _buckets :=
                  T._buckets.set p
                    ({ (T._buckets.getD p Bucket.zero) with id := id, value := v }) }
              p (K.hash id % T._bucketsNo) k rfl hdp hk
              hp.symm s1 s2 s3b s4 (fun _ => Nat.le_of_lt hlt) hcar hinv
            have hcar1 := carried_swap K T
              { T with
                _buckets :=
                  T._buckets.set p
                    ({ (T._buckets.getD p Bucket.zero) with id := id, value := v }) }
              p (K.hash id % T._bucketsNo) k rfl hC1 hdp hk hpC
              hp.symm s1 s2 s3b s4 hold hlt hinv
            have hslot : (T.homeAt K p + T.distAt K p) % T._bucketsNo = p :=
              add_dist_mod T._bucketsNo (T.homeAt K p) p (homeAt_lt K T p hC1) hpC
            have hpos : (p + 1) % T._bucketsNo =
                (K.hash (T._buckets.getD p Bucket.zero).id % T._bucketsNo +
                  (T.distAt K p + 1)) % T._bucketsNo := by
              rw [← add_mod_succ T._bucketsNo
                (K.hash (T._buckets.getD p Bucket.zero).id % T._bucketsNo) (T.distAt K p)]
              exact congrArg (fun x => (x + 1) % T._bucketsNo) hslot.symm
            rw [hpos] at h
            exact ih
              { T with
                _buckets :=
                  T._buckets.set p
                    ({ (T._buckets.getD p Bucket.zero) with id := id, value := v }) }
              _ _ _ _ r rfl hC1 hCM (by omega) hinv1 hcar1 h
          · -- the occupant is not nearer to its home: the probe goes on
            rw [if_neg h4] at h
            have hge : k ≤ T.distAt K p := Nat.le_of_not_lt fun hh => h4 (hcmp.2 hh)
            have hpos : (p + 1) % T._bucketsNo =
                (K.hash id % T._bucketsNo + (k + 1)) % T._bucketsNo := by
              rw [← add_mod_succ T._bucketsNo (K.hash id % T._bucketsNo) k, hp]
            by_cases hk1 : k + 1 < T._bucketsNo
            · rw [hpos] at h
              refine ih T id v (k + 1) _ r rfl hC1 hCM hk1 hinv ?_ h
              intro j hj
              by_cases hjk : j = k
              · rw [hjk, hp]
                exact ⟨hold, hge⟩
              · exact hcar j (by omega)
            · -- the probe has passed every slot and stands at its home again
              have hkC : k + 1 = T._bucketsNo := by omega
              have hpos0 : (p + 1) % T._bucketsNo =
                  (K.hash id % T._bucketsNo + 0) % T._bucketsNo := by
                rw [hpos, hkC, Nat.add_mod_right, Nat.add_zero]
              rw [hpos0] at h
              exact ih T id v 0 _ r rfl hC1 hCM (by omega) hinv
                (fun j hj => absurd hj (Nat.not_lt_zero j)) h

/-- The probe loop of `insert` keeps the shape of the table: started at a slot
of a well-shaped table it leaves, when it returns, a well-shaped table of the
same capacity and array size with at most one more used slot. -/
theorem insertLoop_shape {V : Type} [Zero V] (K : KeyType) (C : Nat) :
    ∀ fuel (T : HashTable V) (id : Nat) (v : V) (dp p : Nat) (rs : Bool)
      (r : HashTable V × Int),
      T._bucketsNo = C → T.WellShaped K → p < C →
      Template.insertLoop K fuel T id v dp p rs = some r →
      r.1._bucketsNo = C ∧ r.1._buckets.length = T._buckets.length ∧ r.1.WellShaped K ∧
        r.1.usedSlots ≤ T.usedSlots + 1 := by
  intro fuel
  induction fuel with
  | zero =>
    intro T id v dp p rs r _ _ _ h
    rw [Template.insertLoop] at h
    cases h
  | succ fuel ih =>
    intro T id v dp p rs r hTC hshape hpC h
    subst hTC
    obtain ⟨hC1, hCM, hlen, hcount⟩ := hshape
    have hp1 : (p + 1) % K.modulus % T._bucketsNo < T._bucketsNo := Nat.mod_lt _ (by omega)
    rw [insertLoop_succ] at h
    by_cases h1 : (rs && p == (T._bucketsNo + K.modulus - 1) % K.modulus) = true
    · rw [if_pos h1] at h
      cases h
      exact ⟨rfl, rfl, ⟨hC1, hCM, hlen, hcount⟩, Nat.le_succ _⟩
    · rw [if_neg h1] at h
      by_cases h2 : (!(T._buckets.getD p Bucket.zero).used) = true
      · rw [if_pos h2] at h
        cases h
        have hold : T.usedAt p = false := by
          unfold HashTable.usedAt
          simpa using h2
        have hu := usedSlots_set_new T
          { T with _buckets := T._buckets.set p ⟨id, v, true⟩
                   _usedUpBuckets := (T._usedUpBuckets + 1) % K.modulus } p ⟨id, v, true⟩
          rfl rfl hpC hlen hold rfl
        have hle := usedSlots_le
          { T with _buckets := T._buckets.set p ⟨id, v, true⟩
                   _usedUpBuckets := (T._usedUpBuckets + 1) % K.modulus }
        rw [hu] at hle
        change T.usedSlots + 1 ≤ T._bucketsNo at hle
        refine ⟨rfl, List.length_set _ _ _, ⟨hC1, hCM, ?_, ?_⟩, Nat.le_of_eq hu⟩
        · show T._bucketsNo ≤ (T._buckets.set p ⟨id, v, true⟩).length
          rw [List.length_set]
          exact hlen
        · show (T._usedUpBuckets + 1) % K.modulus = _
          rw [hu, hcount, Nat.mod_eq_of_lt (by omega)]
      · rw [if_neg h2] at h
        have hold : T.usedAt p = true := by
          unfold HashTable.usedAt
          simpa using h2
        by_cases h3 : (T._buckets.getD p Bucket.zero).id = id
        · rw [if_pos h3] at h
          cases h
          have hu := usedSlots_set_same T
            { T with
              _buckets :=
                T._buckets.set p ({ (T._buckets.getD p Bucket.zero) with value := v }) } p
            ({ (T._buckets.getD p Bucket.zero) with value := v }) rfl rfl hpC hlen
            hold hold
          refine ⟨rfl, List.length_set _ _ _, ⟨hC1, hCM, ?_, ?_⟩,
            Nat.le_trans (Nat.le_of_eq hu) (Nat.le_succ _)⟩
          · show T._bucketsNo ≤ (T._buckets.set p _).length
            rw [List.length_set]
            exact hlen
          · show T._usedUpBuckets = _
            rw [hu]
            exact hcount
        · rw [if_neg h3] at h
          by_cases h4 : (p + K.modulus -
              K.hash (T._buckets.getD p Bucket.zero).id % T._bucketsNo) % K.modulus <
              (p + K.modulus - dp) % K.modulus
          · rw [if_pos h4] at h
            have hu := usedSlots_set_same T
              { T with
                _buckets :=
                  T._buckets.set p
                    ({ (T._buckets.getD p Bucket.zero) with id := id, value := v }) } p
              ({ (T._buckets.getD p Bucket.zero) with id := id, value := v }) rfl rfl
              hpC hlen hold hold
            have hlen1 : T._bucketsNo ≤ (T._buckets.set p
                ({ (T._buckets.getD p Bucket.zero) with id := id, value := v })).length := by
              rw [List.length_set]
              exact hlen
            obtain ⟨r1, r2, r3, r5⟩ := ih
              { T with
                _buckets :=
                  T._buckets.set p
                    ({ (T._buckets.getD p Bucket.zero) with id := id, value := v }) }
              _ _ _ _ _ r rfl ⟨hC1, hCM, hlen1, hcount.trans hu.symm⟩ hp1 h
            refine ⟨r1, ?_, r3, ?_⟩
            · rw [r2]
              exact List.length_set _ _ _
            · rw [hu] at r5
              exact r5
          · rw [if_neg h4] at h
            exact ih T _ _ _ _ _ r rfl ⟨hC1, hCM, hlen, hcount⟩ hp1 h

/-- The probe loop of `insert` keeps the capacity. -/
theorem insertLoop_bucketsNo {V : Type} [Zero V] (K : KeyType) :
    ∀ fuel (T : HashTable V) (id : Nat) (v : V) (dp p : Nat) (rs : Bool)
      (r : HashTable V × Int),
      Template.insertLoop K fuel T id v dp p rs = some r → r.1._bucketsNo = T._bucketsNo := by
  intro fuel
  induction fuel with
  | zero =>
    intro T id v dp p rs r h
    rw [Template.insertLoop] at h
    cases h
  | succ fuel ih =>
    intro T id v dp p rs r h
    rw [insertLoop_succ] at h
    split at h
    · cases h
      rfl
    · split at h
      · cases h
        rfl
      · split at h
        · cases h
          rfl
        · split at h
          · have e := ih _ _ _ _ _ _ r h
            exact e
          · exact ih _ _ _ _ _ _ r h

/-- The probe loop of `insert` returns: before the slot 0 is passed the
position only grows, and after it the loop ends at the last slot at the
latest, so `2 * _bucketsNo` iterations are enough from any start. -/
theorem insertLoop_total {V : Type} [Zero V] (K : KeyType) :
    ∀ fuel (T : HashTable V) (id : Nat) (v : V) (dp p : Nat) (rs : Bool),
      1 ≤ T._bucketsNo → T._bucketsNo < K.modulus → p < T._bucketsNo →
      (if rs = true then T._bucketsNo - p
        else if p = 0 then T._bucketsNo + 1 else 2 * T._bucketsNo - p + 1) ≤ fuel →
      ∃ r, Template.insertLoop K fuel T id v dp p rs = some r := by
  intro fuel
  induction fuel with
  | zero =>
    intro T id v dp p rs h1 h2 hp hm
    split at hm
    · omega
    · split at hm <;> omega
  | succ fuel ih =>
    intro T id v dp p rs hC1 hCM hp hm
    rw [insertLoop_succ]
    have hlast : (T._bucketsNo + K.modulus - 1) % K.modulus = T._bucketsNo - 1 :=
      last_slot K.modulus T._bucketsNo hC1 hCM
    have hnext : (p + 1) % K.modulus % T._bucketsNo = (p + 1) % T._bucketsNo := by
      rw [Nat.mod_eq_of_lt (a := p + 1) (by omega)]
    rw [hlast, hnext]
    have hp1 : (p + 1) % T._bucketsNo < T._bucketsNo := Nat.mod_lt _ (by omega)
    -- the measure of the next state
    have hstep : ¬ (rs && p == T._bucketsNo - 1) = true →
        (if (rs || p == 0) = true then T._bucketsNo - (p + 1) % T._bucketsNo
          else if (p + 1) % T._bucketsNo = 0 then T._bucketsNo + 1
            else 2 * T._bucketsNo - (p + 1) % T._bucketsNo + 1) ≤ fuel := by
      intro hne
      have hmod : (p + 1) % T._bucketsNo = if p + 1 = T._bucketsNo then 0 else p + 1 := by
        by_cases e : p + 1 = T._bucketsNo
        · rw [if_pos e, e, Nat.mod_self]
        · rw [if_neg e, Nat.mod_eq_of_lt (by omega)]
      cases rs with
      | true =>
        simp only [Bool.true_and, beq_iff_eq, Bool.true_or, if_true] at hne hm ⊢
        rw [hmod, if_neg (by omega)]
        omega
      | false =>
        simp only [Bool.false_or, beq_iff_eq, Bool.false_eq_true, if_false] at hm ⊢
        by_cases h0 : p = 0
        · rw [if_pos h0] at hm ⊢
          rw [hmod]
          split <;> omega
        · rw [if_neg h0] at hm ⊢
          rw [hmod]
          by_cases e : p + 1 = T._bucketsNo
          · rw [if_pos e, if_pos rfl]
            omega
          · rw [if_neg e, if_neg (by omega)]
            omega
    by_cases c1 : (rs && p == T._bucketsNo - 1) = true
    · rw [if_pos c1]
      exact ⟨_, rfl⟩
    · rw [if_neg c1]
      by_cases c2 : (!(T._buckets.getD p Bucket.zero).used) = true
      · rw [if_pos c2]
        exact ⟨_, rfl⟩
      · rw [if_neg c2]
        by_cases c3 : (T._buckets.getD p Bucket.zero).id = id
        · rw [if_pos c3]
          exact ⟨_, rfl⟩
        · rw [if_neg c3]
          by_cases c4 : (p + K.modulus -
              K.hash (T._buckets.getD p Bucket.zero).id % T._bucketsNo) % K.modulus <
              (p + K.modulus - dp) % K.modulus
          · rw [if_pos c4]
            exact ih
              { T with
                _buckets :=
                  T._buckets.set p
                    ({ (T._buckets.getD p Bucket.zero) with id := id, value := v }) }
              _ _ _ _ _ hC1 hCM hp1 (hstep c1)
          · rw [if_neg c4]
            exact ih T _ _ _ _ _ hC1 hCM hp1 (hstep c1)

/-- A read in an array of buckets as `calloc` leaves them. -/
theorem getD_replicate_zero {V : Type} [Zero V] (n i : Nat) :
    (List.replicate n (Bucket.zero : Bucket V)).getD i Bucket.zero = Bucket.zero := by
  by_cases h : i < n
  · rw [List.getD_eq_getElem _ _ (by rw [List.length_replicate]; exact h),
      List.getElem_replicate]
  · rw [List.getD_eq_default _ _ (by rw [List.length_replicate]; omega)]

/-- A table with a new array has no used slot, so its probe distances are in
order, whatever its capacity and the size of the array. -/
theorem fresh_order {V : Type} [Zero V] (K : KeyType) (C n u : Nat) :
    (HashTable.mk C (List.replicate n (Bucket.zero : Bucket V)) u).LookupOrdered K := by
  have hused : ∀ i, (HashTable.mk C (List.replicate n (Bucket.zero : Bucket V)) u).usedAt i =
      false := by
    intro i
    unfold HashTable.usedAt
    rw [getD_replicate_zero]
    rfl
  intro i _ hu
  rw [hused] at hu
  cases hu

/-- The probe of `insert`, started at the home of the id on a table with a
capacity in the range of the key type and the probe distances in order, leaves
such a table when it returns. -/
theorem probe_order {V : Type} [Zero V] (K : KeyType) (T : HashTable V) (id : Nat) (v : V)
    (r : HashTable V × Int) (hCM : T._bucketsNo < K.modulus) (hinv : T.LookupOrdered K)
    (h : Template.insertLoop K (2 * T._bucketsNo + 1) T id v (K.hash id % T._bucketsNo)
      (K.hash id % T._bucketsNo) false = some r) :
    r.1._bucketsNo < K.modulus ∧ r.1.LookupOrdered K := by
  have hb := insertLoop_bucketsNo K _ T id v _ _ _ r h
  by_cases hC : 1 ≤ T._bucketsNo
  · have hdp : K.hash id % T._bucketsNo < T._bucketsNo := Nat.mod_lt _ (by omega)
    have e : (K.hash id % T._bucketsNo + 0) % T._bucketsNo = K.hash id % T._bucketsNo :=
      Nat.mod_eq_of_lt hdp
    have h2 : Template.insertLoop K (2 * T._bucketsNo + 1) T id v (K.hash id % T._bucketsNo)
        ((K.hash id % T._bucketsNo + 0) % T._bucketsNo) false = some r := by
      rw [e]
      exact h
    obtain ⟨r1, r2⟩ := insertLoop_order K T._bucketsNo _ T id v 0 false r rfl hC hCM
      (by omega) hinv (fun j hj => absurd hj (Nat.not_lt_zero j)) h2
    exact ⟨by rw [r1]; exact hCM, r2⟩
  · refine ⟨by rw [hb]; exact hCM, ?_⟩
    intro i hi
    rw [hb] at hi
    exact absurd hi (by omega)

/-- The loop of `rehash` over the slots `l` of the former array keeps the order
of the probe distances, when the calls of `insert` it makes do. -/
theorem rehash_order {V : Type} [Zero V] (K : KeyType) (bs : List (Bucket V))
    (ins : HashTable V → Nat → V → Option (HashTable V × Int))
    (hins : ∀ acc id v r, acc._bucketsNo < K.modulus → acc.LookupOrdered K →
      ins acc id v = some r → r.1._bucketsNo < K.modulus ∧ r.1.LookupOrdered K) :
    ∀ (l : List Nat) (acc T1 : HashTable V), acc._bucketsNo < K.modulus →
      acc.LookupOrdered K →
      l.foldlM (fun acc i =>
          if (bs.getD i Bucket.zero).used then
            (ins acc (bs.getD i Bucket.zero).id (bs.getD i Bucket.zero).value).map Prod.fst
          else some acc) acc = some T1 →
      T1._bucketsNo < K.modulus ∧ T1.LookupOrdered K := by
  intro l
  induction l with
  | nil =>
    intro acc T1 hCM hinv h
    simp only [List.foldlM_nil, pure, Option.some.injEq] at h
    rw [← h]
    exact ⟨hCM, hinv⟩
  | cons i l ih =>
    intro acc T1 hCM hinv h
    rw [List.foldlM_cons] at h
    by_cases hu : (bs.getD i Bucket.zero).used = true
    · simp only [hu, if_true] at h
      cases hx : ins acc (bs.getD i Bucket.zero).id (bs.getD i Bucket.zero).value with
      | none =>
        rw [hx] at h
        simp at h
      | some r =>
        rw [hx] at h
        simp only [Option.map_some', Option.bind_eq_bind, Option.some_bind] at h
        obtain ⟨r1, r2⟩ := hins acc _ _ r hCM hinv hx
        exact ih r.1 T1 r1 r2 h
    · have hu2 : (bs.getD i Bucket.zero).used = false := by simpa using hu
      simp only [hu2, Bool.false_eq_true, if_false, Option.bind_eq_bind, Option.some_bind] at h
      exact ih acc T1 hCM hinv h

/-- The call `insert`, with any bound on the nesting, on a table with a
capacity in the range of the key type and the probe distances in order leaves
such a table when it returns, whether the table grows or not. -/
theorem insertN_order {V : Type} [Zero V] (K : KeyType) :
    ∀ depth (T : HashTable V) (id : Nat) (v : V) (r : HashTable V × Int),
      T._bucketsNo < K.modulus → T.LookupOrdered K →
      Template.insertN K depth T id v = some r →
      r.1._bucketsNo < K.modulus ∧ r.1.LookupOrdered K := by
  intro depth
  induction depth with
  | zero =>
    intro T id v r _ _ h
    rw [Template.insertN] at h
    cases h
  | succ depth ih =>
    intro T id v r hCM hinv h
    rw [Template.insertN] at h
    by_cases hg : needsGrowth T._usedUpBuckets T._bucketsNo = true
    · simp only [hg, if_true] at h
      cases hr : Template.rehashWith K (Template.insertN K depth) T
          (2 * T._bucketsNo % K.modulus) with
      | none =>
        rw [hr] at h
        cases h
      | some T1 =>
        rw [hr] at h
        have hM : 0 < K.modulus := by omega
        unfold Template.rehashWith at hr
        obtain ⟨t1, t2⟩ := rehash_order K T._buckets (Template.insertN K depth)
          (fun acc id v r a b c => ih acc id v r a b c) (List.range T._bucketsNo) _ T1
          (Nat.mod_lt _ hM) (fresh_order K _ _ _) hr
        exact probe_order K T1 id v r t1 t2 h
    · have hg2 : needsGrowth T._usedUpBuckets T._bucketsNo = false := by simpa using hg
      simp only [hg2, Bool.false_eq_true, if_false] at h
      exact probe_order K T id v r hCM hinv h

/-- A sequence of `insert` calls, with any bound on the nesting, on a table
with a capacity in the range of the key type and the probe distances in order
leaves such a table when the calls return. -/
theorem insertAll_order {V : Type} [Zero V] (K : KeyType) (depth : Nat) :
    ∀ (ops : List (Nat × V)) (T T1 : HashTable V) (rs : List Int),
      T._bucketsNo < K.modulus → T.LookupOrdered K →
      Template.insertAll K depth T ops = some (T1, rs) →
      T1._bucketsNo < K.modulus ∧ T1.LookupOrdered K := by
  intro ops
  induction ops with
  | nil =>
    intro T T1 rs hCM hinv h
    rw [Template.insertAll] at h
    cases h
    exact ⟨hCM, hinv⟩
  | cons op ops ih =>
    intro T T1 rs hCM hinv h
    obtain ⟨id, v⟩ := op
    rw [Template.insertAll] at h
    cases hx : Template.insertN K depth T id v with
    | none =>
      rw [hx] at h
      cases h
    | some r =>
      obtain ⟨ht1, r0⟩ := r
      rw [hx] at h
      simp only [] at h
      obtain ⟨r1, r2⟩ := insertN_order K depth T id v (ht1, r0) hCM hinv hx
      cases hy : Template.insertAll K depth ht1 ops with
      | none =>
        rw [hy] at h
        cases h
      | some q =>
        obtain ⟨ht2, rs2⟩ := q
        rw [hy] at h
        simp only [Option.some.injEq, Prod.mk.injEq] at h
        rw [← h.1]
        exact ih ht1 ht2 rs2 r1 r2 hy

/-- The probe of `insert` on a well-shaped table returns and keeps the shape. -/
theorem probe_shape {V : Type} [Zero V] (K : KeyType) (T : HashTable V) (id : Nat) (v : V)
    (hshape : T.WellShaped K) :
    ∃ r, Template.insertLoop K (2 * T._bucketsNo + 1) T id v (K.hash id % T._bucketsNo)
        (K.hash id % T._bucketsNo) false = some r ∧
      r.1._bucketsNo = T._bucketsNo ∧ r.1._buckets.length = T._buckets.length ∧
      r.1.WellShaped K ∧ r.1.usedSlots ≤ T.usedSlots + 1 := by
  have hC1 := hshape.1
  have hdp : K.hash id % T._bucketsNo < T._bucketsNo := Nat.mod_lt _ (by omega)
  obtain ⟨r, hr⟩ := insertLoop_total K (2 * T._bucketsNo + 1) T id v
    (K.hash id % T._bucketsNo) (K.hash id % T._bucketsNo) false hC1 hshape.2.1 hdp (by
      simp only [Bool.false_eq_true, if_false]
      split <;> omega)
  exact ⟨r, hr, insertLoop_shape K T._bucketsNo _ T id v _ _ false r rfl hshape hdp hr⟩

/-- The call `insert` a rehash makes, on a well-shaped table the growth test
does not hold for: it is the probe alone. -/
theorem insertN_one_shape {V : Type} [Zero V] (K : KeyType) (T : HashTable V) (id : Nat)
    (v : V) (hshape : T.WellShaped K)
    (hng : needsGrowth T._usedUpBuckets T._bucketsNo = false) :
    ∃ r, Template.insertN K 1 T id v = some r ∧
      r.1._bucketsNo = T._bucketsNo ∧ r.1._buckets.length = T._buckets.length ∧
      r.1.WellShaped K ∧ r.1.usedSlots ≤ T.usedSlots + 1 := by
  obtain ⟨r, hr, hrest⟩ := probe_shape K T id v hshape
  refine ⟨r, ?_, hrest⟩
  rw [Template.insertN]
  simp only [hng, Bool.false_eq_true, if_false]
  exact hr

/-- The loop of `rehash` over the slots `l` of the former array: every used
slot is inserted by the probe alone, as the new table, twice as large as the
former one, stays at most half full. -/
theorem rehash_fold {V : Type} [Zero V] (K : KeyType) (bs : List (Bucket V)) (Cold : Nat) :
    ∀ (l : List Nat) (acc : HashTable V), acc._bucketsNo = 2 * Cold → acc.WellShaped K →
      acc.usedSlots + l.countP (fun i => (bs.getD i Bucket.zero).used) ≤ Cold →
      ∃ T1, l.foldlM (fun acc i =>
          if (bs.getD i Bucket.zero).used then
            (Template.insertN K 1 acc (bs.getD i Bucket.zero).id
              (bs.getD i Bucket.zero).value).map Prod.fst
          else some acc) acc = some T1 ∧
        T1._bucketsNo = 2 * Cold ∧ T1._buckets.length = acc._buckets.length ∧
        T1.WellShaped K ∧
        T1.usedSlots ≤ acc.usedSlots + l.countP (fun i => (bs.getD i Bucket.zero).used) := by
  intro l
  induction l with
  | nil =>
    intro acc hC hshape _
    exact ⟨acc, rfl, hC, rfl, hshape, Nat.le_refl _⟩
  | cons i l ih =>
    intro acc hC hshape hcount
    rw [List.foldlM_cons]
    by_cases hu : (bs.getD i Bucket.zero).used = true
    · have hc : List.countP (fun i => (bs.getD i Bucket.zero).used) (i :: l) =
          List.countP (fun i => (bs.getD i Bucket.zero).used) l + 1 :=
        List.countP_cons_of_pos _ _ hu
      rw [hc] at hcount ⊢
      have hng : needsGrowth acc._usedUpBuckets acc._bucketsNo = false := by
        by_contra hg
        have hg2 : needsGrowth acc._usedUpBuckets acc._bucketsNo = true := by
          simpa using hg
        have := le_of_needsGrowth _ _ hg2
        rw [hshape.2.2.2, hC] at this
        omega
      obtain ⟨r, hr, r1, r2, r3, r5⟩ := insertN_one_shape K acc
        (bs.getD i Bucket.zero).id (bs.getD i Bucket.zero).value hshape hng
      obtain ⟨T1, t0, t1, t2, t3, t5⟩ := ih r.1 (by rw [r1, hC]) r3 (by omega)
      refine ⟨T1, ?_, t1, by rw [t2, r2], t3, by omega⟩
      simp only [hu, if_true, hr, Option.map_some', Option.bind_eq_bind, Option.some_bind]
      exact t0
    · have hu2 : (bs.getD i Bucket.zero).used = false := by simpa using hu
      have hc : List.countP (fun i => (bs.getD i Bucket.zero).used) (i :: l) =
          List.countP (fun i => (bs.getD i Bucket.zero).used) l :=
        List.countP_cons_of_neg _ _ hu
      rw [hc] at hcount ⊢
      obtain ⟨T1, t0, t1, t2, t3, t5⟩ := ih acc hC hshape hcount
      refine ⟨T1, ?_, t1, t2, t3, t5⟩
      simp only [hu2, Bool.false_eq_true, if_false, Option.bind_eq_bind, Option.some_bind]
      exact t0

/-- A table with a new array that holds all slots is well shaped and has no
used slot. -/
theorem fresh_table {V : Type} [Zero V] (K : KeyType) (C n : Nat) (hC : 1 ≤ C)
    (hCM : C < K.modulus) (hn : C ≤ n) :
    (HashTable.mk C (List.replicate n (Bucket.zero : Bucket V)) 0).WellShaped K ∧
    (HashTable.mk C (List.replicate n (Bucket.zero : Bucket V)) 0).usedSlots = 0 := by
  have hcount : (HashTable.mk C (List.replicate n (Bucket.zero : Bucket V)) 0).usedSlots =
      0 := by
    unfold HashTable.usedSlots HashTable.slots
    rw [List.length_eq_zero, List.filter_eq_nil_iff]
    intro b hb
    rw [List.eq_of_mem_replicate (List.mem_of_mem_take hb)]
    simp [Bucket.zero]
  exact ⟨⟨hC, hCM, by rw [List.length_replicate]; exact hn, hcount.symm⟩, hcount⟩

/-- The used slots counted by index. -/
theorem countP_range_used {V : Type} [Zero V] (bs : List (Bucket V)) :
    ∀ C, C ≤ bs.length →
      List.countP (fun i => (bs.getD i Bucket.zero).used) (List.range C) =
        ((bs.take C).filter fun b => b.used).length := by
  intro C
  induction C with
  | zero => intro _; rfl
  | succ C ih =>
    intro hC
    rw [List.range_succ, List.countP_append, ih (by omega), List.take_succ,
      List.filter_append, List.length_append]
    have hget : bs[C]? = some (bs.getD C Bucket.zero) := by
      rw [List.getElem?_eq_getElem (by omega), List.getD_eq_getElem _ _ (by omega)]
    rw [hget]
    by_cases hu : (bs.getD C Bucket.zero).used = true
    · have hu2 := hu
      rw [List.getD_eq_getElem?_getD] at hu2
      simp [hu2]
    · have hu2 := hu
      rw [List.getD_eq_getElem?_getD] at hu2
      simp [hu2]

/-- The call `insert` on a well-shaped table whose capacity is less than a
quarter of the range of the key type returns, with one level of nesting at
most, and leaves a well-shaped table with at most one more used slot; its
capacity is the same, or it is twice as large and was at most three halves of
the number of used slots. -/
theorem insert_shape {V : Type} [Zero V] (K : KeyType) (T : HashTable V) (id : Nat) (v : V)
    (hshape : T.WellShaped K) (hcap : 4 * T._bucketsNo < K.modulus) :
    ∃ r, Template.insertN K 2 T id v = some r ∧ r.1.WellShaped K ∧
      r.1.usedSlots ≤ T.usedSlots + 1 ∧
      (r.1._bucketsNo = T._bucketsNo ∨
        (r.1._bucketsNo = 2 * T._bucketsNo ∧ 2 * T._bucketsNo ≤ 3 * T.usedSlots)) := by
  rw [Template.insertN]
  by_cases hg : needsGrowth T._usedUpBuckets T._bucketsNo = true
  · -- the table grows first
    have hle := le_of_needsGrowth _ _ hg
    rw [hshape.2.2.2] at hle
    have hU : T.usedSlots ≤ T._bucketsNo := usedSlots_le T
    have hCn : 2 * T._bucketsNo % K.modulus = 2 * T._bucketsNo :=
      Nat.mod_eq_of_lt (by omega)
    have hAn : 2 * T._bucketsNo * 2 % K.modulus = 2 * T._bucketsNo * 2 :=
      Nat.mod_eq_of_lt (by omega)
    obtain ⟨f1, f3⟩ := @fresh_table V _ K (2 * T._bucketsNo) (2 * T._bucketsNo * 2)
      (by have := hshape.1; omega) (by omega) (by omega)
    have hcp := countP_range_used T._buckets T._bucketsNo hshape.2.2.1
    obtain ⟨T1, t0, t1, t2, t3, t5⟩ := rehash_fold K T._buckets T._bucketsNo
      (List.range T._bucketsNo)
      (HashTable.mk (2 * T._bucketsNo) (List.replicate (2 * T._bucketsNo * 2) Bucket.zero) 0)
      rfl f1 (by
        rw [f3, hcp]
        exact Nat.le_trans (Nat.le_of_eq (Nat.zero_add _)) hU)
    rw [f3, hcp, Nat.zero_add] at t5
    have hrehash : Template.rehashWith K (Template.insertN K 1) T
        (2 * T._bucketsNo % K.modulus) = some T1 := by
      unfold Template.rehashWith
      simp only [hCn, hAn]
      exact t0
    obtain ⟨r, hr, r1, r2, r3, r5⟩ := probe_shape K T1 id v t3
    refine ⟨r, ?_, r3, ?_, Or.inr ⟨by rw [r1, t1], hle⟩⟩
    · simp only [hg, if_true, hrehash]
      exact hr
    · change T1.usedSlots ≤ T.usedSlots at t5
      omega
  · -- the table does not grow
    have hg2 : needsGrowth T._usedUpBuckets T._bucketsNo = false := by simpa using hg
    obtain ⟨r, hr, r1, r2, r3, r5⟩ := probe_shape K T id v hshape
    refine ⟨r, ?_, r3, r5, Or.inl r1⟩
    simp only [hg2, Bool.false_eq_true, if_false]
    exact hr

/-- A sequence of `insert` calls on a well-shaped table returns and leaves a
well-shaped table, as long as four times the capacity stays in the range of
the key type: the capacity only doubles when two thirds of it are used, so it
is bounded by three times the number of calls. -/
theorem insertAll_shape {V : Type} [Zero V] (K : KeyType) :
    ∀ (ops : List (Nat × V)) (T : HashTable V) (m : Nat), T.WellShaped K →
      T._bucketsNo ≤ m → 3 * T.usedSlots ≤ m → 4 * (m + 3 * ops.length) < K.modulus →
      ∃ T1 rs, Template.insertAll K 2 T ops = some (T1, rs) ∧ T1.WellShaped K := by
  intro ops
  induction ops with
  | nil =>
    intro T m hshape _ _ _
    exact ⟨T, [], rfl, hshape⟩
  | cons op ops ih =>
    intro T m hshape hcap hused hm
    obtain ⟨id, v⟩ := op
    rw [List.length_cons] at hm
    obtain ⟨r, hr, r1, r3, r4⟩ := insert_shape K T id v hshape (by omega)
    obtain ⟨T1, rs, h1, h2⟩ := ih r.1 (m + 3) r1
      (by rcases r4 with e | ⟨e, hle⟩ <;> omega) (by omega) (by omega)
    refine ⟨T1, r.2 :: rs, ?_, h2⟩
    rw [Template.insertAll]
    simp only [hr, h1]

/-- One step forward is injective on the slots. -/
theorem succ_mod_inj (C x i : Nat) (hx : x < C) (hi : i < C)
    (e : (x + 1) % C = (i + 1) % C) : x = i := by
  have h1 : (x + 1) % C = if x + 1 = C then 0 else x + 1 := by
    by_cases c : x + 1 = C
    · rw [if_pos c, c, Nat.mod_self]
    · rw [if_neg c, Nat.mod_eq_of_lt (by omega)]
  have h2 : (i + 1) % C = if i + 1 = C then 0 else i + 1 := by
    by_cases c : i + 1 = C
    · rw [if_pos c, c, Nat.mod_self]
    · rw [if_neg c, Nat.mod_eq_of_lt (by omega)]
  rw [h1, h2] at e
  split at e <;> split at e <;> omega

/-- The order a lookup relies on gives the two parts of the Robin-Hood
invariant: the slots from the home of an id to its slot are used, and the
probe distance grows by at most one from a used slot to the next. -/
theorem robinHood_of_lookupOrdered {V : Type} [Zero V] (K : KeyType) (T : HashTable V)
    (h : T.LookupOrdered K) : T.PathsUsed K ∧ T.NeighboursOrdered K := by
  refine ⟨fun i hi hu j hj => (h i hi hu j hj).1, ?_⟩
  intro i hi hu hu1
  have hC : 1 ≤ T._bucketsNo := by omega
  have hi1 : (i + 1) % T._bucketsNo < T._bucketsNo := Nat.mod_lt _ (by omega)
  by_cases hd : T.distAt K ((i + 1) % T._bucketsNo) = 0
  · omega
  · have hh := homeAt_lt K T ((i + 1) % T._bucketsNo) hC
    have hdl := distAt_lt K T ((i + 1) % T._bucketsNo) hC
    obtain ⟨-, h2⟩ := h _ hi1 hu1 (T.distAt K ((i + 1) % T._bucketsNo) - 1) (by omega)
    have hslot : (T.homeAt K ((i + 1) % T._bucketsNo) +
        T.distAt K ((i + 1) % T._bucketsNo)) % T._bucketsNo = (i + 1) % T._bucketsNo :=
      add_dist_mod _ _ _ hh hi1
    have hprev : (T.homeAt K ((i + 1) % T._bucketsNo) +
        (T.distAt K ((i + 1) % T._bucketsNo) - 1)) % T._bucketsNo = i := by
      refine succ_mod_inj T._bucketsNo _ i (Nat.mod_lt _ (by omega)) hi ?_
      rw [add_mod_succ, show T.distAt K ((i + 1) % T._bucketsNo) - 1 + 1 =
        T.distAt K ((i + 1) % T._bucketsNo) by omega]
      exact hslot
    rw [hprev] at h2
    omega

/-- The loop of `rehash` returns the same table with calls of `insert` that
return the same where the former calls return. -/
theorem rehash_mono {V : Type} [Zero V] (bs : List (Bucket V))
    (ins1 ins2 : HashTable V → Nat → V → Option (HashTable V × Int))
    (hins : ∀ acc id v r, ins1 acc id v = some r → ins2 acc id v = some r) :
    ∀ (l : List Nat) (acc T1 : HashTable V),
      l.foldlM (fun acc i =>
          if (bs.getD i Bucket.zero).used then
            (ins1 acc (bs.getD i Bucket.zero).id (bs.getD i Bucket.zero).value).map Prod.fst
          else some acc) acc = some T1 →
      l.foldlM (fun acc i =>
          if (bs.getD i Bucket.zero).used then
            (ins2 acc (bs.getD i Bucket.zero).id (bs.getD i Bucket.zero).value).map Prod.fst
          else some acc) acc = some T1 := by
  intro l
  induction l with
  | nil =>
    intro acc T1 h
    exact h
  | cons i l ih =>
    intro acc T1 h
    rw [List.foldlM_cons] at h ⊢
    by_cases hu : (bs.getD i Bucket.zero).used = true
    · simp only [hu, if_true] at h ⊢
      cases hx : ins1 acc (bs.getD i Bucket.zero).id (bs.getD i Bucket.zero).value with
      | none =>
        rw [hx] at h
        simp at h
      | some r =>
        rw [hx] at h
        rw [hins _ _ _ r hx]
        simp only [Option.map_some', Option.bind_eq_bind, Option.some_bind] at h ⊢
        exact ih r.1 T1 h
    · have hu2 : (bs.getD i Bucket.zero).used = false := by simpa using hu
      simp only [hu2, Bool.false_eq_true, if_false, Option.bind_eq_bind, Option.some_bind]
        at h ⊢
      exact ih acc T1 h

/-- A call of `insert` that returns within a bound on the nesting returns the
same within every larger bound. -/
theorem insertN_mono {V : Type} [Zero V] (K : KeyType) :
    ∀ depth (T : HashTable V) (id : Nat) (v : V) (r : HashTable V × Int),
      Template.insertN K depth T id v = some r →
      Template.insertN K (depth + 1) T id v = some r := by
  intro depth
  induction depth with
  | zero =>
    intro T id v r h
    rw [Template.insertN] at h
    cases h
  | succ depth ih =>
    intro T id v r h
    rw [Template.insertN] at h ⊢
    by_cases hg : needsGrowth T._usedUpBuckets T._bucketsNo = true
    · simp only [hg, if_true] at h ⊢
      cases hr : Template.rehashWith K (Template.insertN K depth) T
          (2 * T._bucketsNo % K.modulus) with
      | none =>
        rw [hr] at h
        cases h
      | some T1 =>
        rw [hr] at h
        have hr2 : Template.rehashWith K (Template.insertN K (depth + 1)) T
            (2 * T._bucketsNo % K.modulus) = some T1 := by
          unfold Template.rehashWith at hr ⊢
          exact rehash_mono T._buckets _ _ (fun acc id v r => ih acc id v r) _ _ T1 hr
        rw [hr2]
        exact h
    · have hg2 : needsGrowth T._usedUpBuckets T._bucketsNo = false := by simpa using hg
      simp only [hg2, Bool.false_eq_true, if_false] at h ⊢
      exact h

/-- A sequence of `insert` calls that return within a bound on the nesting
return the same within every larger bound. -/
theorem insertAll_mono {V : Type} [Zero V] (K : KeyType) (depth : Nat) :
    ∀ (ops : List (Nat × V)) (T : HashTable V) (q : HashTable V × List Int),
      Template.insertAll K depth T ops = some q →
      ∀ more, Template.insertAll K (depth + more) T ops = some q := by
  have one : ∀ d (ops : List (Nat × V)) (T : HashTable V) (q : HashTable V × List Int),
      Template.insertAll K d T ops = some q → Template.insertAll K (d + 1) T ops = some q := by
    intro d ops
    induction ops with
    | nil =>
      intro T q h
      exact h
    | cons op ops ih =>
      intro T q h
      obtain ⟨id, v⟩ := op
      rw [Template.insertAll] at h ⊢
      cases hx : Template.insertN K d T id v with
      | none =>
        rw [hx] at h
        cases h
      | some r =>
        obtain ⟨ht1, r0⟩ := r
        rw [hx] at h
        rw [insertN_mono K d T id v _ hx]
        simp only [] at h ⊢
        cases hy : Template.insertAll K d ht1 ops with
        | none =>
          rw [hy] at h
          cases h
        | some q2 =>
          rw [hy] at h
          rw [ih ht1 q2 hy]
          exact h
  intro ops T q h more
  induction more with
  | zero => exact h
  | succ n ihn => exact one _ ops T q ihn

/-- C31: for both key types `T` of the template, `uint32_t` and `uint64_t`, on
a fresh `HashTable<T>` of capacity `C >= 1`, after every sequence of `insert`
calls that return (for every bound on the nesting `insert → rehash → insert`
they stay within) the Robin-Hood invariant holds in the table they leave: for
every used slot all slots from the home of its id to the slot are used; for
cyclically adjacent used slots the probe distance of the second is at most one
more than that of the first; and a lookup walking forward from the home of a
stored id meets, before the id, only used slots whose occupant has a probe
distance not smaller than its own. The calls do return, with one level of
nesting at most and so with the same result for every bound of at least 2,
and leave the counter at the number of used slots, when four times `C` plus
three times the number of calls is in the range of `T`. -/
theorem robin_hood_after_inserts {V : Type} [Zero V] (K : KeyType) (C : Nat)
    (ops : List (Nat × V)) (hC : 1 ≤ C) (hrange : C < K.modulus) :
    (∀ depth T rs, Template.insertAll K depth (HashTable.new C) ops = some (T, rs) →
      T.PathsUsed K ∧ T.NeighboursOrdered K ∧ T.LookupOrdered K) ∧
    (4 * (C + 3 * ops.length) < K.modulus →
      ∃ T rs,
        (∀ depth, 2 ≤ depth →
          Template.insertAll K depth (HashTable.new C) ops = some (T, rs)) ∧
        1 ≤ T._bucketsNo ∧ T._usedUpBuckets = T.usedSlots) := by
  constructor
  · intro depth T rs h
    obtain ⟨-, h3⟩ := insertAll_order K depth ops (HashTable.new C) T rs hrange
      (fresh_order K C C 0) h
    obtain ⟨a, b⟩ := robinHood_of_lookupOrdered K T h3
    exact ⟨a, b, h3⟩
  · intro hsize
    obtain ⟨f1, f3⟩ := @fresh_table V _ K C C hC hrange (Nat.le_refl _)
    obtain ⟨T, rs, h1, h2⟩ := insertAll_shape K ops (HashTable.new C) C f1 (Nat.le_refl _)
      (by
        have : (HashTable.new C : HashTable V).usedSlots = 0 := f3
        omega) hsize
    refine ⟨T, rs, fun depth hd => ?_, h2.1, h2.2.2.2⟩
    have hm := insertAll_mono K 2 ops (HashTable.new C) (T, rs) h1 (depth - 2)
    rw [show 2 + (depth - 2) = depth by omega] at hm
    exact hm

/-- C31 in `HashTable<uint64_t>` on a table of capacity 2 and the ids 1, 3, 5,
1, 7, 9, 2 and 500000000000: the table grows twice, the second call returns
-1 without storing its id, the id 1 is inserted a second time, and the last
id is above `2 ^ 32`. In the table of capacity 8 the calls leave, the ids 5, 7
and 9 with home 5 stand in the slots 5, 6 and 7, and the id 2 with home 7
stands in slot 0. -/
theorem robin_hood_after_inserts_witness :
    Template.insertAll KeyType.uint64_t 2 (HashTable.new 2 : HashTable Int)
        [(1, 10), (3, 20), (5, 30), (1, 40), (7, 50), (9, 60), (2, 70), (500000000000, 80)] =
      some (⟨8, [⟨2, 70, true⟩, ⟨0, 0, false⟩, ⟨500000000000, 80, true⟩, ⟨0, 0, false⟩,
          ⟨1, 40, true⟩, ⟨5, 30, true⟩, ⟨7, 50, true⟩, ⟨9, 60, true⟩, ⟨0, 0, false⟩,
          ⟨0, 0, false⟩, ⟨0, 0, false⟩, ⟨0, 0, false⟩, ⟨0, 0, false⟩, ⟨0, 0, false⟩,
          ⟨0, 0, false⟩, ⟨0, 0, false⟩], 6⟩, [0, -1, 0, 1, 0, 0, 0, 0]) ∧
    (∀ depth T rs, Template.insertAll KeyType.uint64_t depth (HashTable.new 2 : HashTable Int)
        [(1, 10), (3, 20), (5, 30), (1, 40), (7, 50), (9, 60), (2, 70), (500000000000, 80)] =
          some (T, rs) →
      T.PathsUsed KeyType.uint64_t ∧ T.NeighboursOrdered KeyType.uint64_t ∧
        T.LookupOrdered KeyType.uint64_t) ∧
    ∃ T rs,
      (∀ depth, 2 ≤ depth →
        Template.insertAll KeyType.uint64_t depth (HashTable.new 2 : HashTable Int)
          [(1, 10), (3, 20), (5, 30), (1, 40), (7, 50), (9, 60), (2, 70),
            (500000000000, 80)] = some (T, rs)) ∧
      1 ≤ T._bucketsNo ∧ T._usedUpBuckets = T.usedSlots :=
  ⟨by decide,
    (robin_hood_after_inserts KeyType.uint64_t 2
      [(1, 10), (3, 20), (5, 30), (1, 40), (7, 50), (9, 60), (2, 70), (500000000000, 80)]
      (by decide) (by decide)).1,
    (robin_hood_after_inserts KeyType.uint64_t 2
      [(1, 10), (3, 20), (5, 30), (1, 40), (7, 50), (9, 60), (2, 70), (500000000000, 80)]
      (by decide) (by decide)).2 (by decide)⟩

/-! ## Claims on the editing tree and the serialized format: C32, C33, C35, C36 -/

/-- Unfolding of `groupsBelowNode`. -/
theorem groupsBelowNode_mk (v : List Nat) (cs : List TrieNode) (id : Nat) :
    groupsBelowNode (.mk v cs id) = cs :: groupsBelow cs := by
  rw [groupsBelowNode]

/-- Unfolding of `groupsBelow` on an empty list. -/
theorem groupsBelow_nil : groupsBelow [] = [] := by
  rw [groupsBelow]

/-- Unfolding of `groupsBelow` on a non-empty list. -/
theorem groupsBelow_cons (n : TrieNode) (ns : List TrieNode) :
    groupsBelow (n :: ns) = groupsBelowNode n ++ groupsBelow ns := by
  rw [groupsBelow]

/-- Labels with different first bytes, an empty label counting as first byte
0, have no byte in common at the start, and if both are non-empty they start
with different bytes. -/
theorem no_common_start (a b : List Nat) (h : b.headD 0 ≠ a.headD 0) :
    compareHStr a b = 0 ∧ (a ≠ [] → b ≠ [] → a.head? ≠ b.head?) := by
  cases a with
  | nil => exact ⟨compareHStr_nil_left b, fun h0 => absurd rfl h0⟩
  | cons x xs =>
    cases b with
    | nil => exact ⟨compareHStr_nil_right _, fun _ h0 => absurd rfl h0⟩
    | cons y ys =>
      simp only [List.headD_cons] at h
      refine ⟨?_, fun _ _ e => ?_⟩
      · rw [compareHStr_cons, if_neg]
        rintro ⟨-, -, e⟩
        exact h e.symm
      · simp only [List.head?_cons, Option.some.injEq] at e
        exact h e.symm

/-- Well-formed siblings pairwise have no common start of their labels. -/
theorem childrenOK_pairwise (cs : List TrieNode) (h : ChildrenOK cs) :
    cs.Pairwise fun a b =>
      compareHStr a.value b.value = 0 ∧ (a.value ≠ [] → b.value ≠ [] →
        a.value.head? ≠ b.value.head?) := by
  induction cs with
  | nil => exact List.Pairwise.nil
  | cons n ns ih =>
    rw [childrenOK_cons] at h
    exact List.Pairwise.cons (fun m hm => no_common_start _ _ (h.2.1 m hm)) (ih h.2.2)

/-- In a well-formed tree every list of siblings pairwise has no common start
of the labels. -/
theorem groups_pairwise_aux :
    (∀ n : TrieNode, NodeOK n → ∀ g ∈ groupsBelowNode n,
      g.Pairwise fun a b =>
        compareHStr a.value b.value = 0 ∧ (a.value ≠ [] → b.value ≠ [] →
          a.value.head? ≠ b.value.head?)) ∧
    (∀ cs : List TrieNode, ChildrenOK cs → ∀ g ∈ groupsBelow cs,
      g.Pairwise fun a b =>
        compareHStr a.value b.value = 0 ∧ (a.value ≠ [] → b.value ≠ [] →
          a.value.head? ≠ b.value.head?)) := by
  apply trie_induction
  · intro v cs id ih hok g hg
    rw [nodeOK_mk] at hok
    rw [groupsBelowNode_mk] at hg
    rcases List.mem_cons.1 hg with e | hg
    · rw [e]
      exact childrenOK_pairwise cs hok.2.2
    · exact ih hok.2.2 g hg
  · intro _ g hg
    rw [groupsBelow_nil] at hg
    cases hg
  · intro n ns ihn ihns hok g hg
    rw [childrenOK_cons] at hok
    rw [groupsBelow_cons] at hg
    rcases List.mem_append.1 hg with hg | hg
    · exact ihn hok.1 g hg
    · exact ihns hok.2.2 g hg

/-- C32: every sequence of `addWord` calls (any ids, any `replace`) with keys
that `addWord` accepts, made on a fresh trie, succeeds and leaves a trie in
editing mode in which the labels of any two children of one node (the root
included) have no byte in common at their start: `compareHStr` of the two is
0, and two non-empty labels start with different bytes. -/
theorem siblings_share_no_start (ops : List (String × Nat × Bool))
    (hpure : ∀ p ∈ ops, p.1.isPureHangul = true) :
    ∃ t, TrieImpl.new.addWordsWith ops = .ok t ∧ t._editingMode = true ∧
      ∀ g ∈ siblingGroups t._rootChildren,
        g.Pairwise fun a b =>
          compareHStr a.value b.value = 0 ∧ (a.value ≠ [] → b.value ≠ [] →
            a.value.head? ≠ b.value.head?) := by
  obtain ⟨t, ht, hmode, hroot⟩ := addWordsWith_rootOK ops TrieImpl.new rfl rootOK_nil hpure
  refine ⟨t, ht, hmode, fun g hg => ?_⟩
  unfold siblingGroups at hg
  rcases List.mem_cons.1 hg with e | hg
  · rw [e]
    exact childrenOK_pairwise _ hroot.1
  · exact groups_pairwise_aux.2 _ hroot.1 g hg

/-- C32 at the words 빨갛, 빨간, 빨개 (inserted with `replace` set) and 빨
(inserted without). -/
theorem siblings_share_no_start_witness :
    ∃ t, TrieImpl.new.addWordsWith
        [(⟨[0xBE68, 0xAC1B]⟩, 0, true), (⟨[0xBE68, 0xAC04]⟩, 1, true),
          (⟨[0xBE68, 0xAC1C]⟩, 2, true), (⟨[0xBE68]⟩, 7, false)] = .ok t ∧
      t._editingMode = true ∧
      ∀ g ∈ siblingGroups t._rootChildren,
        g.Pairwise fun a b =>
          compareHStr a.value b.value = 0 ∧ (a.value ≠ [] → b.value ≠ [] →
            a.value.head? ≠ b.value.head?) :=
  siblings_share_no_start
    [(⟨[0xBE68, 0xAC1B]⟩, 0, true), (⟨[0xBE68, 0xAC04]⟩, 1, true),
      (⟨[0xBE68, 0xAC1C]⟩, 2, true), (⟨[0xBE68]⟩, 7, false)] (by decide)

/-- C36: after `addWord` of a key of 84 characters (id 0) and of 나 (id 1) and
`freeze()`, the first child of the root stands at position 1 with a label of
252 bytes, so its encoded size is 258 and its sibling 나 (id 1) stands at
position 259; `getLenght` of the first child is 2, and the position 3 it leads
to lies inside the first child, where a label of 250 bytes is read. -/
theorem getLenght_of_long_label :
    (TrieImpl.new.addWords [(⟨List.replicate 84 0xAC00⟩, 0), (⟨[0xB098]⟩, 1)]).map
      (fun t => t.freeze._serializedNodeArray.map fun buf =>
        (strlen buf (getValuePtr 1), getLenght buf 1, getValue buf (1 + 258), getId buf (1 + 258),
          (getValue buf (1 + 2)).length)) =
      .ok (some (252, 2, [3, 1, 1], 1, 250)) := by
  decide!

/-- C35: the tree built by `addWord` of a key of 84 characters (id 0) and of 나
(id 1) has two leaves below the root, with labels of 252 and 3 bytes and the
ids 0 and 1; `freeze()` followed by `makeEditable()` gives two leaves with
labels of 252 and 250 bytes and the ids 0 and 16842752. -/
theorem makeEditable_of_long_label :
    (TrieImpl.new.addWords [(⟨List.replicate 84 0xAC00⟩, 0), (⟨[0xB098]⟩, 1)]).map
      (fun t => (t._rootChildren.map fun n => (n.value.length, n.children.length, n.id),
        (t.freeze.makeEditable 0 3).map fun t1 =>
          t1._rootChildren.map fun n => (n.value.length, n.children.length, n.id))) =
      .ok ([(252, 0, 0), (3, 0, 1)], .ok [(252, 0, 0), (250, 0, 16842752)]) := by
  decide!

/-- C33: the tree built by `addWord` of a key of 84 characters, of 나다 and of
나라 has below the root a leaf with a label of 252 bytes and id 0 and the node
나 with two children. In the array `freeze()` produces, the node 나 stands at
position 259 with 2 children, the first of which (라) stands at position 268,
but the payload of 나 is 0 instead of the distance 9; the offset was written
into the first child of the root, whose label now reads as empty and whose id
reads as 17367040. -/
theorem freeze_of_long_label :
    (TrieImpl.new.addWords [(⟨List.replicate 84 0xAC00⟩, 0), (⟨[0xB098, 0xB2E4]⟩, 1),
        (⟨[0xB098, 0xB77C]⟩, 2)]).map
      (fun t => ((t._rootChildren.map fun n => (n.value.length, n.children.map TrieNode.value)),
        t.freeze._serializedNodeArray.map fun buf =>
          [getChildrenNo buf 0, getChildrenNo buf 259, readU32 buf 260,
            strlen buf (getValuePtr 1), getId buf 1],
        t.freeze._serializedNodeArray.map fun buf => [getValue buf 259, getValue buf 268])) =
      .ok ([(252, []), (3, [[6, 1, 1], [4, 1, 1]])], some [2, 2, 0, 0, 17367040],
        some [[3, 1, 1], [6, 1, 1]]) := by
  decide!

/-- A trie built from words of at most 83 characters, at least one of them not
empty, and frozen: the insertions succeed, the tree is well formed and fits
the format, and the array holds the layout of the tree. -/
theorem frozen_layout (ws : List (String × Nat))
    (hex : ∃ p ∈ ws, p.1.length ≠ 0)
    (hpure : ∀ p ∈ ws, p.1.isPureHangul = true) (hlen : ∀ p ∈ ws, p.1.length ≤ 83)
    (hid : ∀ p ∈ ws, p.2 < 2 ^ 32) (hcount : ws.length ≤ 16000000) :
    ∃ t buf, TrieImpl.new.addWords ws = .ok t ∧ t._editingMode = true ∧
      t.freeze._serializedNodeArray = some buf ∧
      RootOK t._rootChildren ∧ t._rootChildren ≠ [] ∧ ChildrenFit t._rootChildren ∧
      1 + (levelSize t._rootChildren + subSize t._rootChildren) < 2 ^ 32 ∧
      readU8 buf 0 = t._rootChildren.length ∧
      Lay buf 1 0 (levelSize t._rootChildren) t._rootChildren := by
  obtain ⟨hf, -, hfl, hfne⟩ := filter_words ws
  have hpure2 : ∀ p ∈ ws.filter (fun p => decide (p.1.length ≠ 0)), p.1.isPureHangul = true :=
    fun p hp => hpure p (hf p hp).1
  have hne2 : ∀ p ∈ ws.filter (fun p => decide (p.1.length ≠ 0)), p.1.length ≠ 0 :=
    fun p hp => (hf p hp).2
  have hlen2 : ∀ p ∈ ws.filter (fun p => decide (p.1.length ≠ 0)), p.1.length ≤ 83 :=
    fun p hp => hlen p (hf p hp).1
  have hid2 : ∀ p ∈ ws.filter (fun p => decide (p.1.length ≠ 0)), p.2 < 2 ^ 32 :=
    fun p hp => hid p (hf p hp).1
  rw [addWords_filter ws hpure]
  obtain ⟨t, buf, hadd, -, hbuf, hroot, hnn, hcnt, hlay⟩ :=
    freeze_addWords _ (hfne hex) hpure2 hne2 hlen2 hid2 (Nat.le_trans hfl hcount)
  have hadd2 := addWords_eq _ TrieImpl.new rfl hpure2
  have hsz := serializedSize_addWords _ hpure2 hlen2 (Nat.le_trans hfl hcount) _ hadd2
  have hfit := addAll_fits _ [] rootOK_nil childrenFit_nil
    (encodeWords_keys _ hpure2 hne2 hlen2 hid2)
  rw [hadd] at hadd2
  have ht := Except.ok.inj hadd2
  have hrc : t._rootChildren =
      addAll [] (encodeWords (ws.filter fun p => decide (p.1.length ≠ 0))) := by
    rw [ht]; rfl
  have hmode : t._editingMode = true := by rw [ht]; rfl
  refine ⟨t, buf, hadd, hmode, hbuf, ?_, ?_, ?_, ?_, ?_, ?_⟩
  · rw [hrc]; exact hroot
  · rw [hrc]; exact hnn
  · rw [hrc]; exact hfit
  · simp only [TrieImpl.serializedSize] at hsz
    rw [hrc]
    exact hsz
  · rw [hrc]; exact hcnt
  · rw [hrc]; exact hlay

/-- Unfolding of `withInnerId`. -/
theorem withInnerId_mk (u : Nat) (v : List Nat) (cs : List TrieNode) (id : Nat) :
    withInnerId u (.mk v cs id) =
      .mk v (withInnerIds u cs) (if cs.length > 0 then u else id) := by
  rw [withInnerId]

/-- Unfolding of `withInnerIds` on an empty list. -/
theorem withInnerIds_nil (u : Nat) : withInnerIds u [] = [] := by
  rw [withInnerIds]

/-- Unfolding of `withInnerIds` on a non-empty list. -/
theorem withInnerIds_cons (u : Nat) (n : TrieNode) (ns : List TrieNode) :
    withInnerIds u (n :: ns) = withInnerId u n :: withInnerIds u ns := by
  rw [withInnerIds]

/-- Replacing the ids of the nodes with children keeps the number of nodes. -/
theorem withInnerIds_length (u : Nat) (ts : List TrieNode) :
    (withInnerIds u ts).length = ts.length := by
  induction ts with
  | nil => rw [withInnerIds_nil]
  | cons n ts ih => rw [withInnerIds_cons, List.length_cons, List.length_cons, ih]

/-- Unfolding of `readChildrenWith` on a non-empty range. -/
theorem readChildrenWith_succ (rd : Nat → Except Err TrieNode) (buf : List Nat)
    (base childrenNo childrenRead : Nat) (n : TrieNode) (ns : List TrieNode)
    (h1 : rd (base + childrenRead) = .ok n)
    (h2 : readChildrenWith rd buf base childrenNo
      ((childrenRead + getLenght buf (base + childrenRead)) % 2 ^ 32) = .ok ns) :
    readChildrenWith rd buf base (childrenNo + 1) childrenRead = .ok (n :: ns) := by
  rw [readChildrenWith]
  simp only [h1, h2]

/-- On an array that holds the layout of a well-formed tree,
`readNodeAndChildren` returns the node it is called at, with its subtree, and
the loop over the children returns the siblings it starts at; the recursion
needs no more calls than the subtree has bytes. The id of a node with
children is the value its unassigned field holds. -/
theorem readNodeAndChildren_lay_aux (u : Nat) :
    (∀ n : TrieNode, ∀ buf q o c rest fuel, Lay buf q o c (n :: rest) → NodeOK n →
      levelSize n.children + subSize n.children < fuel →
      readNodeAndChildren u buf fuel (q + o) = .ok (withInnerId u n)) ∧
    (∀ ts : List TrieNode, ∀ buf q o c fuel, Lay buf q o c ts → ChildrenOK ts →
      levelSize ts + subSize ts ≤ fuel →
      readChildrenWith (readNodeAndChildren u buf fuel) buf q ts.length o =
        .ok (withInnerIds u ts)) := by
  apply trie_induction
  · intro v cs id ih buf q o c rest fuel hlay hok hfuel
    simp only [TrieNode.children_mk] at hfuel
    rw [lay_cons] at hlay
    rw [nodeOK_mk] at hok
    obtain ⟨hcount, hlabel, -, hoc, -, hleaf, hchildren, -⟩ := hlay
    cases fuel with
    | zero => omega
    | succ f =>
      rw [readNodeAndChildren, withInnerId_mk]
      have hv : getValue buf (q + o) = v := getValue_labelAt buf (q + o) v hok.1 hlabel
      have hno : getChildrenNo buf (q + o) = cs.length := hcount
      simp only [hv, hno]
      by_cases hc : cs.length = 0
      · have hcs := List.length_eq_zero.1 hc
        subst hcs
        have hid : getId buf (q + o) = id := hleaf rfl
        simp only [List.length_nil, readChildrenWith, hid, withInnerIds_nil,
          Nat.lt_irrefl, if_false]
      · obtain ⟨hoff, hl⟩ := hchildren hc
        have hoff2 : getChildrenOffsetOfNode buf (q + o) = c - o := hoff
        have hbase : q + o + (c - o) = q + c := by omega
        rw [hoff2, hbase, ih buf (q + c) 0 (levelSize cs) f hl hok.2.2 (by omega)]
        simp only [if_pos (Nat.pos_of_ne_zero hc)]
  · intro buf q o c fuel _ _ _
    rw [withInnerIds_nil]
    rfl
  · intro n ts ihn ihts buf q o c fuel hlay hok hfuel
    cases n with
    | mk v cs id =>
    simp only [TrieNode.children_mk] at ihn
    rw [levelSize_cons, subSize_cons] at hfuel
    rw [childrenOK_cons, nodeOK_mk] at hok
    have hnode := ihn buf q o c ts fuel hlay (by rw [nodeOK_mk]; exact hok.1) (by omega)
    rw [lay_cons] at hlay
    obtain ⟨-, hlabel, hvl, hoc, hcls, -, -, htail⟩ := hlay
    have hlen : getLenght buf (q + o) = 1 + 4 + v.length + 1 :=
      getLenght_labelAt buf (q + o) v hok.1.1 hlabel hvl
    rw [List.length_cons, withInnerIds_cons]
    refine readChildrenWith_succ _ buf q _ o _ _ hnode ?_
    rw [hlen, Nat.mod_eq_of_lt (by omega)]
    exact ihts buf q _ _ fuel htail hok.2.2 (by omega)

/-- On an array that holds the layout of a well-formed tree, the loop of
`makeEditable` returns the siblings it starts at. -/
theorem makeEditableLoop_lay (u : Nat) (buf : List Nat) (fuel : Nat) (ts : List TrieNode) :
    ∀ o c, Lay buf 1 o c ts → ChildrenOK ts → levelSize ts + subSize ts < fuel →
      makeEditableLoop u buf fuel ts.length (1 + o) = .ok (withInnerIds u ts) := by
  induction ts with
  | nil =>
    intro o c _ _ _
    rw [withInnerIds_nil]
    rfl
  | cons n ts ih =>
    intro o c hlay hok hfuel
    cases n with
    | mk v cs id =>
    rw [levelSize_cons, subSize_cons] at hfuel
    rw [childrenOK_cons] at hok
    have hnode := (readNodeAndChildren_lay_aux u).1 (.mk v cs id) buf 1 o c ts fuel hlay hok.1
      (by simp only [TrieNode.children_mk]; omega)
    rw [nodeOK_mk] at hok
    rw [lay_cons] at hlay
    obtain ⟨-, hlabel, hvl, -, -, -, -, htail⟩ := hlay
    have hlen : getLenght buf (1 + o) = 1 + 4 + v.length + 1 :=
      getLenght_labelAt buf (1 + o) v hok.1.1 hlabel hvl
    rw [List.length_cons, withInnerIds_cons, makeEditableLoop]
    have htl := ih _ _ htail hok.2.2 (by omega)
    rw [show 1 + (o + (1 + 4 + v.length + 1)) = 1 + o + (1 + 4 + v.length + 1) by omega] at htl
    simp only [hnode, hlen, htl]

/-- The size `getBranchLength` computes does not depend on the ids of the nodes
with children. -/
theorem getBranchLength_withInnerIds_aux (u : Nat) :
    (∀ n : TrieNode, ∀ length,
      getBranchLength (withInnerIds u n.children) length = getBranchLength n.children length) ∧
    (∀ ts : List TrieNode, ∀ length,
      getBranchLength (withInnerIds u ts) length = getBranchLength ts length) := by
  apply trie_induction
  · intro v cs id ih length
    exact ih length
  · intro length
    rw [withInnerIds_nil]
  · intro n ts ihn ihts length
    cases n with
    | mk v cs id =>
    simp only [TrieNode.children_mk] at ihn
    rw [withInnerIds_cons, withInnerId_mk, getBranchLength_cons, getBranchLength_cons, ihn, ihts]

/-- The first loop of `writeChildren` does not depend on the ids of the nodes
with children. -/
theorem writeNodes_withInnerIds (u : Nat) (ts : List TrieNode) :
    ∀ buf na cls, writeNodes buf na cls (withInnerIds u ts) = writeNodes buf na cls ts := by
  induction ts with
  | nil => intro buf na cls; rw [withInnerIds_nil]
  | cons n ts ih =>
    intro buf na cls
    cases n with
    | mk v cs id =>
    rw [withInnerIds_cons, withInnerId_mk, writeNodes_cons, writeNodes_cons,
      withInnerIds_length, ih]
    by_cases hc : cs.length = 0
    · rw [if_pos hc, if_pos hc, if_neg (by omega)]
    · rw [if_neg hc, if_neg hc]

/-- The bytes `writeChildren` writes do not depend on the ids of the nodes with
children. -/
theorem writeChildren_withInnerIds_aux (u : Nat) :
    (∀ n : TrieNode, ∀ buf na,
      writeChildren buf na (withInnerIds u n.children) = writeChildren buf na n.children) ∧
    (∀ ts : List TrieNode, ∀ buf na cls offset,
      writeSubtrees buf na cls offset (withInnerIds u ts) =
        writeSubtrees buf na cls offset ts) := by
  apply trie_induction
  · intro v cs id ih buf na
    simp only [TrieNode.children_mk]
    unfold writeChildren
    rw [writeNodes_withInnerIds, ih]
  · intro buf na cls offset
    rw [withInnerIds_nil]
  · intro n ts ihn ihts buf na cls offset
    cases n with
    | mk v cs id =>
    simp only [TrieNode.children_mk] at ihn
    rw [withInnerIds_cons, withInnerId_mk, writeSubtrees_cons, writeSubtrees_cons,
      withInnerIds_length]
    by_cases hc : cs.length > 0
    · rw [if_pos hc, if_pos hc, ihn, ihts]
    · rw [if_neg hc, if_neg hc, ihts]

/-- The way back to editing mode for the trees that fit the format: for every
trie built from a list of at most 16 million words with pure-Hangul keys of at most 83
characters, at least one of them not empty, and 32-bit ids, `freeze()`
followed by `makeEditable()` returns (when the recursion is given as many
calls as the array has bytes) a trie in editing mode with the same tree,
except that the ids of the nodes with children are the values of the
unassigned field; freezing it again gives the same array and the same
results of `findWord`. -/
theorem makeEditable_freeze (ws : List (String × Nat))
    (hex : ∃ p ∈ ws, p.1.length ≠ 0)
    (hpure : ∀ p ∈ ws, p.1.isPureHangul = true) (hlen : ∀ p ∈ ws, p.1.length ≤ 83)
    (hid : ∀ p ∈ ws, p.2 < 2 ^ 32) (hcount : ws.length ≤ 16000000) :
    ∃ t, TrieImpl.new.addWords ws = .ok t ∧
      ∀ uninit fuel, t.serializedSize ≤ fuel →
        ∃ t1, t.freeze.makeEditable uninit fuel = .ok t1 ∧ t1._editingMode = true ∧
          t1._rootChildren = withInnerIds uninit t._rootChildren ∧
          t1.freeze._serializedNodeArray = t.freeze._serializedNodeArray ∧
          ∀ k, t1.freeze.findWord k = t.freeze.findWord k := by
  obtain ⟨t, buf, hadd, -, hbuf, hroot, hnn, -, hsz, hcnt, hlay⟩ :=
    frozen_layout ws hex hpure hlen hid hcount
  refine ⟨t, hadd, fun uninit fuel hfuel => ?_⟩
  simp only [TrieImpl.serializedSize] at hfuel
  have hno : getChildrenNo buf 0 = t._rootChildren.length := hcnt
  have hloop := makeEditableLoop_lay uninit buf fuel t._rootChildren 0 _ hlay hroot.1 (by omega)
  have hme : t.freeze.makeEditable uninit fuel =
      .ok { t.freeze with _rootChildren := withInnerIds uninit t._rootChildren,
                          _editingMode := true, _serializedNodeArray := none } := by
    unfold TrieImpl.makeEditable
    simp only [hbuf, hno, hloop]
  have hl : ¬ t._rootChildren.length = 0 := fun h => hnn (List.length_eq_zero.1 h)
  have hl1 : ¬ (withInnerIds uninit t._rootChildren).length = 0 := by
    rw [withInnerIds_length]; exact hl
  have hfreeze : (TrieImpl.freeze { t.freeze with
      _rootChildren := withInnerIds uninit t._rootChildren,
      _editingMode := true, _serializedNodeArray := none })._serializedNodeArray =
      t.freeze._serializedNodeArray := by
    unfold TrieImpl.freeze
    simp only [if_neg hl, if_neg hl1]
    have hw := (writeChildren_withInnerIds_aux uninit).1 (.mk [] t._rootChildren 0)
    simp only [TrieNode.children_mk] at hw
    rw [withInnerIds_length, (getBranchLength_withInnerIds_aux uninit).2, hw]
  have hmode : (TrieImpl.freeze { t.freeze with
      _rootChildren := withInnerIds uninit t._rootChildren,
      _editingMode := true, _serializedNodeArray := none })._editingMode =
      t.freeze._editingMode := by
    unfold TrieImpl.freeze
    simp only [if_neg hl, if_neg hl1]
  refine ⟨_, hme, rfl, rfl, hfreeze, fun k => ?_⟩
  unfold TrieImpl.findWord
  rw [hfreeze, hmode]

/-! ## Claim C39: encapsulating and restoring a string without sentinels -/

/-- Every codepoint of a run of the encapsulated form comes from the open run
or from the string. -/
theorem encapsulated_runs_mem (cs : List Nat) :
    ∀ buffer : List Nat, ∀ r ∈ (encapsulated cs buffer).2, ∀ b ∈ r, b ∈ buffer ∨ b ∈ cs := by
  induction cs with
  | nil =>
    intro buffer r hr b hb
    unfold encapsulated at hr
    by_cases h0 : buffer = []
    · rw [if_pos h0] at hr
      cases hr
    · rw [if_neg h0] at hr
      rw [List.mem_singleton.1 hr] at hb
      exact Or.inl hb
  | cons c cs ih =>
    intro buffer r hr b hb
    unfold encapsulated at hr
    by_cases hs : isSyllableCodepoint c = true
    · rw [if_pos hs] at hr
      by_cases h0 : buffer = []
      · rw [if_pos h0] at hr
        rcases ih [] r hr b hb with h | h
        · cases h
        · exact Or.inr (List.mem_cons_of_mem _ h)
      · rw [if_neg h0] at hr
        rcases List.mem_cons.1 hr with e | hr
        · rw [e] at hb
          exact Or.inl hb
        · rcases ih [] r hr b hb with h | h
          · cases h
          · exact Or.inr (List.mem_cons_of_mem _ h)
    · rw [if_neg hs] at hr
      rcases ih (buffer ++ [c]) r hr b hb with h | h
      · rcases List.mem_append.1 h with h | h
        · exact Or.inl h
        · rw [List.mem_singleton.1 h]
          exact Or.inr (List.mem_cons_self _ _)
      · exact Or.inr (List.mem_cons_of_mem _ h)

/-- On a string without a sentinel from position `i` on, the loop of
`restoreNonHangul` runs to the end of the string and leaves it as it is. -/
theorem restoreLoop_of_no_sentinel (runs : List (List Nat)) (str : List Nat) :
    ∀ fuel i, i ≤ str.length → str.length - i < fuel →
      (∀ j, i ≤ j → j < str.length → str.getD j 0 ≠ EncapsulatedNonHangulCode) →
      restoreLoop fuel str i runs = some (.ok str) := by
  intro fuel
  induction fuel with
  | zero => intro i _ h; omega
  | succ fuel ih =>
    intro i hi hf hno
    unfold restoreLoop
    by_cases he : i = str.length
    · rw [if_pos he]
    · rw [if_neg he, if_neg (by omega), if_neg (hno i (Nat.le_refl _) (by omega))]
      exact ih (i + 1) (by omega) (by omega) fun j hj hjl => hno j (by omega) hjl

/-- C39: for every string `s` without the sentinel `0xFFFFFFFE`,
`encapsulateNonHangul` returns a string and a sidecar, `restoreNonHangul` with
that sidecar returns, its result is the encapsulated string with the `k`-th
sentinel replaced by the `k`-th run (the text of a run that was put back is
not looked at again), and this is the original string. -/
theorem encapsulate_restore_of_no_sentinel (s : String)
    (h : ∀ c ∈ s._str, c ≠ EncapsulatedNonHangulCode) :
    ∃ s1 sidecar, s.encapsulateNonHangul = some (s1, sidecar) ∧
      s1.restoreNonHangul sidecar =
        some (.ok ⟨restored s1._str sidecar._nonHangulStrings⟩) ∧
      restored s1._str sidecar._nonHangulStrings = s._str ∧
      s.encapsulateThenRestore = some (.ok s) := by
  obtain ⟨h1, h2, -, -, -, h6⟩ := encapsulated_spec s._str [] (fun b hb => by simp at hb)
  rw [List.nil_append] at h1
  have hclean : ∀ r ∈ (encapsulated s._str []).2,
      r ≠ [] ∧ ∀ b ∈ r, b ≠ EncapsulatedNonHangulCode := by
    intro r hr
    refine ⟨(h2 r hr).1, fun b hb => ?_⟩
    rcases encapsulated_runs_mem s._str [] r hr b hb with hm | hm
    · cases hm
    · exact h b hm
  have hres : String.restoreNonHangul ⟨(encapsulated s._str []).1⟩
      ⟨(encapsulated s._str []).2⟩ =
      some (.ok ⟨restored (encapsulated s._str []).1 (encapsulated s._str []).2⟩) := by
    by_cases hne : (encapsulated s._str []).2 = []
    · have hcount : (encapsulated s._str []).1.count EncapsulatedNonHangulCode = 0 := by
        rw [h6, hne]
        rfl
      have hno : ∀ j, 0 ≤ j → j < (encapsulated s._str []).1.length →
          (encapsulated s._str []).1.getD j 0 ≠ EncapsulatedNonHangulCode := by
        intro j _ hj e
        have hmem : EncapsulatedNonHangulCode ∈ (encapsulated s._str []).1 := by
          rw [← e, List.getD_eq_getElem _ _ hj]
          exact List.getElem_mem _
        exact absurd (List.count_pos_iff.2 hmem) (by omega)
      unfold String.restoreNonHangul
      simp only [hne, List.map_nil, List.sum_nil, Nat.add_zero]
      rw [restoreLoop_of_no_sentinel [] _ _ 0 (Nat.zero_le _) (by omega) hno, restored_nil]
    · exact restoreNonHangul_of_clean_runs _ _ hne hclean
  refine ⟨_, _, encapsulateNonHangul_eq s, hres, h1, ?_⟩
  unfold String.encapsulateThenRestore
  rw [encapsulateNonHangul_eq s]
  simp only [hres]
  rw [h1]

/-- C39 at the string a 한 bc 글 (runs before, between and after syllables). -/
theorem encapsulate_restore_of_no_sentinel_witness :
    ∃ s1 sidecar, (String.mk [0x61, 0xD55C, 0x62, 0x63, 0xAE00]).encapsulateNonHangul =
        some (s1, sidecar) ∧
      s1.restoreNonHangul sidecar =
        some (.ok ⟨restored s1._str sidecar._nonHangulStrings⟩) ∧
      restored s1._str sidecar._nonHangulStrings = [0x61, 0xD55C, 0x62, 0x63, 0xAE00] ∧
      (String.mk [0x61, 0xD55C, 0x62, 0x63, 0xAE00]).encapsulateThenRestore =
        some (.ok ⟨[0x61, 0xD55C, 0x62, 0x63, 0xAE00]⟩) :=
  encapsulate_restore_of_no_sentinel ⟨[0x61, 0xD55C, 0x62, 0x63, 0xAE00]⟩ (by decide)

/-! ## Claims C40 and C34: the bytes `writeChildren` writes and their order -/

/-- The string copied by `strcpy` is no longer than the `std::string`. -/
theorem cStr_length_le (v : List Nat) : (cStr v).length ≤ v.length := by
  unfold cStr
  exact (List.takeWhile_sublist _).length_le

/-- A read away from the bytes stored by `strcpy`, for any string. -/
theorem readU8_strcpy_outside (buf : List Nat) (p : Nat) (v : List Nat) (i : Nat)
    (h : i < p ∨ p + v.length + 1 ≤ i) : readU8 (strcpy buf p v) i = readU8 buf i := by
  unfold strcpy
  have := cStr_length_le v
  refine readU8_writeBytes_of_outside _ _ _ _ ?_
  rw [List.length_append, List.length_singleton]
  omega

/-- Behind the bytes `bs` stored by `writeBytes` with a final zero, the zero is read. -/
theorem readU8_writeBytes_zero (bs : List Nat) :
    ∀ (buf : List Nat) (p : Nat), readU8 (writeBytes buf p (bs ++ [0])) (p + bs.length) = 0 := by
  induction bs with
  | nil =>
    intro buf p
    simp only [List.nil_append, writeBytes, List.length_nil, Nat.add_zero]
    rw [readU8_writeU8]
    by_cases hp : p < buf.length
    · rw [if_pos ⟨rfl, hp⟩]
    · rw [if_neg (fun hh => hp hh.2)]
      unfold readU8
      exact List.getD_eq_default _ _ (Nat.le_of_not_lt hp)
  | cons b bs ih =>
    intro buf p
    simp only [List.cons_append, writeBytes, List.length_cons]
    have := ih (writeU8 buf p b) (p + 1)
    rw [show p + (bs.length + 1) = p + 1 + bs.length by omega]
    exact this

/-- The terminator stored by `strcpy`. -/
theorem readU8_strcpy_zero (buf : List Nat) (p : Nat) (v : List Nat) :
    readU8 (strcpy buf p v) (p + (cStr v).length) = 0 := by
  unfold strcpy
  exact readU8_writeBytes_zero _ _ _


/-- At a zero byte `strlen` finds the length 0. -/
theorem strlen_eq_zero (buf : List Nat) (p : Nat) (hz : readU8 buf p = 0) :
    strlen buf p = 0 := by
  unfold strlen cStr
  cases hd : buf.drop p with
  | nil => simp
  | cons a as =>
    have ha : readU8 buf p = a := by
      unfold readU8
      have hlt : p < buf.length := by
        by_contra hq
        rw [List.drop_eq_nil_of_le (Nat.le_of_not_lt hq)] at hd
        cases hd
      rw [List.getD_eq_getElem _ _ hlt]
      have := List.drop_eq_getElem_cons hlt
      rw [hd] at this
      exact (List.cons.inj this).1.symm
    rw [hz] at ha
    rw [← ha]
    simp

/-- A zero byte at `z` bounds the length `strlen` finds from a position before it. -/
theorem strlen_le_of_zero (buf : List Nat) (z : Nat) (hz : readU8 buf z = 0) :
    ∀ d p, p + d = z → strlen buf p ≤ d := by
  intro d
  induction d with
  | zero =>
    intro p hp
    simp only [Nat.add_zero] at hp
    subst hp
    rw [strlen_eq_zero buf p hz]
  | succ d ih =>
    intro p hp
    by_cases h0 : readU8 buf p = 0
    · rw [strlen_eq_zero buf p h0]
      omega
    · have hd := drop_eq_cons_of_readU8_ne_zero buf p h0
      have hrec := ih (p + 1) (by omega)
      unfold strlen cStr at hrec ⊢
      rw [hd, List.takeWhile_cons, if_pos (by simpa using h0)]
      simp only [List.length_cons]
      omega

/-- The stride `getLenght` returns does not lead behind a zero byte that follows
the header. -/
theorem getLenght_le_of_zero (buf : List Nat) (p z : Nat) (hz : readU8 buf z = 0)
    (hpz : p + 5 ≤ z) : p + getLenght buf p ≤ z + 1 := by
  unfold getLenght getValuePtr
  have h := strlen_le_of_zero buf z hz (z - (p + 1 + 4)) (p + 1 + 4) (by omega)
  have := Nat.mod_le (1 + 4 + strlen buf (p + 1 + 4) + 1) 256
  omega

/-- Unfolding of `Terms`. -/
theorem terms_cons (buf : List Nat) (p : Nat) (n : TrieNode) (ts : List TrieNode) :
    Terms buf p (n :: ts) ↔
      (∃ z, p + 5 ≤ z ∧ z < p + (1 + 4 + n.value.length + 1) ∧ readU8 buf z = 0) ∧
        Terms buf (p + (1 + 4 + n.value.length + 1)) ts := Iff.rfl

/-- The terminators only depend on the bytes of their level. -/
theorem terms_congr (buf buf1 : List Nat) (ts : List TrieNode) :
    ∀ p, (∀ i, p + 5 ≤ i → i < p + levelSize ts → readU8 buf1 i = readU8 buf i) →
      Terms buf p ts → Terms buf1 p ts := by
  induction ts with
  | nil => intro _ _ _; trivial
  | cons n ts ih =>
    intro p h ht
    rw [terms_cons] at ht ⊢
    have hl : levelSize (n :: ts) = 1 + 4 + n.value.length + 1 + levelSize ts := rfl
    rw [hl] at h
    obtain ⟨⟨z, hz1, hz2, hz3⟩, h4⟩ := ht
    refine ⟨⟨z, hz1, hz2, ?_⟩, ih _ (fun i hi1 hi2 => h i (by omega) (by omega)) h4⟩
    rw [h z hz1 (by omega)]
    exact hz3

/-- The first loop of `writeChildren`, for any labels: it returns the size of the
level, changes only bytes of the level, and leaves a terminator for every node. -/
theorem writeNodes_frame (ts : List TrieNode) :
    ∀ (buf : List Nat) (na cls : Nat), cls + levelSize ts < 2 ^ 32 →
      (writeNodes buf na cls ts).2 = cls + levelSize ts ∧
      (writeNodes buf na cls ts).1.length = buf.length ∧
      (∀ i, i < na + cls ∨ na + cls + levelSize ts ≤ i →
        readU8 (writeNodes buf na cls ts).1 i = readU8 buf i) ∧
      Terms (writeNodes buf na cls ts).1 (na + cls) ts := by
  induction ts with
  | nil => intro buf na cls _; exact ⟨rfl, rfl, fun _ _ => rfl, trivial⟩
  | cons n ts ih =>
    intro buf na cls hsz
    cases n with
    | mk v cs id =>
    rw [levelSize_cons] at hsz ⊢
    rw [writeNodes_cons]
    have hmod : (cls + (1 + 4 + v.length + 1)) % 2 ^ 32 = cls + (1 + 4 + v.length + 1) :=
      Nat.mod_eq_of_lt (by omega)
    rw [hmod]
    generalize hb2 : (if cs.length = 0 then
          strcpy (writeU32 (writeU8 buf (na + cls) cs.length) (na + cls + 1) id)
            (na + cls + 1 + 4) v
        else strcpy (writeU8 buf (na + cls) cs.length) (na + cls + 1 + 4) v) = buf2
    have hlen2 : buf2.length = buf.length := by
      rw [← hb2]; split <;> simp
    have hframe2 : ∀ i, i < na + cls ∨ na + cls + (1 + 4 + v.length + 1) ≤ i →
        readU8 buf2 i = readU8 buf i := by
      intro i hi
      rw [← hb2]
      split
      · rw [readU8_strcpy_outside _ _ _ _ (by omega),
          readU8_writeU32_of_outside _ _ _ _ (by omega),
          readU8_writeU8_of_ne _ _ _ _ (by omega)]
      · rw [readU8_strcpy_outside _ _ _ _ (by omega),
          readU8_writeU8_of_ne _ _ _ _ (by omega)]
    have hterm : readU8 buf2 (na + cls + 1 + 4 + (cStr v).length) = 0 := by
      rw [← hb2]
      split
      · exact readU8_strcpy_zero _ _ _
      · exact readU8_strcpy_zero _ _ _
    obtain ⟨i1, i2, i3, i4⟩ := ih buf2 na (cls + (1 + 4 + v.length + 1)) (by omega)
    have hcl := cStr_length_le v
    refine ⟨by rw [i1]; omega, by rw [i2, hlen2], fun i hi => ?_, ?_⟩
    · rw [i3 i (by omega), hframe2 i (by omega)]
    · rw [terms_cons]
      have hval : (TrieNode.mk v cs id).value = v := rfl
      rw [hval]
      refine ⟨⟨na + cls + 1 + 4 + (cStr v).length, by omega, by omega, ?_⟩, ?_⟩
      · rw [i3 _ (by omega)]
        exact hterm
      · rw [show na + cls + (1 + 4 + v.length + 1) = na + (cls + (1 + 4 + v.length + 1)) by
          omega]
        exact i4

/-- The two loops of `writeChildren`, for any labels. For the children of a
node: `writeChildren` returns their total size and changes only the bytes of
their block. For a list of siblings whose terminators are written, with the
second loop standing at an offset `x` that is not behind the start `s` of the
first of them: the loop returns the position behind all descendants and
changes no byte before `na + x + 1` or behind the descendants. -/
theorem writeSubtrees_frame_aux :
    (∀ n : TrieNode, ∀ buf na,
      levelSize n.children + subSize n.children < 2 ^ 32 →
      (writeChildren buf na n.children).2 = levelSize n.children + subSize n.children ∧
      (writeChildren buf na n.children).1.length = buf.length ∧
      (∀ i, i < na ∨ na + (levelSize n.children + subSize n.children) ≤ i →
        readU8 (writeChildren buf na n.children).1 i = readU8 buf i)) ∧
    (∀ ts : List TrieNode, ∀ buf na cls x s,
      x ≤ s → s + levelSize ts ≤ cls → cls + subSize ts < 2 ^ 32 → Terms buf (na + s) ts →
      (writeSubtrees buf na cls x ts).2 = cls + subSize ts ∧
      (writeSubtrees buf na cls x ts).1.length = buf.length ∧
      (∀ i, i < na + x + 1 ∨ na + cls + subSize ts ≤ i →
        readU8 (writeSubtrees buf na cls x ts).1 i = readU8 buf i)) := by
  apply trie_induction
  · -- `writeChildren` for the children of a node
    intro v cs id ih buf na hsz
    simp only [TrieNode.children_mk] at hsz ⊢
    unfold writeChildren
    obtain ⟨w1, w2, w3, w4⟩ := writeNodes_frame cs buf na 0 (by omega)
    simp only [Nat.zero_add, Nat.add_zero] at w1 w3 w4
    obtain ⟨s1, s2, s3⟩ := ih (writeNodes buf na 0 cs).1 na (levelSize cs) 0 0
      (Nat.le_refl _) (by omega) (by omega) (by simpa using w4)
    simp only [w1]
    refine ⟨s1, by rw [s2, w2], fun i hi => ?_⟩
    rw [s3 i (by omega), w3 i (by omega)]
  · -- the second loop on no node
    intro buf na cls x s _ _ _ _
    rw [writeSubtrees_nil, subSize_nil]
    exact ⟨rfl, rfl, fun _ _ => rfl⟩
  · -- the second loop on a node and its later siblings
    intro n ts ihn ihts buf na cls x s hxs hcls hsz hterms
    cases n with
    | mk v cs id =>
    simp only [TrieNode.children_mk] at ihn
    rw [levelSize_cons] at hcls
    rw [subSize_cons] at hsz ⊢
    rw [terms_cons] at hterms
    have hval : (TrieNode.mk v cs id).value = v := rfl
    rw [hval] at hterms
    obtain ⟨⟨z, hz1, hz2, hz3⟩, hrest⟩ := hterms
    rw [writeSubtrees_cons]
    by_cases hc : cs.length > 0
    · rw [if_pos hc]
      generalize hb1 : writeU32 buf (na + x + 1) ((cls + 2 ^ 32 - x) % 2 ^ 32) = buf1
      have hlen1 : buf1.length = buf.length := by rw [← hb1]; simp
      have hframe1 : ∀ i, i < na + x + 1 ∨ na + x + 5 ≤ i → readU8 buf1 i = readU8 buf i := by
        intro i hi
        rw [← hb1]
        exact readU8_writeU32_of_outside _ _ _ _ (by omega)
      obtain ⟨c1, c2, c3⟩ := ihn buf1 (na + cls) (by omega)
      rw [c1]
      have hmod : (cls + (levelSize cs + subSize cs)) % 2 ^ 32 =
          cls + (levelSize cs + subSize cs) := Nat.mod_eq_of_lt (by omega)
      rw [hmod]
      -- the bytes between the header at hand and the children are as before
      have hmid : ∀ i, na + x + 5 ≤ i → i < na + cls →
          readU8 (writeChildren buf1 (na + cls) cs).1 i = readU8 buf i := by
        intro i hi1 hi2
        rw [c3 i (by omega), hframe1 i (by omega)]
      have hz : readU8 (writeChildren buf1 (na + cls) cs).1 z = 0 := by
        rw [hmid z (by omega) (by omega)]
        exact hz3
      have hstep := getLenght_le_of_zero _ (na + x) z hz (by omega)
      have hmod2 : (x + getLenght (writeChildren buf1 (na + cls) cs).1 (na + x)) % 2 ^ 32 =
          x + getLenght (writeChildren buf1 (na + cls) cs).1 (na + x) :=
        Nat.mod_eq_of_lt (by omega)
      rw [hmod2]
      obtain ⟨t1, t2, t3⟩ := ihts (writeChildren buf1 (na + cls) cs).1 na
        (cls + (levelSize cs + subSize cs))
        (x + getLenght (writeChildren buf1 (na + cls) cs).1 (na + x))
        (s + (1 + 4 + v.length + 1)) (by omega) (by omega) (by omega)
        (terms_congr buf _ ts _ (fun i hi1 hi2 => hmid i (by omega) (by omega))
          (by rw [show na + (s + (1 + 4 + v.length + 1)) = na + s + (1 + 4 + v.length + 1) by
                omega]
              exact hrest))
      refine ⟨by rw [t1]; omega, by rw [t2, c2, hlen1], fun i hi => ?_⟩
      rw [t3 i (by omega), c3 i (by omega), hframe1 i (by omega)]
    · rw [if_neg hc]
      have hcs : cs = [] := List.length_eq_zero.1 (by omega)
      subst hcs
      have hl0 : levelSize ([] : List TrieNode) = 0 := rfl
      rw [hl0, subSize_nil]
      have hstep := getLenght_le_of_zero buf (na + x) z hz3 (by omega)
      have hmod2 : (x + getLenght buf (na + x)) % 2 ^ 32 = x + getLenght buf (na + x) :=
        Nat.mod_eq_of_lt (by omega)
      rw [hmod2]
      obtain ⟨t1, t2, t3⟩ := ihts buf na cls (x + getLenght buf (na + x))
        (s + (1 + 4 + v.length + 1)) (by omega) (by omega)
        (by rw [hl0, subSize_nil] at hsz; omega)
        (by rw [show na + (s + (1 + 4 + v.length + 1)) = na + s + (1 + 4 + v.length + 1) by
              omega]
            exact hrest)
      refine ⟨by rw [t1]; omega, t2, fun i hi => ?_⟩
      exact t3 i (by omega)

/-- The size `writeChildren` returns and the bytes it leaves alone: for every
list of editing nodes whose encoded size `levelSize + subSize`, the sum of
`1 + 4 + |label| + 1` over all nodes of the subtrees, is with one more byte
below `2 ^ 32`, for every buffer and every position `na` in it,
`writeChildren` returns `getBranchLength(children, 0)`, which is that sum,
keeps the size of the buffer, and leaves every byte before `na` and from
`na + getBranchLength(children, 0)` on as it was. The array `freeze()`
allocates for a non-empty tree has `1 + getBranchLength` bytes, the recorded
`_serializedNodeArraySize`. Which bytes inside the block are written is not
part of this statement. -/
theorem writeChildren_size_and_frame (cs : List TrieNode) (buf : List Nat) (na : Nat)
    (hsz : 1 + (levelSize cs + subSize cs) < 2 ^ 32) :
    (writeChildren buf na cs).2 = getBranchLength cs 0 ∧
    getBranchLength cs 0 = levelSize cs + subSize cs ∧
    (writeChildren buf na cs).1.length = buf.length ∧
    (∀ i, i < na ∨ na + getBranchLength cs 0 ≤ i →
      readU8 (writeChildren buf na cs).1 i = readU8 buf i) ∧
    (cs ≠ [] → ∀ t : TrieImpl, t._rootChildren = cs →
      ∃ arr, t.freeze._serializedNodeArray = some arr ∧
        arr.length = 1 + getBranchLength cs 0 ∧
        t.freeze._serializedNodeArraySize = 1 + getBranchLength cs 0) := by
  have hbl := getBranchLength_spec cs 0 (by omega)
  rw [Nat.zero_add] at hbl
  obtain ⟨h1, h2, h3⟩ := writeSubtrees_frame_aux.1 (.mk [] cs 0) buf na
    (by simp only [TrieNode.children_mk]; omega)
  simp only [TrieNode.children_mk] at h1 h2 h3
  refine ⟨by rw [h1, hbl], hbl, h2, fun i hi => h3 i (by rw [hbl] at hi; exact hi), ?_⟩
  intro hne t ht
  have hl : ¬ t._rootChildren.length = 0 := fun h => hne (by
    rw [← ht]; exact List.length_eq_zero.1 h)
  unfold TrieImpl.freeze
  rw [if_neg hl, ht]
  refine ⟨_, rfl, ?_, ?_⟩
  · obtain ⟨-, k2, -⟩ := writeSubtrees_frame_aux.1 (.mk [] cs 0)
      (writeU8 (List.replicate (1 + getBranchLength cs 0) 0) 0 cs.length) 1
      (by simp only [TrieNode.children_mk]; omega)
    simp only [TrieNode.children_mk] at k2
    rw [k2]
    simp [writeU8]
  · simp only []
    rw [hbl]
    exact Nat.mod_eq_of_lt hsz

set_option maxRecDepth 100000 in
/-- The size and the frame at a node 가 with the children 나 and an empty label,
followed by a leaf with a label of 252 bytes, written at position 1 of a buffer
of 300 bytes. -/
theorem writeChildren_size_and_frame_witness :
    (writeChildren (List.replicate 300 7) 1
        [.mk [1, 1, 1] [.mk [3, 1, 1] [] 2, .mk [] [] 7] 0, .mk (List.replicate 252 1) [] 5]).2 =
      getBranchLength
        [.mk [1, 1, 1] [.mk [3, 1, 1] [] 2, .mk [] [] 7] 0, .mk (List.replicate 252 1) [] 5] 0 ∧
    getBranchLength
        [.mk [1, 1, 1] [.mk [3, 1, 1] [] 2, .mk [] [] 7] 0, .mk (List.replicate 252 1) [] 5] 0 =
      levelSize
          [.mk [1, 1, 1] [.mk [3, 1, 1] [] 2, .mk [] [] 7] 0, .mk (List.replicate 252 1) [] 5] +
        subSize
          [.mk [1, 1, 1] [.mk [3, 1, 1] [] 2, .mk [] [] 7] 0, .mk (List.replicate 252 1) [] 5] ∧
    (writeChildren (List.replicate 300 7) 1
        [.mk [1, 1, 1] [.mk [3, 1, 1] [] 2, .mk [] [] 7] 0,
          .mk (List.replicate 252 1) [] 5]).1.length = (List.replicate 300 7).length ∧
    (∀ i, i < 1 ∨ 1 + getBranchLength
        [.mk [1, 1, 1] [.mk [3, 1, 1] [] 2, .mk [] [] 7] 0, .mk (List.replicate 252 1) [] 5] 0 ≤
          i →
      readU8 (writeChildren (List.replicate 300 7) 1
        [.mk [1, 1, 1] [.mk [3, 1, 1] [] 2, .mk [] [] 7] 0,
          .mk (List.replicate 252 1) [] 5]).1 i = readU8 (List.replicate 300 7) i) ∧
    (([.mk [1, 1, 1] [.mk [3, 1, 1] [] 2, .mk [] [] 7] 0, .mk (List.replicate 252 1) [] 5] :
        List TrieNode) ≠ [] → ∀ t : TrieImpl, t._rootChildren =
        [.mk [1, 1, 1] [.mk [3, 1, 1] [] 2, .mk [] [] 7] 0, .mk (List.replicate 252 1) [] 5] →
      ∃ arr, t.freeze._serializedNodeArray = some arr ∧
        arr.length = 1 + getBranchLength
          [.mk [1, 1, 1] [.mk [3, 1, 1] [] 2, .mk [] [] 7] 0,
            .mk (List.replicate 252 1) [] 5] 0 ∧
        t.freeze._serializedNodeArraySize = 1 + getBranchLength
          [.mk [1, 1, 1] [.mk [3, 1, 1] [] 2, .mk [] [] 7] 0,
            .mk (List.replicate 252 1) [] 5] 0) :=
  writeChildren_size_and_frame
    [.mk [1, 1, 1] [.mk [3, 1, 1] [] 2, .mk [] [] 7] 0, .mk (List.replicate 252 1) [] 5]
    (List.replicate 300 7) 1 (by simp [levelSize, subSize, TrieNode.value])

/-- C40: the tree built by `addWord` of a key of 84 characters, of 나다 and of
나라 has `getBranchLength(root children, 0) = 285`, and `freeze()` allocates an
array of 286 bytes for it. The call `writeChildren(array + 1, root children)`
that `freeze()` makes, run on an array of that size whose bytes hold 170
before the call and again on one whose bytes hold 85, returns 285 both times
and leaves the bytes 260 to 263, the payload of the node 나 at position 259,
at 170 and at 85: no statement of `writeChildren` stores to them. The bytes
259 and 264 around them are the children count 2 and the first label byte. -/
theorem writeChildren_of_long_label :
    (TrieImpl.new.addWords [(⟨List.replicate 84 0xAC00⟩, 0), (⟨[0xB098, 0xB2E4]⟩, 1),
        (⟨[0xB098, 0xB77C]⟩, 2)]).map
      (fun t => (getBranchLength t._rootChildren 0,
        t.freeze._serializedNodeArray.map List.length,
        [170, 85].map fun fill =>
          ((writeChildren
              (writeU8 (List.replicate (1 + getBranchLength t._rootChildren 0) fill) 0
                t._rootChildren.length) 1 t._rootChildren).2,
            [259, 260, 261, 262, 263, 264].map
              (readU8 (writeChildren
                (writeU8 (List.replicate (1 + getBranchLength t._rootChildren 0) fill) 0
                  t._rootChildren.length) 1 t._rootChildren).1)))) =
      .ok (285, some 286,
        [(285, [2, 170, 170, 170, 170, 3]), (285, [2, 85, 85, 85, 85, 3])]) := by
  decide!

/-- Unfolding of `placedNode`. -/
theorem placedNode_mk (depth parent q offset cls : Nat) (v : List Nat) (cs : List TrieNode)
    (id : Nat) :
    placedNode depth parent q offset cls (.mk v cs id) =
      ⟨depth, parent, q + offset, v⟩ ::
        placedLevel (depth + 1) (q + offset) (q + cls) 0 (levelSize cs) cs := by
  rw [placedNode]

/-- Unfolding of `placedLevel` on an empty list. -/
theorem placedLevel_nil (depth parent q offset cls : Nat) :
    placedLevel depth parent q offset cls [] = [] := by
  rw [placedLevel]

/-- Unfolding of `placedLevel` on a non-empty list. -/
theorem placedLevel_cons (depth parent q offset cls : Nat) (v : List Nat) (cs : List TrieNode)
    (id : Nat) (ts : List TrieNode) :
    placedLevel depth parent q offset cls (.mk v cs id :: ts) =
      placedNode depth parent q offset cls (.mk v cs id) ++
        placedLevel depth parent q (offset + (1 + 4 + v.length + 1))
          (cls + (levelSize cs + subSize cs)) ts := by
  rw [placedLevel]
  rfl

/-- Where the nodes of a subtree stand. A node of the subtree of `n` is `n`
itself, a child of `n` in the level of the children, or a deeper node that
stands, as its parent does, in the block of the children and their
descendants. A node of the subtrees of siblings is one of the siblings, a
child of one of them, or a deeper node. -/
theorem placed_ranges_aux :
    (∀ n : TrieNode, ∀ d par q o c, ∀ e ∈ placedNode d par q o c n,
      (e.parent = par ∧ e.depth = d ∧ e.pos = q + o) ∨
      (e.parent = q + o ∧ e.depth = d + 1 ∧ q + c ≤ e.pos ∧
        e.pos < q + c + levelSize n.children) ∨
      (q + c ≤ e.parent ∧ e.parent < q + c + (levelSize n.children + subSize n.children) ∧
        q + c + levelSize n.children ≤ e.pos ∧
        e.pos < q + c + (levelSize n.children + subSize n.children))) ∧
    (∀ ts : List TrieNode, ∀ d par q o c, o + levelSize ts ≤ c →
      ∀ e ∈ placedLevel d par q o c ts,
      (e.parent = par ∧ e.depth = d ∧ q + o ≤ e.pos ∧ e.pos < q + o + levelSize ts) ∨
      (q + o ≤ e.parent ∧ e.parent < q + o + levelSize ts ∧ e.depth = d + 1 ∧
        q + c ≤ e.pos ∧ e.pos < q + c + subSize ts) ∨
      (q + c ≤ e.parent ∧ e.parent < q + c + subSize ts ∧
        q + c ≤ e.pos ∧ e.pos < q + c + subSize ts)) := by
  apply trie_induction
  · intro v cs id ih d par q o c e he
    simp only [TrieNode.children_mk]
    rw [placedNode_mk] at he
    rcases List.mem_cons.1 he with e0 | he
    · left
      rw [e0]
      exact ⟨rfl, rfl, rfl⟩
    · rcases ih (d + 1) (q + o) (q + c) 0 (levelSize cs) (by omega) e he with h | h | h
      · right; left; omega
      · right; right; omega
      · right; right; omega
  · intro d par q o c _ e he
    rw [placedLevel_nil] at he
    cases he
  · intro n ts ihn ihts d par q o c hc e he
    cases n with
    | mk v cs id =>
    simp only [TrieNode.children_mk] at ihn
    rw [levelSize_cons] at hc ⊢
    rw [subSize_cons]
    rw [placedLevel_cons] at he
    rcases List.mem_append.1 he with he | he
    · rcases ihn d par q o c e he with h | h | h
      · left; omega
      · right; left; omega
      · right; right; omega
    · rcases ihts d par q (o + (1 + 4 + v.length + 1)) (c + (levelSize cs + subSize cs))
        (by omega) e he with h | h | h
      · left; omega
      · right; left; omega
      · right; right; omega

/-- The order of the nodes in the array: a node stands before every child of
each of its siblings (itself included), and such a child is one level deeper. -/
theorem placed_order_aux :
    (∀ n : TrieNode, ∀ d par q o c, par < q + o →
      o + (1 + 4 + n.value.length + 1) ≤ c →
      ∀ x ∈ placedNode d par q o c n, ∀ s ∈ placedNode d par q o c n,
      ∀ y ∈ placedNode d par q o c n, s.parent = x.parent → y.parent = s.pos →
        x.pos < y.pos ∧ y.depth = x.depth + 1) ∧
    (∀ ts : List TrieNode, ∀ d par q o c, par < q + o → o + levelSize ts ≤ c →
      ∀ x ∈ placedLevel d par q o c ts, ∀ s ∈ placedLevel d par q o c ts,
      ∀ y ∈ placedLevel d par q o c ts, s.parent = x.parent → y.parent = s.pos →
        x.pos < y.pos ∧ y.depth = x.depth + 1) := by
  apply trie_induction
  · intro v cs id ih d par q o c hpar hc x hx s hs y hy hsx hys
    have hval : (TrieNode.mk v cs id).value = v := rfl
    rw [hval] at hc
    have kx := placed_ranges_aux.1 (.mk v cs id) d par q o c x hx
    have ks := placed_ranges_aux.1 (.mk v cs id) d par q o c s hs
    have ky := placed_ranges_aux.1 (.mk v cs id) d par q o c y hy
    simp only [TrieNode.children_mk] at kx ks ky
    rw [placedNode_mk] at hx hs hy
    rcases List.mem_cons.1 hx with ex | hx
    · rw [ex] at hsx kx ⊢
      simp only at hsx kx ⊢
      omega
    · rcases List.mem_cons.1 hs with es | hs
      · rw [es] at hsx hys ks
        simp only at hsx hys ks
        have kx2 := placed_ranges_aux.2 cs (d + 1) (q + o) (q + c) 0 (levelSize cs)
          (by omega) x hx
        omega
      · rcases List.mem_cons.1 hy with ey | hy
        · rw [ey] at hys ky
          simp only at hys ky
          have ks2 := placed_ranges_aux.2 cs (d + 1) (q + o) (q + c) 0 (levelSize cs)
            (by omega) s hs
          omega
        · exact ih (d + 1) (q + o) (q + c) 0 (levelSize cs) (by omega) (by omega)
            x hx s hs y hy hsx hys
  · intro d par q o c _ _ x hx
    rw [placedLevel_nil] at hx
    cases hx
  · intro n ts ihn ihts d par q o c hpar hc x hx s hs y hy hsx hys
    cases n with
    | mk v cs id =>
    have hval : (TrieNode.mk v cs id).value = v := rfl
    rw [hval] at ihn
    rw [levelSize_cons] at hc
    rw [placedLevel_cons] at hx hs hy
    have hn := fun e he => placed_ranges_aux.1 (.mk v cs id) d par q o c e he
    have ht := fun e he => placed_ranges_aux.2 ts d par q (o + (1 + 4 + v.length + 1))
      (c + (levelSize cs + subSize cs)) (by omega) e he
    simp only [TrieNode.children_mk] at hn
    rcases List.mem_append.1 hx with hx | hx
    · have kx := hn x hx
      rcases List.mem_append.1 hs with hs | hs
      · have ks := hn s hs
        rcases List.mem_append.1 hy with hy | hy
        · exact ihn d par q o c hpar (by omega) x hx s hs y hy hsx hys
        · have ky := ht y hy
          omega
      · have ks := ht s hs
        rcases List.mem_append.1 hy with hy | hy
        · have ky := hn y hy
          omega
        · have ky := ht y hy
          omega
    · have kx := ht x hx
      rcases List.mem_append.1 hs with hs | hs
      · have ks := hn s hs
        rcases List.mem_append.1 hy with hy | hy
        · have ky := hn y hy
          omega
        · have ky := ht y hy
          omega
      · have ks := ht s hs
        rcases List.mem_append.1 hy with hy | hy
        · have ky := hn y hy
          omega
        · exact ihts d par q (o + (1 + 4 + v.length + 1)) (c + (levelSize cs + subSize cs))
            (by omega) (by omega) x hx s hs y hy hsx hys

/-- In an array that holds the layout of a well-formed tree, every node stands
with its label at the position `placedLevel` gives. -/
theorem placed_labels_aux :
    (∀ n : TrieNode, ∀ buf d par q o c rest, Lay buf q o c (n :: rest) → NodeOK n →
      ∀ e ∈ placedNode d par q o c n, getValue buf e.pos = e.label) ∧
    (∀ ts : List TrieNode, ∀ buf d par q o c, Lay buf q o c ts → ChildrenOK ts →
      ∀ e ∈ placedLevel d par q o c ts, getValue buf e.pos = e.label) := by
  apply trie_induction
  · intro v cs id ih buf d par q o c rest hlay hok e he
    rw [lay_cons] at hlay
    rw [nodeOK_mk] at hok
    obtain ⟨-, hlabel, -, -, -, -, hchildren, -⟩ := hlay
    rw [placedNode_mk] at he
    rcases List.mem_cons.1 he with e0 | he
    · rw [e0]
      exact getValue_labelAt buf (q + o) v hok.1 hlabel
    · by_cases hc : cs.length = 0
      · rw [List.length_eq_zero.1 hc, placedLevel_nil] at he
        cases he
      · exact ih buf (d + 1) (q + o) (q + c) 0 (levelSize cs) (hchildren hc).2 hok.2.2 e he
  · intro buf d par q o c _ _ e he
    rw [placedLevel_nil] at he
    cases he
  · intro n ts ihn ihts buf d par q o c hlay hok e he
    cases n with
    | mk v cs id =>
    rw [childrenOK_cons] at hok
    rw [placedLevel_cons] at he
    rcases List.mem_append.1 he with he | he
    · exact ihn buf d par q o c ts hlay hok.1 e he
    · rw [lay_cons] at hlay
      exact ihts buf d par q _ _ hlay.2.2.2.2.2.2.2 hok.2.2 e he

/-- C34 (amended): for every trie built from a list of at most 16 million words
with pure-Hangul keys of at most 83 characters, at least one of them not
empty, and 32-bit ids, and frozen: every node stands in the array, with its
label, at the position `placed` gives, and every node stands at a lower offset
than every child of each of its siblings and of itself, which are the nodes
one level deeper below the same parent's children. -/
theorem siblings_before_their_children (ws : List (String × Nat))
    (hex : ∃ p ∈ ws, p.1.length ≠ 0)
    (hpure : ∀ p ∈ ws, p.1.isPureHangul = true) (hlen : ∀ p ∈ ws, p.1.length ≤ 83)
    (hid : ∀ p ∈ ws, p.2 < 2 ^ 32) (hcount : ws.length ≤ 16000000) :
    ∃ t buf, TrieImpl.new.addWords ws = .ok t ∧ t.freeze._serializedNodeArray = some buf ∧
      (∀ e ∈ placed t._rootChildren, getValue buf e.pos = e.label) ∧
      (∀ x ∈ placed t._rootChildren, ∀ s ∈ placed t._rootChildren,
        ∀ y ∈ placed t._rootChildren, s.parent = x.parent → y.parent = s.pos →
          x.pos < y.pos ∧ y.depth = x.depth + 1) := by
  obtain ⟨t, buf, hadd, -, hbuf, hroot, -, -, -, -, hlay⟩ :=
    frozen_layout ws hex hpure hlen hid hcount
  refine ⟨t, buf, hadd, hbuf, ?_, ?_⟩
  · intro e he
    exact placed_labels_aux.2 _ buf 1 0 1 0 _ hlay hroot.1 e he
  · intro x hx s hs y hy hsx hys
    exact placed_order_aux.2 _ 1 0 1 0 _ (by omega) (by omega) x hx s hs y hy hsx hys

/-- C34 (amended) at the words 가가가, 가가나, 가나, 나가, 나나. -/
theorem siblings_before_their_children_witness :
    ∃ t buf, TrieImpl.new.addWords
        [(⟨[0xAC00, 0xAC00, 0xAC00]⟩, 0), (⟨[0xAC00, 0xAC00, 0xB098]⟩, 1),
          (⟨[0xAC00, 0xB098]⟩, 2), (⟨[0xB098, 0xAC00]⟩, 3), (⟨[0xB098, 0xB098]⟩, 4)] = .ok t ∧
      t.freeze._serializedNodeArray = some buf ∧
      (∀ e ∈ placed t._rootChildren, getValue buf e.pos = e.label) ∧
      (∀ x ∈ placed t._rootChildren, ∀ s ∈ placed t._rootChildren,
        ∀ y ∈ placed t._rootChildren, s.parent = x.parent → y.parent = s.pos →
          x.pos < y.pos ∧ y.depth = x.depth + 1) :=
  siblings_before_their_children
    [(⟨[0xAC00, 0xAC00, 0xAC00]⟩, 0), (⟨[0xAC00, 0xAC00, 0xB098]⟩, 1),
      (⟨[0xAC00, 0xB098]⟩, 2), (⟨[0xB098, 0xAC00]⟩, 3), (⟨[0xB098, 0xB098]⟩, 4)]
    (by decide) (by decide) (by decide) (by decide) (by decide)

/-- Counterexample to C34 as stated: in the trie of the words 가가가, 가가나,
가나, 나가, 나나 the children of the root 가 and 나 stand at the positions 1 and
10, the children of 가 at 19 and 28, the children of 가가 (depth 3) at 37 and
46, and the children of 나 (depth 2) only behind them at 55 and 64. Read from
the frozen array: the second child of the root stands at 10 and its first
child, at depth 2, at 55; the second child of the first child of the root
stands at 28 and its first child, at depth 3, at 37. -/
theorem depth_three_before_depth_two :
    (TrieImpl.new.addWords
        [(⟨[0xAC00, 0xAC00, 0xAC00]⟩, 0), (⟨[0xAC00, 0xAC00, 0xB098]⟩, 1),
          (⟨[0xAC00, 0xB098]⟩, 2), (⟨[0xB098, 0xAC00]⟩, 3), (⟨[0xB098, 0xB098]⟩, 4)]).map
      (fun t => ((placed t._rootChildren).map fun e => (e.depth, e.pos),
        t.freeze._serializedNodeArray.map fun buf =>
          [1 + getLenght buf 1,
            1 + getLenght buf 1 + getChildrenOffsetOfNode buf (1 + getLenght buf 1),
            1 + getChildrenOffsetOfNode buf 1 +
              getLenght buf (1 + getChildrenOffsetOfNode buf 1),
            1 + getChildrenOffsetOfNode buf 1 +
              getLenght buf (1 + getChildrenOffsetOfNode buf 1) +
              getChildrenOffsetOfNode buf (1 + getChildrenOffsetOfNode buf 1 +
                getLenght buf (1 + getChildrenOffsetOfNode buf 1))])) =
      .ok ([(1, 1), (2, 19), (2, 28), (3, 37), (3, 46), (1, 10), (2, 55), (2, 64)],
        some [10, 55, 28, 37]) ∧
    ¬ (55 < 37) := by
  refine ⟨by decide!, by decide⟩


end NSL

